import Mathlib

/-!
# Geriatrix: the distribution-maintaining aging engine

A shallow embedding of `src/src/file.h`, `age_list.h`, `dir_bucket.h`, `size_bucket.h`,
`age_bucket.h` and of the engine in `geriatrix.cpp`, followed by theorems about it.

Modelling conventions.

* `File *` is an address (`Addr`) into an explicit heap; `NULL` is `none`.  Dereferencing a null
  pointer, an `end()` or a `rend()` iterator is `Fault.undefinedBehaviour`.
* A `double` is a rational.  The fractions `count / live` and `weight / total` and the gaps
  printed in the keys are kept exact; the age ratios, the cutoffs of `reAge` and the horizon of
  `calculateT`, which the code truncates to integers, are rounded to binary64 by `fl` after
  every operation.  A division by zero (IEEE infinity or NaN) has no rational value: the
  operation that performs it ends in `Fault.nonFinite`, and the run ends there.  This is the
  case of the delete that removes the last live file (every fraction is recomputed as `0 / 0`):
  the program itself goes on with `nan` keys, so a state is reachable here only as long as no
  delete has emptied the file system.
* `unordered_map` is a finite map given as a function into `Option`; the maps that the C++ code
  shares through a pointer (`AgeBucket::sb`, `SizeBucket::db`) are held by value, each modified
  copy being stored back by the code before the map is read again.
* `flat_map<std::string, _, BucketCompare>` is the list of its entries in iteration order.
* A key string `"<id> <diff>"` is the pair that `BucketCompare` parses from it (`Key`).
* `uint64_t` counters that grow by one per operation are natural numbers (no run performs
  `2 ^ 64` operations); decrements wrap, and sums of file sizes are taken modulo `2 ^ 64`.
-/

namespace Geriatrix

/-! ## Faults, machine arithmetic, doubles -/

/-- Ways in which an operation of the engine does not return a state. -/
inductive Fault where
  | cannotDelete
  | assertion
  | undefinedBehaviour
  | nonFinite
deriving DecidableEq, Repr

/-- Result of an operation that may end in a fault. -/
abbrev Res (α : Type) := Except Fault α

/-- Unsigned 64-bit addition. -/
def add64 (a b : Nat) : Nat := (a + b) % 2 ^ 64

/-- Unsigned 64-bit subtraction. -/
def sub64 (a b : Nat) : Nat := (a + (2 ^ 64 - b % 2 ^ 64)) % 2 ^ 64

/-- Unsigned 64-bit decrement (`x--`). -/
def dec64 (a : Nat) : Nat := if a = 0 then 2 ^ 64 - 1 else a - 1

/-- Conversion of a signed 64-bit value to `uint64_t` (usual arithmetic conversions). -/
def i64ToU64 (t : Int) : Nat := (t % 2 ^ 64).toNat

/-- Conversion of a double to `uint64_t`: truncation toward zero. -/
def toU64 (x : ℚ) : Nat := (Int.floor x).toNat

/-- Conversion of a double to `int64_t`: truncation toward zero. -/
def toI64 (x : ℚ) : Int := if 0 ≤ x then Int.floor x else Int.ceil x

/-- Quotient `(double) a / b` of two counters. -/
def fdiv (a b : Nat) : Res ℚ :=
  if b = 0 then throw Fault.nonFinite else pure ((a : ℚ) / (b : ℚ))

/-- Quotient of two doubles. -/
def qdiv (a b : ℚ) : Res ℚ :=
  if b = 0 then throw Fault.nonFinite else pure (a / b)

/-- Value read back by `std::stod` from `std::to_string (x)`: `x` rounded to six decimals
(`"%f"`, ties to even). -/
def to_string_f (x : ℚ) : ℚ :=
  let y := x * 1000000
  let n := Int.floor y
  let r := y - n
  (if r < 1 / 2 then (n : ℚ)
   else if 1 / 2 < r then (n : ℚ) + 1
   else if n % 2 = 0 then (n : ℚ) else (n : ℚ) + 1) / 1000000

/-! ## Library code: the `mt19937` draw and binary64 rounding -/

/-- State word `i` of `boost::random::mt19937` after `seed (s)`. -/
def mtInit (s : Nat) : Nat → Nat
  | 0 => s % 2 ^ 32
  | i + 1 =>
    let p := mtInit s i
    (1812433253 * (p ^^^ (p >>> 30)) + (i + 1)) % 2 ^ 32

/-- Output number `k` (for `k < 227`, within the first twist) of `mt19937` seeded with `s`. -/
def mtOut (s k : Nat) : Nat :=
  let y := (mtInit s k &&& 2147483648) ||| (mtInit s (k + 1) &&& 2147483647)
  let x := mtInit s (k + 397) ^^^ (y >>> 1) ^^^ (if y % 2 = 1 then 2567483615 else 0)
  let x1 := x ^^^ (x >>> 11)
  let x2 := x1 ^^^ ((x1 <<< 7) &&& 2636928640)
  let x3 := x2 ^^^ ((x2 <<< 15) &&& 4022730752)
  x3 ^^^ (x3 >>> 18)

/-- The rejection loop of `boost::random::detail::generate_uniform_int` for a range below the
range of the engine: output `k`, `k + 1`, ... divided by the bucket size until the quotient is
within the range. -/
def uniformLoop (s range bucket : Nat) : Nat → Nat → Nat
  | 0, _ => 0
  | fuel + 1, k =>
    if mtOut s k / bucket ≤ range then mtOut s k / bucket else uniformLoop s range bucket fuel (k + 1)

/-- The value drawn by `uniform_int_distribution<uint64_t>{1, n}` from a fresh `mt19937`
seeded with `n`, as `DirBucket::getFileToDelete` does with `n = count` (for `0 < n < 2 ^ 32`;
a value is rejected with probability below `n / 2 ^ 32`, eight rejections are followed). -/
def libDraw (n : Nat) : Nat :=
  if n ≤ 1 then 1
  else
    let bucket := if 4294967295 % n = n - 1 then 4294967295 / n + 1 else 4294967295 / n
    uniformLoop n (n - 1) bucket 8 0 + 1

/-- Round to the nearest integer, ties to even. -/
def roundEven (y : ℚ) : Int :=
  let n := Int.floor y
  let r := y - n
  if r < 1 / 2 then n
  else if 1 / 2 < r then n + 1
  else if n % 2 = 0 then n else n + 1

/-- Binary logarithm by halving: `log2Fuel n n` is the `k` with `2 ^ k ≤ n < 2 ^ (k + 1)`. -/
def log2Fuel : Nat → Nat → Nat
  | 0, _ => 0
  | f + 1, n => if 2 ≤ n then log2Fuel f (n / 2) + 1 else 0

/-- Binary exponent of a non-zero rational: the `e` with `2 ^ e ≤ |x| < 2 ^ (e + 1)`. -/
def expo (x : ℚ) : Int :=
  let n := x.num.natAbs
  let d := x.den
  let e0 : Int := (log2Fuel n n : Int) - (log2Fuel d d : Int)
  if d * 2 ^ e0.toNat ≤ n * 2 ^ (-e0).toNat then e0 else e0 - 1

/-- Multiplication by `2 ^ p`. -/
def scale2 (x : ℚ) (p : Int) : ℚ :=
  if 0 ≤ p then x * ((2 ^ p.toNat : Nat) : ℚ) else x / ((2 ^ (-p).toNat : Nat) : ℚ)

/-- Rounding of a real result to binary64 (round to nearest, ties to even; 53 significant bits,
subnormal numbers below `2 ^ (-1022)`).  Overflow to infinity is not represented: the value is
meant for results below `2 ^ 1024`. -/
def fl (x : ℚ) : ℚ :=
  if x = 0 then 0
  else
    let p := min (52 - expo x) 1074
    scale2 (roundEven (scale2 x p)) (-p)

/-- Conversion of a `uint64_t` to double. -/
def ofU64 (n : Nat) : ℚ := fl (n : ℚ)

/-- Product of two doubles. -/
def dmul (a b : ℚ) : ℚ := fl (a * b)

/-- Sum of two doubles. -/
def dadd (a b : ℚ) : ℚ := fl (a + b)

/-- Difference of two doubles. -/
def dsub (a b : ℚ) : ℚ := fl (a - b)

/-- Quotient of two doubles, rounded to binary64. -/
def ddiv (a b : ℚ) : Res ℚ :=
  if b = 0 then throw Fault.nonFinite else pure (fl (a / b))

/-- The assignment `ab[i].cutoff = ab[i].ratio * clock` of `reAge`: the clock is converted to
double, and the product, rounded to binary64, is truncated to `uint64_t`. -/
def cutoffAt (ratio : ℚ) (clock : Nat) : Nat := toU64 (dmul ratio (ofU64 clock))

/-! ## Keys and `BucketCompare` -/

/-- Parsed content of a key string `"<id> <diff>"`: first token through `std::stol`, second
through `std::stod`.  The empty string parses to `(-1, 0)`. -/
structure Key where
  id : Int
  diff : ℚ
deriving DecidableEq

/-- Key that `unordered_map<int, std::string>::operator[]` yields for an absent id (`""`). -/
def Key.empty : Key := ⟨-1, 0⟩

/-- The comparator `BucketCompare::operator()`. -/
def BucketCompare (lhs rhs : Key) : Bool :=
  if lhs.diff < rhs.diff then true
  else if lhs.diff = rhs.diff ∧ lhs.id < rhs.id then true
  else if lhs.diff = rhs.diff ∧ lhs.id > rhs.id then false
  else false

/-- The order of two keys as `BucketCompare` reads them: by the difference printed in the key,
then by the id written in the key. -/
def Key.before (k k1 : Key) : Prop :=
  k.diff < k1.diff ∨ (k.diff = k1.diff ∧ k.id < k1.id)

instance (k k1 : Key) : Decidable (k.before k1) := by
  unfold Key.before
  infer_instance

/-- The key `k` carries the id `i` and, as its difference, the gap `g` up to the precision of
the print: `std::to_string` writes the double with six decimals. -/
def Key.prints (k : Key) (i : Int) (g : ℚ) : Prop :=
  k.id = i ∧ -(1 / 1000000) < k.diff - g ∧ k.diff - g < 1 / 1000000

instance (k : Key) (i : Int) (g : ℚ) : Decidable (k.prints i g) := by
  unfold Key.prints
  infer_instance

/-- `m[id] = k` on `unordered_map<int, std::string>`. -/
def setKey (m : Nat → Key) (id : Nat) (k : Key) : Nat → Key :=
  fun i => if i = id then k else m i

/-! ## `flat_map` with `BucketCompare` -/

/-- `flat_map::insert`: the entry is placed before the first key that is greater; when an
equivalent key is met the insertion is refused. -/
def fmInsert {β : Type} (k : Key) (v : β) : List (Key × β) → List (Key × β)
  | [] => [(k, v)]
  | e :: es =>
    if BucketCompare e.1 k then e :: fmInsert k v es
    else if BucketCompare k e.1 then (k, v) :: e :: es
    else e :: es

/-- `flat_map::erase (key)`. -/
def fmErase {β : Type} (k : Key) : List (Key × β) → List (Key × β)
  | [] => []
  | e :: es =>
    if BucketCompare e.1 k then e :: fmErase k es
    else if BucketCompare k e.1 then e :: es
    else es

/-- `flat_map::find (key)`; `none` is `end()`. -/
def fmFind {β : Type} (k : Key) : List (Key × β) → Option β
  | [] => none
  | e :: es =>
    if BucketCompare e.1 k then fmFind k es
    else if BucketCompare k e.1 then none
    else some e.2

/-! ## `unordered_map` -/

/-- `m.erase (k)`. -/
def umErase {κ β : Type} [DecidableEq κ] (m : κ → Option β) (k : κ) : κ → Option β :=
  fun x => if x = k then none else m x

/-- `m.insert ({k, v})`: no effect when `k` is present. -/
def umInsert {κ β : Type} [DecidableEq κ] (m : κ → Option β) (k : κ) (v : β) : κ → Option β :=
  fun x => if x = k then (match m k with | some w => some w | none => some v) else m x

/-- `m.find (k)->second`. -/
def umFind {κ β : Type} (m : κ → Option β) (k : κ) : Res β :=
  match m k with
  | some v => pure v
  | none => throw Fault.undefinedBehaviour

/-! ## Files and the heap -/

/-- Address of a `File` object. -/
abbrev Addr := Nat

/-- A `File *`. -/
abbrev Ptr := Option Addr

/-- The class `File`. -/
structure File where
  size : Nat
  path : String
  age : Nat
  depth : Int
  prev : Ptr
  next : Ptr
  size_next : Ptr
  size_prev : Ptr
  dir_next : Ptr
  dir_prev : Ptr
  blk_size : Nat
  blk_count : Nat
deriving DecidableEq, Repr

/-- `File::File (name, size, age, depth)`. -/
def File.new (name : String) (size age : Nat) (depth : Int) : File :=
  { size := size, path := name, age := age, depth := depth,
    prev := none, next := none, size_next := none, size_prev := none,
    dir_next := none, dir_prev := none,
    blk_size := if size = 0 then 4096 else if size ≥ 4096 then 4096
                else if size ≥ 1024 then 1024 else size,
    blk_count := if size = 0 then 0 else if size ≥ 4096 then size / 4096
                 else if size ≥ 1024 then size / 1024 else 1 }

/-- Memory holding the `File` objects. -/
abbrev Heap := Addr → File

/-- Store through a pointer: `a->field = ...`. -/
def Heap.upd (h : Heap) (a : Addr) (g : File → File) : Heap :=
  fun x => if x = a then g (h x) else h x

/-- Dereference of a `File *`. -/
def deref (p : Ptr) : Res Addr :=
  match p with
  | some a => pure a
  | none => throw Fault.undefinedBehaviour

/-- Request handed to the worker pool or issued to the backend. -/
inductive IoReq where
  | mkpath (path : String)
  | create (path : String) (len : Nat)
  | delete (path : String)
deriving DecidableEq, Repr

/-! ## `DirBucket` (dir_bucket.h) -/

/-- The struct `DirBucket`; the field `pfx` is the C++ member `prefix`, and `dir_arr` is the
input array held by the configuration. -/
structure DirBucket where
  count : Nat
  ideal_fraction : ℚ
  actual_fraction : ℚ
  id : Nat
  depth : Int
  start : Ptr
  pfx : String
  sibling_dirs : Nat

/-- The string `d1/d2/.../d(depth-1)` built by the constructor loop. -/
def dirsOf (depth : Int) : String :=
  String.intercalate "/" ((List.range (depth.toNat - 1)).map (fun i => "d" ++ toString (i + 1)))

/-- `DirBucket::DirBucket (depth, sibling_dirs, id, mount_point, fake, dir_arr, mkpath)`.
It reads and writes the static `global_live_depth` and issues `mkpath` requests; both are
threaded through. -/
def DirBucket.new (depth : Int) (sibling_dirs : Nat) (id : Nat) (mount_point : String)
    (fake : Bool) (gld : Int) (io : List IoReq) : DirBucket × Int × List IoReq :=
  let base : DirBucket :=
    { count := 0, ideal_fraction := 0, actual_fraction := 0, id := id, depth := depth,
      start := none, pfx := "", sibling_dirs := sibling_dirs }
  if depth > 0 then
    let dirs := dirsOf depth
    if sibling_dirs = 0 then
      if gld < depth then
        let full_file_path := mount_point ++ "/" ++ dirs ++ "/d" ++ toString depth
        ({ base with pfx := dirs ++ "/d" ++ toString depth }, depth,
          if fake then io else io ++ [IoReq.mkpath full_file_path])
      else ({ base with pfx := dirs }, depth, io)
    else
      let slash := if depth = 1 then "" else "/"
      let reqs := if gld < depth ∧ ¬ fake then
          (List.range sibling_dirs).map
            (fun j => IoReq.mkpath (mount_point ++ slash ++ dirs ++ "/d" ++ toString (j + 1)))
        else []
      ({ base with pfx := dirs }, depth, io ++ reqs)
  else (base, gld, io)

/-- `DirBucket::getKey`. -/
def DirBucket.getKey (dir_arr : List Int) (d : DirBucket) : Key :=
  ⟨dir_arr.getD d.id 0, to_string_f (d.actual_fraction - d.ideal_fraction)⟩

/-- `DirBucket::reKey`. -/
def DirBucket.reKey (dir_arr : List Int) (d : DirBucket) (live_file_count : Nat)
    (dir_bucket_keys : Nat → Key) : Res (DirBucket × (Nat → Key)) := do
  let actual ← fdiv d.count live_file_count
  let d1 := { d with actual_fraction := actual }
  pure (d1, setKey dir_bucket_keys d1.id (d1.getKey dir_arr))

/-- `DirBucket::addFile`. -/
def DirBucket.addFile (h : Heap) (d : DirBucket) (f : Addr) (live_file_count : Nat) :
    Res (Heap × DirBucket) := do
  let actual ← fdiv (d.count + 1) live_file_count
  let d1 := { d with count := d.count + 1, actual_fraction := actual }
  match d1.start with
  | none =>
    if d1.count ≠ 1 then throw Fault.assertion
    else
      let h1 := h.upd f (fun r => { r with dir_next := some f })
      let h2 := h1.upd f (fun r => { r with dir_prev := some f })
      pure (h2, { d1 with start := some f })
  | some st =>
    if ¬ (d1.count > 1) then throw Fault.assertion
    else
      let h1 := h.upd f (fun r => { r with dir_next := some st })
      let h2 := h1.upd f (fun r => { r with dir_prev := (h1 st).dir_prev })
      let p ← deref (h2 st).dir_prev
      let h3 := h2.upd p (fun r => { r with dir_next := some f })
      let h4 := h3.upd st (fun r => { r with dir_prev := some f })
      pure (h4, d1)

/-- `DirBucket::deleteFile`. -/
def DirBucket.deleteFile (h : Heap) (d : DirBucket) (f : Addr) (live_file_count : Nat) :
    Res (Heap × DirBucket) := do
  if ¬ (d.count > 0) then throw Fault.assertion
  else
    let actual ← fdiv (d.count - 1) live_file_count
    let d1 := { d with count := d.count - 1, actual_fraction := actual }
    let d2 := if d1.count = 0 then { d1 with start := none }
              else if d1.start = some f then { d1 with start := (h f).dir_next }
              else d1
    let p ← deref (h f).dir_prev
    let h1 := h.upd p (fun r => { r with dir_next := (h f).dir_next })
    let n ← deref (h1 f).dir_next
    let h2 := h1.upd n (fun r => { r with dir_prev := (h1 f).dir_prev })
    let h3 := h2.upd f (fun r => { r with dir_next := none, dir_prev := none })
    pure (h3, d2)

/-- The loop `for (i = 1; i < rand; i++) f = f->dir_next` run `n` times. -/
def walkDir (h : Heap) : Nat → Ptr → Res Ptr
  | 0, p => pure p
  | n + 1, p => do
    let a ← deref p
    walkDir h n (h a).dir_next

/-- `DirBucket::getFileToDelete`; `draw count` is the value of the Mersenne twister seeded
with `count` and mapped to `1 .. count`. -/
def DirBucket.getFileToDelete (draw : Nat → Nat) (h : Heap) (d : DirBucket) : Res Ptr :=
  if d.count = 0 then pure none
  else walkDir h (draw d.count - 1) d.start

/-! ## `SizeBucket` (size_bucket.h) -/

/-- The class `SizeBucket`; `size_arr` is the input array held by the configuration. -/
structure SizeBucket where
  count : Nat
  start : Ptr
  ideal_fraction : ℚ
  actual_fraction : ℚ
  size : Nat
  id : Nat
  db : Int → Option DirBucket

/-- `SizeBucket::SizeBucket (size, id, size_arr)` followed by `s.db = new unordered_map`. -/
def SizeBucket.new (size : Nat) (id : Nat) : SizeBucket :=
  { count := 0, start := none, ideal_fraction := 0, actual_fraction := 0, size := size,
    id := id, db := fun _ => none }

/-- `SizeBucket::getKey`. -/
def SizeBucket.getKey (size_arr : List Nat) (s : SizeBucket) : Key :=
  ⟨((size_arr.getD s.id 0 : Nat) : Int), to_string_f (s.ideal_fraction - s.actual_fraction)⟩

/-- `SizeBucket::reKey`. -/
def SizeBucket.reKey (size_arr : List Nat) (s : SizeBucket) (live_file_count : Nat)
    (size_bucket_keys : Nat → Key) : Res (SizeBucket × (Nat → Key)) := do
  let actual ← fdiv s.count live_file_count
  let s1 := { s with actual_fraction := actual }
  pure (s1, setKey size_bucket_keys s1.id (s1.getKey size_arr))

/-- `SizeBucket::addFile`. -/
def SizeBucket.addFile (h : Heap) (s : SizeBucket) (f : Addr) (live_file_count : Nat) :
    Res (Heap × SizeBucket) := do
  let d ← umFind s.db (h f).depth
  let db1 := umErase s.db (h f).depth
  let d1 := { d with count := d.count + 1 }
  let d2 := if d1.count = 1 then { d1 with start := some f } else d1
  let db2 := umInsert db1 (h f).depth d2
  let actual ← fdiv (s.count + 1) live_file_count
  let s1 := { s with count := s.count + 1, db := db2, actual_fraction := actual }
  match s1.start with
  | none =>
    if s1.count ≠ 1 then throw Fault.assertion
    else
      let h1 := h.upd f (fun r => { r with size_next := some f })
      let h2 := h1.upd f (fun r => { r with size_prev := some f })
      pure (h2, { s1 with start := some f })
  | some st =>
    let h1 := h.upd f (fun r => { r with size_next := some st })
    let h2 := h1.upd f (fun r => { r with size_prev := (h1 st).size_prev })
    let p ← deref (h2 st).size_prev
    let h3 := h2.upd p (fun r => { r with size_next := some f })
    let h4 := h3.upd st (fun r => { r with size_prev := some f })
    pure (h4, s1)

/-- `SizeBucket::deleteFile`. -/
def SizeBucket.deleteFile (h : Heap) (s : SizeBucket) (f : Addr) (live_file_count : Nat) :
    Res (Heap × SizeBucket) := do
  let actual ← fdiv (dec64 s.count) live_file_count
  let s1 := { s with count := dec64 s.count, actual_fraction := actual }
  let d ← umFind s1.db (h f).depth
  let db1 := umErase s1.db (h f).depth
  let d1 := { d with count := dec64 d.count }
  let d2 := if d1.count = 0 then { d1 with start := none }
            else if d1.start = some f then { d1 with start := (h f).dir_next }
            else d1
  let s2 := { s1 with db := umInsert db1 (h f).depth d2 }
  let s3 := if s2.count = 0 then { s2 with start := none }
            else if s2.start = some f then { s2 with start := (h f).size_next }
            else s2
  let p ← deref (h f).size_prev
  let h1 := h.upd p (fun r => { r with size_next := (h f).size_next })
  let n ← deref (h1 f).size_next
  let h2 := h1.upd n (fun r => { r with size_prev := (h1 f).size_prev })
  let h3 := h2.upd f (fun r => { r with size_next := none, size_prev := none })
  pure (h3, s3)

/-- `SizeBucket::getFileToDelete`. -/
def SizeBucket.getFileToDelete (draw : Nat → Nat) (h : Heap) (s : SizeBucket) (depth : Int) :
    Res Ptr := do
  let d ← umFind s.db depth
  d.getFileToDelete draw h

/-! ## `AgeBucket` (age_bucket.h) -/

/-- The class `AgeBucket`. -/
structure AgeBucket where
  f : Ptr
  sb : Nat → Option SizeBucket
  count : Nat
  cutoff : Nat
  ideal_fraction : ℚ
  actual_fraction : ℚ
  youngest_bucket : Bool
  id : Nat
  ratio : ℚ
  last : Ptr

/-- `AgeBucket::AgeBucket (id)` followed by `b.sb = new unordered_map`. -/
def AgeBucket.new (id : Nat) : AgeBucket :=
  { f := none, sb := fun _ => none, count := 0, cutoff := 0, ideal_fraction := 0,
    actual_fraction := 0, youngest_bucket := false, id := id, ratio := 0, last := none }

/-- `AgeBucket::getKey`. -/
def AgeBucket.getKey (a : AgeBucket) : Key :=
  ⟨(a.id : Int), to_string_f (a.actual_fraction - a.ideal_fraction)⟩

/-- `AgeBucket::replace`: returns the old key and records the new one. -/
def AgeBucket.replace (a : AgeBucket) (age_bucket_keys : Nat → Key) : Key × (Nat → Key) :=
  (age_bucket_keys a.id, setKey age_bucket_keys a.id a.getKey)

/-- `AgeBucket::addFile`. -/
def AgeBucket.addFile (h : Heap) (a : AgeBucket) (f : Addr) (live_file_count : Nat)
    (at_front : Bool) : Res (Heap × AgeBucket) := do
  let s ← umFind a.sb (h f).size
  let sb1 := umErase a.sb (h f).size
  let d ← umFind s.db (h f).depth
  let db1 := umErase s.db (h f).depth
  let (h1, d1) ← d.addFile h f live_file_count
  let s1 := { s with db := umInsert db1 (h f).depth d1 }
  let s2 := { s1 with count := s1.count + 1 }
  if s2.count = 1 ∧ s2.start ≠ none then throw Fault.assertion
  else
    let s3 := if s2.count = 1 then { s2 with start := some f } else s2
    let sb2 := umInsert sb1 (h1 f).size s3
    let actual ← fdiv (a.count + 1) live_file_count
    let a1 := { a with count := a.count + 1, sb := sb2, actual_fraction := actual }
    if a1.f = none ∧ a1.last ≠ none then throw Fault.assertion
    else
      let a2 := if a1.f = none then { a1 with f := some f, last := some f } else a1
      pure (h1, if at_front then { a2 with f := some f } else { a2 with last := some f })

/-- `AgeBucket::deleteFile`. -/
def AgeBucket.deleteFile (h : Heap) (a : AgeBucket) (f : Addr) (live_file_count : Nat) :
    Res (Heap × AgeBucket) := do
  let actual ← fdiv (dec64 a.count) live_file_count
  let a1 := { a with count := dec64 a.count, actual_fraction := actual }
  let s ← umFind a1.sb (h f).size
  let sb1 := umErase a1.sb (h f).size
  let d ← umFind s.db (h f).depth
  let db1 := umErase s.db (h f).depth
  let (h1, d1) ← d.deleteFile h f live_file_count
  let s1 := { s with db := umInsert db1 (h1 f).depth d1 }
  let s2 := { s1 with count := dec64 s1.count }
  let s3 := if s2.count = 0 then { s2 with start := none }
            else if s2.start = some f then { s2 with start := (h1 f).size_next }
            else s2
  let a2 := { a1 with sb := umInsert sb1 (h1 f).size s3 }
  let a3 := if a2.count = 0 then { a2 with f := none, last := none }
            else if a2.f = some f then { a2 with f := (h1 f).next }
            else a2
  let a4 := if a3.last = some f ∧ a3.count > 0 then { a3 with last := (h1 f).prev } else a3
  pure (h1, a4)

/-- `AgeBucket::getFileToDelete`. -/
def AgeBucket.getFileToDelete (draw : Nat → Nat) (h : Heap) (a : AgeBucket) (size : Nat)
    (dir : Int) : Res Ptr := do
  let s ← umFind a.sb size
  s.getFileToDelete draw h dir

/-! ## `AgeList` (age_list.h) -/

/-- `AgeList::addFile`; `fs` is the sentinel. -/
def AgeList.addFile (h : Heap) (fs : Addr) (f : Addr) : Res Heap := do
  let h1 := h.upd f (fun r => { r with next := some fs })
  let h2 := h1.upd f (fun r => { r with prev := (h1 fs).prev })
  let p ← deref (h2 fs).prev
  let h3 := h2.upd p (fun r => { r with next := some f })
  pure (h3.upd fs (fun r => { r with prev := some f }))

/-- `AgeList::deleteFile`. -/
def AgeList.deleteFile (h : Heap) (fs : Addr) (f : Addr) : Res Heap := do
  let h1 := if (h fs).next = some f then h.upd fs (fun r => { r with next := (h f).next })
            else if (h fs).prev = some f then h.upd fs (fun r => { r with prev := (h f).prev })
            else h
  let p ← deref (h1 f).prev
  let h2 := h1.upd p (fun r => { r with next := (h1 f).next })
  let n ← deref (h2 f).next
  let h3 := h2.upd n (fun r => { r with prev := (h2 f).prev })
  pure (h3.upd f (fun r => { r with next := none, prev := none }))

/-! ## The engine (geriatrix.cpp) -/

/-- Inputs of a run: the three distribution files and the command line.  `victim_draw` is the
draw of `DirBucket::getFileToDelete` as a function of the seed `count` (library code: the
concrete configurations take `libDraw`). -/
structure Config where
  age_cutoffs : List ℚ
  age_distribution : List ℚ
  size_arr : List Nat
  size_distribution : List ℚ
  dir_arr : List Int
  dir_distribution : List ℚ
  subdir_arr : List Nat
  mount_point : String
  fake : Bool
  total_disk_capacity : Nat
  victim_draw : Nat → Nat

/-- `NUM_AGES`. -/
def Config.NUM_AGES (c : Config) : Nat := c.age_cutoffs.length

/-- `NUM_SIZES`. -/
def Config.NUM_SIZES (c : Config) : Nat := c.size_arr.length

/-- `NUM_DIRS`. -/
def Config.NUM_DIRS (c : Config) : Nat := c.dir_arr.length

/-- The global variables of the engine together with the heap of `File` objects. -/
structure State where
  heap : Heap
  next_addr : Addr
  fs : Addr
  age_buckets : List (Key × AgeBucket)
  size_buckets : List (Key × SizeBucket)
  dir_buckets : List (Key × DirBucket)
  a_keys : Nat → Key
  s_keys : Nat → Key
  d_keys : Nat → Key
  tick : Nat
  global_live_file_count : Nat
  total_age_weight : Nat
  total_size_weight : Nat
  total_dir_weight : Nat
  live_data_size : Nat
  workload_size : Nat
  K : Nat
  global_live_depth : Int
  io : List IoReq

/-- The loop `total += distribution[i]` on a `uint64_t` accumulator: every partial sum is
converted back to an integer. -/
def totalWeight (ws : List ℚ) : Nat :=
  ws.foldl (fun acc w => toU64 ((acc : ℚ) + w)) 0

/-- The inner loop of `init` that fills a `depth -> DirBucket` map. -/
def mkDirMap (c : Config) : Nat → (Int → Option DirBucket) × Int × List IoReq →
    (Int → Option DirBucket) × Int × List IoReq
  | 0, acc => acc
  | n + 1, acc =>
    let (m, gld, io) := mkDirMap c n acc
    let (d, gld1, io1) :=
      DirBucket.new (c.dir_arr.getD n 0) (c.subdir_arr.getD n 0) n c.mount_point c.fake gld io
    (umInsert m (c.dir_arr.getD n 0) d, gld1, io1)

/-- The loop of `init` that fills `size_buckets`. -/
def initSizes (c : Config) (total_size_weight : Nat) : Nat →
    Res (List (Key × SizeBucket) × (Nat → Key) × Int × List IoReq)
  | 0 => pure ([], fun _ => Key.empty, 0, [])
  | n + 1 => do
    let (view, keys, gld, io) ← initSizes c total_size_weight n
    let (m, gld1, io1) := mkDirMap c c.NUM_DIRS (fun _ => none, gld, io)
    let ideal ← qdiv (c.size_distribution.getD n 0) total_size_weight
    let s := { (SizeBucket.new (c.size_arr.getD n 0) n) with db := m, ideal_fraction := ideal }
    let keys1 := setKey keys n (s.getKey c.size_arr)
    pure (fmInsert (keys1 n) s view, keys1, gld1, io1)

/-- The inner loop of `init` that fills a `size -> SizeBucket` map of an age bucket. -/
def mkSizeMap (c : Config) : Nat → (Nat → Option SizeBucket) × Int × List IoReq →
    (Nat → Option SizeBucket) × Int × List IoReq
  | 0, acc => acc
  | n + 1, acc =>
    let (m, gld, io) := mkSizeMap c n acc
    let (dm, gld1, io1) := mkDirMap c c.NUM_DIRS (fun _ => none, gld, io)
    let s := { (SizeBucket.new (c.size_arr.getD n 0) n) with db := dm }
    (umInsert m (c.size_arr.getD n 0) s, gld1, io1)

/-- The loop of `init` that fills `age_buckets`. -/
def initAges (c : Config) (total_age_weight : Nat) (gld0 : Int) (io0 : List IoReq) : Nat →
    Res (List (Key × AgeBucket) × (Nat → Key) × Int × List IoReq)
  | 0 => pure ([], fun _ => Key.empty, gld0, io0)
  | n + 1 => do
    let (view, keys, gld, io) ← initAges c total_age_weight gld0 io0 n
    let (m, gld1, io1) := mkSizeMap c c.NUM_SIZES (fun _ => none, gld, io)
    let ideal ← qdiv (c.age_distribution.getD n 0) total_age_weight
    let q ← ddiv (c.age_cutoffs.getD n 0) (c.age_cutoffs.getD (c.NUM_AGES - 1) 0)
    let b0 := { (AgeBucket.new n) with sb := m, ideal_fraction := ideal }
    let b := { b0 with youngest_bucket := decide (n = 0), ratio := dsub 1 q }
    let keys1 := setKey keys n b.getKey
    pure (fmInsert (keys1 n) b view, keys1, gld1, io1)

/-- The loop of `init` that fills `dir_buckets`. -/
def initDirs (c : Config) (total_dir_weight : Nat) (gld0 : Int) (io0 : List IoReq) : Nat →
    Res (List (Key × DirBucket) × (Nat → Key) × Int × List IoReq)
  | 0 => pure ([], fun _ => Key.empty, gld0, io0)
  | n + 1 => do
    let (view, keys, gld, io) ← initDirs c total_dir_weight gld0 io0 n
    let (d, gld1, io1) :=
      DirBucket.new (c.dir_arr.getD n 0) (c.subdir_arr.getD n 0) n c.mount_point c.fake gld io
    let ideal ← qdiv (c.dir_distribution.getD n 0) total_dir_weight
    let d1 := { d with ideal_fraction := ideal }
    let keys1 := setKey keys n (d1.getKey c.dir_arr)
    pure (fmInsert (keys1 n) d1 view, keys1, gld1, io1)

/-- The sentinel `new File ("0", 0, 0, 0)` of `AgeList::AgeList`, linked to itself. -/
def sentinel (fs : Addr) : File :=
  { (File.new "0" 0 0 0) with prev := some fs, next := some fs }

/-- The function `init` (after `readDistribution`, whose result is the configuration). -/
def init (c : Config) : Res State := do
  let taw := totalWeight c.age_distribution
  let tsw := totalWeight c.size_distribution
  let tdw := totalWeight c.dir_distribution
  let (sv, sk, gld1, io1) ← initSizes c tsw c.NUM_SIZES
  let (av, ak, gld2, io2) ← initAges c taw gld1 io1 c.NUM_AGES
  let (dv, dk, gld3, io3) ← initDirs c tdw gld2 io2 c.NUM_DIRS
  pure { heap := fun _ => sentinel 0, next_addr := 1, fs := 0,
         age_buckets := av, size_buckets := sv, dir_buckets := dv,
         a_keys := ak, s_keys := sk, d_keys := dk,
         tick := 0, global_live_file_count := 0,
         total_age_weight := taw, total_size_weight := tsw, total_dir_weight := tdw,
         live_data_size := 0, workload_size := 0, K := 0,
         global_live_depth := gld3, io := io3 }

/-- Outcome of `createFile`: the state, the returned size and `*create_succeeded`. -/
structure CreateResult where
  state : State
  ret_size : Nat
  create_succeeded : Int

/-- The walk of `createFile` step 1 over `size_buckets` from `rbegin()`.  The loop condition
reads `it->second` before `it` is compared with `rend()`, so running off the view is a read
through `rend()`. -/
def pickSize (live_data_size total_disk_capacity : Nat) :
    List (Key × SizeBucket) → Res SizeBucket
  | [] => throw Fault.undefinedBehaviour
  | e :: es =>
    if add64 e.2.size live_data_size ≥ total_disk_capacity then
      pickSize live_data_size total_disk_capacity es
    else pure e.2

/-- The loop that re-keys every dir bucket of the old view into a new `flat_map`. -/
def rebuildDirs (c : Config) (live : Nat) :
    List (Key × DirBucket) → List (Key × DirBucket) → (Nat → Key) →
    Res (List (Key × DirBucket) × (Nat → Key))
  | [], acc, keys => pure (acc, keys)
  | e :: es, acc, keys => do
    let (d, keys1) ← e.2.reKey c.dir_arr live keys
    rebuildDirs c live es (fmInsert (keys1 d.id) d acc) keys1

/-- The loop that re-keys every size bucket of the old view into a new `flat_map`. -/
def rebuildSizes (c : Config) (live : Nat) :
    List (Key × SizeBucket) → List (Key × SizeBucket) → (Nat → Key) →
    Res (List (Key × SizeBucket) × (Nat → Key))
  | [], acc, keys => pure (acc, keys)
  | e :: es, acc, keys => do
    let (b, keys1) ← e.2.reKey c.size_arr live keys
    rebuildSizes c live es (fmInsert (keys1 b.id) b acc) keys1

/-- The block shared by step 5 of `createFile` and step 6 of `deleteFile`: the entry of `d` is
erased under its recorded key, `d` (whose count the caller has adjusted) is re-keyed and
inserted, and every dir bucket is then re-keyed into a new view. -/
def storeDir (c : Config) (live : Nat) (view : List (Key × DirBucket)) (keys : Nat → Key)
    (d : DirBucket) : Res (List (Key × DirBucket) × (Nat → Key)) := do
  let dv1 := fmErase (keys d.id) view
  let (d1, dk1) ← DirBucket.reKey c.dir_arr d live keys
  let dv2 := fmInsert (dk1 d1.id) d1 dv1
  rebuildDirs c live dv2 [] dk1

/-- The block shared by step 7 of `createFile` and step 8 of `deleteFile` once `addFile` or
`deleteFile` has been run on the chosen bucket `sb`, giving `sb1`: the entry of `sb` is erased
under its recorded key, `sb1` is inserted under its new key, and every size bucket is then
re-keyed into a new view. -/
def storeSize (c : Config) (live : Nat) (view : List (Key × SizeBucket)) (keys : Nat → Key)
    (sb sb1 : SizeBucket) : Res (List (Key × SizeBucket) × (Nat → Key)) := do
  let sv1 := fmErase (keys sb.id) view
  let sk1 := setKey keys sb1.id (sb1.getKey c.size_arr)
  let sv2 := fmInsert (sk1 sb1.id) sb1 sv1
  rebuildSizes c live sv2 [] sk1

/-- The block shared by step 8 of `createFile` and step 7 of `deleteFile` once `addFile` or
`deleteFile` has been run on the chosen bucket `ab`, giving `ab1`: the entry of `ab` is erased
under its recorded key and `ab1` is inserted under its new key. -/
def storeAge (view : List (Key × AgeBucket)) (keys : Nat → Key) (ab ab1 : AgeBucket) :
    List (Key × AgeBucket) × (Nat → Key) :=
  let av1 := fmErase (keys ab.id) view
  let ak1 := setKey keys ab1.id ab1.getKey
  (fmInsert (ak1 ab1.id) ab1 av1, ak1)

/-- `PATH_MAX` of `<limits.h>`. -/
def PATH_MAX : Nat := 4096

/-- The text that step 3 of `createFile` formats: `"<prefix>/<sibling_dir><tick>"`. -/
def fullName (d : DirBucket) (tick rand_subdir : Nat) : String :=
  d.pfx ++ "/" ++
    (if d.depth > 0 ∧ d.sibling_dirs > 0 then "d" ++ toString rand_subdir ++ "/" else "") ++
    toString tick

/-- Step 3 of `createFile`: `snprintf (name, PATH_MAX, ...)` writes the first `PATH_MAX - 1`
characters of the formatted text. -/
def fileName (d : DirBucket) (tick rand_subdir : Nat) : String :=
  String.mk ((fullName d tick rand_subdir).data.take (PATH_MAX - 1))

/-- The method `File::createFile`: the request handed to the worker pool unless `fake`. -/
def File.createFile (c : Config) (file : File) (io : List IoReq) : List IoReq :=
  if c.fake then io else
    io ++ [IoReq.create (c.mount_point ++ (if file.depth > 1 then "/" else "") ++ file.path)
      (file.blk_size * file.blk_count)]

/-- The method `File::deleteFile`: the request handed to the worker pool unless `fake`. -/
def File.deleteFile (c : Config) (file : File) (io : List IoReq) : List IoReq :=
  if c.fake then io else
    io ++ [IoReq.delete (c.mount_point ++ (if file.depth ≠ 0 then "/" else "") ++ file.path)]

/-- The function `createFile`; `rand_subdir` is the draw used for the sibling directory. -/
def createFile (c : Config) (s : State) (size_arr_position : Int) (rand_subdir : Nat) :
    Res CreateResult := do
  -- step 1
  let sb ← (if size_arr_position ≥ 0 then
      (match fmFind (s.s_keys size_arr_position.toNat) s.size_buckets with
       | some b => pure b
       | none => throw Fault.assertion)
    else pickSize s.live_data_size c.total_disk_capacity s.size_buckets.reverse)
  -- step 2
  let d ← (match s.dir_buckets with
    | [] => throw Fault.undefinedBehaviour
    | e :: _ => pure e.2)
  -- step 3
  let f := s.next_addr
  let file := File.new (fileName d s.tick rand_subdir) sb.size s.tick d.depth
  let h0 := s.heap.upd f (fun _ => file)
  let io1 := file.createFile c s.io
  let ret_size := file.size
  -- step 4
  let live := s.global_live_file_count + 1
  -- step 5
  let (dv3, dk2) ← storeDir c live s.dir_buckets s.d_keys { d with count := d.count + 1 }
  -- step 6
  let h1 ← AgeList.addFile h0 s.fs f
  -- step 7
  let (h2, sb1) ← sb.addFile h1 f live
  let (sv3, sk2) ← storeSize c live s.size_buckets s.s_keys sb sb1
  -- step 8
  let ab ← (match fmFind (s.a_keys 0) s.age_buckets with
    | some b => pure b
    | none => throw Fault.undefinedBehaviour)
  let (h3, ab1) ← ab.addFile h2 f live false
  let (av2, ak1) := storeAge s.age_buckets s.a_keys ab ab1
  pure { state := { s with heap := h3, next_addr := s.next_addr + 1, io := io1,
                           global_live_file_count := live,
                           dir_buckets := dv3, d_keys := dk2,
                           size_buckets := sv3, s_keys := sk2,
                           age_buckets := av2, a_keys := ak1 },
         ret_size := ret_size, create_succeeded := 0 }

/-- The innermost `do ... while` of the victim search (dir view from `rbegin()`). -/
def searchDirs (get : DirBucket → Res Ptr) :
    DirBucket → List (Key × DirBucket) → Res (DirBucket × Ptr)
  | db, [] => do
    let f ← get db
    pure (db, f)
  | db, e :: es => do
    let f ← get db
    match f with
    | none => searchDirs get e.2 es
    | some a => pure (db, some a)

/-- The middle `do ... while` of the victim search (size view from `begin()`). -/
def searchSizes (inner : SizeBucket → Res (DirBucket × Ptr)) :
    SizeBucket → List (Key × SizeBucket) → Res (SizeBucket × DirBucket × Ptr)
  | sb, [] => do
    let (db, f) ← inner sb
    pure (sb, db, f)
  | sb, e :: es => do
    let (db, f) ← inner sb
    match f with
    | none => searchSizes inner e.2 es
    | some a => pure (sb, db, some a)

/-- The outer `do ... while` of the victim search (age view from `rbegin()`). -/
def searchAges (inner : AgeBucket → Res (SizeBucket × DirBucket × Ptr)) :
    AgeBucket → List (Key × AgeBucket) → Res (AgeBucket × SizeBucket × DirBucket × Ptr)
  | ab, [] => do
    let (sb, db, f) ← inner ab
    pure (ab, sb, db, f)
  | ab, e :: es => do
    let (sb, db, f) ← inner ab
    match f with
    | none => searchAges inner e.2 es
    | some a => pure (ab, sb, db, some a)

/-- Entry of a `do ... while` over a view: the body runs on the first element before any test,
so an empty view is read through its end iterator. -/
def firstEntry {β : Type} (v : List (Key × β)) : Res (β × List (Key × β)) :=
  match v with
  | [] => throw Fault.undefinedBehaviour
  | e :: es => pure (e.2, es)

/-- Step 1 of `deleteFile`: the victim search. -/
def findVictim (c : Config) (s : State) : Res (AgeBucket × SizeBucket × DirBucket × Ptr) := do
  let (a0, as) ← firstEntry s.age_buckets.reverse
  searchAges (fun ab => do
    let (s0, ss) ← firstEntry s.size_buckets
    searchSizes (fun sb => do
      let (d0, ds) ← firstEntry s.dir_buckets.reverse
      searchDirs (fun db => ab.getFileToDelete c.victim_draw s.heap sb.size db.depth) d0 ds)
      s0 ss) a0 as

/-- The function `deleteFile`; returns the state and the size of the deleted file. -/
def deleteFile (c : Config) (s : State) : Res (State × Nat) := do
  -- steps 1 to 3
  let (ab, sb, db, fp) ← findVictim c s
  let f ← (match fp with
    | none => throw Fault.cannotDelete
    | some a => pure a)
  let ret_size := (s.heap f).size
  -- step 4
  let io1 := (s.heap f).deleteFile c s.io
  -- step 5
  let live := dec64 s.global_live_file_count
  -- step 6
  let (dv3, dk2) ← storeDir c live s.dir_buckets s.d_keys { db with count := dec64 db.count }
  -- step 7
  let (h1, ab1) ← ab.deleteFile s.heap f live
  let (av2, ak1) := storeAge s.age_buckets s.a_keys ab ab1
  -- step 8
  let (h2, sb1) ← sb.deleteFile h1 f live
  let (sv3, sk2) ← storeSize c live s.size_buckets s.s_keys sb sb1
  -- step 9
  let h3 ← AgeList.deleteFile h2 s.fs f
  pure ({ s with heap := h3, io := io1, global_live_file_count := live,
                 dir_buckets := dv3, d_keys := dk2,
                 age_buckets := av2, a_keys := ak1,
                 size_buckets := sv3, s_keys := sk2 }, ret_size)

/-- First loop of `reAge`: the array `ab[0 .. n-1]` with revised cutoffs. -/
def loadAges (s : State) (clock : Nat) : Nat → Res (List AgeBucket)
  | 0 => pure []
  | n + 1 => do
    let l ← loadAges s clock n
    match fmFind (s.a_keys n) s.age_buckets with
    | none => throw Fault.undefinedBehaviour
    | some b => pure (l ++ [{ b with cutoff := cutoffAt b.ratio clock }])

/-- The `while (ab[i].count > 0)` loop of `reAge` on `a = ab[i]`, `b = ab[i+1]`.  Each round
decrements `a.count`, so `a.count` rounds are all it can make; the first argument counts them. -/
def migrate (live : Nat) : Nat → Heap → AgeBucket → AgeBucket → Res (Heap × AgeBucket × AgeBucket)
  | 0, h, a, b => pure (h, a, b)
  | n + 1, h, a, b =>
    if a.count > 0 then do
      let f ← deref a.f
      if (h f).age ≥ a.cutoff then pure (h, a, b)
      else
        let (h1, a1) ← a.deleteFile h f live
        let (h2, b1) ← b.addFile h1 f live false
        migrate live n h2 a1 b1
    else pure (h, a, b)

/-- Second loop of `reAge`, for `i = 0 .. NUM_AGES - 2`: `a` is `ab[i]` and the list holds
`ab[i+1 ..]`; the result is the array from position `i` on. -/
def reAgeLoop (live : Nat) : Heap → AgeBucket → List AgeBucket → Res (Heap × List AgeBucket)
  | h, a, [] => pure (h, [a])
  | h, a, b :: rest => do
    let (h1, a1, b1) ← (if a.last = none then pure (h, a, b) else migrate live a.count h a b)
    let (h2, tl) ← reAgeLoop live h1 b1 rest
    pure (h2, a1 :: tl)

/-- Third loop of `reAge`: every `ab[i]` is stored back under its new key. -/
def storeAges : Nat → List AgeBucket → List (Key × AgeBucket) → (Nat → Key) →
    List (Key × AgeBucket) × (Nat → Key)
  | _, [], view, keys => (view, keys)
  | i, a :: rest, view, keys =>
    let (old_key, keys1) := a.replace keys
    storeAges (i + 1) rest (fmInsert (keys1 i) a (fmErase old_key view)) keys1

/-- The function `reAge`. -/
def reAge (c : Config) (s : State) (future_tick : Nat) : Res State := do
  let clock := if future_tick = 0 then s.tick else future_tick
  let ab ← loadAges s clock c.NUM_AGES
  let (h1, ab1) ← (match ab with
    | [] => pure (s.heap, [])
    | a :: rest => reAgeLoop s.global_live_file_count s.heap a rest)
  let (av, ak) := storeAges 0 ab1 s.age_buckets s.a_keys
  pure { s with heap := h1, age_buckets := av, a_keys := ak }

/-- The `for` loop of `calculateT` over `i = 0 .. NUM_AGES - 2`, run for `n` buckets.  Every
operation on doubles is rounded to binary64; `2 * K` is a `uint64_t` product. -/
def calculateTLoop (s : State) : Nat → Res Nat
  | 0 => pure 0
  | n + 1 => do
    let T ← calculateTLoop s n
    let a ← (match fmFind (s.a_keys n) s.age_buckets with
      | some b => pure b
      | none => throw Fault.undefinedBehaviour)
    let s_i ← (if n = 0 then pure (dsub 1 a.ratio) else
      (match fmFind (s.a_keys (n - 1)) s.age_buckets with
       | some y => pure (dsub y.ratio a.ratio)
       | none => throw Fault.undefinedBehaviour))
    let q ← ddiv a.ideal_fraction s_i
    let t := toI64 (dmul (ofU64 (2 * s.K % 2 ^ 64)) q)
    pure (if T < i64ToU64 t then i64ToU64 t else T)

/-- The function `calculateT`. -/
def calculateT (c : Config) (s : State) : Res Nat := do
  let T ← calculateTLoop s (c.NUM_AGES - 1)
  let i := c.NUM_AGES - 1
  let a ← (match fmFind (s.a_keys i) s.age_buckets with
    | some b => pure b
    | none => throw Fault.undefinedBehaviour)
  let younger_a ← (match fmFind (if c.NUM_AGES ≤ 1 then Key.empty else s.a_keys (i - 1))
      s.age_buckets with
    | some b => pure b
    | none => throw Fault.undefinedBehaviour)
  let s_i := dsub younger_a.ratio a.ratio
  let q ← ddiv (dadd (dmul (ofU64 (2 * s.K % 2 ^ 64)) (dsub a.ideal_fraction 1)) (ofU64 s.K)) s_i
  let t := toI64 q
  let T1 := if t > 0 ∧ T < i64ToU64 t then i64ToU64 t else T
  if dmul s_i (ofU64 T1) ≤ ofU64 s.K then do
    let r ← ddiv (ofU64 s.K) s_i
    pure (toU64 r)
  else pure T1

/-- The function `performOp`. -/
def performOp (c : Config) (s : State) (create : Bool) (size_arr_position : Int)
    (rand_subdir : Nat) : Res State := do
  let s0 := { s with tick := s.tick + 1 }
  let (s1, create_succeeded) ← (if create then do
      let r ← createFile c s0 size_arr_position rand_subdir
      if r.create_succeeded = 0 then
        let s1 := { r.state with live_data_size := add64 r.state.live_data_size r.ret_size }
        pure ({ s1 with workload_size := add64 s1.workload_size r.ret_size }, r.create_succeeded)
      else pure (r.state, r.create_succeeded)
    else pure (s0, (0 : Int)))
  if ¬ create ∨ create_succeeded = -1 then do
    let (s2, sz) ← deleteFile c s1
    pure { s2 with live_data_size := sub64 s2.live_data_size sz }
  else pure s1

/-! ## Specification-side definitions -/

/-- Age slice `s_i` in the words of the specification: `s_0 = 1 - ratio_0` and
`s_i = ratio_(i-1) - ratio_i`. -/
def sliceSpec (ratio : Nat → ℚ) (i : Nat) : ℚ :=
  if i = 0 then 1 - ratio 0 else ratio (i - 1) - ratio i

/-- Per-bucket horizon `t_i` in the words of the specification, truncated to an integer:
`2 K ideal_i / s_i` for `i < N - 1` and `(2 K (ideal_i - 1) + K) / s_i` for the last bucket. -/
def tSpec (K N : Nat) (ratio ideal : Nat → ℚ) (i : Nat) : Int :=
  if i < N - 1 then toI64 (2 * (K : ℚ) * ideal i / sliceSpec ratio i)
  else toI64 ((2 * (K : ℚ) * (ideal i - 1) + (K : ℚ)) / sliceSpec ratio i)

/-- Maximum of `t 0, ..., t n`. -/
def maxUpTo (t : Nat → Int) : Nat → Int
  | 0 => t 0
  | n + 1 => max (maxUpTo t n) (t (n + 1))

/-- Convergence horizon in the words of the specification: the maximum of the `t_i`, replaced
by `K / s_(N-1)` when `s_(N-1) * T <= K`. -/
def calculateT_spec (K N : Nat) (ratio ideal : Nat → ℚ) : Int :=
  let T := maxUpTo (tSpec K N ratio ideal) (N - 1)
  if sliceSpec ratio (N - 1) * (T : ℚ) ≤ (K : ℚ) then toI64 ((K : ℚ) / sliceSpec ratio (N - 1))
  else T

/-- Age slice in binary64: `s_0 = 1 - ratio_0` and `s_i = ratio_(i-1) - ratio_i`, rounded. -/
def sliceD (ratio : Nat → ℚ) (i : Nat) : ℚ :=
  if i = 0 then dsub 1 (ratio 0) else dsub (ratio (i - 1)) (ratio i)

/-- Per-bucket horizon `t_i` in binary64, truncated to an integer: `2 K * (ideal_i / s_i)` for
`i < N - 1` and `(2 K * (ideal_i - 1) + K) / s_i` for the last bucket, every operation rounded
to binary64. -/
def tD (K N : Nat) (ratio ideal : Nat → ℚ) (i : Nat) : Int :=
  if i < N - 1 then toI64 (dmul (ofU64 (2 * K)) (fl (ideal i / sliceD ratio i)))
  else toI64 (fl (dadd (dmul (ofU64 (2 * K)) (dsub (ideal i) 1)) (ofU64 K) / sliceD ratio i))

/-- Convergence horizon in the words of the specification with binary64 operations: the maximum
of the `t_i`, replaced by `K / s_(N-1)` (rounded, truncated) when the rounded product
`s_(N-1) * T` is at most `K`. -/
def calculateT_d (K N : Nat) (ratio ideal : Nat → ℚ) : Int :=
  let T := maxUpTo (tD K N ratio ideal) (N - 1)
  if dmul (sliceD ratio (N - 1)) (fl (T : ℚ)) ≤ ofU64 K then
    toI64 (fl (ofU64 K / sliceD ratio (N - 1)))
  else T

/-! ## Runs of the engine -/

/-- One call made on the engine. -/
inductive Cmd where
  | create (size_arr_position : Int) (rand_subdir : Nat)
  | delete
  | reAge (future_tick : Nat)
  | op (create : Bool) (size_arr_position : Int) (rand_subdir : Nat)

/-- Effect of one call: `createFile`, `deleteFile`, `reAge` or `performOp`. -/
def step (c : Config) (s : State) : Cmd → Res State
  | Cmd.create pos r => do
    let x ← createFile c s pos r
    pure x.state
  | Cmd.delete => do
    let x ← deleteFile c s
    pure x.1
  | Cmd.reAge t => reAge c s t
  | Cmd.op cr pos r => performOp c s cr pos r

/-- The calls of a list made in order from a given state. -/
def runFrom (c : Config) : State → List Cmd → Res State
  | s, [] => pure s
  | s, cmd :: rest => do
    let s1 ← step c s cmd
    runFrom c s1 rest

/-- The calls of a list made in order after `init`. -/
def run (c : Config) (cmds : List Cmd) : Res State := do
  let s ← init c
  runFrom c s cmds

/-- States that the engine reaches from `init` by calls that return.  A call that divides by
zero does not return here, so a state is reachable only as long as no delete has removed the
last live file; the program itself goes on after such a delete, with `nan` keys in its
views. -/
inductive Reachable (c : Config) : State → Prop where
  | init {s : State} : init c = Except.ok s → Reachable c s
  | step {s s1 : State} (cmd : Cmd) : Reachable c s → step c s cmd = Except.ok s1 →
      Reachable c s1

/-- A state with no bucket and no file. -/
def State.blank : State :=
  { heap := fun _ => sentinel 0, next_addr := 1, fs := 0, age_buckets := [],
    size_buckets := [], dir_buckets := [], a_keys := fun _ => Key.empty,
    s_keys := fun _ => Key.empty, d_keys := fun _ => Key.empty, tick := 0,
    global_live_file_count := 0, total_age_weight := 0, total_size_weight := 0,
    total_dir_weight := 0, live_data_size := 0, workload_size := 0, K := 0,
    global_live_depth := 0, io := [] }

/-- The state of a result, `State.blank` for a fault. -/
def stateOf (r : Res State) : State :=
  match r with
  | Except.ok s => s
  | Except.error _ => State.blank

/-- Whether a result is a state. -/
def isOk {α : Type} (r : Res α) : Bool :=
  match r with
  | Except.ok _ => true
  | Except.error _ => false

/-! ## Concrete configurations used as witnesses and counterexamples -/

/-- Two age buckets with ratios `1/2` and `0` and equal weights, one size class of 1024 bytes,
one depth; the victim draw is the draw of the library. -/
def cfgTwoAges : Config :=
  { age_cutoffs := [1, 2], age_distribution := [1, 1], size_arr := [1024],
    size_distribution := [1], dir_arr := [0], dir_distribution := [1], subdir_arr := [0],
    mount_point := "/mnt", fake := true, total_disk_capacity := 10240,
    victim_draw := libDraw }

/-! ## Reading the linked structures -/

/-- The addresses met from `p` by following `nx` for at most `n` steps. -/
def listFrom (nx : Addr → Ptr) : Nat → Ptr → List Addr
  | 0, _ => []
  | _ + 1, none => []
  | n + 1, some a => a :: listFrom nx n (nx a)

/-- The live files: the global list read from the sentinel. -/
def liveFiles (s : State) : List Addr :=
  listFrom (fun a => (s.heap a).next) s.global_live_file_count (s.heap s.fs).next

/-- The files of an age bucket: the run of `count` files from its oldest pointer `f`. -/
def AgeBucket.files (h : Heap) (a : AgeBucket) : List Addr :=
  listFrom (fun x => (h x).next) a.count a.f

/-- The ring of a dir bucket read from `start`. -/
def DirBucket.ring (h : Heap) (d : DirBucket) : List Addr :=
  listFrom (fun x => (h x).dir_next) d.count d.start

/-- The ring of a size bucket read from `start`. -/
def SizeBucket.ring (h : Heap) (b : SizeBucket) : List Addr :=
  listFrom (fun x => (h x).size_next) b.count b.start

/-! ## The claims as stated, for the counterexamples -/

/-- Claim C3 as stated: every age, size and dir bucket has `actual_fraction` equal to
`count / global_live_file_count`. -/
def AllFractionsExact (s : State) : Prop :=
  (∀ e ∈ s.age_buckets,
    e.2.actual_fraction = (e.2.count : ℚ) / (s.global_live_file_count : ℚ)) ∧
  (∀ e ∈ s.size_buckets,
    e.2.actual_fraction = (e.2.count : ℚ) / (s.global_live_file_count : ℚ)) ∧
  (∀ e ∈ s.dir_buckets,
    e.2.actual_fraction = (e.2.count : ℚ) / (s.global_live_file_count : ℚ))

instance (s : State) : Decidable (AllFractionsExact s) := by
  unfold AllFractionsExact
  infer_instance

/-- Strict order of the pairs `(|gap|, id)`. -/
def absGapLt (g1 : ℚ) (i1 : Nat) (g2 : ℚ) (i2 : Nat) : Prop :=
  |g1| < |g2| ∨ (|g1| = |g2| ∧ i1 < i2)

instance (g1 : ℚ) (i1 : Nat) (g2 : ℚ) (i2 : Nat) : Decidable (absGapLt g1 i1 g2 i2) := by
  unfold absGapLt
  infer_instance

/-- Claim C4 as stated: each view is strictly ascending in `(|ideal - actual|, bucket id)`. -/
def ViewsAscendingByAbsGap (s : State) : Prop :=
  s.age_buckets.Pairwise (fun e e1 =>
    absGapLt (e.2.ideal_fraction - e.2.actual_fraction) e.2.id
      (e1.2.ideal_fraction - e1.2.actual_fraction) e1.2.id) ∧
  s.size_buckets.Pairwise (fun e e1 =>
    absGapLt (e.2.ideal_fraction - e.2.actual_fraction) e.2.id
      (e1.2.ideal_fraction - e1.2.actual_fraction) e1.2.id) ∧
  s.dir_buckets.Pairwise (fun e e1 =>
    absGapLt (e.2.ideal_fraction - e.2.actual_fraction) e.2.id
      (e1.2.ideal_fraction - e1.2.actual_fraction) e1.2.id)

instance (s : State) : Decidable (ViewsAscendingByAbsGap s) := by
  unfold ViewsAscendingByAbsGap
  infer_instance

/-- Ratio of the age bucket with id `i`, `0` when the view has none. -/
def ratioOf (s : State) (i : Nat) : ℚ :=
  match s.age_buckets.find? (fun e => e.2.id = i) with
  | some e => e.2.ratio
  | none => 0

/-- Claim C6 as stated, for clock `C`: a file of age bucket `i` has
`C - f.age >= ratio_(i-1) * C` when `i > 0` and `C - f.age < ratio_i * C` when `i < N - 1`. -/
def AgedByElapsed (c : Config) (s : State) (C : Nat) : Prop :=
  ∀ e ∈ s.age_buckets, ∀ a ∈ e.2.files s.heap,
    (0 < e.2.id → ratioOf s (e.2.id - 1) * (C : ℚ) ≤ (C : ℚ) - ((s.heap a).age : ℚ)) ∧
    (e.2.id < c.NUM_AGES - 1 → (C : ℚ) - ((s.heap a).age : ℚ) < ratioOf s e.2.id * (C : ℚ))

instance (c : Config) (s : State) (C : Nat) : Decidable (AgedByElapsed c s C) := by
  unfold AgedByElapsed
  infer_instance

/-- Claim C8 as stated: `sz` is the size of a size bucket that fits the remaining budget
(`size + live_data_size < total_disk_capacity`) and whose `ideal_fraction - actual_fraction`
is largest among the size buckets that fit. -/
def LargestGapThatFits (c : Config) (s : State) (sz : Nat) : Prop :=
  ∃ e ∈ s.size_buckets, e.2.size = sz ∧
    e.2.size + s.live_data_size < c.total_disk_capacity ∧
    ∀ e1 ∈ s.size_buckets, e1.2.size + s.live_data_size < c.total_disk_capacity →
      e1.2.ideal_fraction - e1.2.actual_fraction ≤ e.2.ideal_fraction - e.2.actual_fraction

instance (c : Config) (s : State) (sz : Nat) : Decidable (LargestGapThatFits c s sz) := by
  unfold LargestGapThatFits
  infer_instance

/-- Counters and fractions that claim C9 compares: the live counters and, per view in
iteration order, the id, count and `actual_fraction` of every bucket. -/
structure Snapshot where
  live_file_count : Nat
  live_data_size : Nat
  ages : List (Nat × Nat × ℚ)
  sizes : List (Nat × Nat × ℚ)
  dirs : List (Nat × Nat × ℚ)
deriving DecidableEq

/-- The snapshot of a state. -/
def snapshot (s : State) : Snapshot :=
  { live_file_count := s.global_live_file_count, live_data_size := s.live_data_size,
    ages := s.age_buckets.map (fun e => (e.2.id, e.2.count, e.2.actual_fraction)),
    sizes := s.size_buckets.map (fun e => (e.2.id, e.2.count, e.2.actual_fraction)),
    dirs := s.dir_buckets.map (fun e => (e.2.id, e.2.count, e.2.actual_fraction)) }

/-- Two depths with weights `1` and `3`, one age bucket, one size class. -/
def cfgTwoDirs : Config :=
  { age_cutoffs := [1], age_distribution := [1], size_arr := [1024],
    size_distribution := [1], dir_arr := [0, 1], dir_distribution := [1, 3],
    subdir_arr := [0, 0], mount_point := "/mnt", fake := true, total_disk_capacity := 10240,
    victim_draw := libDraw }

/-- Two age buckets with ratios `3/4` and `0`, one size class, one depth. -/
def cfgThreeQuarters : Config :=
  { age_cutoffs := [1, 4], age_distribution := [1, 1], size_arr := [1024],
    size_distribution := [1], dir_arr := [0], dir_distribution := [1], subdir_arr := [0],
    mount_point := "/mnt", fake := true, total_disk_capacity := 1048576,
    victim_draw := libDraw }

/-- Two size classes `1` and `2` with weights `1000001` and `1000000`. -/
def cfgNearTie : Config :=
  { age_cutoffs := [1], age_distribution := [1], size_arr := [1, 2],
    size_distribution := [1000001, 1000000], dir_arr := [0], dir_distribution := [1],
    subdir_arr := [0], mount_point := "/mnt", fake := true, total_disk_capacity := 1048576,
    victim_draw := libDraw }

/-- Two creates, a re-age that moves the older file to bucket 1, and a delete that takes it. -/
def cmdsStale : List Cmd :=
  [Cmd.op true 0 0, Cmd.op true 0 0, Cmd.reAge 4, Cmd.op false 0 0]

/-! ## Invariants -/

/-- A view in iteration order is strictly ascending under `BucketCompare` and every entry is
stored under the key computed from its bucket. -/
def KeyedBy {β : Type} (keyOf : β → Key) (v : List (Key × β)) : Prop :=
  v.Pairwise (fun e e1 => BucketCompare e.1 e1.1 = true) ∧ ∀ e ∈ v, e.1 = keyOf e.2

/-- The three views are ordered by their keys and keyed by `getKey`, and the key recorded for
an age bucket id carries that id (or is the empty key of an id never recorded). -/
def ViewsKeyed (c : Config) (s : State) : Prop :=
  KeyedBy AgeBucket.getKey s.age_buckets ∧
  KeyedBy (SizeBucket.getKey c.size_arr) s.size_buckets ∧
  KeyedBy (DirBucket.getKey c.dir_arr) s.dir_buckets ∧
  ∀ i : Nat, (s.a_keys i).id = (i : Int) ∨ s.a_keys i = Key.empty

/-- Fractions after an operation that takes `s` to `s1` and returns in this model, where an
operation that leaves no file does not return: at least one file is live, every top-level size
bucket and dir bucket has `actual_fraction = count / live`, and every age bucket either has
`actual_fraction = count / live` or has the id, count and `actual_fraction` that an age bucket
had in `s`. -/
def FractionsAfterOp (s s1 : State) : Prop :=
  s1.global_live_file_count ≠ 0 ∧
  (∀ e ∈ s1.size_buckets,
    e.2.actual_fraction = (e.2.count : ℚ) / (s1.global_live_file_count : ℚ)) ∧
  (∀ e ∈ s1.dir_buckets,
    e.2.actual_fraction = (e.2.count : ℚ) / (s1.global_live_file_count : ℚ)) ∧
  (∀ e ∈ s1.age_buckets,
    e.2.actual_fraction = (e.2.count : ℚ) / (s1.global_live_file_count : ℚ) ∨
    ∃ e0 ∈ s.age_buckets, e.2.id = e0.2.id ∧ e.2.count = e0.2.count ∧
      e.2.actual_fraction = e0.2.actual_fraction)

/-! ## Linked structures as lists -/

/-- A field of the file objects as a function of the address. -/
def proj {α : Type} (π : File → α) (h : Heap) : Addr → α := fun a => π (h a)

/-- Doubly linked segment: `nx` leads from `a` through the nodes of `l` to `b`, and `pv` back. -/
def Seg (nx pv : Addr → Ptr) : Addr → List Addr → Addr → Prop
  | a, [], b => nx a = some b ∧ pv b = some a
  | a, x :: xs, b => nx a = some x ∧ pv x = some a ∧ Seg nx pv x xs b

/-- Circular doubly linked list whose head is the first node of the list. -/
def Ring (nx pv : Addr → Ptr) : List Addr → Prop
  | [] => True
  | x :: xs => Seg nx pv x xs x

/-- A view holds one entry per bucket id below `n`, in key order, each under the key computed
from its bucket, which is also the key recorded for its id. -/
structure ViewWF {β : Type} (bid : β → Nat) (keyOf : β → Key) (n : Nat)
    (v : List (Key × β)) (keys : Nat → Key) : Prop where
  keyed : KeyedBy keyOf v
  sync : ∀ e ∈ v, keys (bid e.2) = e.1
  ids : (v.map (fun e => bid e.2)).Perm (List.range n)

/-- The id written in a key determines the bucket id, for bucket ids below `n`. -/
def KeyInj {β : Type} (bid : β → Nat) (keyOf : β → Key) (n : Nat) : Prop :=
  ∀ b b1 : β, bid b < n → bid b1 < n → (keyOf b).id = (keyOf b1).id → bid b = bid b1

/-! ## The heap invariant -/

/-- The files of the age buckets `n - 1, ..., 0`, oldest bucket first, given the files of each
age bucket. -/
def cat (seg : Nat → List Addr) : Nat → List Addr
  | 0 => []
  | n + 1 => seg n ++ cat seg n

/-- A nested dir bucket of an age bucket holds the ring `R`: its count is the length of `R`,
`start` is the head of `R` and the files of `R` are linked in a circle by `dir_next` and
`dir_prev`. -/
def CellOK (h : Heap) (R : List Addr) (d : DirBucket) : Prop :=
  d.count = R.length ∧ d.start = R.head? ∧
    Ring (proj File.dir_next h) (proj File.dir_prev h) R

/-- An age bucket holds the files `A` (oldest first): `count`, the oldest pointer `f`, the
youngest pointer `last`, and for every size and depth of the configuration a nested size bucket
that counts the files of `A` of that size and a nested dir bucket whose ring holds the files of
`A` of that size and depth. -/
def AgeOK (c : Config) (h : Heap) (A : List Addr) (a : AgeBucket) : Prop :=
  a.count = A.length ∧ a.f = A.head? ∧ a.last = A.getLast? ∧
  ∀ sz ∈ c.size_arr, ∃ nsb, a.sb sz = some nsb ∧
    nsb.count = (A.filter (fun x => proj File.size h x = sz)).length ∧
    ∀ dp ∈ c.dir_arr, ∃ cell, nsb.db dp = some cell ∧
      CellOK h (A.filter (fun x => proj File.size h x = sz ∧ proj File.depth h x = dp)) cell

/-- A top-level size bucket holds the live files of its size: `count`, `start` and the ring
threaded by `size_next` and `size_prev`; its nested map has a dir bucket for every depth. -/
def SizeOK (c : Config) (h : Heap) (L : List Addr) (b : SizeBucket) : Prop :=
  b.size = c.size_arr.getD b.id 0 ∧
  b.count = (L.filter (fun x => proj File.size h x = b.size)).length ∧
  b.start = (L.filter (fun x => proj File.size h x = b.size)).head? ∧
  Ring (proj File.size_next h) (proj File.size_prev h)
    (L.filter (fun x => proj File.size h x = b.size)) ∧
  ∀ dp ∈ c.dir_arr, ∃ cell, b.db dp = some cell

/-- A top-level dir bucket counts the live files of its depth. -/
def DirOK (c : Config) (h : Heap) (L : List Addr) (d : DirBucket) : Prop :=
  d.depth = c.dir_arr.getD d.id 0 ∧
  d.count = (L.filter (fun x => proj File.depth h x = d.depth)).length

/-- The heap `h1` differs from `hp` at most in the attributes of the files of `A`, the global
links of the files of `G`, the size links of the files of `S` and the dir links of the files
of `D`. -/
structure HeapRel (hp h1 : Heap) (A G S D : List Addr) : Prop where
  size : ∀ x, x ∉ A → proj File.size h1 x = proj File.size hp x
  depth : ∀ x, x ∉ A → proj File.depth h1 x = proj File.depth hp x
  age : ∀ x, x ∉ A → proj File.age h1 x = proj File.age hp x
  path : ∀ x, x ∉ A → proj File.path h1 x = proj File.path hp x
  next : ∀ x, x ∉ G → proj File.next h1 x = proj File.next hp x
  prev : ∀ x, x ∉ G → proj File.prev h1 x = proj File.prev hp x
  size_next : ∀ x, x ∉ S → proj File.size_next h1 x = proj File.size_next hp x
  size_prev : ∀ x, x ∉ S → proj File.size_prev h1 x = proj File.size_prev hp x
  dir_next : ∀ x, x ∉ D → proj File.dir_next h1 x = proj File.dir_next hp x
  dir_prev : ∀ x, x ∉ D → proj File.dir_prev h1 x = proj File.dir_prev hp x

/-- The size classes and the depths of the input histograms are pairwise distinct. -/
def Config.Valid (c : Config) : Prop := c.size_arr.Nodup ∧ c.dir_arr.Nodup

instance (c : Config) : Decidable c.Valid := by
  unfold Config.Valid
  infer_instance

/-- The invariant of the engine, for the files `seg i` of each age bucket `i`: the global list
is the sentinel ring through the files of the age buckets from the oldest bucket to the
youngest, birth ticks do not decrease along it, and every bucket of the three views describes
its share of the list. -/
structure HeapInv (c : Config) (s : State) (seg : Nat → List Addr) : Prop where
  nodup : (s.fs :: cat seg c.NUM_AGES).Nodup
  glist : Seg (proj File.next s.heap) (proj File.prev s.heap) s.fs (cat seg c.NUM_AGES) s.fs
  live : s.global_live_file_count = (cat seg c.NUM_AGES).length
  fresh : ∀ a ∈ s.fs :: cat seg c.NUM_AGES, a < s.next_addr
  attrs : ∀ a ∈ cat seg c.NUM_AGES,
    proj File.size s.heap a ∈ c.size_arr ∧ proj File.depth s.heap a ∈ c.dir_arr
  births : (cat seg c.NUM_AGES).Pairwise
    (fun a b => proj File.age s.heap a ≤ proj File.age s.heap b)
  born : ∀ a ∈ cat seg c.NUM_AGES, proj File.age s.heap a ≤ s.tick
  avw : ViewWF AgeBucket.id AgeBucket.getKey c.NUM_AGES s.age_buckets s.a_keys
  svw : ViewWF SizeBucket.id (SizeBucket.getKey c.size_arr) c.NUM_SIZES s.size_buckets s.s_keys
  dvw : ViewWF DirBucket.id (DirBucket.getKey c.dir_arr) c.NUM_DIRS s.dir_buckets s.d_keys
  ages : ∀ e ∈ s.age_buckets, AgeOK c s.heap (seg e.2.id) e.2
  sizes : ∀ e ∈ s.size_buckets, SizeOK c s.heap (cat seg c.NUM_AGES) e.2
  dirs : ∀ e ∈ s.dir_buckets, DirOK c s.heap (cat seg c.NUM_AGES) e.2
  sideal : ∀ e ∈ s.size_buckets, e.2.ideal_fraction =
    c.size_distribution.getD e.2.id 0 / ((totalWeight c.size_distribution : Nat) : ℚ)
  dideal : ∀ e ∈ s.dir_buckets, e.2.ideal_fraction =
    c.dir_distribution.getD e.2.id 0 / ((totalWeight c.dir_distribution : Nat) : ℚ)

/-- The body of the middle loop of the victim search for the age bucket `ab` and the size
bucket `sb`: the walk over the dir view from its end. -/
def dirSearch (c : Config) (s : State) (ab : AgeBucket) (sb : SizeBucket) :
    Res (DirBucket × Ptr) := do
  let (d0, ds) ← firstEntry s.dir_buckets.reverse
  searchDirs (fun db => ab.getFileToDelete c.victim_draw s.heap sb.size db.depth) d0 ds

/-- The body of the outer loop of the victim search for the age bucket `ab`: the walk over the
size view from its beginning. -/
def sizeSearch (c : Config) (s : State) (ab : AgeBucket) :
    Res (SizeBucket × DirBucket × Ptr) := do
  let (s0, ss) ← firstEntry s.size_buckets
  searchSizes (fun sb => dirSearch c s ab sb) s0 ss

/-- The invariant of the second loop of `reAge` on the array `ab` of age buckets, read as a
function of the index: the global list is untouched and every `ab[j]` describes the files
`seg j`. -/
structure ArrInv (c : Config) (fs : Addr) (h : Heap) (seg : Nat → List Addr)
    (B : Nat → AgeBucket) : Prop where
  nodup : (fs :: cat seg c.NUM_AGES).Nodup
  glist : Seg (proj File.next h) (proj File.prev h) fs (cat seg c.NUM_AGES) fs
  attrs : ∀ a ∈ cat seg c.NUM_AGES,
    proj File.size h a ∈ c.size_arr ∧ proj File.depth h a ∈ c.dir_arr
  births : (cat seg c.NUM_AGES).Pairwise (fun a b => proj File.age h a ≤ proj File.age h b)
  ids : ∀ j, j < c.NUM_AGES → (B j).id = j
  ages : ∀ j, j < c.NUM_AGES → AgeOK c h (seg j) (B j)

/-- The fields of an age bucket that migration leaves alone. -/
def SameMeta (a a1 : AgeBucket) : Prop :=
  a1.id = a.id ∧ a1.cutoff = a.cutoff ∧ a1.ratio = a.ratio ∧
    a1.ideal_fraction = a.ideal_fraction

/-- The element `ab[j]` written by the first loop of `reAge` for the clock `clock`. -/
def loadedAge (s : State) (clock : Nat) (j : Nat) : AgeBucket :=
  match fmFind (s.a_keys j) s.age_buckets with
  | some b => { b with cutoff := cutoffAt b.ratio clock }
  | none => AgeBucket.new j

/-- The ring of the nested dir bucket reached from the age bucket `a` under the size `sz` and the
depth `dp`; empty when a map has no such key. -/
def nestedRing (h : Heap) (a : AgeBucket) (sz : Nat) (dp : Int) : List Addr :=
  match a.sb sz with
  | none => []
  | some nsb =>
    match nsb.db dp with
    | none => []
    | some cell => cell.ring h

/-- Conclusion of claim C7 for a `deleteFile` that takes `s` to `s1` and returns `sz`: the
victim `f` is on the nested ring of a triple (age bucket `ab` of the age view read from its end,
size bucket `sb` of the size view read from its beginning, dir bucket `db` of the dir view read
from its end); every triple before it in that nested order has an empty nested ring; `f` has
the size of `sb` and the depth of `db`, `sz` is that size; the three counts were positive, and
in every view the bucket of the triple has its count lowered by one while every other bucket
keeps its count. -/
def VictimFirstTriple (s s1 : State) (sz : Nat) : Prop :=
  ∃ (ab : AgeBucket) (sb : SizeBucket) (db : DirBucket) (f : Addr)
      (apre apost : List AgeBucket) (spre spost : List SizeBucket)
      (dpre dpost : List DirBucket),
      s.age_buckets.reverse.map Prod.snd = apre ++ ab :: apost ∧
      s.size_buckets.map Prod.snd = spre ++ sb :: spost ∧
      s.dir_buckets.reverse.map Prod.snd = dpre ++ db :: dpost ∧
      f ∈ nestedRing s.heap ab sb.size db.depth ∧
      (∀ a ∈ apre, ∀ x ∈ s.size_buckets, ∀ y ∈ s.dir_buckets,
        nestedRing s.heap a x.2.size y.2.depth = []) ∧
      (∀ x ∈ spre, ∀ y ∈ s.dir_buckets, nestedRing s.heap ab x.size y.2.depth = []) ∧
      (∀ y ∈ dpre, nestedRing s.heap ab sb.size y.depth = []) ∧
      (s.heap f).size = sb.size ∧ (s.heap f).depth = db.depth ∧ sz = sb.size ∧
      0 < ab.count ∧ 0 < sb.count ∧ 0 < db.count ∧
      (∀ e1 ∈ s1.age_buckets, ∃ e0 ∈ s.age_buckets, e0.2.id = e1.2.id ∧
        e1.2.count = if e0.2.id = ab.id then e0.2.count - 1 else e0.2.count) ∧
      (∀ e1 ∈ s1.size_buckets, ∃ e0 ∈ s.size_buckets, e0.2.id = e1.2.id ∧
        e1.2.count = if e0.2.id = sb.id then e0.2.count - 1 else e0.2.count) ∧
      (∀ e1 ∈ s1.dir_buckets, ∃ e0 ∈ s.dir_buckets, e0.2.id = e1.2.id ∧
        e1.2.count = if e0.2.id = db.id then e0.2.count - 1 else e0.2.count)

/-- The value of a result, `d` for a fault. -/
def valOf {α : Type} (r : Res α) (d : α) : α :=
  match r with
  | Except.ok a => a
  | Except.error _ => d

/-- Conclusion of the amended claim C9 for the state `s2` reached from `s` by a create and the
delete of the created file: the live count, `live_data_size` and the global list are those of
`s`, `tick` is two more, the size view and the dir view list the same keys, ids, counts and
`actual_fraction`s in the same order, and every age bucket keeps its count; an age bucket other
than bucket 0 is unchanged, and bucket 0 has `actual_fraction = count / live`. -/
def RoundTrip (s s2 : State) : Prop :=
  s2.global_live_file_count = s.global_live_file_count ∧
  s2.live_data_size = s.live_data_size ∧
  s2.tick = s.tick + 2 ∧
  liveFiles s2 = liveFiles s ∧
  s2.size_buckets.map (fun e => (e.1, e.2.id, e.2.count, e.2.actual_fraction)) =
    s.size_buckets.map (fun e => (e.1, e.2.id, e.2.count, e.2.actual_fraction)) ∧
  s2.dir_buckets.map (fun e => (e.1, e.2.id, e.2.count, e.2.actual_fraction)) =
    s.dir_buckets.map (fun e => (e.1, e.2.id, e.2.count, e.2.actual_fraction)) ∧
  ∀ e2 ∈ s2.age_buckets, ∃ e0 ∈ s.age_buckets, e0.2.id = e2.2.id ∧
    e2.2.count = e0.2.count ∧ (e2.2.id ≠ 0 → e2 = e0) ∧
    (e2.2.id = 0 →
      e2.2.actual_fraction = (e2.2.count : ℚ) / (s2.global_live_file_count : ℚ))

/-! ## Statements of the claims on the bucket operations -/

/-- Claim C27 for a dir bucket `d` whose ring reads `R` from its head: `addFile` of a file
not in the ring returns, appends the file at the end and keeps the head (the file is the head
only when the ring was empty); `deleteFile` of a member returns, removes exactly that file,
keeps the order of the others, and moves the head only when the file was the head (to its
successor, or to none when the ring is left empty); in both cases `count` is the length of the
ring. -/
def DirRingOps (h : Heap) (d : DirBucket) (R : List Addr) (f : Addr) (live : Nat) : Prop :=
  (f ∉ R → ∃ h1 d1, d.addFile h f live = Except.ok (h1, d1) ∧ d1.ring h1 = R ++ [f] ∧
      d1.start = (R ++ [f]).head? ∧ (R ≠ [] → d1.start = d.start) ∧
      d1.count = (d1.ring h1).length) ∧
  (f ∈ R → ∃ h1 d1, d.deleteFile h f live = Except.ok (h1, d1) ∧ d1.ring h1 = R.erase f ∧
      (d.start ≠ some f → d1.start = d.start) ∧
      (d.start = some f → d1.start = R.tail.head?) ∧
      d1.count = (d1.ring h1).length)

/-- Claim C28 for a dir bucket whose ring reads `R` from its head: the file returned is the
head of `R` rotated by `draw count - 1`, it is none exactly when `count = 0`, and otherwise a
member of the ring. -/
def VictimOfRing (draw : Nat → Nat) (h : Heap) (d : DirBucket) (R : List Addr) : Prop :=
  d.getFileToDelete draw h = Except.ok ((R.rotate (draw R.length - 1)).head?) ∧
  ((R.rotate (draw R.length - 1)).head? = none ↔ d.count = 0) ∧
  ∀ f, (R.rotate (draw R.length - 1)).head? = some f → f ∈ d.ring h

/-- A heap with three files in one dir ring `1 → 2 → 3 → 1`. -/
def heapRing3 : Heap := fun a =>
  if a = 1 then { (File.new "1" 1024 1 0) with dir_next := some 2, dir_prev := some 3 }
  else if a = 2 then { (File.new "2" 1024 2 0) with dir_next := some 3, dir_prev := some 1 }
  else if a = 3 then { (File.new "3" 1024 3 0) with dir_next := some 1, dir_prev := some 2 }
  else File.new "4" 1024 4 0

/-- A dir bucket of depth 0 whose ring is `1, 2, 3` in `heapRing3`. -/
def dirRing3 : DirBucket :=
  { count := 3, ideal_fraction := 1, actual_fraction := 1, id := 0, depth := 0,
    start := some 1, pfx := "", sibling_dirs := 0 }

/-- The age bucket stored in the age view for id `i`. -/
def ageBucketOf (s : State) (i : Nat) : AgeBucket :=
  (fmFind (s.a_keys i) s.age_buckets).getD (AgeBucket.new i)

/-- The claim C29 as stated, for the bucket `a1` that `addFile (f, live, true)` leaves from
`a`: the youngest pointer is `f`, the oldest pointer is unchanged, the count is one more. -/
def FrontIsYoungest (a a1 : AgeBucket) (f : Addr) : Prop :=
  a1.last = some f ∧ a1.f = a.f ∧ a1.count = a.count + 1

instance (a a1 : AgeBucket) (f : Addr) : Decidable (FrontIsYoungest a a1 f) := by
  unfold FrontIsYoungest
  infer_instance

/-- The heap of `s` with one more file object, of size 1024 and depth 0, at `s.next_addr`. -/
def withNewFile (s : State) : Heap :=
  s.heap.upd s.next_addr (fun _ => File.new "x" 1024 s.tick 0)

/-- The nested size bucket of an age bucket for a size (a fresh bucket when absent). -/
def nestedSize (a : AgeBucket) (sz : Nat) : SizeBucket :=
  (a.sb sz).getD (SizeBucket.new sz 0)

/-- The nested dir bucket of a size bucket for a depth (an empty bucket when absent). -/
def nestedDir (s : SizeBucket) (dp : Int) : DirBucket :=
  (s.db dp).getD { count := 0, ideal_fraction := 0, actual_fraction := 0, id := 0, depth := dp,
                   start := none, pfx := "", sibling_dirs := 0 }

/-- The state of `cfgTwoAges` after one create. -/
def stateOneFile : State := stateOf (run cfgTwoAges [Cmd.op true 0 0])

/-- Claim C24 for a call `reAge (t)` that takes `s` to `s1`: `mv i` is the list of files moved
out of age bucket `i` (none out of the last bucket).  Bucket `i` holds, when its turn comes,
its old files followed by the files that arrive from bucket `i - 1`; `mv i` is a run at the old
end of that list, every file of the run has a birth tick below the cutoff
`cutoffAt ratio_i clock` (the binary64 product, truncated) stored in the bucket, and what stays in bucket `i` comes after the
run, in the same order, with birth ticks at or above the cutoff when `i < N - 1`. -/
def MigratesOldestRun (c : Config) (s s1 : State) (t : Nat) : Prop :=
  ∃ mv : Nat → List Addr, (∀ j, c.NUM_AGES ≤ j + 1 → mv j = []) ∧
    ∀ e0 ∈ s.age_buckets, ∃ e1 ∈ s1.age_buckets, e1.2.id = e0.2.id ∧
      e1.2.cutoff = cutoffAt e0.2.ratio (if t = 0 then s.tick else t) ∧
      e0.2.files s.heap ++ (if 0 < e0.2.id then mv (e0.2.id - 1) else []) =
        mv e0.2.id ++ e1.2.files s1.heap ∧
      (∀ x ∈ mv e0.2.id, (s.heap x).age < e1.2.cutoff) ∧
      (e0.2.id + 1 < c.NUM_AGES → ∀ x ∈ e1.2.files s1.heap, e1.2.cutoff ≤ (s.heap x).age)

/-- Claim C25 for a call of `reAge` that takes `s` to `s1`: a file of bucket `i` is afterwards
in a bucket, and only in buckets with an id of at least `i`; the last bucket's count does not
decrease; the global list, the live count and the sum of the age counts are kept. -/
def OnlyAges (c : Config) (s s1 : State) : Prop :=
  (∀ e0 ∈ s.age_buckets, ∀ x ∈ e0.2.files s.heap,
    (∃ e1 ∈ s1.age_buckets, x ∈ e1.2.files s1.heap) ∧
    ∀ e1 ∈ s1.age_buckets, x ∈ e1.2.files s1.heap → e0.2.id ≤ e1.2.id) ∧
  (∀ e0 ∈ s.age_buckets, ∀ e1 ∈ s1.age_buckets, e0.2.id + 1 = c.NUM_AGES →
    e1.2.id = e0.2.id → e0.2.count ≤ e1.2.count) ∧
  liveFiles s1 = liveFiles s ∧
  s1.global_live_file_count = s.global_live_file_count ∧
  (s1.age_buckets.map (fun e => e.2.count)).sum = (s.age_buckets.map (fun e => e.2.count)).sum

/-- Claim C26 for the state left by a create or a delete: at least one file is live, the size
view and the dir view hold every bucket id once, and every size bucket and dir bucket has
`actual_fraction = count / global_live_file_count` and is stored under the key computed from
it. -/
def RekeyedExact (c : Config) (s1 : State) : Prop :=
  s1.global_live_file_count ≠ 0 ∧
  (s1.size_buckets.map (fun e => e.2.id)).Perm (List.range c.NUM_SIZES) ∧
  (s1.dir_buckets.map (fun e => e.2.id)).Perm (List.range c.NUM_DIRS) ∧
  (∀ e ∈ s1.size_buckets,
    e.2.actual_fraction = (e.2.count : ℚ) / (s1.global_live_file_count : ℚ) ∧
    e.1 = e.2.getKey c.size_arr) ∧
  (∀ e ∈ s1.dir_buckets,
    e.2.actual_fraction = (e.2.count : ℚ) / (s1.global_live_file_count : ℚ) ∧
    e.1 = e.2.getKey c.dir_arr)

/-- The state with the record of issued requests left out. -/
def eraseIo (s : State) : State := { s with io := [] }

/-! ## Rapid fill and stable aging (geriatrix.cpp) -/

/-- Running sums `acc + w_0, acc + w_0 + w_1, ...` of a list of weights. -/
def cumulative : ℚ → List ℚ → List ℚ
  | _, [] => []
  | acc, w :: ws => (acc + w) :: cumulative (acc + w) ws

/-- The array `s->cutoffs` filled by `readDistribution` (case `SIZES`): `cutoffs[0]` is the
first weight and `cutoffs[i] = cutoffs[i-1] + distribution[i]`. -/
def sizeCutoffs (c : Config) : List ℚ := cumulative 0 c.size_distribution

/-- The inner loop of `performRapidAging` from index `j`: `while (rand > cutoffs[j]) { j++;
if (j == NUM_SIZES) { j--; break; } }`.  The first argument bounds the number of tests of the
loop condition. -/
def pickClass (cutoffs : List ℚ) (n rand : Nat) : Nat → Nat → Nat
  | 0, j => j
  | fuel + 1, j =>
    if (rand : ℚ) > cutoffs.getD j 0 then
      if j + 1 = n then j else pickClass cutoffs n rand fuel (j + 1)
    else j

/-- The size class that `performRapidAging` maps a draw to. -/
def sizeClassOf (c : Config) (rand : Nat) : Nat :=
  pickClass (sizeCutoffs c) c.NUM_SIZES rand c.NUM_SIZES 0

/-- The values drawn while aging, by iteration of the loop that draws them: `size_draw` is
`dist (gen)` of `performRapidAging`, `subdir` the sibling directory drawn in `createFile`,
`coin` the value `rand () % 100` of `tossCoin`, and `minutes` the elapsed time read by
`performStableAging`. -/
structure Draws where
  size_draw : Nat → Nat
  subdir : Nat → Nat
  coin : Nat → Nat
  minutes : Nat → ℚ

/-- The function `performRapidAging`.  The first argument bounds the number of iterations and
the second counts them; the result is `none` when the bound is reached with the loop condition
still true. -/
def performRapidAging (c : Config) (dr : Draws) (till_size : Nat) :
    Nat → Nat → State → Res (Option State)
  | 0, _, s => if s.live_data_size < till_size then pure none else pure (some s)
  | fuel + 1, i, s =>
    if s.live_data_size < till_size then do
      let s1 ← performOp c s true (sizeClassOf c (dr.size_draw i)) (dr.subdir i)
      performRapidAging c dr till_size fuel (i + 1) s1
    else pure (some s)

/-- The accuracy settings of a run: `confidence`, the library function `cdf (*dist, x)` of the
chi-squared distribution with `NUM_AGES - 1` degrees of freedom, `goodness_measure`,
`runtime_max`, and whether the three dump files are named on the command line. -/
structure Probe where
  confidence : ℚ
  cdf : ℚ → ℚ
  goodness_measure : ℚ
  runtime_max : Int
  age_out : Bool
  size_out : Bool
  dir_out : Bool

/-- The search `it = rbegin (); while (it->second.id != id) it++` of the dump loops, on the
view in reverse order. -/
def findFromBack {β : Type} (bid : β → Nat) (id : Nat) : List (Key × β) → Res β
  | [] => throw Fault.undefinedBehaviour
  | e :: es => if bid e.2 = id then pure e.2 else findFromBack bid id es

/-- The loop `while (current_id < n)` of the dump functions: the buckets by id. -/
def dumpIds {β : Type} (bid : β → Nat) (v : List (Key × β)) (n : Nat) : Res (List β) :=
  (List.range n).mapM (fun id => findFromBack bid id v.reverse)

/-- The accumulation `chi_2 += pow (e - a, 2) / e` of `calculateChiMeanSquared`. -/
def chiLoop : ℚ → List ℚ → List ℚ → Res ℚ
  | acc, [], _ => pure acc
  | _, _ :: _, [] => throw Fault.undefinedBehaviour
  | acc, e :: es, a :: as => do
    let q ← qdiv ((e - a) ^ 2) e
    chiLoop (acc + q) es as

/-- The function `calculateChiMeanSquared`; the dumps only write files, their searches are
kept. -/
def calculateChiMeanSquared (c : Config) (p : Probe) (s : State) (expected actual : List ℚ) :
    Res ℚ := do
  let chi_2 ← chiLoop 0 expected actual
  let goodness_of_my_dist := p.cdf chi_2
  if goodness_of_my_dist ≤ p.goodness_measure then do
    let _ ← (if p.size_out then dumpIds SizeBucket.id s.size_buckets c.NUM_SIZES else pure [])
    let _ ← (if p.dir_out then dumpIds DirBucket.id s.dir_buckets c.NUM_DIRS else pure [])
    if p.age_out then do
      let _ ← dumpIds AgeBucket.id s.age_buckets c.NUM_AGES
      pure goodness_of_my_dist
    else throw Fault.undefinedBehaviour
  else pure 0

/-- The function `dumpAgeBuckets (a->out_file, s->out_file, d->out_file)`: its `int` result is
the `double` returned by `calculateChiMeanSquared` converted to `int`. -/
def dumpAgeBuckets (c : Config) (p : Probe) (s : State) : Res Int := do
  let l ← (if p.age_out then dumpIds AgeBucket.id s.age_buckets c.NUM_AGES
    else pure (s.age_buckets.reverse.map Prod.snd))
  let expected := l.map AgeBucket.ideal_fraction
  let actual := l.map AgeBucket.actual_fraction
  if p.confidence > 0 then do
    let g ← calculateChiMeanSquared c p s expected actual
    pure (toI64 g)
  else pure 0

/-- The way `performStableAging` ended: the `return 1` after the probe, or one of the values of
`enum AGING_TRIGGER`. -/
inductive StableExit where
  | probe
  | convergence
  | exec_time
  | workload
  | accuracy
deriving DecidableEq, Repr

/-- Outcome of `performStableAging`: the state, the way it ended, and the number of
operations it made. -/
structure StableResult where
  state : State
  exit : StableExit
  ops : Nat

/-- The `do ... while (trigger == none)` loop of `performStableAging`.  `confidence_met` is the
local of the function body, which the loop never assigns (the probe result goes to a variable
of the same name declared inside the loop); `runtime` is the global.  The first numeric
argument bounds the number of iterations and the second counts them; the result is `none` when
the bound is reached. -/
def stableLoop (c : Config) (p : Probe) (dr : Draws) (future_tick till_size : Nat)
    (confidence_met : Int) : Nat → Nat → ℚ → State → Res (Option StableResult)
  | 0, _, _, _ => pure none
  | fuel + 1, i, runtime, s => do
    let s1 ← performOp c s (decide (dr.coin i < 50)) (-1) (dr.subdir i)
    let s2 ← reAge c s1 future_tick
    let (runtime1, inner) ← (if s2.tick % 10000 = 0 then do
        let m ← dumpAgeBuckets c p s2
        pure (dr.minutes i, m)
      else pure (runtime, (0 : Int)))
    if s2.tick % 10000 = 0 ∧ p.confidence > 0 ∧ inner = 1 then
      pure (some ⟨s2, StableExit.probe, i + 1⟩)
    else if s2.tick ≥ future_tick then pure (some ⟨s2, StableExit.convergence, i + 1⟩)
    else if s2.workload_size ≥ till_size then pure (some ⟨s2, StableExit.workload, i + 1⟩)
    else if runtime1 ≥ (p.runtime_max : ℚ) then pure (some ⟨s2, StableExit.exec_time, i + 1⟩)
    else if p.confidence > 0 ∧ confidence_met = 1 then
      pure (some ⟨s2, StableExit.accuracy, i + 1⟩)
    else stableLoop c p dr future_tick till_size confidence_met fuel (i + 1) runtime1 s2

/-- The function `performStableAging`; `fuel` bounds the number of iterations of its loop and
`runtime` is the value of the global on entry. -/
def performStableAging (c : Config) (p : Probe) (dr : Draws) (till_size fuel : Nat)
    (runtime : ℚ) (s : State) : Res (Option StableResult) := do
  let future_tick ← calculateT c s
  let s0 ← reAge c s future_tick
  stableLoop c p dr future_tick till_size 0 fuel 0 runtime s0

/-- Ten creates of the single size class: the rapid fill of `cfgTwoAges`. -/
def cmdsTen : List Cmd := List.replicate 10 (Cmd.op true 0 0)

/-- The state of `cfgTwoAges` after ten creates. -/
def stateTen : State := stateOf (run cfgTwoAges cmdsTen)

/-- The claim C20 as stated, for the state `s1` left by `reAge`, with `age` the age of a file
and `n` the bound: bucket 0 holds exactly the live files with `age < n` and bucket 1 exactly
those with `age ≥ n`. -/
def SplitByAge (s1 : State) (age : Addr → Nat) (n : Nat) : Prop :=
  ∀ x ∈ liveFiles s1,
    (x ∈ (ageBucketOf s1 0).files s1.heap ↔ age x < n) ∧
    (x ∈ (ageBucketOf s1 1).files s1.heap ↔ n ≤ age x)

instance (s1 : State) (age : Addr → Nat) (n : Nat) : Decidable (SplitByAge s1 age n) := by
  unfold SplitByAge
  infer_instance

/-- The fault of a result, if any. -/
def faultOf {α : Type} (r : Res α) : Option Fault :=
  match r with
  | Except.ok _ => none
  | Except.error e => some e

/-- One size class of `2 ^ 62` bytes on a device of `2 ^ 64 - 1` bytes. -/
def cfgBig : Config :=
  { age_cutoffs := [1], age_distribution := [1], size_arr := [4611686018427387904],
    size_distribution := [1], dir_arr := [0], dir_distribution := [1], subdir_arr := [0],
    mount_point := "/mnt", fake := true, total_disk_capacity := 18446744073709551615,
    victim_draw := libDraw }

/-- The state of `cfgTwoAges` after nine creates: 9216 of 10240 bytes are live. -/
def stateNine : State := stateOf (run cfgTwoAges (List.replicate 9 (Cmd.op true 0 0)))

/-- Claim C16 (amended) for a call of `performOp` that takes `s` to `s1`: a delete keeps
`workload_size`; a create adds the size of the created file modulo `2 ^ 64`, so
`workload_size` does not decrease unless the 64-bit counter wraps. -/
def WorkloadStep (s s1 : State) (create : Bool) : Prop :=
  if create then
    s1.workload_size = add64 s.workload_size (s1.heap s.next_addr).size ∧
    (s.workload_size + (s1.heap s.next_addr).size < 2 ^ 64 →
      s.workload_size ≤ s1.workload_size)
  else s1.workload_size = s.workload_size

/-- Claim C18 (amended) for a create that takes `s` to `s1`: the new file, at
`s.next_addr`, is live and has the depth of the head `d` of the dir view of `s`; the key of the
head carries its depth and its gap `actual_fraction - ideal_fraction` as printed, and it is the
least key of the view. -/
def PlacedAtHead (s s1 : State) : Prop :=
  ∃ k d rest, s.dir_buckets = (k, d) :: rest ∧ (s1.heap s.next_addr).depth = d.depth ∧
    s.next_addr ∈ liveFiles s1 ∧ k.prints d.depth (d.actual_fraction - d.ideal_fraction) ∧
    ∀ e ∈ rest, k.before e.1

/-- The state of `cfgTwoAges` after the rapid fill of ten files, with `K = tick` as `main`
sets it. -/
def stateTenK : State := { stateTen with K := stateTen.tick }

/-- Draws under which every operation of the stable phase is a delete. -/
def drawsDelete : Draws :=
  { size_draw := fun _ => 1, subdir := fun _ => 0, coin := fun _ => 99, minutes := fun _ => 0 }

/-- Accuracy settings with the probe switched off (`confidence = 0`). -/
def probeOff : Probe :=
  { confidence := 0, cdf := fun _ => 0, goodness_measure := 0, runtime_max := 0,
    age_out := false, size_out := false, dir_out := false }

/-- Claim C12 for a call of `performStableAging` entered in `s` with horizon `T`: the call does
not run out of iterations, and when it returns it has made at least one and at most
`max (1, T - tick)` operations, each of which advanced `tick` by one. -/
def StableBounded (T : Nat) (s : State) (r : Res (Option StableResult)) : Prop :=
  ∀ o, r = Except.ok o → ∃ res, o = some res ∧ 1 ≤ res.ops ∧ res.ops ≤ max 1 (T - s.tick) ∧
    res.state.tick = s.tick + res.ops

/-- Accuracy settings with `confidence = 0.9`; the library function `cdf` is replaced by the
increasing function `x / (1 + x)` with values in `[0, 1)`. -/
def probeNine : Probe :=
  { confidence := 9 / 10, cdf := fun x => if x ≤ 0 then 0 else x / (1 + x),
    goodness_measure := 9 / 19, runtime_max := 0,
    age_out := true, size_out := true, dir_out := true }

/-- The state of `cfgTwoAges` after ten creates and `reAge (20)`: one file in age bucket 0
and nine in age bucket 1. -/
def stateSplit : State := stateOf (reAge cfgTwoAges stateTen 20)

/-- The chi-squared statistic of the age buckets, as `dumpAgeBuckets` computes it by id. -/
def chiOf (c : Config) (s : State) : Res ℚ := do
  let l ← dumpIds AgeBucket.id s.age_buckets c.NUM_AGES
  chiLoop 0 (l.map AgeBucket.ideal_fraction) (l.map AgeBucket.actual_fraction)

/-- A result that is not the fatal exit of `deleteFile` ("Cannot delete a single file"). -/
def NoAbort {α : Type} (r : Res α) : Prop := r ≠ Except.error Fault.cannotDelete

/-- Claim C14 for a state: the victim search returns, it returns no file exactly when no file
is live, `deleteFile` then takes the fatal exit, and with a live file `deleteFile` does not
take it. -/
def CannotDeleteIff (c : Config) (s : State) : Prop :=
  (∃ ab sb db p, findVictim c s = Except.ok (ab, sb, db, p) ∧
    (p = none ↔ s.global_live_file_count = 0)) ∧
  (s.global_live_file_count = 0 → deleteFile c s = Except.error Fault.cannotDelete) ∧
  (0 < s.global_live_file_count → deleteFile c s ≠ Except.error Fault.cannotDelete)

/-- States that the engine reaches from `init` by `performOp` and `reAge`, the calls that
`performRapidAging` and `performStableAging` make, as long as every call returns (no delete has
removed the last live file). -/
inductive OpReachable (c : Config) : State → Prop where
  | byInit {s : State} : init c = Except.ok s → OpReachable c s
  | byOp {s s1 : State} (create : Bool) (pos : Int) (r : Nat) : OpReachable c s →
      performOp c s create pos r = Except.ok s1 → OpReachable c s1
  | byReAge {s s1 : State} (t : Nat) : OpReachable c s → reAge c s t = Except.ok s1 →
      OpReachable c s1

/-- The text that a create made in the state `s` with the sibling draw `r` formats as the
name of the new file (the head of the dir view gives the prefix, the tick is incremented
first). -/
def nextName (s : State) (r : Nat) : String :=
  match s.dir_buckets with
  | [] => ""
  | e :: _ => fullName e.2 (s.tick + 1) r

/-- States that the engine reaches from `init` by `performOp` and `reAge` when every name
that a create formats is shorter than `PATH_MAX`. -/
inductive NamedReachable (c : Config) : State → Prop where
  | byInit {s : State} : init c = Except.ok s → NamedReachable c s
  | byOp {s s1 : State} (create : Bool) (pos : Int) (r : Nat) : NamedReachable c s →
      (create = true → (nextName s r).length < PATH_MAX) →
      performOp c s create pos r = Except.ok s1 → NamedReachable c s1
  | byReAge {s s1 : State} (t : Nat) : NamedReachable c s → reAge c s t = Except.ok s1 →
      NamedReachable c s1

/-- The number written by a list of decimal digits. -/
def digitsVal (l : List Char) : Nat := l.foldl (fun a ch => 10 * a + (ch.toNat - 48)) 0

/-- The live files have strictly increasing birth ticks along the global list, none above
`tick`, and the path of each ends in `/` followed by its birth tick in decimal. -/
def PathsByTick (s : State) : Prop :=
  (liveFiles s).Pairwise (fun a b => (s.heap a).age < (s.heap b).age) ∧
  ∀ a ∈ liveFiles s, (s.heap a).age ≤ s.tick ∧
    ∃ q : String, (s.heap a).path = q ++ "/" ++ toString (s.heap a).age

/-- States of a run of `main` with rapid-fill threshold `till`: `init`, the creates of
`performRapidAging` (made only while `live_data_size < till`, in a size class given by
position), the assignment `K = tick`, and the gap-guided operations and the `reAge` calls of
`performStableAging`. -/
inductive AgingReachable (c : Config) (till : Nat) : State → Prop where
  | start {s : State} : init c = Except.ok s → AgingReachable c till s
  | fill {s s1 : State} (pos : Int) (r : Nat) : AgingReachable c till s → 0 ≤ pos →
      s.live_data_size < till → performOp c s true pos r = Except.ok s1 →
      AgingReachable c till s1
  | setK {s : State} : AgingReachable c till s → AgingReachable c till { s with K := s.tick }
  | stableOp {s s1 : State} (create : Bool) (r : Nat) : AgingReachable c till s →
      performOp c s create (-1) r = Except.ok s1 → AgingReachable c till s1
  | reAged {s s1 : State} (t : Nat) : AgingReachable c till s → reAge c s t = Except.ok s1 →
      AgingReachable c till s1

/-- One size class of 4096 bytes on a device of 10240 bytes. -/
def cfgFourK : Config :=
  { age_cutoffs := [1, 2], age_distribution := [1, 1], size_arr := [4096],
    size_distribution := [1], dir_arr := [0], dir_distribution := [1], subdir_arr := [0],
    mount_point := "/mnt", fake := true, total_disk_capacity := 10240,
    victim_draw := libDraw }

/-- Draws under which every operation of the stable phase is a create. -/
def drawsCreate : Draws :=
  { size_draw := fun _ => 1, subdir := fun _ => 0, coin := fun _ => 0, minutes := fun _ => 0 }

/-- The state of a rapid-fill result, `State.blank` when there is none. -/
def filledState (r : Res (Option State)) : State :=
  match r with
  | Except.ok (some s) => s
  | _ => State.blank

/-- Whether a rapid fill returned a state. -/
def isFilled (r : Res (Option State)) : Bool :=
  match r with
  | Except.ok (some _) => true
  | _ => false

/-- Claim C15 (amended) for a state: `live_data_size` is the sum of the sizes of the live
files and is below the capacity plus `M`, a bound on the size classes. -/
def DataSizeBounded (c : Config) (M : Nat) (s : State) : Prop :=
  s.live_data_size = ((liveFiles s).map (fun a => (s.heap a).size)).sum ∧
  s.live_data_size < c.total_disk_capacity + M

/-- In every nested size bucket of an age bucket, `count == 0` goes with `start == NULL`. -/
def NestedStartOK (a : AgeBucket) : Prop :=
  ∀ sz nsb, a.sb sz = some nsb → nsb.count = 0 → nsb.start = none

/-- The quotient `a / b` of two counters rounded up. -/
def ceilDiv (a b : Nat) : Nat := (a + b - 1) / b

/-- Claim C19 for the rapid fill of `s0` up to the threshold `till`, run for at most `fuel`
iterations: the fill ends, it leaves exactly `n` live files, their birth ticks are `1, ..., n`
in the order of the global list, and age bucket 0 holds all of them. -/
def RapidFillExact (c : Config) (dr : Draws) (till n fuel : Nat) (s0 : State) : Prop :=
  isFilled (performRapidAging c dr till fuel 0 s0) = true ∧
  (filledState (performRapidAging c dr till fuel 0 s0)).global_live_file_count = n ∧
  (liveFiles (filledState (performRapidAging c dr till fuel 0 s0))).map
    (fun a => ((filledState (performRapidAging c dr till fuel 0 s0)).heap a).age) =
    (List.range n).map (fun i => i + 1) ∧
  (ageBucketOf (filledState (performRapidAging c dr till fuel 0 s0)) 0).files
    (filledState (performRapidAging c dr till fuel 0 s0)).heap =
    liveFiles (filledState (performRapidAging c dr till fuel 0 s0))

instance (c : Config) (dr : Draws) (till n fuel : Nat) (s0 : State) :
    Decidable (RapidFillExact c dr till n fuel s0) := by
  unfold RapidFillExact
  infer_instance

/-- One size class of one byte on a device of 21 bytes. -/
def cfgOneByte : Config :=
  { age_cutoffs := [1, 2], age_distribution := [1, 1], size_arr := [1],
    size_distribution := [1], dir_arr := [0], dir_distribution := [1], subdir_arr := [0],
    mount_point := "/mnt", fake := true, total_disk_capacity := 21,
    victim_draw := libDraw }

/-- The invariant of the rapid fill with a single size class of `sz` bytes after `k` creates:
the heap invariant with every file in age bucket 0, `k` ticks, `k` live files of birth ticks
`1, ..., k`, and `k * sz` live bytes. -/
def RapidInv (c : Config) (sz : Nat) (s : State) (k : Nat) : Prop :=
  ∃ seg, HeapInv c s seg ∧ (∀ e ∈ s.age_buckets, NestedStartOK e.2) ∧
    (∀ j, 0 < j → seg j = []) ∧ s.tick = k ∧ s.global_live_file_count = k ∧
    s.live_data_size = k * sz ∧
    (cat seg c.NUM_AGES).map (proj File.age s.heap) = (List.range k).map (fun i => i + 1)

/-- Sizes 1 and 2 of equal weights on a device of `2 ^ 32` bytes. -/
def cfgHalves : Config :=
  { age_cutoffs := [1, 2], age_distribution := [1, 1], size_arr := [1, 2],
    size_distribution := [1, 1], dir_arr := [0], dir_distribution := [1], subdir_arr := [0],
    mount_point := "/mnt", fake := true, total_disk_capacity := 4294967296,
    victim_draw := libDraw }

/-- A run of gap-guided creates through `performOp`, one per sibling-directory draw. -/
def gapCreates (rs : List Nat) : List Cmd := rs.map (fun r => Cmd.op true (-1) r)

/-- The invariant of a run of gap-guided creates with the size classes 1 and 2: `a` live files
of size 1 and `b` of size 2, every size bucket with `actual_fraction = count / live`, and
`a + 2 b` live bytes. -/
def GapInv (c : Config) (s : State) (a b : Nat) : Prop :=
  ∃ seg, HeapInv c s seg ∧ (∀ e ∈ s.age_buckets, NestedStartOK e.2) ∧
    s.global_live_file_count = a + b ∧ s.live_data_size = a + 2 * b ∧
    (∀ e ∈ s.size_buckets,
      e.2.actual_fraction = (e.2.count : ℚ) / (s.global_live_file_count : ℚ)) ∧
    ((cat seg c.NUM_AGES).filter (fun x => proj File.size s.heap x = 1)).length = a ∧
    ((cat seg c.NUM_AGES).filter (fun x => proj File.size s.heap x = 2)).length = b

/-- Number of files of size 1 after `n` gap-guided creates. -/
def gapOnes (n : Nat) : Nat := if n ≤ 1000001 then n / 2 else 500000

/-- Number of files of size 2 after `n` gap-guided creates. -/
def gapTwos (n : Nat) : Nat := if n ≤ 1000001 then (n + 1) / 2 else n - 500000

/-- Claim C21 for the run of the gap-guided creates `rs` after `init`: the run returns, and in
the state it leaves the size bucket of size 1 counts `⌊n / 2⌋` files and that of size 2 counts
`⌈n / 2⌉`, `n` being the number of creates; so the two counts differ by at most 1. -/
def GapAlternates (c : Config) (rs : List Nat) : Prop :=
  isOk (run c (gapCreates rs)) = true ∧
  (stateOf (run c (gapCreates rs))).global_live_file_count = rs.length ∧
  (∀ e ∈ (stateOf (run c (gapCreates rs))).size_buckets,
    (e.2.size = 1 → e.2.count = rs.length / 2) ∧
    (e.2.size = 2 → e.2.count = (rs.length + 1) / 2)) ∧
  ∀ e ∈ (stateOf (run c (gapCreates rs))).size_buckets,
    ∀ e1 ∈ (stateOf (run c (gapCreates rs))).size_buckets, e.2.count ≤ e1.2.count + 1

/-- A view holds exactly one entry per bucket id below `n`, each stored under the key recorded
for its id, which is the key computed from the stored bucket; erasing by the recorded key of an
entry removes that entry and nothing else. -/
def ViewExact {β : Type} (bid : β → Nat) (keyOf : β → Key) (n : Nat) (v : List (Key × β))
    (keys : Nat → Key) : Prop :=
  (v.map (fun e => bid e.2)).Perm (List.range n) ∧
  (∀ e ∈ v, keys (bid e.2) = e.1 ∧ e.1 = keyOf e.2) ∧
  ∀ e ∈ v, v.Perm (e :: fmErase (keys (bid e.2)) v)

/-- Claim C32 for a state: the age view, the size view and the dir view are exact. -/
def ViewsExact (c : Config) (s : State) : Prop :=
  ViewExact AgeBucket.id AgeBucket.getKey c.NUM_AGES s.age_buckets s.a_keys ∧
  ViewExact SizeBucket.id (SizeBucket.getKey c.size_arr) c.NUM_SIZES s.size_buckets s.s_keys ∧
  ViewExact DirBucket.id (DirBucket.getKey c.dir_arr) c.NUM_DIRS s.dir_buckets s.d_keys

/-- Claim C36 for a value `T` returned by `calculateT` in the state `s`, the last slice being
`sl`: `T ≥ trunc (K / sl) ≥ K`. -/
def HorizonAfterFill (s : State) (sl : ℚ) (T : Nat) : Prop :=
  toU64 ((s.K : ℚ) / sl) ≤ T ∧ s.K ≤ toU64 ((s.K : ℚ) / sl)

instance (s : State) (sl : ℚ) (T : Nat) : Decidable (HorizonAfterFill s sl T) := by
  unfold HorizonAfterFill
  infer_instance

/-- One depth, `1`, with no sibling fan-out; requests are issued (`fake` is off). -/
def cfgDepthOne : Config :=
  { age_cutoffs := [1, 2], age_distribution := [1, 1], size_arr := [1024],
    size_distribution := [1], dir_arr := [1], dir_distribution := [1], subdir_arr := [0],
    mount_point := "/mnt", fake := false, total_disk_capacity := 10240,
    victim_draw := libDraw }

/-- Sizes 1 and 2 with the weights `3/2` and `3/2`. -/
def cfgFractional : Config :=
  { age_cutoffs := [1, 2], age_distribution := [1, 1], size_arr := [1, 2],
    size_distribution := [3 / 2, 3 / 2], dir_arr := [0], dir_distribution := [1],
    subdir_arr := [0], mount_point := "/mnt", fake := true, total_disk_capacity := 10240,
    victim_draw := libDraw }

/-- Sizes 1 and 2 with the weights `1/2` and `1/2`. -/
def cfgHalfWeights : Config :=
  { age_cutoffs := [1, 2], age_distribution := [1, 1], size_arr := [1, 2],
    size_distribution := [1 / 2, 1 / 2], dir_arr := [0], dir_distribution := [1],
    subdir_arr := [0], mount_point := "/mnt", fake := true, total_disk_capacity := 10240,
    victim_draw := libDraw }

/-- Claim C38 for one family of buckets: `ideal` of the bucket of id `i` is `w_i / Σ_j w_j`
for the weights `ws`, and the ideal fractions of the view sum to 1. -/
def IdealExact {β : Type} (bid : β → Nat) (ideal : β → ℚ) (ws : List Nat)
    (v : List (Key × β)) : Prop :=
  (∀ e ∈ v, ideal e.2 = ((ws.getD (bid e.2) 0 : Nat) : ℚ) / ((ws.sum : Nat) : ℚ)) ∧
  (v.map (fun e => ideal e.2)).sum = 1

/-- Claim C38 for the state left by `init`, with the integer weights `wa`, `ws`, `wd` of the
three families. -/
def IdealsExact (s : State) (wa ws wd : List Nat) : Prop :=
  IdealExact AgeBucket.id AgeBucket.ideal_fraction wa s.age_buckets ∧
  IdealExact SizeBucket.id SizeBucket.ideal_fraction ws s.size_buckets ∧
  IdealExact DirBucket.id DirBucket.ideal_fraction wd s.dir_buckets

/-- Claim C34 as stated, for the dir view of `s`: the head of the view has the smallest
`actual_fraction - ideal_fraction`, ties going to the smaller depth. -/
def HeadHasSmallestGap (s : State) : Prop :=
  match s.dir_buckets with
  | [] => False
  | e :: rest => ∀ x ∈ rest,
      e.2.actual_fraction - e.2.ideal_fraction < x.2.actual_fraction - x.2.ideal_fraction ∨
      (e.2.actual_fraction - e.2.ideal_fraction = x.2.actual_fraction - x.2.ideal_fraction ∧
        e.2.depth < x.2.depth)

instance (s : State) : Decidable (HeadHasSmallestGap s) := by
  unfold HeadHasSmallestGap
  split <;> infer_instance

/-- Depths 0 and 1 with the weights 1000000 and 1000001. -/
def cfgNearTieDirs : Config :=
  { age_cutoffs := [1], age_distribution := [1], size_arr := [1024],
    size_distribution := [1], dir_arr := [0, 1], dir_distribution := [1000000, 1000001],
    subdir_arr := [0, 0], mount_point := "/mnt", fake := true, total_disk_capacity := 10240,
    victim_draw := libDraw }

/-- Claim C34 (amended) for a create made in the state `s` that gives the new file the depth
`depth`: `depth` is the depth of the head of the dir view, whose key has the smallest printed
difference of the view, ties going to the smaller depth; the key of every dir bucket carries its
depth and its gap `actual_fraction - ideal_fraction` as printed with six decimals; and every
create made in `s`, whatever the size position and the draw, gives the new file that depth. -/
def PlacedByPrintedGap (c : Config) (s : State) (depth : Int) : Prop :=
  (∃ k d rest, s.dir_buckets = (k, d) :: rest ∧ depth = d.depth ∧
    ∀ e ∈ rest, k.diff < e.1.diff ∨ (k.diff = e.1.diff ∧ d.depth < e.2.depth)) ∧
  (∀ e ∈ s.dir_buckets,
    e.1.prints e.2.depth (e.2.actual_fraction - e.2.ideal_fraction)) ∧
  ∀ pos r res, createFile c s pos r = Except.ok res →
    (res.state.heap s.next_addr).depth = depth

/-- Claim C33 as stated, for a state. -/
def DataSizeIsSum (s : State) : Prop :=
  s.live_data_size = ((liveFiles s).map (fun a => (s.heap a).size)).sum ∧
  s.global_live_file_count = (liveFiles s).length

instance (s : State) : Decidable (DataSizeIsSum s) := by
  unfold DataSizeIsSum
  infer_instance

/-- Claim C33 (amended) for a state: `live_data_size` is the sum of the sizes of the live
files modulo `2 ^ 64`, hence the sum itself when the sum is below `2 ^ 64`, and
`global_live_file_count` is the number of live files. -/
def DataSizeModSum (s : State) : Prop :=
  s.live_data_size = ((liveFiles s).map (fun a => (s.heap a).size)).sum % 2 ^ 64 ∧
  (((liveFiles s).map (fun a => (s.heap a).size)).sum < 2 ^ 64 →
    s.live_data_size = ((liveFiles s).map (fun a => (s.heap a).size)).sum) ∧
  s.global_live_file_count = (liveFiles s).length

/-- Claim C31 for a state: the global list is strictly ascending in birth tick; the files of
every age bucket (the run of `count` files from `f`) are a contiguous part of the list, from
`f` to `last`; `f` and `last` are both null exactly when `count` is 0; and a bucket of larger
id holds strictly older files. -/
def AgeRuns (s : State) : Prop :=
  (liveFiles s).Pairwise (fun a b => (s.heap a).age < (s.heap b).age) ∧
  (∀ e ∈ s.age_buckets,
    (∃ pre post, liveFiles s = pre ++ e.2.files s.heap ++ post) ∧
    e.2.count = (e.2.files s.heap).length ∧
    e.2.f = (e.2.files s.heap).head? ∧ e.2.last = (e.2.files s.heap).getLast? ∧
    ((e.2.f = none ∧ e.2.last = none) ↔ e.2.count = 0)) ∧
  ∀ e ∈ s.age_buckets, ∀ e1 ∈ s.age_buckets, e.2.id < e1.2.id →
    ∀ x ∈ e1.2.files s.heap, ∀ y ∈ e.2.files s.heap, (s.heap x).age < (s.heap y).age

/-! ## Configurations and statements of the amended claims -/

/-- Two age buckets with ratios `1/2` and `0` and equal weights, size classes of 1024 and 2048
bytes with weights 3 and 1, one depth. -/
def cfgTwoSizes : Config :=
  { age_cutoffs := [1, 2], age_distribution := [1, 1], size_arr := [1024, 2048],
    size_distribution := [3, 1], dir_arr := [0], dir_distribution := [1], subdir_arr := [0],
    mount_point := "/mnt", fake := true, total_disk_capacity := 1048576,
    victim_draw := libDraw }

/-- Claim C6 (amended) for a call `reAge (t)` that takes `s` to `s1`: every age bucket stores
the cutoff `cutoffAt ratio clock`; a file of a bucket `i < N - 1` has a birth tick of at least
that cutoff; and a file of a bucket `i > 0` either was in bucket `i` before the call or has a
birth tick below the cutoff of bucket `i - 1`. -/
def AgedByBirthTick (c : Config) (s s1 : State) (t : Nat) : Prop :=
  ∀ e ∈ s1.age_buckets, ∀ x ∈ e.2.files s1.heap,
    e.2.cutoff = cutoffAt e.2.ratio (if t = 0 then s.tick else t) ∧
    (e.2.id + 1 < c.NUM_AGES →
      cutoffAt e.2.ratio (if t = 0 then s.tick else t) ≤ (s1.heap x).age) ∧
    (0 < e.2.id →
      (∃ e0 ∈ s.age_buckets, e0.2.id = e.2.id ∧ x ∈ e0.2.files s.heap) ∨
      ∃ e0 ∈ s1.age_buckets, e0.2.id = e.2.id - 1 ∧
        (s1.heap x).age < cutoffAt e0.2.ratio (if t = 0 then s.tick else t))

/-- The threshold that `main` hands to `performRapidAging`: the double product
`total_disk_capacity * utilization` converted to `size_t`. -/
def tillSize (c : Config) (utilization : ℚ) : Nat :=
  toU64 (dmul (ofU64 c.total_disk_capacity) utilization)

/-- The age ratio `1 - cutoff_i / cutoff_(N-1)` of the age table in exact arithmetic. -/
def ratioTable (c : Config) (i : Nat) : ℚ :=
  1 - c.age_cutoffs.getD i 0 / c.age_cutoffs.getD (c.NUM_AGES - 1) 0

/-- Age cutoffs 1 and 3 with weights 1 and 3, one size class, one depth. -/
def cfgThirds : Config :=
  { age_cutoffs := [1, 3], age_distribution := [1, 3], size_arr := [1024],
    size_distribution := [1], dir_arr := [0], dir_distribution := [1], subdir_arr := [0],
    mount_point := "/mnt", fake := true, total_disk_capacity := 1048576,
    victim_draw := libDraw }

/-- The state of `cfgThirds` after a rapid fill of two files, with `K = tick` as `main` sets
it. -/
def stateThirds : State :=
  { stateOf (run cfgThirds [Cmd.op true 0 0, Cmd.op true 0 0]) with
    K := (stateOf (run cfgThirds [Cmd.op true 0 0, Cmd.op true 0 0])).tick }

/-- Age cutoffs 2 and 3 with equal weights, one size class, one depth. -/
def cfgTwoThirds : Config :=
  { age_cutoffs := [2, 3], age_distribution := [1, 1], size_arr := [1024],
    size_distribution := [1], dir_arr := [0], dir_distribution := [1], subdir_arr := [0],
    mount_point := "/mnt", fake := true, total_disk_capacity := 1048576,
    victim_draw := libDraw }

/-- The state of `cfgTwoThirds` after a rapid fill of ten files, with `K = tick`. -/
def stateTwoThirds : State :=
  { stateOf (run cfgTwoThirds cmdsTen) with K := (stateOf (run cfgTwoThirds cmdsTen)).tick }

/-- Age cutoffs 2, 4 and 5 with equal weights, one size class, one depth. -/
def cfgFifths : Config :=
  { age_cutoffs := [2, 4, 5], age_distribution := [1, 1, 1], size_arr := [1024],
    size_distribution := [1], dir_arr := [0], dir_distribution := [1], subdir_arr := [0],
    mount_point := "/mnt", fake := true, total_disk_capacity := 1048576,
    victim_draw := libDraw }


/-- Claim C4 (amended) for a state: each view is strictly ascending in the order of its keys
(printed difference, then id), and the key of every bucket carries the bucket's id (the age
bucket id, the file size, the depth value) and its signed gap as printed: `actual - ideal` for
the age and dir views, `ideal - actual` for the size view. -/
def ViewsByPrintedGap (c : Config) (s : State) : Prop :=
  s.age_buckets.Pairwise (fun e e1 => e.1.before e1.1) ∧
  (∀ e ∈ s.age_buckets,
    e.1.prints e.2.id (e.2.actual_fraction - e.2.ideal_fraction)) ∧
  s.size_buckets.Pairwise (fun e e1 => e.1.before e1.1) ∧
  (∀ e ∈ s.size_buckets,
    e.1.prints (c.size_arr.getD e.2.id 0 : Nat) (e.2.ideal_fraction - e.2.actual_fraction)) ∧
  s.dir_buckets.Pairwise (fun e e1 => e.1.before e1.1) ∧
  (∀ e ∈ s.dir_buckets,
    e.1.prints (c.dir_arr.getD e.2.id 0) (e.2.actual_fraction - e.2.ideal_fraction))

/-- Claim C8 (amended) for a gap-guided create made in the state `s` that returns the size
`sz`: `sz` is the size of the entry that comes last in the size view among the entries that fit
(`(size + live_data_size) mod 2 ^ 64 < total_disk_capacity`), every other fitting entry having a
smaller key; and the key of every size bucket carries its size and its gap
`ideal_fraction - actual_fraction` as printed with six decimals. -/
def LastThatFits (c : Config) (s : State) (sz : Nat) : Prop :=
  (∃ e ∈ s.size_buckets, e.2.size = sz ∧
    add64 e.2.size s.live_data_size < c.total_disk_capacity ∧
    ∀ x ∈ s.size_buckets, add64 x.2.size s.live_data_size < c.total_disk_capacity →
      x = e ∨ x.1.before e.1) ∧
  ∀ x ∈ s.size_buckets,
    x.1.prints (x.2.size : Nat) (x.2.ideal_fraction - x.2.actual_fraction)


/-! ## Key strings as the comparator reads them -/

/-- What `std::stod` reads from the second token of a key string: a finite number, an infinity
(`inf`, `-inf`) or not-a-number (`std::to_string` prints a NaN as `nan` or `-nan`). -/
inductive Parsed where
  | fin (q : ℚ)
  | posInf
  | negInf
  | nan
deriving DecidableEq

/-- The comparison `v1 < v2` of two doubles. -/
def Parsed.lt : Parsed → Parsed → Bool
  | Parsed.nan, _ => false
  | _, Parsed.nan => false
  | Parsed.negInf, Parsed.negInf => false
  | Parsed.negInf, _ => true
  | _, Parsed.negInf => false
  | Parsed.posInf, _ => false
  | Parsed.fin _, Parsed.posInf => true
  | Parsed.fin a, Parsed.fin b => decide (a < b)

/-- The comparison `v1 == v2` of two doubles. -/
def Parsed.same : Parsed → Parsed → Bool
  | Parsed.fin a, Parsed.fin b => decide (a = b)
  | Parsed.posInf, Parsed.posInf => true
  | Parsed.negInf, Parsed.negInf => true
  | _, _ => false

/-- A key string `"<id> <diff>"`: the integer written in its first token and the value written
in its second token. -/
structure KeyText where
  id : Int
  diff : Parsed
deriving DecidableEq

/-- `std::stol`: the value when it fits a `long`; `none` stands for `std::out_of_range`. -/
def stol (n : Int) : Option Int :=
  if -(2 ^ 63) ≤ n ∧ n < 2 ^ 63 then some n else none

/-- The comparator `BucketCompare::operator()` on key strings; `none` when `std::stol`
throws. -/
def BucketCompareText (lhs rhs : KeyText) : Option Bool :=
  match stol lhs.id, stol rhs.id with
  | some l_id, some r_id =>
    some (if lhs.diff.lt rhs.diff then true
      else if lhs.diff.same rhs.diff ∧ l_id < r_id then true
      else if lhs.diff.same rhs.diff ∧ l_id > r_id then false
      else false)
  | _, _ => none

/-- The string of a key whose difference is finite. -/
def Key.text (k : Key) : KeyText := ⟨k.id, Parsed.fin k.diff⟩

/-- A key string whose id fits a `long` and whose difference is not a NaN. -/
def KeyText.Valid (k : KeyText) : Prop :=
  -(2 ^ 63) ≤ k.id ∧ k.id < 2 ^ 63 ∧ k.diff ≠ Parsed.nan

instance (k : KeyText) : Decidable k.Valid := by
  unfold KeyText.Valid
  infer_instance

/-- The order of claim C5 on `(diff, id)` pairs. -/
def KeyText.before (l r : KeyText) : Prop :=
  l.diff.lt r.diff = true ∨ (l.diff = r.diff ∧ l.id < r.id)

instance (l r : KeyText) : Decidable (l.before r) := by
  unfold KeyText.before
  infer_instance

/-- Conclusion of the amended claim C3 for the state `s1` reached from `s`: every top-level
size bucket and dir bucket has `actual_fraction = count / live`, and every age bucket either has
`actual_fraction = count / live` or has the id, count and `actual_fraction` that an age bucket
had in `s`. -/
def FractionsKept (s s1 : State) : Prop :=
  (∀ e ∈ s1.size_buckets,
    e.2.actual_fraction = (e.2.count : ℚ) / (s1.global_live_file_count : ℚ)) ∧
  (∀ e ∈ s1.dir_buckets,
    e.2.actual_fraction = (e.2.count : ℚ) / (s1.global_live_file_count : ℚ)) ∧
  (∀ e ∈ s1.age_buckets,
    e.2.actual_fraction = (e.2.count : ℚ) / (s1.global_live_file_count : ℚ) ∨
    ∃ e0 ∈ s.age_buckets, e.2.id = e0.2.id ∧ e.2.count = e0.2.count ∧
      e.2.actual_fraction = e0.2.actual_fraction)


/-- Claim C17 as stated, for a state: the live files have pairwise distinct paths. -/
def PathsDistinct (s : State) : Prop :=
  (liveFiles s).Pairwise (fun a b => (s.heap a).path ≠ (s.heap b).path)

instance (s : State) : Decidable (PathsDistinct s) := by
  unfold PathsDistinct
  infer_instance

/-- Three age buckets with cutoffs 1, 2 and 4 (ratios `3/4`, `1/2`, `0`) and equal weights, one
size class, one depth. -/
def cfgThreeAges : Config :=
  { age_cutoffs := [1, 2, 4], age_distribution := [1, 1, 1], size_arr := [1024],
    size_distribution := [1], dir_arr := [0], dir_distribution := [1], subdir_arr := [0],
    mount_point := "/mnt", fake := true, total_disk_capacity := 1048576,
    victim_draw := libDraw }

/-! ## Results on the comparator -/

theorem BucketCompare_iff (l r : Key) :
    BucketCompare l r = true ↔ (l.diff < r.diff ∨ (l.diff = r.diff ∧ l.id < r.id)) := by
  unfold BucketCompare
  by_cases h1 : l.diff < r.diff
  · simp [h1]
  · by_cases h2 : l.diff = r.diff ∧ l.id < r.id
    · simp [h1, h2]
    · by_cases h3 : l.diff = r.diff ∧ l.id > r.id
      · simp [h1, h2, h3]
      · simp [h1, h2, h3]

theorem BucketCompare_irrefl (k : Key) : BucketCompare k k = false := by
  rw [Bool.eq_false_iff]
  intro h
  rw [BucketCompare_iff] at h
  rcases h with h | ⟨_, h⟩
  · exact lt_irrefl _ h
  · exact lt_irrefl _ h

theorem BucketCompare_trans {a b c : Key} (h1 : BucketCompare a b = true)
    (h2 : BucketCompare b c = true) : BucketCompare a c = true := by
  rw [BucketCompare_iff] at *
  rcases h1 with h1 | ⟨e1, h1⟩ <;> rcases h2 with h2 | ⟨e2, h2⟩
  · exact Or.inl (lt_trans h1 h2)
  · exact Or.inl (e2 ▸ h1)
  · exact Or.inl (e1 ▸ h2)
  · exact Or.inr ⟨e1.trans e2, lt_trans h1 h2⟩

theorem BucketCompare_asymm {a b : Key} (h1 : BucketCompare a b = true) :
    BucketCompare b a = false := by
  rw [Bool.eq_false_iff]
  intro h2
  have := BucketCompare_trans h1 h2
  rw [BucketCompare_irrefl] at this
  exact Bool.false_ne_true this

theorem BucketCompare_total {a b : Key} (h1 : BucketCompare a b = false)
    (h2 : BucketCompare b a = false) : a = b := by
  rw [Bool.eq_false_iff, Ne, BucketCompare_iff] at h1 h2
  push_neg at h1 h2
  have hd : a.diff = b.diff := le_antisymm (h2.1) (h1.1)
  have hi : a.id = b.id := le_antisymm (h2.2 hd.symm) (h1.2 hd)
  cases a; cases b; simp_all

/-- On parsed pairs `BucketCompare (l, r)` is true exactly when `diff_l < diff_r`, or the diffs
are equal and `id_l < id_r`; it is irreflexive and transitive, and two keys that are equivalent
under it have equal ids and equal diffs. -/
theorem BucketCompare_parsed_order (l r : Key) :
    (BucketCompare l r = true ↔ (l.diff < r.diff ∨ (l.diff = r.diff ∧ l.id < r.id))) ∧
    BucketCompare l l = false ∧
    (∀ m : Key, BucketCompare l m = true → BucketCompare m r = true → BucketCompare l r = true) ∧
    (BucketCompare l r = false → BucketCompare r l = false → l.id = r.id ∧ l.diff = r.diff) :=
  ⟨BucketCompare_iff l r, BucketCompare_irrefl l, fun _ h1 h2 => BucketCompare_trans h1 h2,
   fun h1 h2 => by rw [BucketCompare_total h1 h2]; exact ⟨rfl, rfl⟩⟩

theorem stol_of_valid {k : KeyText} (h : k.Valid) : stol k.id = some k.id := by
  unfold stol
  rw [if_pos ⟨h.1, h.2.1⟩]

theorem Parsed.lt_irrefl (a : Parsed) : a.lt a = false := by
  cases a <;> simp [Parsed.lt]

theorem Parsed.same_iff {a b : Parsed} (ha : a ≠ Parsed.nan) : a.same b = true ↔ a = b := by
  cases a <;> cases b <;> simp_all [Parsed.same]

theorem Parsed.lt_chain {a b c : Parsed} (h1 : a.lt b = true) (h2 : b.lt c = true) :
    a.lt c = true := by
  cases a <;> cases b <;> cases c <;> simp_all [Parsed.lt]
  exact h1.trans h2

theorem Parsed.lt_conn {a b : Parsed} (ha : a ≠ Parsed.nan) (hb : b ≠ Parsed.nan)
    (h1 : a.lt b = false) (h2 : b.lt a = false) : a = b := by
  cases a <;> cases b <;> simp_all [Parsed.lt]
  exact le_antisymm h2 h1

theorem BucketCompareText_iff {l r : KeyText} (hl : l.Valid) (hr : r.Valid) :
    BucketCompareText l r = some true ↔ l.before r := by
  unfold BucketCompareText KeyText.before
  rw [stol_of_valid hl, stol_of_valid hr]
  simp only [Option.some.injEq]
  by_cases h1 : l.diff.lt r.diff = true
  · simp [h1]
  · simp only [h1, Bool.false_eq_true, if_false, false_or]
    simp only [Parsed.same_iff hl.2.2]
    by_cases h2 : l.diff = r.diff ∧ l.id < r.id
    · simp [h2]
    · simp only [h2, if_false, iff_false]
      split <;> simp

theorem BucketCompareText_returns {l r : KeyText} (hl : l.Valid) (hr : r.Valid) :
    BucketCompareText l r = some true ∨ BucketCompareText l r = some false := by
  unfold BucketCompareText
  rw [stol_of_valid hl, stol_of_valid hr]
  simp only [Option.some.injEq]
  cases (if l.diff.lt r.diff = true then true
      else if l.diff.same r.diff = true ∧ l.id < r.id then true
      else if l.diff.same r.diff = true ∧ l.id > r.id then false
      else false) <;> simp

theorem BucketCompareText_false_iff {l r : KeyText} (hl : l.Valid) (hr : r.Valid) :
    BucketCompareText l r = some false ↔ ¬ l.before r := by
  rw [← BucketCompareText_iff hl hr]
  rcases BucketCompareText_returns hl hr with h | h <;> simp [h]

theorem KeyText.before_trans {l m r : KeyText} (h1 : l.before m) (h2 : m.before r) :
    l.before r := by
  unfold KeyText.before at *
  rcases h1 with h1 | ⟨h1, h1'⟩
  · rcases h2 with h2 | ⟨h2, _⟩
    · exact Or.inl (Parsed.lt_chain h1 h2)
    · left; rw [← h2]; exact h1
  · rcases h2 with h2 | ⟨h2, h2'⟩
    · left; rw [h1]; exact h2
    · right; exact ⟨h1.trans h2, by omega⟩

/-- C5 (amended): on key strings whose ids fit a `long` and whose differences are not NaN,
`BucketCompare (l, r)` returns, and returns true exactly when `diff_l < diff_r`, or the diffs are
equal and `id_l < id_r`; it is irreflexive and transitive, and two keys that are equivalent under
it have equal ids and equal diffs. -/
theorem BucketCompare_strict_total_order (l r : KeyText) (hl : l.Valid) (hr : r.Valid) :
    (BucketCompareText l r = some true ∨ BucketCompareText l r = some false) ∧
    (BucketCompareText l r = some true ↔ l.before r) ∧
    BucketCompareText l l = some false ∧
    (∀ m : KeyText, m.Valid → BucketCompareText l m = some true →
      BucketCompareText m r = some true → BucketCompareText l r = some true) ∧
    (BucketCompareText l r = some false → BucketCompareText r l = some false →
      l.id = r.id ∧ l.diff = r.diff) := by
  refine ⟨BucketCompareText_returns hl hr, BucketCompareText_iff hl hr, ?_, ?_, ?_⟩
  · rw [BucketCompareText_false_iff hl hl]
    unfold KeyText.before
    rw [Parsed.lt_irrefl]
    simp
  · intro m hm h1 h2
    rw [BucketCompareText_iff hl hm] at h1
    rw [BucketCompareText_iff hm hr] at h2
    rw [BucketCompareText_iff hl hr]
    exact KeyText.before_trans h1 h2
  · intro h1 h2
    rw [BucketCompareText_false_iff hl hr] at h1
    rw [BucketCompareText_false_iff hr hl] at h2
    unfold KeyText.before at h1 h2
    push_neg at h1 h2
    have hd : l.diff = r.diff :=
      Parsed.lt_conn hl.2.2 hr.2.2 (by simpa using h1.1) (by simpa using h2.1)
    have := h1.2 hd
    have := h2.2 hd.symm
    exact ⟨by omega, hd⟩

theorem BucketCompare_strict_total_order_witness :
    (KeyText.mk 1024 (Parsed.fin (-1 / 2))).Valid ∧ (KeyText.mk 4096 (Parsed.fin (-1 / 2))).Valid ∧
    BucketCompareText ⟨1024, Parsed.fin (-1 / 2)⟩ ⟨4096, Parsed.fin (-1 / 2)⟩ = some true ∧
    (BucketCompareText ⟨1024, Parsed.fin (-1 / 2)⟩ ⟨4096, Parsed.fin (-1 / 2)⟩ = some true ↔
      (KeyText.mk 1024 (Parsed.fin (-1 / 2))).before ⟨4096, Parsed.fin (-1 / 2)⟩) :=
  ⟨by decide!, by decide!, by decide!,
    (BucketCompare_strict_total_order ⟨1024, Parsed.fin (-1 / 2)⟩ ⟨4096, Parsed.fin (-1 / 2)⟩
      (by decide!) (by decide!)).2.1⟩

/-- On key strings with finite differences and ids that fit a `long`, the comparator on the
strings is the comparator on the parsed pairs. -/
theorem BucketCompareText_text (k k1 : Key) (hk : k.text.Valid) (hk1 : k1.text.Valid) :
    BucketCompareText k.text k1.text = some (BucketCompare k k1) := by
  unfold BucketCompareText
  rw [stol_of_valid hk, stol_of_valid hk1]
  simp only [Key.text, Parsed.lt, Parsed.same, BucketCompare, decide_eq_true_eq]

/-- Claim C5 fails as stated on the keys that the engine writes after a division of zero by
zero and on ids beyond `long`: a key with the difference `nan` is equivalent to a key with
another id (the comparator is false both ways), and `std::stol` throws on the id `2 ^ 63`. -/
theorem BucketCompare_nan_equivalent :
    BucketCompareText ⟨0, Parsed.nan⟩ ⟨1, Parsed.fin 0⟩ = some false ∧
    BucketCompareText ⟨1, Parsed.fin 0⟩ ⟨0, Parsed.nan⟩ = some false ∧
    (KeyText.mk 0 Parsed.nan).id ≠ (KeyText.mk 1 (Parsed.fin 0)).id ∧
    BucketCompareText ⟨9223372036854775808, Parsed.fin 0⟩ ⟨0, Parsed.fin 0⟩ = none := by
  decide!

theorem ok_bind {α β : Type} (a : α) (f : α → Res β) : (Except.ok a >>= f) = f a := rfl

theorem error_bind {α β : Type} (e : Fault) (f : α → Res β) :
    ((Except.error e : Res α) >>= f) = Except.error e := rfl

theorem pure_eq_ok {α : Type} (a : α) : (pure a : Res α) = Except.ok a := rfl

theorem throw_eq_error {α : Type} (e : Fault) : (throw e : Res α) = Except.error e := rfl

theorem bind_eq_ok {α β : Type} {x : Res α} {f : α → Res β} {b : β}
    (h : (x >>= f) = Except.ok b) : ∃ a, x = Except.ok a ∧ f a = Except.ok b := by
  cases x with
  | error e => simp [error_bind] at h
  | ok a => exact ⟨a, rfl, h⟩

theorem i64ToU64_of_nonneg {t : Int} (h0 : 0 ≤ t) (h1 : t < 2 ^ 64) :
    ((i64ToU64 t : Nat) : Int) = t := by
  unfold i64ToU64
  rw [Int.emod_eq_of_lt h0 h1]
  exact Int.toNat_of_nonneg h0

theorem toI64_nonneg {x : ℚ} (h : 0 ≤ x) : 0 ≤ toI64 x := by
  unfold toI64
  rw [if_pos h]
  exact Int.floor_nonneg.mpr h

/-! ## Results on binary64 rounding -/

theorem log2Fuel_le : ∀ (f n : Nat), 1 ≤ n → 2 ^ log2Fuel f n ≤ n := by
  intro f
  induction f with
  | zero => intro n hn; simpa [log2Fuel] using hn
  | succ f ih =>
    intro n hn
    simp only [log2Fuel]
    split
    · rename_i h2
      have h := ih (n / 2) (by omega)
      rw [pow_succ]
      omega
    · simpa using hn

theorem log2Fuel_lt : ∀ (f n : Nat), n ≤ f → n < 2 ^ (log2Fuel f n + 1) := by
  intro f
  induction f with
  | zero => intro n hn; simp [log2Fuel]; omega
  | succ f ih =>
    intro n hn
    simp only [log2Fuel]
    split
    · rename_i h2
      have h := ih (n / 2) (by omega)
      rw [pow_succ]
      omega
    · simp; omega

/-- The exponent found by `expo` is a lower bound: `2 ^ e ≤ |x|`, written on the numerator
and the denominator. -/
theorem expo_spec (x : ℚ) :
    x.den * 2 ^ (expo x).toNat ≤ x.num.natAbs * 2 ^ (-(expo x)).toNat ∨ x.num.natAbs = 0 := by
  by_cases hn : x.num.natAbs = 0
  · exact Or.inr hn
  left
  have hn1 : 1 ≤ x.num.natAbs := Nat.one_le_iff_ne_zero.mpr hn
  have hd1 : 1 ≤ x.den := x.den_pos
  have hL := log2Fuel_le x.num.natAbs x.num.natAbs hn1
  have hM := log2Fuel_lt x.den x.den (le_refl _)
  unfold expo
  simp only
  generalize log2Fuel x.num.natAbs x.num.natAbs = L at hL ⊢
  generalize log2Fuel x.den x.den = M at hM ⊢
  generalize x.num.natAbs = n at hL hn1 ⊢
  generalize x.den = d at hM hd1 ⊢
  split
  · rename_i h; exact h
  · by_cases hLM : M + 1 ≤ L
    · have e1 : ((L : Int) - (M : Int) - 1).toNat = L - M - 1 := by omega
      have e2 : (-((L : Int) - (M : Int) - 1)).toNat = 0 := by omega
      rw [e1, e2, pow_zero, mul_one]
      have h3 : 2 ^ L = 2 ^ (M + 1) * 2 ^ (L - M - 1) := by
        rw [← pow_add]; congr 1; omega
      have h4 : d * 2 ^ (L - M - 1) ≤ 2 ^ (M + 1) * 2 ^ (L - M - 1) :=
        Nat.mul_le_mul_right _ (le_of_lt hM)
      omega
    · have e1 : ((L : Int) - (M : Int) - 1).toNat = 0 := by omega
      have e2 : (-((L : Int) - (M : Int) - 1)).toNat = M + 1 - L := by omega
      rw [e1, e2, pow_zero, mul_one]
      have h3 : 2 ^ (M + 1) = 2 ^ L * 2 ^ (M + 1 - L) := by
        rw [← pow_add]; congr 1; omega
      have h4 : 2 ^ L * 2 ^ (M + 1 - L) ≤ n * 2 ^ (M + 1 - L) := Nat.mul_le_mul_right _ hL
      omega

theorem le_roundEven {m : Int} {y : ℚ} (h : (m : ℚ) ≤ y) : m ≤ roundEven y := by
  have h1 : m ≤ Int.floor y := Int.le_floor.mpr h
  unfold roundEven
  simp only
  split
  · exact h1
  · split
    · omega
    · split <;> omega

theorem roundEven_le {m : Int} {y : ℚ} (h : y ≤ (m : ℚ)) : roundEven y ≤ m := by
  have h1 : Int.floor y ≤ m := Int.floor_le_iff.mpr (lt_of_le_of_lt h (by simp))
  unfold roundEven
  simp only
  split
  · exact h1
  · rename_i hr
    have hlt : (Int.floor y : ℚ) < y := by
      have := not_lt.mp hr
      linarith
    have h2 : ((Int.floor y : Int) : ℚ) < (m : ℚ) := lt_of_lt_of_le hlt h
    have h3 : Int.floor y < m := by exact_mod_cast h2
    split
    · omega
    · split <;> omega

theorem roundEven_int (m : Int) : roundEven (m : ℚ) = m :=
  le_antisymm (roundEven_le (le_refl _)) (le_roundEven (le_refl _))

theorem scale2_of_nonneg (x : ℚ) {p : Int} (h : 0 ≤ p) :
    scale2 x p = x * (2 : ℚ) ^ p.toNat := by
  unfold scale2
  rw [if_pos h]
  push_cast
  rfl

theorem scale2_of_neg (x : ℚ) {p : Int} (h : p < 0) :
    scale2 x p = x / (2 : ℚ) ^ (-p).toNat := by
  unfold scale2
  rw [if_neg (not_le.mpr h)]
  push_cast
  rfl

theorem fl_zero : fl 0 = 0 := by simp [fl]

theorem scale2_neg_of_nonneg (y : ℚ) {p : Int} (h : 0 ≤ p) :
    scale2 y (-p) = y / (2 : ℚ) ^ p.toNat := by
  by_cases h0 : p = 0
  · subst h0
    rw [neg_zero, scale2_of_nonneg y (le_refl _)]
    simp
  · rw [scale2_of_neg y (by omega), neg_neg]

theorem scale2_neg_of_neg (y : ℚ) {p : Int} (h : p < 0) :
    scale2 y (-p) = y * (2 : ℚ) ^ (-p).toNat :=
  scale2_of_nonneg y (by omega)

theorem rat_eq_natAbs_div {x : ℚ} (hx : 0 < x) : (x.num.natAbs : ℚ) / (x.den : ℚ) = x := by
  have hnum : 0 < x.num := Rat.num_pos.mpr hx
  have h1 : ((x.num.natAbs : Nat) : ℚ) = (x.num : ℚ) := by
    rw [← Int.cast_natCast, Int.natAbs_of_nonneg (le_of_lt hnum)]
  rw [h1]
  exact Rat.num_div_den x

/-- A positive rational is at least `2 ^ expo`. -/
theorem expo_le_of_pos {x : ℚ} (hx : 0 < x) (he : 0 ≤ expo x) :
    (2 : ℚ) ^ (expo x).toNat ≤ x := by
  have hnum : 0 < x.num := Rat.num_pos.mpr hx
  rcases expo_spec x with h | h
  · have e2 : (-(expo x)).toNat = 0 := by omega
    rw [e2, pow_zero, mul_one] at h
    have hd : (0 : ℚ) < (x.den : ℚ) := by exact_mod_cast x.den_pos
    have h3 : ((x.den * 2 ^ (expo x).toNat : Nat) : ℚ) ≤ ((x.num.natAbs : Nat) : ℚ) := by
      exact_mod_cast h
    push_cast at h3
    calc (2 : ℚ) ^ (expo x).toNat ≤ (x.num.natAbs : ℚ) / (x.den : ℚ) := by
          rw [le_div_iff₀ hd]; linarith
      _ = x := rat_eq_natAbs_div hx
  · exfalso
    have : x.num = 0 := Int.natAbs_eq_zero.mp h
    omega

/-- An integer `n` with `0 ≤ n ≤ 2 ^ 53` that is at most `x` is at most `fl x`. -/
theorem fl_ge_int {n : Int} (h0 : 0 ≤ n) (h53 : n ≤ 2 ^ 53) {x : ℚ} (hx : (n : ℚ) ≤ x) :
    (n : ℚ) ≤ fl x := by
  by_cases hz : x = 0
  · rw [hz, fl_zero]; rw [hz] at hx; exact hx
  have hx0 : 0 < x := lt_of_le_of_ne (le_trans (by exact_mod_cast h0) hx) (Ne.symm hz)
  unfold fl
  rw [if_neg hz]
  simp only
  generalize hp : min (52 - expo x) 1074 = p
  by_cases hpos : 0 ≤ p
  · have hk : (0 : ℚ) < (2 : ℚ) ^ p.toNat := by positivity
    have h1 : ((n * 2 ^ p.toNat : Int) : ℚ) ≤ scale2 x p := by
      rw [scale2_of_nonneg x hpos]
      push_cast
      exact mul_le_mul_of_nonneg_right hx (le_of_lt hk)
    have h2 := le_roundEven h1
    have h3 : ((n * 2 ^ p.toNat : Int) : ℚ) ≤ (roundEven (scale2 x p) : ℚ) := by
      exact_mod_cast h2
    push_cast at h3
    rw [scale2_neg_of_nonneg _ hpos, le_div_iff₀ hk]
    exact h3
  · have hlt : p < 0 := not_le.mp hpos
    have hpe : p = 52 - expo x := by
      rcases min_choice (52 - expo x) 1074 with h | h
      · rw [← hp, h]
      · rw [h] at hp; omega
    have he : 53 ≤ expo x := by omega
    have hk : (-p).toNat + 52 = (expo x).toNat := by omega
    have hexp := expo_le_of_pos hx0 (by omega)
    rw [← hk, pow_add] at hexp
    have hk2 : (0 : ℚ) < (2 : ℚ) ^ (-p).toNat := by positivity
    have h1 : (((2 : Int) ^ 52 : Int) : ℚ) ≤ scale2 x p := by
      rw [scale2_of_neg x hlt, le_div_iff₀ hk2]
      push_cast
      linarith
    have h2 := le_roundEven h1
    have h3 : (((2 : Int) ^ 52 : Int) : ℚ) ≤ (roundEven (scale2 x p) : ℚ) := by
      exact_mod_cast h2
    push_cast at h3
    rw [scale2_neg_of_neg _ hlt]
    have h4 : (2 : ℚ) ≤ (2 : ℚ) ^ (-p).toNat := by
      have : 1 ≤ (-p).toNat := by omega
      calc (2 : ℚ) = 2 ^ 1 := by norm_num
        _ ≤ 2 ^ (-p).toNat := pow_le_pow_right₀ (by norm_num) this
    have h5 : (n : ℚ) ≤ 2 ^ 53 := by exact_mod_cast h53
    calc (n : ℚ) ≤ 2 ^ 53 := h5
      _ = 2 ^ 52 * 2 := by norm_num
      _ ≤ (roundEven (scale2 x p) : ℚ) * 2 ^ (-p).toNat :=
        mul_le_mul h3 h4 (by norm_num) (le_trans (by positivity) h3)

/-- A result that is at most an integer `K` with `0 ≤ K ≤ 2 ^ 53` rounds to at most `K`. -/
theorem fl_le_int {K : Int} (h0 : 0 ≤ K) (h53 : K ≤ 2 ^ 53) {x : ℚ} (hx : x ≤ (K : ℚ)) :
    fl x ≤ (K : ℚ) := by
  by_cases hz : x = 0
  · rw [hz, fl_zero]; exact_mod_cast h0
  unfold fl
  rw [if_neg hz]
  simp only
  generalize hp : min (52 - expo x) 1074 = p
  have hK0 : (0 : ℚ) ≤ (K : ℚ) := by exact_mod_cast h0
  by_cases hpos : 0 ≤ p
  · have hk : (0 : ℚ) < (2 : ℚ) ^ p.toNat := by positivity
    have h1 : scale2 x p ≤ ((K * 2 ^ p.toNat : Int) : ℚ) := by
      rw [scale2_of_nonneg x hpos]
      push_cast
      exact mul_le_mul_of_nonneg_right hx (le_of_lt hk)
    have h2 := roundEven_le h1
    have h3 : (roundEven (scale2 x p) : ℚ) ≤ ((K * 2 ^ p.toNat : Int) : ℚ) := by
      exact_mod_cast h2
    push_cast at h3
    rw [scale2_neg_of_nonneg _ hpos, div_le_iff₀ hk]
    exact h3
  · have hlt : p < 0 := not_le.mp hpos
    have hk2 : (0 : ℚ) < (2 : ℚ) ^ (-p).toNat := by positivity
    rw [scale2_neg_of_neg _ hlt]
    by_cases hx0 : 0 < x
    · have hpe : p = 52 - expo x := by
        rcases min_choice (52 - expo x) 1074 with h | h
        · rw [← hp, h]
        · rw [h] at hp; omega
      have he : 53 ≤ expo x := by omega
      have hexp := expo_le_of_pos hx0 (by omega)
      have h53q : (K : ℚ) ≤ 2 ^ 53 := by exact_mod_cast h53
      -- `2 ^ expo ≤ x ≤ K ≤ 2 ^ 53` leaves `expo = 53` and `x = 2 ^ 53`
      have hle : (2 : ℚ) ^ (expo x).toNat ≤ 2 ^ 53 := le_trans hexp (le_trans hx h53q)
      have he2 : (expo x).toNat ≤ 53 := by
        by_contra hcon
        have : (2 : ℚ) ^ 54 ≤ 2 ^ (expo x).toNat :=
          pow_le_pow_right₀ (by norm_num) (by omega)
        have : (2 : ℚ) ^ 54 ≤ 2 ^ 53 := le_trans this hle
        norm_num at this
      have he3 : (expo x).toNat = 53 := by omega
      rw [he3] at hexp
      have hxe : x = 2 ^ 53 := le_antisymm (le_trans hx h53q) hexp
      have hKe : (K : ℚ) = 2 ^ 53 := le_antisymm h53q (by rw [← hxe]; exact hx)
      have hp1 : (-p).toNat = 1 := by omega
      have hs : scale2 x p = (((2 : Int) ^ 52 : Int) : ℚ) := by
        rw [scale2_of_neg x hlt, hp1, hxe]
        norm_num
      rw [hs, roundEven_int, hp1, hKe]
      norm_num
    · have hxneg : x ≤ 0 := not_lt.mp hx0
      have h1 : scale2 x p ≤ ((0 : Int) : ℚ) := by
        rw [scale2_of_neg x hlt]
        push_cast
        exact div_nonpos_of_nonpos_of_nonneg hxneg (le_of_lt hk2)
      have h2 := roundEven_le h1
      have h3 : (roundEven (scale2 x p) : ℚ) ≤ 0 := by exact_mod_cast h2
      have : (roundEven (scale2 x p) : ℚ) * 2 ^ (-p).toNat ≤ 0 :=
        mul_nonpos_of_nonpos_of_nonneg h3 (le_of_lt hk2)
      linarith

/-- A natural number of at most `2 ^ 53` is a binary64 number. -/
theorem fl_nat {n : Nat} (h : n ≤ 2 ^ 53) : fl (n : ℚ) = (n : ℚ) := by
  have h0 : (0 : Int) ≤ (n : Int) := Int.ofNat_nonneg n
  have h53 : (n : Int) ≤ 2 ^ 53 := by exact_mod_cast h
  have hx : ((n : Int) : ℚ) ≤ (n : ℚ) := by simp
  have hx1 : (n : ℚ) ≤ ((n : Int) : ℚ) := by simp
  have h1 := fl_ge_int h0 h53 hx
  have h2 := fl_le_int h0 h53 hx1
  simp only [Int.cast_natCast] at h1 h2
  exact le_antisymm h2 h1

theorem fl_nonneg {x : ℚ} (h : 0 ≤ x) : 0 ≤ fl x := by
  have := fl_ge_int (le_refl (0 : Int)) (by norm_num) (x := x) (by simpa using h)
  simpa using this

theorem ofU64_of_le {n : Nat} (h : n ≤ 2 ^ 53) : ofU64 n = (n : ℚ) := fl_nat h

theorem calculateTLoop_eq (s : State) (N : Nat) (b : Nat → AgeBucket)
    (hfind : ∀ i, i < N → fmFind (s.a_keys i) s.age_buckets = some (b i))
    (hs : ∀ i, i < N → 0 < sliceD (fun j => (b j).ratio) i)
    (hid : ∀ i, i < N → 0 ≤ (b i).ideal_fraction)
    (hK : 2 * s.K < 2 ^ 64)
    (ht : ∀ i, i < N → tD s.K N (fun j => (b j).ratio) (fun j => (b j).ideal_fraction) i < 2 ^ 63) :
    ∀ n, n + 1 ≤ N - 1 → ∃ T : Nat, calculateTLoop s (n + 1) = Except.ok T ∧
      (T : Int) = maxUpTo (tD s.K N (fun j => (b j).ratio) (fun j => (b j).ideal_fraction)) n := by
  have tnonneg : ∀ i, i < N - 1 →
      0 ≤ tD s.K N (fun j => (b j).ratio) (fun j => (b j).ideal_fraction) i := by
    intro i hi
    have hiN : i < N := by omega
    unfold tD
    rw [if_pos hi]
    apply toI64_nonneg
    unfold dmul ofU64
    exact fl_nonneg (mul_nonneg (fl_nonneg (Nat.cast_nonneg _))
      (fl_nonneg (div_nonneg (hid i hiN) (le_of_lt (hs i hiN)))))
  have key : ∀ i, i < N - 1 → ∀ T0 : Nat,
      calculateTLoop s i = Except.ok T0 →
      ∃ T : Nat, calculateTLoop s (i + 1) = Except.ok T ∧
        (T : Int) = max (T0 : Int)
          (tD s.K N (fun j => (b j).ratio) (fun j => (b j).ideal_fraction) i) := by
    intro i hi T0 hT0
    have hiN : i < N := by omega
    have hsi := hs i hiN
    have hne : sliceD (fun j => (b j).ratio) i ≠ 0 := ne_of_gt hsi
    have htv : tD s.K N (fun j => (b j).ratio) (fun j => (b j).ideal_fraction) i =
        toI64 (dmul (ofU64 (2 * s.K % 2 ^ 64))
          (fl ((b i).ideal_fraction / sliceD (fun j => (b j).ratio) i))) := by
      unfold tD
      rw [if_pos hi, Nat.mod_eq_of_lt hK]
    have ht0 := tnonneg i hi
    have ht1 := ht i hiN
    have hconv := i64ToU64_of_nonneg ht0 (lt_trans ht1 (by norm_num))
    have hprev : i ≠ 0 → fmFind (s.a_keys (i - 1)) s.age_buckets = some (b (i - 1)) :=
      fun h0 => hfind (i - 1) (by omega)
    have hsl : (if i = 0 then (pure (dsub 1 (b i).ratio) : Res ℚ) else
        (match fmFind (s.a_keys (i - 1)) s.age_buckets with
         | some y => pure (dsub y.ratio (b i).ratio)
         | none => throw Fault.undefinedBehaviour)) =
        Except.ok (sliceD (fun j => (b j).ratio) i) := by
      unfold sliceD
      by_cases h0 : i = 0
      · subst h0; simp [pure_eq_ok]
      · simp [h0, hprev h0, pure_eq_ok]
    simp only [calculateTLoop, hT0, hfind i hiN, ok_bind, pure_bind]
    rw [hsl]
    simp only [ok_bind, ddiv, if_neg hne, pure_bind, pure_eq_ok]
    rw [← htv]
    refine ⟨_, rfl, ?_⟩
    split
    · rename_i hlt
      rw [hconv]
      have hlt' : (T0 : Int) <
          tD s.K N (fun j => (b j).ratio) (fun j => (b j).ideal_fraction) i := by
        rw [← hconv]; exact_mod_cast hlt
      exact (max_eq_right (le_of_lt hlt')).symm
    · rename_i hlt
      have hlt' : ¬ ((T0 : Int) <
          tD s.K N (fun j => (b j).ratio) (fun j => (b j).ideal_fraction) i) := by
        rw [← hconv]; exact_mod_cast hlt
      exact (max_eq_left (not_lt.mp hlt')).symm
  intro n
  induction n with
  | zero =>
    intro hn
    obtain ⟨T, hT, hv⟩ := key 0 (by omega) 0 (by simp [calculateTLoop, pure, Except.pure])
    refine ⟨T, hT, ?_⟩
    rw [hv]
    simp only [maxUpTo]
    apply max_eq_right
    exact_mod_cast tnonneg 0 (by omega)
  | succ n ih =>
    intro hn
    obtain ⟨T0, hT0, hv0⟩ := ih (by omega)
    obtain ⟨T, hT, hv⟩ := key (n + 1) (by omega) T0 hT0
    exact ⟨T, hT, by rw [hv, hv0]; rfl⟩

theorem toU64_cast_of_nonneg {x : ℚ} (h : 0 ≤ x) : ((toU64 x : Nat) : Int) = toI64 x := by
  unfold toU64 toI64
  rw [if_pos h]
  exact Int.toNat_of_nonneg (Int.floor_nonneg.mpr h)

/-- C10 (amended): for at least two age buckets whose binary64 slices are positive and whose
ideal fractions are non-negative (values within the 64-bit range), `calculateT` returns the
maximum of the truncated `t_i`, replaced by `K / s_(N-1)` when `s_(N-1) * T <= K`, every
product, quotient, sum and difference being the binary64 result (`calculateT_d`). -/
theorem calculateT_eq_spec (c : Config) (s : State) (ratio ideal : Nat → ℚ)
    (hN : 2 ≤ c.NUM_AGES)
    (hfind : ∀ i, i < c.NUM_AGES →
      (fmFind (s.a_keys i) s.age_buckets).map (fun b => (b.ratio, b.ideal_fraction)) =
        some (ratio i, ideal i))
    (hs : ∀ i, i < c.NUM_AGES → 0 < sliceD ratio i)
    (hid : ∀ i, i < c.NUM_AGES → 0 ≤ ideal i)
    (hK : 2 * s.K < 2 ^ 64)
    (ht : ∀ i, i < c.NUM_AGES → tD s.K c.NUM_AGES ratio ideal i < 2 ^ 63) :
    ∃ T : Nat, calculateT c s = Except.ok T ∧
      (T : Int) = calculateT_d s.K c.NUM_AGES ratio ideal := by
  -- the buckets found under the recorded keys
  let b : Nat → AgeBucket := fun i =>
    if i < c.NUM_AGES then (fmFind (s.a_keys i) s.age_buckets).getD (AgeBucket.new 0)
    else { (AgeBucket.new 0) with ratio := ratio i, ideal_fraction := ideal i }
  have hb : ∀ i, i < c.NUM_AGES → fmFind (s.a_keys i) s.age_buckets = some (b i) ∧
      (b i).ratio = ratio i ∧ (b i).ideal_fraction = ideal i := by
    intro i hi
    have h := hfind i hi
    cases hf : fmFind (s.a_keys i) s.age_buckets with
    | none => rw [hf] at h; simp at h
    | some x =>
      rw [hf] at h
      simp only [Option.map_some', Option.some.injEq, Prod.mk.injEq] at h
      have hbx : b i = x := by simp only [b, if_pos hi, hf, Option.getD_some]
      rw [hbx]
      exact ⟨rfl, h.1, h.2⟩
  have hr : (fun j => (b j).ratio) = ratio := by
    funext j
    by_cases hj : j < c.NUM_AGES
    · exact (hb j hj).2.1
    · simp only [b, if_neg hj]
  have hi' : (fun j => (b j).ideal_fraction) = ideal := by
    funext j
    by_cases hj : j < c.NUM_AGES
    · exact (hb j hj).2.2
    · simp only [b, if_neg hj]
  obtain ⟨n, hn⟩ : ∃ n, c.NUM_AGES = n + 2 := ⟨c.NUM_AGES - 2, by omega⟩
  obtain ⟨T0, hT0, hv0⟩ := calculateTLoop_eq s c.NUM_AGES b (fun i hi => (hb i hi).1)
    (by rw [hr]; exact hs) (by intro i hi; rw [(hb i hi).2.2]; exact hid i hi) hK
    (by rw [hr, hi']; exact ht) n (by omega)
  rw [hr, hi'] at hv0
  have hlast : c.NUM_AGES - 1 = n + 1 := by omega
  have hlt : n + 1 < c.NUM_AGES := by omega
  have hlt' : n < c.NUM_AGES := by omega
  have hsl : sliceD ratio (n + 1) = dsub (b n).ratio (b (n + 1)).ratio := by
    unfold sliceD
    rw [if_neg (by omega), (hb n hlt').2.1, (hb (n + 1) hlt).2.1]
    rfl
  have hspos := hs (n + 1) hlt
  have hne : dsub (b n).ratio (b (n + 1)).ratio ≠ 0 := by rw [← hsl]; exact ne_of_gt hspos
  have htl : tD s.K c.NUM_AGES ratio ideal (n + 1) =
      toI64 (fl (dadd (dmul (ofU64 (2 * s.K % 2 ^ 64)) (dsub (b (n + 1)).ideal_fraction 1))
        (ofU64 s.K) / dsub (b n).ratio (b (n + 1)).ratio)) := by
    unfold tD
    rw [if_neg (by omega), Nat.mod_eq_of_lt hK, hsl, (hb (n + 1) hlt).2.2]
  have hkey : (if c.NUM_AGES ≤ 1 then Key.empty else s.a_keys (c.NUM_AGES - 1 - 1)) =
      s.a_keys n := by
    rw [if_neg (by omega)]
    congr 1
    omega
  simp only [calculateT, hkey]
  rw [hlast, hT0]
  simp only [ok_bind, (hb (n + 1) hlt).1, (hb n hlt').1, pure_bind, ddiv, if_neg hne, pure_eq_ok]
  rw [← htl, ← hsl]
  -- the maximum after the last bucket
  obtain ⟨T1, hT1, hmax⟩ : ∃ T1 : Nat,
      (if tD s.K c.NUM_AGES ratio ideal (n + 1) > 0 ∧
        T0 < i64ToU64 (tD s.K c.NUM_AGES ratio ideal (n + 1))
      then i64ToU64 (tD s.K c.NUM_AGES ratio ideal (n + 1)) else T0) = T1 ∧
      (T1 : Int) = maxUpTo (tD s.K c.NUM_AGES ratio ideal) (n + 1) := by
    refine ⟨_, rfl, ?_⟩
    simp only [maxUpTo, ← hv0]
    by_cases hpos : tD s.K c.NUM_AGES ratio ideal (n + 1) > 0
    · have hconv := i64ToU64_of_nonneg (le_of_lt hpos)
        (lt_trans (ht (n + 1) hlt) (by norm_num))
      by_cases hcmp : T0 < i64ToU64 (tD s.K c.NUM_AGES ratio ideal (n + 1))
      · rw [if_pos ⟨hpos, hcmp⟩, hconv]
        have h2 : (T0 : Int) < tD s.K c.NUM_AGES ratio ideal (n + 1) := by
          rw [← hconv]; exact_mod_cast hcmp
        exact (max_eq_right (le_of_lt h2)).symm
      · rw [if_neg (fun h => hcmp h.2)]
        have h2 : ¬ ((T0 : Int) < tD s.K c.NUM_AGES ratio ideal (n + 1)) := by
          rw [← hconv]; exact_mod_cast hcmp
        exact (max_eq_left (not_lt.mp h2)).symm
    · rw [if_neg (fun h => hpos h.1)]
      have h2 : tD s.K c.NUM_AGES ratio ideal (n + 1) ≤ (T0 : Int) :=
        le_trans (not_lt.mp hpos) (Int.ofNat_nonneg T0)
      exact (max_eq_left h2).symm
  rw [hT1]
  unfold calculateT_d
  simp only [hlast]
  rw [← hmax]
  have hcast : fl (((T1 : Int) : ℚ)) = ofU64 T1 := by
    unfold ofU64
    rw [Int.cast_natCast]
  rw [hcast]
  by_cases hle : dmul (sliceD ratio (n + 1)) (ofU64 T1) ≤ ofU64 s.K
  · rw [if_pos hle]
    refine ⟨_, rfl, ?_⟩
    rw [if_pos hle]
    apply toU64_cast_of_nonneg
    exact fl_nonneg (div_nonneg (fl_nonneg (Nat.cast_nonneg _)) (le_of_lt hspos))
  · rw [if_neg hle]
    refine ⟨_, rfl, ?_⟩
    rw [if_neg hle]

theorem calculateT_eq_spec_witness :
    ∃ T : Nat, calculateT cfgTwoAges { stateOf (run cfgTwoAges []) with K := 10 } = Except.ok T ∧
      (T : Int) = calculateT_d 10 2 (fun i => if i = 0 then 1 / 2 else 0) (fun _ => 1 / 2) :=
  calculateT_eq_spec cfgTwoAges { stateOf (run cfgTwoAges []) with K := 10 }
    (fun i => if i = 0 then 1 / 2 else 0) (fun _ => 1 / 2)
    (by decide) (by decide!) (by decide!) (by decide!) (by decide!) (by decide!)
/-- Claim C10 fails in exact arithmetic: with age cutoffs 1 and 3, weights 1 and 3 and
`K = 2`, the formula of the claim gives 3, with the ratios of the age table (`2/3`, `0`) as with
the ratios that `init` stores, while `calculateT` returns 2: the stored ratio of bucket 0 is
the binary64 number just above `2/3`, the last slice is just above `2/3` as well, and `2 / s`
rounds to a double below 3. -/
theorem calculateT_not_exact_formula :
    stateThirds.K = 2 ∧
    isOk (calculateT cfgThirds stateThirds) = true ∧
    valOf (calculateT cfgThirds stateThirds) 0 = 2 ∧
    calculateT_spec 2 2 (ratioTable cfgThirds)
      (fun i => (ageBucketOf stateThirds i).ideal_fraction) = 3 ∧
    calculateT_spec 2 2 (fun i => (ageBucketOf stateThirds i).ratio)
      (fun i => (ageBucketOf stateThirds i).ideal_fraction) = 3 ∧
    (List.range 2).map (fun i => ((ageBucketOf stateThirds i).ratio,
      (ageBucketOf stateThirds i).ideal_fraction)) =
      [(3002399751580331 / 4503599627370496, 1 / 4), (0, 3 / 4)] := by
  decide!

/-! ## Results on `flat_map` -/

theorem mem_fmInsert {β : Type} {k : Key} {v : β} {l : List (Key × β)} {e : Key × β}
    (h : e ∈ fmInsert k v l) : e = (k, v) ∨ e ∈ l := by
  induction l with
  | nil => simp [fmInsert] at h; exact Or.inl h
  | cons x xs ih =>
    simp only [fmInsert] at h
    split at h
    · rcases List.mem_cons.mp h with h | h
      · exact Or.inr (h ▸ List.mem_cons_self _ _)
      · rcases ih h with h | h
        · exact Or.inl h
        · exact Or.inr (List.mem_cons_of_mem _ h)
    · split at h
      · rcases List.mem_cons.mp h with h | h
        · exact Or.inl h
        · exact Or.inr h
      · exact Or.inr h

theorem mem_fmErase {β : Type} {k : Key} {l : List (Key × β)} {e : Key × β}
    (h : e ∈ fmErase k l) : e ∈ l := by
  induction l with
  | nil => simp [fmErase] at h
  | cons x xs ih =>
    simp only [fmErase] at h
    split at h
    · rcases List.mem_cons.mp h with h | h
      · exact h ▸ List.mem_cons_self _ _
      · exact List.mem_cons_of_mem _ (ih h)
    · split at h
      · exact h
      · exact List.mem_cons_of_mem _ h

theorem fmInsert_sorted {β : Type} (k : Key) (v : β) {l : List (Key × β)}
    (hl : l.Pairwise (fun e e1 => BucketCompare e.1 e1.1 = true)) :
    (fmInsert k v l).Pairwise (fun e e1 => BucketCompare e.1 e1.1 = true) := by
  induction l with
  | nil => simp [fmInsert]
  | cons x xs ih =>
    simp only [fmInsert]
    rw [List.pairwise_cons] at hl
    split
    · rename_i hxk
      rw [List.pairwise_cons]
      refine ⟨?_, ih hl.2⟩
      intro e he
      rcases mem_fmInsert he with h | h
      · rw [h]; exact hxk
      · exact hl.1 e h
    · split
      · rename_i hkx
        rw [List.pairwise_cons]
        refine ⟨?_, List.pairwise_cons.mpr hl⟩
        intro e he
        rcases List.mem_cons.mp he with h | h
        · rw [h]; exact hkx
        · exact BucketCompare_trans hkx (hl.1 e h)
      · exact List.pairwise_cons.mpr hl

theorem fmErase_sorted {β : Type} (k : Key) {l : List (Key × β)}
    (hl : l.Pairwise (fun e e1 => BucketCompare e.1 e1.1 = true)) :
    (fmErase k l).Pairwise (fun e e1 => BucketCompare e.1 e1.1 = true) := by
  induction l with
  | nil => simp [fmErase]
  | cons x xs ih =>
    simp only [fmErase]
    rw [List.pairwise_cons] at hl
    split
    · rw [List.pairwise_cons]
      exact ⟨fun e he => hl.1 e (mem_fmErase he), ih hl.2⟩
    · split
      · exact List.pairwise_cons.mpr hl
      · exact hl.2

theorem KeyedBy.nilKeyed {β : Type} (keyOf : β → Key) : KeyedBy keyOf ([] : List (Key × β)) :=
  ⟨List.Pairwise.nil, fun _ h => by simp at h⟩

theorem KeyedBy.insert {β : Type} {keyOf : β → Key} {v : List (Key × β)} (h : KeyedBy keyOf v)
    (b : β) : KeyedBy keyOf (fmInsert (keyOf b) b v) := by
  refine ⟨fmInsert_sorted _ _ h.1, ?_⟩
  intro e he
  rcases mem_fmInsert he with h1 | h1
  · rw [h1]
  · exact h.2 e h1

theorem KeyedBy.erase {β : Type} {keyOf : β → Key} {v : List (Key × β)} (h : KeyedBy keyOf v)
    (k : Key) : KeyedBy keyOf (fmErase k v) :=
  ⟨fmErase_sorted _ h.1, fun e he => h.2 e (mem_fmErase he)⟩

theorem setKey_same (m : Nat → Key) (i : Nat) (k : Key) : setKey m i k i = k := by
  simp [setKey]

/-! ## The views stay keyed and sorted -/

theorem fdiv_eq_ok {a b : Nat} {q : ℚ} (h : fdiv a b = Except.ok q) :
    b ≠ 0 ∧ q = (a : ℚ) / (b : ℚ) := by
  unfold fdiv at h
  split at h
  · simp [throw_eq_error] at h
  · rename_i hb
    simp only [pure_eq_ok, Except.ok.injEq] at h
    exact ⟨hb, h.symm⟩

theorem dir_reKey_eq_ok {dir_arr : List Int} {d d1 : DirBucket} {live : Nat}
    {keys keys1 : Nat → Key} (h : d.reKey dir_arr live keys = Except.ok (d1, keys1)) :
    live ≠ 0 ∧ d1 = { d with actual_fraction := (d.count : ℚ) / (live : ℚ) } ∧
    keys1 = setKey keys d.id (d1.getKey dir_arr) := by
  unfold DirBucket.reKey at h
  obtain ⟨q, hq, h⟩ := bind_eq_ok h
  obtain ⟨hl, rfl⟩ := fdiv_eq_ok hq
  simp only [pure_eq_ok, Except.ok.injEq, Prod.mk.injEq] at h
  obtain ⟨rfl, rfl⟩ := h
  exact ⟨hl, rfl, rfl⟩

theorem size_reKey_eq_ok {size_arr : List Nat} {b b1 : SizeBucket} {live : Nat}
    {keys keys1 : Nat → Key} (h : b.reKey size_arr live keys = Except.ok (b1, keys1)) :
    live ≠ 0 ∧ b1 = { b with actual_fraction := (b.count : ℚ) / (live : ℚ) } ∧
    keys1 = setKey keys b.id (b1.getKey size_arr) := by
  unfold SizeBucket.reKey at h
  obtain ⟨q, hq, h⟩ := bind_eq_ok h
  obtain ⟨hl, rfl⟩ := fdiv_eq_ok hq
  simp only [pure_eq_ok, Except.ok.injEq, Prod.mk.injEq] at h
  obtain ⟨rfl, rfl⟩ := h
  exact ⟨hl, rfl, rfl⟩

theorem rebuildDirs_keyed (c : Config) (live : Nat) :
    ∀ (old acc : List (Key × DirBucket)) (keys : Nat → Key)
      (res : List (Key × DirBucket)) (keys1 : Nat → Key),
      rebuildDirs c live old acc keys = Except.ok (res, keys1) →
      KeyedBy (DirBucket.getKey c.dir_arr) acc → KeyedBy (DirBucket.getKey c.dir_arr) res := by
  intro old
  induction old with
  | nil =>
    intro acc keys res keys1 h hacc
    simp only [rebuildDirs, pure_eq_ok, Except.ok.injEq, Prod.mk.injEq] at h
    rw [← h.1]; exact hacc
  | cons e es ih =>
    intro acc keys res keys1 h hacc
    simp only [rebuildDirs] at h
    obtain ⟨⟨d1, k1⟩, hr, h⟩ := bind_eq_ok h
    obtain ⟨_, hd1, hk1⟩ := dir_reKey_eq_ok hr
    apply ih _ _ _ _ h
    have hkey : k1 d1.id = d1.getKey c.dir_arr := by
      rw [hk1, hd1]; exact setKey_same _ _ _
    simp only [hkey]
    exact hacc.insert d1

theorem rebuildSizes_keyed (c : Config) (live : Nat) :
    ∀ (old acc : List (Key × SizeBucket)) (keys : Nat → Key)
      (res : List (Key × SizeBucket)) (keys1 : Nat → Key),
      rebuildSizes c live old acc keys = Except.ok (res, keys1) →
      KeyedBy (SizeBucket.getKey c.size_arr) acc →
      KeyedBy (SizeBucket.getKey c.size_arr) res := by
  intro old
  induction old with
  | nil =>
    intro acc keys res keys1 h hacc
    simp only [rebuildSizes, pure_eq_ok, Except.ok.injEq, Prod.mk.injEq] at h
    rw [← h.1]; exact hacc
  | cons e es ih =>
    intro acc keys res keys1 h hacc
    simp only [rebuildSizes] at h
    obtain ⟨⟨d1, k1⟩, hr, h⟩ := bind_eq_ok h
    obtain ⟨_, hd1, hk1⟩ := size_reKey_eq_ok hr
    apply ih _ _ _ _ h
    have hkey : k1 d1.id = d1.getKey c.size_arr := by
      rw [hk1, hd1]; exact setKey_same _ _ _
    simp only [hkey]
    exact hacc.insert d1

theorem storeDir_keyed {c : Config} {live : Nat} {view res : List (Key × DirBucket)}
    {keys keys1 : Nat → Key} {d : DirBucket}
    (h : storeDir c live view keys d = Except.ok (res, keys1)) :
    KeyedBy (DirBucket.getKey c.dir_arr) res := by
  unfold storeDir at h
  obtain ⟨⟨d1, k1⟩, _, h⟩ := bind_eq_ok h
  exact rebuildDirs_keyed c live _ _ _ _ _ h (KeyedBy.nilKeyed _)

theorem storeSize_keyed {c : Config} {live : Nat} {view res : List (Key × SizeBucket)}
    {keys keys1 : Nat → Key} {sb sb1 : SizeBucket}
    (h : storeSize c live view keys sb sb1 = Except.ok (res, keys1)) :
    KeyedBy (SizeBucket.getKey c.size_arr) res := by
  unfold storeSize at h
  exact rebuildSizes_keyed c live _ _ _ _ _ h (KeyedBy.nilKeyed _)

theorem storeAge_keyed {view : List (Key × AgeBucket)} {keys : Nat → Key} {ab ab1 : AgeBucket}
    (h : KeyedBy AgeBucket.getKey view) :
    KeyedBy AgeBucket.getKey (storeAge view keys ab ab1).1 := by
  unfold storeAge
  simp only [setKey_same]
  exact (h.erase _).insert ab1
/-- Decomposition of a call of `createFile` that returns. -/
theorem createFile_eq_ok {c : Config} {s : State} {pos : Int} {r : Nat} {res : CreateResult}
    (h : createFile c s pos r = Except.ok res) :
    ∃ (sb : SizeBucket) (d : DirBucket) (dv : List (Key × DirBucket)) (dk : Nat → Key)
      (h1 h2 h3 : Heap) (sb1 : SizeBucket) (sv : List (Key × SizeBucket)) (sk : Nat → Key)
      (ab ab1 : AgeBucket),
      (if pos ≥ 0 then
        (match fmFind (s.s_keys pos.toNat) s.size_buckets with
         | some b => pure b
         | none => throw Fault.assertion)
       else pickSize s.live_data_size c.total_disk_capacity s.size_buckets.reverse) =
        Except.ok sb ∧
      (∃ k rest, s.dir_buckets = (k, d) :: rest) ∧
      storeDir c (s.global_live_file_count + 1) s.dir_buckets s.d_keys
        { d with count := d.count + 1 } = Except.ok (dv, dk) ∧
      AgeList.addFile (s.heap.upd s.next_addr
        (fun _ => File.new (fileName d s.tick r) sb.size s.tick d.depth)) s.fs s.next_addr =
        Except.ok h1 ∧
      sb.addFile h1 s.next_addr (s.global_live_file_count + 1) = Except.ok (h2, sb1) ∧
      storeSize c (s.global_live_file_count + 1) s.size_buckets s.s_keys sb sb1 =
        Except.ok (sv, sk) ∧
      fmFind (s.a_keys 0) s.age_buckets = some ab ∧
      ab.addFile h2 s.next_addr (s.global_live_file_count + 1) false = Except.ok (h3, ab1) ∧
      res = { state := { s with
                heap := h3
                next_addr := s.next_addr + 1
                io := (File.new (fileName d s.tick r) sb.size s.tick d.depth).createFile c s.io
                global_live_file_count := s.global_live_file_count + 1
                dir_buckets := dv
                d_keys := dk
                size_buckets := sv
                s_keys := sk
                age_buckets := (storeAge s.age_buckets s.a_keys ab ab1).1
                a_keys := (storeAge s.age_buckets s.a_keys ab ab1).2 }
              ret_size := sb.size
              create_succeeded := 0 } := by
  unfold createFile at h
  obtain ⟨sb, hsb, h⟩ := bind_eq_ok h
  obtain ⟨d, hd, h⟩ := bind_eq_ok h
  obtain ⟨⟨dv, dk⟩, hdv, h⟩ := bind_eq_ok h
  obtain ⟨h1, hh1, h⟩ := bind_eq_ok h
  obtain ⟨⟨h2, sb1⟩, hh2, h⟩ := bind_eq_ok h
  obtain ⟨⟨sv, sk⟩, hsv, h⟩ := bind_eq_ok h
  obtain ⟨ab, hab, h⟩ := bind_eq_ok h
  obtain ⟨⟨h3, ab1⟩, hh3, h⟩ := bind_eq_ok h
  refine ⟨sb, d, dv, dk, h1, h2, h3, sb1, sv, sk, ab, ab1, hsb, ?_, hdv, hh1, hh2, hsv, ?_, hh3, ?_⟩
  · cases hv : s.dir_buckets with
    | nil => rw [hv] at hd; simp [throw_eq_error] at hd
    | cons e es =>
      rw [hv] at hd
      simp only [pure_eq_ok, Except.ok.injEq] at hd
      exact ⟨e.1, es, by rw [← hd]⟩
  · cases hf : fmFind (s.a_keys 0) s.age_buckets with
    | none => rw [hf] at hab; simp [throw_eq_error] at hab
    | some b =>
      rw [hf] at hab
      simp only [pure_eq_ok, Except.ok.injEq] at hab
      rw [hab]
  · simp only [pure_eq_ok, Except.ok.injEq] at h
    rw [← h]
    rfl
theorem umFind_eq_ok {κ β : Type} {m : κ → Option β} {k : κ} {v : β}
    (h : umFind m k = Except.ok v) : m k = some v := by
  unfold umFind at h
  split at h
  · rename_i w hw
    simp only [pure_eq_ok, Except.ok.injEq] at h
    rw [hw, h]
  · simp [throw_eq_error] at h

theorem deref_eq_ok {p : Ptr} {a : Addr} (h : deref p = Except.ok a) : p = some a := by
  unfold deref at h
  split at h
  · simp only [pure_eq_ok, Except.ok.injEq] at h
    rw [h]
  · simp [throw_eq_error] at h

/-- Decomposition of `AgeBucket::addFile`. -/
theorem age_addFile_eq_ok {hp h1 : Heap} {a a1 : AgeBucket} {f : Addr} {live : Nat}
    {at_front : Bool} (h : a.addFile hp f live at_front = Except.ok (h1, a1)) :
    ∃ (s : SizeBucket) (d d1 : DirBucket),
      a.sb (hp f).size = some s ∧ s.db (hp f).depth = some d ∧
      d.addFile hp f live = Except.ok (h1, d1) ∧ live ≠ 0 ∧
      ¬ (s.count + 1 = 1 ∧ s.start ≠ none) ∧ ¬ (a.f = none ∧ a.last ≠ none) ∧
      a1 = { a with
        count := a.count + 1
        actual_fraction := ((a.count + 1 : Nat) : ℚ) / (live : ℚ)
        sb := umInsert (umErase a.sb (hp f).size) (h1 f).size
          (if s.count + 1 = 1 then
            { s with db := umInsert (umErase s.db (hp f).depth) (hp f).depth d1,
                     count := s.count + 1, start := some f }
           else { s with db := umInsert (umErase s.db (hp f).depth) (hp f).depth d1,
                         count := s.count + 1 })
        f := if at_front then some f else if a.f = none then some f else a.f
        last := if at_front then (if a.f = none then some f else a.last) else some f } := by
  unfold AgeBucket.addFile at h
  obtain ⟨s, hs, h⟩ := bind_eq_ok h
  obtain ⟨d, hd, h⟩ := bind_eq_ok h
  obtain ⟨⟨h1', d1⟩, hd1, h⟩ := bind_eq_ok h
  dsimp only at h
  split at h
  · simp [throw_eq_error] at h
  · rename_i hassert1
    obtain ⟨q, hq, h⟩ := bind_eq_ok h
    obtain ⟨hl, rfl⟩ := fdiv_eq_ok hq
    split at h
    · simp [throw_eq_error] at h
    · rename_i hassert2
      simp only [pure_eq_ok, Except.ok.injEq, Prod.mk.injEq] at h
      obtain ⟨rfl, rfl⟩ := h
      refine ⟨s, d, d1, umFind_eq_ok hs, umFind_eq_ok hd, hd1, hl, hassert1, hassert2, ?_⟩
      by_cases hf : a.f = none <;> by_cases haf : at_front = true <;>
        by_cases hc : s.count + 1 = 1 <;> simp [hf, haf, hc]
/-- Decomposition of `DirBucket::addFile`. -/
theorem dir_addFile_eq_ok {hp h1 : Heap} {d d1 : DirBucket} {f : Addr} {live : Nat}
    (h : d.addFile hp f live = Except.ok (h1, d1)) :
    live ≠ 0 ∧
    ((d.start = none ∧ d.count = 0 ∧
      h1 = (hp.upd f (fun r => { r with dir_next := some f })).upd f
        (fun r => { r with dir_prev := some f }) ∧
      d1 = { d with count := d.count + 1
                    actual_fraction := ((d.count + 1 : Nat) : ℚ) / (live : ℚ)
                    start := some f }) ∨
     (∃ st p, d.start = some st ∧ 0 < d.count ∧
      (((hp.upd f (fun r => { r with dir_next := some st })).upd f
        (fun r => { r with dir_prev :=
          ((hp.upd f (fun r => { r with dir_next := some st })) st).dir_prev })) st).dir_prev
        = some p ∧
      h1 = ((((hp.upd f (fun r => { r with dir_next := some st })).upd f
        (fun r => { r with dir_prev :=
          ((hp.upd f (fun r => { r with dir_next := some st })) st).dir_prev })).upd p
        (fun r => { r with dir_next := some f })).upd st
        (fun r => { r with dir_prev := some f })) ∧
      d1 = { d with count := d.count + 1
                    actual_fraction := ((d.count + 1 : Nat) : ℚ) / (live : ℚ) })) := by
  unfold DirBucket.addFile at h
  obtain ⟨q, hq, h⟩ := bind_eq_ok h
  obtain ⟨hl, rfl⟩ := fdiv_eq_ok hq
  refine ⟨hl, ?_⟩
  dsimp only at h
  cases hst : d.start with
  | none =>
    rw [hst] at h
    dsimp only at h
    split at h
    · simp [throw_eq_error] at h
    · rename_i hc
      simp only [pure_eq_ok, Except.ok.injEq, Prod.mk.injEq] at h
      obtain ⟨rfl, rfl⟩ := h
      left
      refine ⟨rfl, ?_, rfl, rfl⟩
      simpa using hc
  | some st =>
    rw [hst] at h
    dsimp only at h
    split at h
    · simp [throw_eq_error] at h
    · rename_i hc
      obtain ⟨p, hp', h⟩ := bind_eq_ok h
      simp only [pure_eq_ok, Except.ok.injEq, Prod.mk.injEq] at h
      obtain ⟨rfl, rfl⟩ := h
      right
      refine ⟨st, p, rfl, ?_, deref_eq_ok hp', rfl, rfl⟩
      simp only [not_not] at hc
      omega

/-- Decomposition of `DirBucket::deleteFile`. -/
theorem dir_deleteFile_eq_ok {hp h1 : Heap} {d d1 : DirBucket} {f : Addr} {live : Nat}
    (h : d.deleteFile hp f live = Except.ok (h1, d1)) :
    live ≠ 0 ∧ 0 < d.count ∧
    ∃ p n, (hp f).dir_prev = some p ∧
      ((hp.upd p (fun r => { r with dir_next := (hp f).dir_next })) f).dir_next = some n ∧
      h1 = (((hp.upd p (fun r => { r with dir_next := (hp f).dir_next })).upd n
        (fun r => { r with dir_prev :=
          ((hp.upd p (fun r => { r with dir_next := (hp f).dir_next })) f).dir_prev })).upd f
        (fun r => { r with dir_next := none, dir_prev := none })) ∧
      d1 = { d with count := d.count - 1
                    actual_fraction := ((d.count - 1 : Nat) : ℚ) / (live : ℚ)
                    start := if d.count - 1 = 0 then none
                             else if d.start = some f then (hp f).dir_next else d.start } := by
  unfold DirBucket.deleteFile at h
  split at h
  · simp [throw_eq_error] at h
  · rename_i hc
    obtain ⟨q, hq, h⟩ := bind_eq_ok h
    obtain ⟨hl, rfl⟩ := fdiv_eq_ok hq
    obtain ⟨p, hp', h⟩ := bind_eq_ok h
    obtain ⟨n, hn, h⟩ := bind_eq_ok h
    simp only [pure_eq_ok, Except.ok.injEq, Prod.mk.injEq] at h
    obtain ⟨rfl, rfl⟩ := h
    refine ⟨hl, by simp only [not_not] at hc; exact hc, p, n, deref_eq_ok hp', deref_eq_ok hn,
      rfl, ?_⟩
    by_cases h0 : d.count - 1 = 0
    · simp [h0]
    · by_cases h1 : d.start = some f <;> simp [h0, h1]

/-- Decomposition of `SizeBucket::addFile`. -/
theorem size_addFile_eq_ok {hp h1 : Heap} {s s1 : SizeBucket} {f : Addr} {live : Nat}
    (h : s.addFile hp f live = Except.ok (h1, s1)) :
    live ≠ 0 ∧ ∃ d, s.db (hp f).depth = some d ∧
    ((s.start = none ∧ s.count = 0 ∧
      h1 = (hp.upd f (fun r => { r with size_next := some f })).upd f
        (fun r => { r with size_prev := some f }) ∧
      s1 = { s with count := s.count + 1
                    actual_fraction := ((s.count + 1 : Nat) : ℚ) / (live : ℚ)
                    db := umInsert (umErase s.db (hp f).depth) (hp f).depth
                      (if d.count + 1 = 1 then { d with count := d.count + 1, start := some f }
                       else { d with count := d.count + 1 })
                    start := some f }) ∨
     (∃ st p, s.start = some st ∧
      (((hp.upd f (fun r => { r with size_next := some st })).upd f
        (fun r => { r with size_prev :=
          ((hp.upd f (fun r => { r with size_next := some st })) st).size_prev })) st).size_prev
        = some p ∧
      h1 = ((((hp.upd f (fun r => { r with size_next := some st })).upd f
        (fun r => { r with size_prev :=
          ((hp.upd f (fun r => { r with size_next := some st })) st).size_prev })).upd p
        (fun r => { r with size_next := some f })).upd st
        (fun r => { r with size_prev := some f })) ∧
      s1 = { s with count := s.count + 1
                    actual_fraction := ((s.count + 1 : Nat) : ℚ) / (live : ℚ)
                    db := umInsert (umErase s.db (hp f).depth) (hp f).depth
                      (if d.count + 1 = 1 then { d with count := d.count + 1, start := some f }
                       else { d with count := d.count + 1 }) })) := by
  unfold SizeBucket.addFile at h
  obtain ⟨d, hd, h⟩ := bind_eq_ok h
  obtain ⟨q, hq, h⟩ := bind_eq_ok h
  obtain ⟨hl, rfl⟩ := fdiv_eq_ok hq
  refine ⟨hl, d, umFind_eq_ok hd, ?_⟩
  dsimp only at h
  cases hst : s.start with
  | none =>
    rw [hst] at h
    dsimp only at h
    split at h
    · simp [throw_eq_error] at h
    · rename_i hc
      simp only [pure_eq_ok, Except.ok.injEq, Prod.mk.injEq] at h
      obtain ⟨rfl, rfl⟩ := h
      left
      refine ⟨rfl, by simpa using hc, rfl, ?_⟩
      by_cases hd1 : d.count + 1 = 1 <;> simp [hd1]
  | some st =>
    rw [hst] at h
    dsimp only at h
    obtain ⟨p, hp', h⟩ := bind_eq_ok h
    simp only [pure_eq_ok, Except.ok.injEq, Prod.mk.injEq] at h
    obtain ⟨rfl, rfl⟩ := h
    right
    refine ⟨st, p, rfl, deref_eq_ok hp', rfl, ?_⟩
    by_cases hd1 : d.count + 1 = 1 <;> simp [hd1]

/-- Decomposition of `SizeBucket::deleteFile`. -/
theorem size_deleteFile_eq_ok {hp h1 : Heap} {s s1 : SizeBucket} {f : Addr} {live : Nat}
    (h : s.deleteFile hp f live = Except.ok (h1, s1)) :
    live ≠ 0 ∧ ∃ d p n, s.db (hp f).depth = some d ∧ (hp f).size_prev = some p ∧
      ((hp.upd p (fun r => { r with size_next := (hp f).size_next })) f).size_next = some n ∧
      h1 = (((hp.upd p (fun r => { r with size_next := (hp f).size_next })).upd n
        (fun r => { r with size_prev :=
          ((hp.upd p (fun r => { r with size_next := (hp f).size_next })) f).size_prev })).upd f
        (fun r => { r with size_next := none, size_prev := none })) ∧
      s1 = { s with count := dec64 s.count
                    actual_fraction := ((dec64 s.count : Nat) : ℚ) / (live : ℚ)
                    db := umInsert (umErase s.db (hp f).depth) (hp f).depth
                      { d with count := dec64 d.count
                               start := if dec64 d.count = 0 then none
                                        else if d.start = some f then (hp f).dir_next
                                        else d.start }
                    start := if dec64 s.count = 0 then none
                             else if s.start = some f then (hp f).size_next else s.start } := by
  unfold SizeBucket.deleteFile at h
  obtain ⟨q, hq, h⟩ := bind_eq_ok h
  obtain ⟨hl, rfl⟩ := fdiv_eq_ok hq
  obtain ⟨d, hd, h⟩ := bind_eq_ok h
  obtain ⟨p, hp', h⟩ := bind_eq_ok h
  obtain ⟨n, hn, h⟩ := bind_eq_ok h
  simp only [pure_eq_ok, Except.ok.injEq, Prod.mk.injEq] at h
  obtain ⟨rfl, rfl⟩ := h
  refine ⟨hl, d, p, n, umFind_eq_ok hd, deref_eq_ok hp', deref_eq_ok hn, rfl, ?_⟩
  by_cases h0 : dec64 s.count = 0 <;> by_cases h1 : s.start = some f <;>
    by_cases h2 : dec64 d.count = 0 <;> by_cases h3 : d.start = some f <;>
    simp [h0, h1, h2, h3]

/-- Decomposition of `AgeBucket::deleteFile`. -/
theorem age_deleteFile_eq_ok {hp h1 : Heap} {a a1 : AgeBucket} {f : Addr} {live : Nat}
    (h : a.deleteFile hp f live = Except.ok (h1, a1)) :
    ∃ (s : SizeBucket) (d d1 : DirBucket),
      a.sb (hp f).size = some s ∧ s.db (hp f).depth = some d ∧
      d.deleteFile hp f live = Except.ok (h1, d1) ∧ live ≠ 0 ∧
      a1 = { a with
        count := dec64 a.count
        actual_fraction := ((dec64 a.count : Nat) : ℚ) / (live : ℚ)
        sb := umInsert (umErase a.sb (hp f).size) (h1 f).size
          { s with db := umInsert (umErase s.db (hp f).depth) (h1 f).depth d1
                   count := dec64 s.count
                   start := if dec64 s.count = 0 then none
                            else if s.start = some f then (h1 f).size_next else s.start }
        f := if dec64 a.count = 0 then none
             else if a.f = some f then (h1 f).next else a.f
        last := if dec64 a.count = 0 then none
                else if a.last = some f then (h1 f).prev else a.last } := by
  unfold AgeBucket.deleteFile at h
  obtain ⟨q, hq, h⟩ := bind_eq_ok h
  obtain ⟨hl, rfl⟩ := fdiv_eq_ok hq
  obtain ⟨s, hs, h⟩ := bind_eq_ok h
  obtain ⟨d, hd, h⟩ := bind_eq_ok h
  obtain ⟨⟨h1', d1⟩, hd1, h⟩ := bind_eq_ok h
  simp only [pure_eq_ok, Except.ok.injEq, Prod.mk.injEq] at h
  obtain ⟨rfl, rfl⟩ := h
  refine ⟨s, d, d1, umFind_eq_ok hs, umFind_eq_ok hd, hd1, hl, ?_⟩
  by_cases h0 : dec64 a.count = 0
  · by_cases h2 : dec64 s.count = 0 <;> by_cases h3 : s.start = some f <;> simp [h0, h2, h3]
  · by_cases h1 : a.f = some f <;> by_cases h4 : a.last = some f <;>
      by_cases h2 : dec64 s.count = 0 <;> by_cases h3 : s.start = some f <;>
      simp [h0, h1, h2, h3, h4, Nat.pos_of_ne_zero h0]

/-- Decomposition of `AgeList::addFile`. -/
theorem list_addFile_eq_ok {hp h1 : Heap} {fs f : Addr}
    (h : AgeList.addFile hp fs f = Except.ok h1) :
    ∃ p, (((hp.upd f (fun r => { r with next := some fs })).upd f
        (fun r => { r with prev := ((hp.upd f (fun r => { r with next := some fs })) fs).prev }))
        fs).prev = some p ∧
      h1 = ((((hp.upd f (fun r => { r with next := some fs })).upd f
        (fun r => { r with prev := ((hp.upd f (fun r => { r with next := some fs })) fs).prev })).upd
        p (fun r => { r with next := some f })).upd fs (fun r => { r with prev := some f })) := by
  unfold AgeList.addFile at h
  obtain ⟨p, hp', h⟩ := bind_eq_ok h
  simp only [pure_eq_ok, Except.ok.injEq] at h
  exact ⟨p, deref_eq_ok hp', h.symm⟩
/-- Decomposition of `AgeList::deleteFile`. -/
theorem list_deleteFile_eq_ok {hp h1 : Heap} {fs f : Addr}
    (h : AgeList.deleteFile hp fs f = Except.ok h1) :
    ∃ (h0 : Heap) (p n : Addr),
      h0 = (if (hp fs).next = some f then hp.upd fs (fun r => { r with next := (hp f).next })
            else if (hp fs).prev = some f then
              hp.upd fs (fun r => { r with prev := (hp f).prev })
            else hp) ∧
      (h0 f).prev = some p ∧
      ((h0.upd p (fun r => { r with next := (h0 f).next })) f).next = some n ∧
      h1 = (((h0.upd p (fun r => { r with next := (h0 f).next })).upd n
        (fun r => { r with prev := ((h0.upd p (fun r => { r with next := (h0 f).next })) f).prev })).upd
        f (fun r => { r with next := none, prev := none })) := by
  unfold AgeList.deleteFile at h
  obtain ⟨p, hp', h⟩ := bind_eq_ok h
  obtain ⟨n, hn, h⟩ := bind_eq_ok h
  simp only [pure_eq_ok, Except.ok.injEq] at h
  exact ⟨_, p, n, rfl, deref_eq_ok hp', deref_eq_ok hn, h.symm⟩

/-- Decomposition of a call of `deleteFile` that returns. -/
theorem deleteFile_eq_ok {c : Config} {s s1 : State} {sz : Nat}
    (h : deleteFile c s = Except.ok (s1, sz)) :
    ∃ (ab : AgeBucket) (sb : SizeBucket) (db : DirBucket) (f : Addr)
      (dv : List (Key × DirBucket)) (dk : Nat → Key) (h1 h2 h3 : Heap) (ab1 : AgeBucket)
      (sb1 : SizeBucket) (sv : List (Key × SizeBucket)) (sk : Nat → Key),
      findVictim c s = Except.ok (ab, sb, db, some f) ∧
      storeDir c (dec64 s.global_live_file_count) s.dir_buckets s.d_keys
        { db with count := dec64 db.count } = Except.ok (dv, dk) ∧
      ab.deleteFile s.heap f (dec64 s.global_live_file_count) = Except.ok (h1, ab1) ∧
      sb.deleteFile h1 f (dec64 s.global_live_file_count) = Except.ok (h2, sb1) ∧
      storeSize c (dec64 s.global_live_file_count) s.size_buckets s.s_keys sb sb1 =
        Except.ok (sv, sk) ∧
      AgeList.deleteFile h2 s.fs f = Except.ok h3 ∧
      sz = (s.heap f).size ∧
      s1 = { s with
        heap := h3
        io := (s.heap f).deleteFile c s.io
        global_live_file_count := dec64 s.global_live_file_count
        dir_buckets := dv
        d_keys := dk
        age_buckets := (storeAge s.age_buckets s.a_keys ab ab1).1
        a_keys := (storeAge s.age_buckets s.a_keys ab ab1).2
        size_buckets := sv
        s_keys := sk } := by
  unfold deleteFile at h
  obtain ⟨⟨ab, sb, db, fp⟩, hv, h⟩ := bind_eq_ok h
  obtain ⟨f, hf, h⟩ := bind_eq_ok h
  obtain ⟨⟨dv, dk⟩, hdv, h⟩ := bind_eq_ok h
  obtain ⟨⟨h1, ab1⟩, hh1, h⟩ := bind_eq_ok h
  obtain ⟨⟨h2, sb1⟩, hh2, h⟩ := bind_eq_ok h
  obtain ⟨⟨sv, sk⟩, hsv, h⟩ := bind_eq_ok h
  obtain ⟨h3, hh3, h⟩ := bind_eq_ok h
  have hfp : fp = some f := by
    cases fp with
    | none => simp [throw_eq_error] at hf
    | some a =>
      simp only [pure_eq_ok, Except.ok.injEq] at hf
      rw [hf]
  rw [hfp] at hv
  simp only [pure_eq_ok, Except.ok.injEq, Prod.mk.injEq] at h
  exact ⟨ab, sb, db, f, dv, dk, h1, h2, h3, ab1, sb1, sv, sk, hv, hdv, hh1, hh2, hsv, hh3,
    h.2.symm, h.1.symm⟩

/-- Decomposition of a call of `reAge` that returns. -/
theorem reAge_eq_ok {c : Config} {s s1 : State} {t : Nat} (h : reAge c s t = Except.ok s1) :
    ∃ (ab ab1 : List AgeBucket) (h1 : Heap),
      loadAges s (if t = 0 then s.tick else t) c.NUM_AGES = Except.ok ab ∧
      (match ab with
       | [] => pure (s.heap, [])
       | a :: rest => reAgeLoop s.global_live_file_count s.heap a rest) = Except.ok (h1, ab1) ∧
      s1 = { s with
        heap := h1
        age_buckets := (storeAges 0 ab1 s.age_buckets s.a_keys).1
        a_keys := (storeAges 0 ab1 s.age_buckets s.a_keys).2 } := by
  unfold reAge at h
  obtain ⟨ab, hab, h⟩ := bind_eq_ok h
  obtain ⟨⟨h1, ab1⟩, hl, h⟩ := bind_eq_ok h
  simp only [pure_eq_ok, Except.ok.injEq] at h
  exact ⟨ab, ab1, h1, hab, hl, h.symm⟩

/-- Decomposition of a call of `performOp` that returns: a create, or a delete (the branch
`create_succeeded == -1` is never taken by a `createFile` that returns). -/
theorem performOp_eq_ok {c : Config} {s s1 : State} {create : Bool} {pos : Int} {r : Nat}
    (h : performOp c s create pos r = Except.ok s1) :
    (create = true ∧ ∃ res, createFile c { s with tick := s.tick + 1 } pos r = Except.ok res ∧
      s1 = { res.state with
        live_data_size := add64 res.state.live_data_size res.ret_size
        workload_size := add64 res.state.workload_size res.ret_size }) ∨
    (create = false ∧ ∃ s2 sz, deleteFile c { s with tick := s.tick + 1 } = Except.ok (s2, sz) ∧
      s1 = { s2 with live_data_size := sub64 s2.live_data_size sz }) := by
  unfold performOp at h
  cases create with
  | true =>
    left
    refine ⟨rfl, ?_⟩
    simp only [if_true] at h
    obtain ⟨⟨s2, cs⟩, h1, h⟩ := bind_eq_ok h
    obtain ⟨res, hres, h1⟩ := bind_eq_ok h1
    obtain ⟨_, _, _, _, _, _, _, _, _, _, _, _, _, _, _, _, _, _, _, _, hr⟩ :=
      createFile_eq_ok hres
    have hcs : res.create_succeeded = 0 := by rw [hr]
    rw [if_pos hcs] at h1
    simp only [pure_eq_ok, Except.ok.injEq, Prod.mk.injEq] at h1
    obtain ⟨rfl, rfl⟩ := h1
    refine ⟨res, hres, ?_⟩
    simp only [hcs] at h
    simp only [Bool.not_true, false_or, pure_eq_ok] at h
    norm_num at h
    exact h.symm
  | false =>
    right
    refine ⟨rfl, ?_⟩
    simp only [Bool.false_eq_true, if_false, pure_bind] at h
    simp only [not_false_eq_true, true_or, if_true] at h
    obtain ⟨⟨s2, sz⟩, h2, h⟩ := bind_eq_ok h
    simp only [pure_eq_ok, Except.ok.injEq] at h
    exact ⟨s2, sz, h2, h.symm⟩
theorem fmFind_some {β : Type} {k : Key} {l : List (Key × β)} {b : β}
    (h : fmFind k l = some b) : (k, b) ∈ l := by
  induction l with
  | nil => simp [fmFind] at h
  | cons x xs ih =>
    simp only [fmFind] at h
    split at h
    · exact List.mem_cons_of_mem _ (ih h)
    · rename_i h1
      split at h
      · simp at h
      · rename_i h2
        simp only [Option.some.injEq] at h
        have hk : x.1 = k := BucketCompare_total (by simpa using h1) (by simpa using h2)
        rw [← hk, ← h]
        exact List.mem_cons_self _ _

theorem age_id_of_find {c : Config} {s : State} (hv : ViewsKeyed c s) {i : Nat}
    {b : AgeBucket} (h : fmFind (s.a_keys i) s.age_buckets = some b) : b.id = i := by
  have hm := fmFind_some h
  have hk := hv.1.2 _ hm
  simp only at hk
  rcases hv.2.2.2 i with h1 | h1
  · rw [hk] at h1
    simp only [AgeBucket.getKey] at h1
    exact_mod_cast h1
  · rw [h1] at hk
    have := congrArg Key.id hk
    simp only [AgeBucket.getKey, Key.empty] at this
    omega

theorem loadAges_ids {c : Config} {s : State} (hv : ViewsKeyed c s) (clock : Nat) :
    ∀ (n : Nat) (l : List AgeBucket), loadAges s clock n = Except.ok l →
      l.map AgeBucket.id = List.range n := by
  intro n
  induction n with
  | zero =>
    intro l h
    simp only [loadAges, pure_eq_ok, Except.ok.injEq] at h
    rw [← h]; rfl
  | succ n ih =>
    intro l h
    simp only [loadAges] at h
    obtain ⟨l0, hl0, h⟩ := bind_eq_ok h
    cases hf : fmFind (s.a_keys n) s.age_buckets with
    | none => rw [hf] at h; simp [throw_eq_error] at h
    | some b =>
      rw [hf] at h
      simp only [pure_eq_ok, Except.ok.injEq] at h
      rw [← h, List.map_append, ih l0 hl0, List.range_succ]
      simp [age_id_of_find hv hf]

theorem age_addFile_id {hp h1 : Heap} {a a1 : AgeBucket} {f : Addr} {live : Nat}
    {at_front : Bool} (h : a.addFile hp f live at_front = Except.ok (h1, a1)) :
    a1.id = a.id := by
  obtain ⟨_, _, _, _, _, _, _, _, _, rfl⟩ := age_addFile_eq_ok h
  rfl

theorem age_deleteFile_id {hp h1 : Heap} {a a1 : AgeBucket} {f : Addr} {live : Nat}
    (h : a.deleteFile hp f live = Except.ok (h1, a1)) : a1.id = a.id := by
  obtain ⟨_, _, _, _, _, _, _, rfl⟩ := age_deleteFile_eq_ok h
  rfl

theorem migrate_ids (live : Nat) :
    ∀ (n : Nat) (hp : Heap) (a b : AgeBucket) (h1 : Heap) (a1 b1 : AgeBucket),
      migrate live n hp a b = Except.ok (h1, a1, b1) → a1.id = a.id ∧ b1.id = b.id := by
  intro n
  induction n with
  | zero =>
    intro hp a b h1 a1 b1 h
    simp only [migrate, pure_eq_ok, Except.ok.injEq, Prod.mk.injEq] at h
    obtain ⟨_, rfl, rfl⟩ := h
    exact ⟨rfl, rfl⟩
  | succ n ih =>
    intro hp a b h1 a1 b1 h
    simp only [migrate] at h
    split at h
    · obtain ⟨f, _, h⟩ := bind_eq_ok h
      split at h
      · simp only [pure_eq_ok, Except.ok.injEq, Prod.mk.injEq] at h
        obtain ⟨_, rfl, rfl⟩ := h
        exact ⟨rfl, rfl⟩
      · obtain ⟨⟨h2, a2⟩, ha2, h⟩ := bind_eq_ok h
        obtain ⟨⟨h3, b2⟩, hb2, h⟩ := bind_eq_ok h
        obtain ⟨e1, e2⟩ := ih _ _ _ _ _ _ h
        exact ⟨e1.trans (age_deleteFile_id ha2), e2.trans (age_addFile_id hb2)⟩
    · simp only [pure_eq_ok, Except.ok.injEq, Prod.mk.injEq] at h
      obtain ⟨_, rfl, rfl⟩ := h
      exact ⟨rfl, rfl⟩

theorem reAgeLoop_ids (live : Nat) :
    ∀ (rest : List AgeBucket) (hp : Heap) (a : AgeBucket) (h1 : Heap) (l : List AgeBucket),
      reAgeLoop live hp a rest = Except.ok (h1, l) →
      l.map AgeBucket.id = (a :: rest).map AgeBucket.id := by
  intro rest
  induction rest with
  | nil =>
    intro hp a h1 l h
    simp only [reAgeLoop, pure_eq_ok, Except.ok.injEq, Prod.mk.injEq] at h
    rw [← h.2]
  | cons b rest ih =>
    intro hp a h1 l h
    simp only [reAgeLoop] at h
    obtain ⟨⟨h2, a1, b1⟩, hm, h⟩ := bind_eq_ok h
    obtain ⟨⟨h3, tl⟩, htl, h⟩ := bind_eq_ok h
    simp only [pure_eq_ok, Except.ok.injEq, Prod.mk.injEq] at h
    have hid : a1.id = a.id ∧ b1.id = b.id := by
      split at hm
      · simp only [pure_eq_ok, Except.ok.injEq, Prod.mk.injEq] at hm
        obtain ⟨_, rfl, rfl⟩ := hm
        exact ⟨rfl, rfl⟩
      · exact migrate_ids live _ _ _ _ _ _ _ hm
    rw [← h.2, List.map_cons, ih _ _ _ _ htl, List.map_cons, List.map_cons, List.map_cons,
      hid.1, hid.2]

theorem storeAges_keyed :
    ∀ (l : List AgeBucket) (i : Nat) (view : List (Key × AgeBucket)) (keys : Nat → Key),
      l.map AgeBucket.id = List.range' i l.length →
      KeyedBy AgeBucket.getKey view →
      (∀ j : Nat, (keys j).id = (j : Int) ∨ keys j = Key.empty) →
      KeyedBy AgeBucket.getKey (storeAges i l view keys).1 ∧
      ∀ j : Nat, ((storeAges i l view keys).2 j).id = (j : Int) ∨
        (storeAges i l view keys).2 j = Key.empty := by
  intro l
  induction l with
  | nil =>
    intro i view keys _ hv hk
    exact ⟨hv, hk⟩
  | cons a rest ih =>
    intro i view keys hid hv hk
    simp only [List.map_cons, List.length_cons, List.range'_succ, List.cons.injEq] at hid
    simp only [storeAges, AgeBucket.replace]
    apply ih
    · exact hid.2
    · have : setKey keys a.id a.getKey i = a.getKey := by rw [← hid.1]; exact setKey_same _ _ _
      rw [this]
      exact (hv.erase _).insert a
    · intro j
      unfold setKey
      split
      · rename_i hj
        left
        rw [hj]
        rfl
      · exact hk j
theorem ok_stateOf {r : Res State} (h : isOk r = true) : r = Except.ok (stateOf r) := by
  cases r with
  | error e => simp [isOk] at h
  | ok s => rfl

theorem qdiv_eq_ok {a b q : ℚ} (h : qdiv a b = Except.ok q) : b ≠ 0 ∧ q = a / b := by
  unfold qdiv at h
  split at h
  · simp [throw_eq_error] at h
  · rename_i hb
    simp only [pure_eq_ok, Except.ok.injEq] at h
    exact ⟨hb, h.symm⟩

theorem initSizes_keyed (c : Config) (w : Nat) :
    ∀ (n : Nat) (v : List (Key × SizeBucket)) (k : Nat → Key) (g : Int) (io : List IoReq),
      initSizes c w n = Except.ok (v, k, g, io) → KeyedBy (SizeBucket.getKey c.size_arr) v := by
  intro n
  induction n with
  | zero =>
    intro v k g io h
    simp only [initSizes, pure_eq_ok, Except.ok.injEq, Prod.mk.injEq] at h
    rw [← h.1]; exact KeyedBy.nilKeyed _
  | succ n ih =>
    intro v k g io h
    simp only [initSizes] at h
    obtain ⟨⟨v0, k0, g0, io0⟩, h0, h⟩ := bind_eq_ok h
    obtain ⟨q, _, h⟩ := bind_eq_ok h
    simp only [pure_eq_ok, Except.ok.injEq, Prod.mk.injEq, setKey_same] at h
    rw [← h.1]
    exact (ih _ _ _ _ h0).insert _

theorem initDirs_keyed (c : Config) (w : Nat) (g0 : Int) (io0 : List IoReq) :
    ∀ (n : Nat) (v : List (Key × DirBucket)) (k : Nat → Key) (g : Int) (io : List IoReq),
      initDirs c w g0 io0 n = Except.ok (v, k, g, io) →
      KeyedBy (DirBucket.getKey c.dir_arr) v := by
  intro n
  induction n with
  | zero =>
    intro v k g io h
    simp only [initDirs, pure_eq_ok, Except.ok.injEq, Prod.mk.injEq] at h
    rw [← h.1]; exact KeyedBy.nilKeyed _
  | succ n ih =>
    intro v k g io h
    simp only [initDirs] at h
    obtain ⟨⟨v0, k0, g1, io1⟩, h0, h⟩ := bind_eq_ok h
    obtain ⟨q, _, h⟩ := bind_eq_ok h
    simp only [pure_eq_ok, Except.ok.injEq, Prod.mk.injEq, setKey_same] at h
    rw [← h.1]
    exact (ih _ _ _ _ h0).insert _

theorem initAges_keyed (c : Config) (w : Nat) (g0 : Int) (io0 : List IoReq) :
    ∀ (n : Nat) (v : List (Key × AgeBucket)) (k : Nat → Key) (g : Int) (io : List IoReq),
      initAges c w g0 io0 n = Except.ok (v, k, g, io) →
      KeyedBy AgeBucket.getKey v ∧ ∀ j : Nat, (k j).id = (j : Int) ∨ k j = Key.empty := by
  intro n
  induction n with
  | zero =>
    intro v k g io h
    simp only [initAges, pure_eq_ok, Except.ok.injEq, Prod.mk.injEq] at h
    rw [← h.1, ← h.2.1]
    exact ⟨KeyedBy.nilKeyed _, fun _ => Or.inr rfl⟩
  | succ n ih =>
    intro v k g io h
    simp only [initAges] at h
    obtain ⟨⟨v0, k0, g1, io1⟩, h0, h⟩ := bind_eq_ok h
    obtain ⟨q, _, h⟩ := bind_eq_ok h
    obtain ⟨q1, _, h⟩ := bind_eq_ok h
    simp only [pure_eq_ok, Except.ok.injEq, Prod.mk.injEq, setKey_same] at h
    obtain ⟨ih1, ih2⟩ := ih _ _ _ _ h0
    rw [← h.1, ← h.2.1]
    refine ⟨ih1.insert _, ?_⟩
    intro j
    unfold setKey
    split
    · rename_i hj
      left
      rw [hj]
      rfl
    · exact ih2 j

theorem init_keyed {c : Config} {s : State} (h : init c = Except.ok s) : ViewsKeyed c s := by
  unfold init at h
  obtain ⟨⟨sv, sk, g1, io1⟩, hs, h⟩ := bind_eq_ok h
  obtain ⟨⟨av, ak, g2, io2⟩, ha, h⟩ := bind_eq_ok h
  obtain ⟨⟨dv, dk, g3, io3⟩, hd, h⟩ := bind_eq_ok h
  simp only [pure_eq_ok, Except.ok.injEq] at h
  rw [← h]
  obtain ⟨h1, h2⟩ := initAges_keyed c _ _ _ _ _ _ _ _ ha
  exact ⟨h1, initSizes_keyed c _ _ _ _ _ _ hs, initDirs_keyed c _ _ _ _ _ _ _ _ hd, h2⟩

theorem storeAge_keys (view : List (Key × AgeBucket)) (keys : Nat → Key) (ab ab1 : AgeBucket)
    (hk : ∀ j : Nat, (keys j).id = (j : Int) ∨ keys j = Key.empty) :
    ∀ j : Nat, ((storeAge view keys ab ab1).2 j).id = (j : Int) ∨
      (storeAge view keys ab ab1).2 j = Key.empty := by
  intro j
  simp only [storeAge, setKey]
  split
  · rename_i hj
    left
    rw [hj]
    rfl
  · exact hk j

theorem createFile_keyed {c : Config} {s : State} {pos : Int} {r : Nat} {res : CreateResult}
    (hv : ViewsKeyed c s) (h : createFile c s pos r = Except.ok res) :
    ViewsKeyed c res.state := by
  obtain ⟨sb, d, dv, dk, h1, h2, h3, sb1, sv, sk, ab, ab1, _, _, hdv, _, _, hsv, _, _, rfl⟩ :=
    createFile_eq_ok h
  exact ⟨storeAge_keyed hv.1, storeSize_keyed hsv, storeDir_keyed hdv, storeAge_keys s.age_buckets s.a_keys ab ab1 hv.2.2.2⟩

theorem deleteFile_keyed {c : Config} {s s1 : State} {sz : Nat}
    (hv : ViewsKeyed c s) (h : deleteFile c s = Except.ok (s1, sz)) : ViewsKeyed c s1 := by
  obtain ⟨ab, sb, db, f, dv, dk, h1, h2, h3, ab1, sb1, sv, sk, _, hdv, _, _, hsv, _, _, rfl⟩ :=
    deleteFile_eq_ok h
  exact ⟨storeAge_keyed hv.1, storeSize_keyed hsv, storeDir_keyed hdv, storeAge_keys s.age_buckets s.a_keys ab ab1 hv.2.2.2⟩

theorem reAge_keyed {c : Config} {s s1 : State} {t : Nat}
    (hv : ViewsKeyed c s) (h : reAge c s t = Except.ok s1) : ViewsKeyed c s1 := by
  obtain ⟨ab, ab1, h1, hab, hl, rfl⟩ := reAge_eq_ok h
  have hids := loadAges_ids hv _ _ _ hab
  have hids1 : ab1.map AgeBucket.id = List.range' 0 ab1.length := by
    cases ab with
    | nil =>
      simp only [pure_eq_ok, Except.ok.injEq, Prod.mk.injEq] at hl
      rw [← hl.2]; rfl
    | cons a rest =>
      have h2 := reAgeLoop_ids _ _ _ _ _ _ hl
      have hlen : ab1.length = (a :: rest).length := by
        have := congrArg List.length h2
        simpa using this
      rw [h2, hids, hlen]
      have hlen2 : (a :: rest).length = c.NUM_AGES := by
        have := congrArg List.length hids
        simpa using this
      rw [hlen2, List.range_eq_range']
  obtain ⟨k1, k2⟩ := storeAges_keyed ab1 0 s.age_buckets s.a_keys hids1 hv.1 hv.2.2.2
  exact ⟨k1, hv.2.1, hv.2.2.1, k2⟩

theorem performOp_keyed {c : Config} {s s1 : State} {create : Bool} {pos : Int} {r : Nat}
    (hv : ViewsKeyed c s) (h : performOp c s create pos r = Except.ok s1) :
    ViewsKeyed c s1 := by
  have hv0 : ViewsKeyed c { s with tick := s.tick + 1 } := hv
  rcases performOp_eq_ok h with ⟨_, res, hres, rfl⟩ | ⟨_, s2, sz, hdel, rfl⟩
  · have h1 : ViewsKeyed c res.state := createFile_keyed hv0 hres
    exact h1
  · have h1 : ViewsKeyed c s2 := deleteFile_keyed hv0 hdel
    exact h1

theorem step_keyed {c : Config} {s s1 : State} {cmd : Cmd}
    (hv : ViewsKeyed c s) (h : step c s cmd = Except.ok s1) : ViewsKeyed c s1 := by
  cases cmd with
  | create pos r =>
    simp only [step] at h
    obtain ⟨res, hres, h⟩ := bind_eq_ok h
    simp only [pure_eq_ok, Except.ok.injEq] at h
    rw [← h]
    exact createFile_keyed hv hres
  | delete =>
    simp only [step] at h
    obtain ⟨⟨s2, sz⟩, hres, h⟩ := bind_eq_ok h
    simp only [pure_eq_ok, Except.ok.injEq] at h
    rw [← h]
    exact deleteFile_keyed hv hres
  | reAge t => exact reAge_keyed hv h
  | op cr pos r => exact performOp_keyed hv h

theorem reachable_keyed {c : Config} {s : State} (h : Reachable c s) : ViewsKeyed c s := by
  induction h with
  | init h0 => exact init_keyed h0
  | step cmd _ hs ih => exact step_keyed ih hs

theorem reachable_runFrom {c : Config} :
    ∀ (cmds : List Cmd) (s s1 : State), Reachable c s → runFrom c s cmds = Except.ok s1 →
      Reachable c s1 := by
  intro cmds
  induction cmds with
  | nil =>
    intro s s1 hr h
    simp only [runFrom, pure_eq_ok, Except.ok.injEq] at h
    rw [← h]; exact hr
  | cons cmd rest ih =>
    intro s s1 hr h
    simp only [runFrom] at h
    obtain ⟨s2, h2, h⟩ := bind_eq_ok h
    exact ih _ _ (Reachable.step cmd hr h2) h

theorem reachable_run {c : Config} {cmds : List Cmd} (h : isOk (run c cmds) = true) :
    Reachable c (stateOf (run c cmds)) := by
  have h1 := ok_stateOf h
  generalize stateOf (run c cmds) = s1 at h1
  unfold run at h1
  obtain ⟨s0, h0, h2⟩ := bind_eq_ok h1
  exact reachable_runFrom cmds s0 s1 (Reachable.init h0) h2
theorem to_string_f_near (x : ℚ) :
    -(1 / 1000000) < to_string_f x - x ∧ to_string_f x - x < 1 / 1000000 := by
  unfold to_string_f
  simp only
  have h0 := Int.floor_le (x * 1000000)
  have h1 := Int.lt_floor_add_one (x * 1000000)
  split
  · constructor <;> linarith
  · split
    · constructor <;> linarith
    · split <;> constructor <;> linarith

theorem age_getKey_prints (a : AgeBucket) :
    a.getKey.prints a.id (a.actual_fraction - a.ideal_fraction) :=
  ⟨rfl, to_string_f_near _⟩

theorem size_getKey_prints (arr : List Nat) (b : SizeBucket) :
    (b.getKey arr).prints (arr.getD b.id 0 : Nat) (b.ideal_fraction - b.actual_fraction) :=
  ⟨rfl, to_string_f_near _⟩

theorem dir_getKey_prints (arr : List Int) (d : DirBucket) :
    (d.getKey arr).prints (arr.getD d.id 0) (d.actual_fraction - d.ideal_fraction) :=
  ⟨rfl, to_string_f_near _⟩

/-- C4 (amended): in every reachable state (a state is reachable as long as no delete has
removed the last live file) each of the three views is strictly ascending in the order of its
keys, that is in the pair (difference printed in the key, id written in the key); the key of a
bucket carries the bucket's id (age bucket id, file size, depth value) and its signed gap as
printed with six decimals: `actual - ideal` for the age and dir views, `ideal - actual` for the
size view. -/
theorem views_ascending_by_signed_gap (c : Config) (s : State) (h : Reachable c s) :
    ViewsByPrintedGap c s := by
  obtain ⟨ha, hs, hd, _⟩ := reachable_keyed h
  refine ⟨ha.1.imp ?_, ?_, hs.1.imp ?_, ?_, hd.1.imp ?_, ?_⟩
  · intro e e1 hlt
    exact (BucketCompare_iff _ _).mp hlt
  · intro e he
    rw [ha.2 e he]
    exact age_getKey_prints _
  · intro e e1 hlt
    exact (BucketCompare_iff _ _).mp hlt
  · intro e he
    rw [hs.2 e he]
    exact size_getKey_prints _ _
  · intro e e1 hlt
    exact (BucketCompare_iff _ _).mp hlt
  · intro e he
    rw [hd.2 e he]
    exact dir_getKey_prints _ _

theorem views_ascending_by_signed_gap_witness :
    ViewsByPrintedGap cfgTwoDirs (stateOf (run cfgTwoDirs [Cmd.op true 0 0])) :=
  views_ascending_by_signed_gap cfgTwoDirs (stateOf (run cfgTwoDirs [Cmd.op true 0 0]))
    (reachable_run (by decide!))

/-! ## Fractions after an operation -/

theorem rebuildDirs_exact (c : Config) (live : Nat) :
    ∀ (old acc : List (Key × DirBucket)) (keys : Nat → Key)
      (res : List (Key × DirBucket)) (keys1 : Nat → Key),
      rebuildDirs c live old acc keys = Except.ok (res, keys1) →
      ∀ e ∈ res, e ∈ acc ∨ e.2.actual_fraction = (e.2.count : ℚ) / (live : ℚ) := by
  intro old
  induction old with
  | nil =>
    intro acc keys res keys1 h e he
    simp only [rebuildDirs, pure_eq_ok, Except.ok.injEq, Prod.mk.injEq] at h
    rw [← h.1] at he
    exact Or.inl he
  | cons x xs ih =>
    intro acc keys res keys1 h e he
    simp only [rebuildDirs] at h
    obtain ⟨⟨d1, k1⟩, hr, h⟩ := bind_eq_ok h
    obtain ⟨_, hd1, _⟩ := dir_reKey_eq_ok hr
    rcases ih _ _ _ _ h e he with h1 | h1
    · rcases mem_fmInsert h1 with h2 | h2
      · right
        rw [h2, hd1]
      · exact Or.inl h2
    · exact Or.inr h1

theorem rebuildSizes_exact (c : Config) (live : Nat) :
    ∀ (old acc : List (Key × SizeBucket)) (keys : Nat → Key)
      (res : List (Key × SizeBucket)) (keys1 : Nat → Key),
      rebuildSizes c live old acc keys = Except.ok (res, keys1) →
      ∀ e ∈ res, e ∈ acc ∨ e.2.actual_fraction = (e.2.count : ℚ) / (live : ℚ) := by
  intro old
  induction old with
  | nil =>
    intro acc keys res keys1 h e he
    simp only [rebuildSizes, pure_eq_ok, Except.ok.injEq, Prod.mk.injEq] at h
    rw [← h.1] at he
    exact Or.inl he
  | cons x xs ih =>
    intro acc keys res keys1 h e he
    simp only [rebuildSizes] at h
    obtain ⟨⟨d1, k1⟩, hr, h⟩ := bind_eq_ok h
    obtain ⟨_, hd1, _⟩ := size_reKey_eq_ok hr
    rcases ih _ _ _ _ h e he with h1 | h1
    · rcases mem_fmInsert h1 with h2 | h2
      · right
        rw [h2, hd1]
      · exact Or.inl h2
    · exact Or.inr h1

theorem storeDir_exact {c : Config} {live : Nat} {view res : List (Key × DirBucket)}
    {keys keys1 : Nat → Key} {d : DirBucket}
    (h : storeDir c live view keys d = Except.ok (res, keys1)) :
    live ≠ 0 ∧ ∀ e ∈ res, e.2.actual_fraction = (e.2.count : ℚ) / (live : ℚ) := by
  unfold storeDir at h
  obtain ⟨⟨d1, k1⟩, hr, h⟩ := bind_eq_ok h
  obtain ⟨hl, _, _⟩ := dir_reKey_eq_ok hr
  refine ⟨hl, fun e he => ?_⟩
  rcases rebuildDirs_exact c live _ _ _ _ _ h e he with h1 | h1
  · simp at h1
  · exact h1

theorem storeSize_exact {c : Config} {live : Nat} {view res : List (Key × SizeBucket)}
    {keys keys1 : Nat → Key} {sb sb1 : SizeBucket}
    (h : storeSize c live view keys sb sb1 = Except.ok (res, keys1)) :
    ∀ e ∈ res, e.2.actual_fraction = (e.2.count : ℚ) / (live : ℚ) := by
  unfold storeSize at h
  intro e he
  rcases rebuildSizes_exact c live _ _ _ _ _ h e he with h1 | h1
  · simp at h1
  · exact h1

theorem mem_storeAge {view : List (Key × AgeBucket)} {keys : Nat → Key} {ab ab1 : AgeBucket}
    {e : Key × AgeBucket} (h : e ∈ (storeAge view keys ab ab1).1) : e.2 = ab1 ∨ e ∈ view := by
  unfold storeAge at h
  rcases mem_fmInsert h with h1 | h1
  · left; rw [h1]
  · exact Or.inr (mem_fmErase h1)

theorem createFile_fractions {c : Config} {s : State} {pos : Int} {r : Nat}
    {res : CreateResult} (h : createFile c s pos r = Except.ok res) :
    FractionsAfterOp s res.state := by
  obtain ⟨sb, d, dv, dk, h1, h2, h3, sb1, sv, sk, ab, ab1, _, _, hdv, _, _, hsv, _, hab, rfl⟩ :=
    createFile_eq_ok h
  obtain ⟨hl, hd⟩ := storeDir_exact hdv
  refine ⟨hl, storeSize_exact hsv, hd, ?_⟩
  intro e he
  rcases mem_storeAge he with h4 | h4
  · left
    obtain ⟨_, _, _, _, _, _, _, _, _, hab1⟩ := age_addFile_eq_ok hab
    rw [h4, hab1]
  · exact Or.inr ⟨e, h4, rfl, rfl, rfl⟩

theorem deleteFile_fractions {c : Config} {s s1 : State} {sz : Nat}
    (h : deleteFile c s = Except.ok (s1, sz)) : FractionsAfterOp s s1 := by
  obtain ⟨ab, sb, db, f, dv, dk, h1, h2, h3, ab1, sb1, sv, sk, _, hdv, hab, _, hsv, _, _, rfl⟩ :=
    deleteFile_eq_ok h
  obtain ⟨hl, hd⟩ := storeDir_exact hdv
  refine ⟨hl, storeSize_exact hsv, hd, ?_⟩
  intro e he
  rcases mem_storeAge he with h4 | h4
  · left
    obtain ⟨_, _, _, _, _, _, _, hab1⟩ := age_deleteFile_eq_ok hab
    rw [h4, hab1]
  · exact Or.inr ⟨e, h4, rfl, rfl, rfl⟩

theorem performOp_fractions {c : Config} {s s1 : State} {create : Bool} {pos : Int} {r : Nat}
    (h : performOp c s create pos r = Except.ok s1) : FractionsAfterOp s s1 := by
  rcases performOp_eq_ok h with ⟨_, res, hres, rfl⟩ | ⟨_, s2, sz, hdel, rfl⟩
  · have h1 : FractionsAfterOp { s with tick := s.tick + 1 } res.state :=
      createFile_fractions hres
    exact h1
  · have h1 : FractionsAfterOp { s with tick := s.tick + 1 } s2 := deleteFile_fractions hdel
    exact h1

/-- The fraction of `y` is exact for `live`, or `y` has the id, count and fraction of `x`. -/
theorem migrate_fractions (live : Nat) :
    ∀ (n : Nat) (hp : Heap) (a b : AgeBucket) (h1 : Heap) (a1 b1 : AgeBucket),
      migrate live n hp a b = Except.ok (h1, a1, b1) →
      (a1.actual_fraction = (a1.count : ℚ) / (live : ℚ) ∨
        (a1.id = a.id ∧ a1.count = a.count ∧ a1.actual_fraction = a.actual_fraction)) ∧
      (b1.actual_fraction = (b1.count : ℚ) / (live : ℚ) ∨
        (b1.id = b.id ∧ b1.count = b.count ∧ b1.actual_fraction = b.actual_fraction)) := by
  intro n
  induction n with
  | zero =>
    intro hp a b h1 a1 b1 h
    simp only [migrate, pure_eq_ok, Except.ok.injEq, Prod.mk.injEq] at h
    obtain ⟨_, rfl, rfl⟩ := h
    exact ⟨Or.inr ⟨rfl, rfl, rfl⟩, Or.inr ⟨rfl, rfl, rfl⟩⟩
  | succ n ih =>
    intro hp a b h1 a1 b1 h
    simp only [migrate] at h
    split at h
    · obtain ⟨f, _, h⟩ := bind_eq_ok h
      split at h
      · simp only [pure_eq_ok, Except.ok.injEq, Prod.mk.injEq] at h
        obtain ⟨_, rfl, rfl⟩ := h
        exact ⟨Or.inr ⟨rfl, rfl, rfl⟩, Or.inr ⟨rfl, rfl, rfl⟩⟩
      · obtain ⟨⟨h2, a2⟩, ha2, h⟩ := bind_eq_ok h
        obtain ⟨⟨h3, b2⟩, hb2, h⟩ := bind_eq_ok h
        obtain ⟨e1, e2⟩ := ih _ _ _ _ _ _ h
        obtain ⟨_, _, _, _, _, _, _, ha2'⟩ := age_deleteFile_eq_ok ha2
        obtain ⟨_, _, _, _, _, _, _, _, _, hb2'⟩ := age_addFile_eq_ok hb2
        have hx : a2.actual_fraction = (a2.count : ℚ) / (live : ℚ) := by rw [ha2']
        have hy : b2.actual_fraction = (b2.count : ℚ) / (live : ℚ) := by rw [hb2']
        constructor
        · rcases e1 with e1 | ⟨_, e1c, e1a⟩
          · exact Or.inl e1
          · left; rw [e1a, e1c]; exact hx
        · rcases e2 with e2 | ⟨_, e2c, e2a⟩
          · exact Or.inl e2
          · left; rw [e2a, e2c]; exact hy
    · simp only [pure_eq_ok, Except.ok.injEq, Prod.mk.injEq] at h
      obtain ⟨_, rfl, rfl⟩ := h
      exact ⟨Or.inr ⟨rfl, rfl, rfl⟩, Or.inr ⟨rfl, rfl, rfl⟩⟩

theorem reAgeLoop_fractions (live : Nat) :
    ∀ (rest : List AgeBucket) (hp : Heap) (a : AgeBucket) (h1 : Heap) (l : List AgeBucket),
      reAgeLoop live hp a rest = Except.ok (h1, l) →
      ∀ y ∈ l, y.actual_fraction = (y.count : ℚ) / (live : ℚ) ∨
        ∃ x ∈ a :: rest, y.id = x.id ∧ y.count = x.count ∧
          y.actual_fraction = x.actual_fraction := by
  intro rest
  induction rest with
  | nil =>
    intro hp a h1 l h y hy
    simp only [reAgeLoop, pure_eq_ok, Except.ok.injEq, Prod.mk.injEq] at h
    rw [← h.2] at hy
    simp only [List.mem_singleton] at hy
    exact Or.inr ⟨a, List.mem_cons_self _ _, by rw [hy], by rw [hy], by rw [hy]⟩
  | cons b rest ih =>
    intro hp a h1 l h y hy
    simp only [reAgeLoop] at h
    obtain ⟨⟨h2, a1, b1⟩, hm, h⟩ := bind_eq_ok h
    obtain ⟨⟨h3, tl⟩, htl, h⟩ := bind_eq_ok h
    simp only [pure_eq_ok, Except.ok.injEq, Prod.mk.injEq] at h
    have hab : (a1.actual_fraction = (a1.count : ℚ) / (live : ℚ) ∨
        (a1.id = a.id ∧ a1.count = a.count ∧ a1.actual_fraction = a.actual_fraction)) ∧
        (b1.actual_fraction = (b1.count : ℚ) / (live : ℚ) ∨
        (b1.id = b.id ∧ b1.count = b.count ∧ b1.actual_fraction = b.actual_fraction)) := by
      split at hm
      · simp only [pure_eq_ok, Except.ok.injEq, Prod.mk.injEq] at hm
        obtain ⟨_, rfl, rfl⟩ := hm
        exact ⟨Or.inr ⟨rfl, rfl, rfl⟩, Or.inr ⟨rfl, rfl, rfl⟩⟩
      · exact migrate_fractions live _ _ _ _ _ _ _ hm
    rw [← h.2] at hy
    rcases List.mem_cons.mp hy with hy | hy
    · rcases hab.1 with h4 | h4
      · left; rw [hy]; exact h4
      · right
        exact ⟨a, List.mem_cons_self _ _, by rw [hy]; exact h4⟩
    · rcases ih _ _ _ _ htl y hy with h4 | ⟨x, hx, h4⟩
      · exact Or.inl h4
      · rcases List.mem_cons.mp hx with hx | hx
        · rcases hab.2 with h5 | h5
          · left
            rw [h4.2.2, h4.2.1, hx]
            exact h5
          · right
            refine ⟨b, List.mem_cons_of_mem _ (List.mem_cons_self _ _), ?_⟩
            rw [h4.1, h4.2.1, h4.2.2, hx]
            exact h5
        · exact Or.inr ⟨x, List.mem_cons_of_mem _ (List.mem_cons_of_mem _ hx), h4⟩

theorem loadAges_mem {s : State} (clock : Nat) :
    ∀ (n : Nat) (l : List AgeBucket), loadAges s clock n = Except.ok l →
      ∀ x ∈ l, ∃ e ∈ s.age_buckets, x.id = e.2.id ∧ x.count = e.2.count ∧
        x.actual_fraction = e.2.actual_fraction := by
  intro n
  induction n with
  | zero =>
    intro l h x hx
    simp only [loadAges, pure_eq_ok, Except.ok.injEq] at h
    rw [← h] at hx
    simp at hx
  | succ n ih =>
    intro l h x hx
    simp only [loadAges] at h
    obtain ⟨l0, hl0, h⟩ := bind_eq_ok h
    cases hf : fmFind (s.a_keys n) s.age_buckets with
    | none => rw [hf] at h; simp [throw_eq_error] at h
    | some b =>
      rw [hf] at h
      simp only [pure_eq_ok, Except.ok.injEq] at h
      rw [← h] at hx
      rcases List.mem_append.mp hx with hx | hx
      · exact ih l0 hl0 x hx
      · simp only [List.mem_singleton] at hx
        exact ⟨_, fmFind_some hf, by rw [hx], by rw [hx], by rw [hx]⟩

theorem mem_storeAges :
    ∀ (l : List AgeBucket) (i : Nat) (view : List (Key × AgeBucket)) (keys : Nat → Key)
      (e : Key × AgeBucket), e ∈ (storeAges i l view keys).1 → e ∈ view ∨ e.2 ∈ l := by
  intro l
  induction l with
  | nil =>
    intro i view keys e he
    exact Or.inl he
  | cons a rest ih =>
    intro i view keys e he
    simp only [storeAges, AgeBucket.replace] at he
    rcases ih _ _ _ _ he with h1 | h1
    · rcases mem_fmInsert h1 with h2 | h2
      · right; rw [h2]; exact List.mem_cons_self _ _
      · exact Or.inl (mem_fmErase h2)
    · exact Or.inr (List.mem_cons_of_mem _ h1)

theorem reAge_fractions {c : Config} {s s1 s2 : State} {t : Nat}
    (h1 : FractionsAfterOp s s1) (h : reAge c s1 t = Except.ok s2) :
    FractionsAfterOp s s2 := by
  obtain ⟨ab, ab1, hp1, hab, hl, rfl⟩ := reAge_eq_ok h
  refine ⟨h1.1, h1.2.1, h1.2.2.1, ?_⟩
  intro e he
  -- every stored bucket is exact or copies an entry of `s1`
  have hstep : e.2.actual_fraction = (e.2.count : ℚ) / (s1.global_live_file_count : ℚ) ∨
      ∃ e1 ∈ s1.age_buckets, e.2.id = e1.2.id ∧ e.2.count = e1.2.count ∧
        e.2.actual_fraction = e1.2.actual_fraction := by
    rcases mem_storeAges _ _ _ _ _ he with h2 | h2
    · exact Or.inr ⟨e, h2, rfl, rfl, rfl⟩
    · cases ab with
      | nil =>
        simp only [pure_eq_ok, Except.ok.injEq, Prod.mk.injEq] at hl
        rw [← hl.2] at h2
        simp at h2
      | cons a rest =>
        rcases reAgeLoop_fractions _ _ _ _ _ _ hl _ h2 with h3 | ⟨x, hx, h3⟩
        · exact Or.inl h3
        · obtain ⟨e1, he1, h4⟩ := loadAges_mem _ _ _ hab x hx
          exact Or.inr ⟨e1, he1, h3.1.trans h4.1, h3.2.1.trans h4.2.1, h3.2.2.trans h4.2.2⟩
  rcases hstep with h2 | ⟨e1, he1, h2⟩
  · exact Or.inl h2
  · rcases h1.2.2.2 e1 he1 with h3 | ⟨e0, he0, h3⟩
    · left
      show e.2.actual_fraction = (e.2.count : ℚ) / (s1.global_live_file_count : ℚ)
      rw [h2.2.2, h2.2.1]
      exact h3
    · exact Or.inr ⟨e0, he0, h2.1.trans h3.1, h2.2.1.trans h3.2.1, h2.2.2.trans h3.2.2⟩

/-- C3 (amended): after a `performOp` that leaves at least one live file, followed or not by
`reAge`, every top-level size bucket and every top-level dir bucket has
`actual_fraction = count / global_live_file_count`, and every age bucket either has
`actual_fraction = count / global_live_file_count` or still has the id, count and
`actual_fraction` it had before the operation (its fraction is not recomputed). -/
theorem fractions_exact_after_op (c : Config) (s s1 : State) (create : Bool) (pos : Int)
    (r : Nat) (h : performOp c s create pos r = Except.ok s1)
    (hlive : s1.global_live_file_count ≠ 0) :
    FractionsKept s s1 ∧
    ∀ (t : Nat) (s2 : State), reAge c s1 t = Except.ok s2 → FractionsKept s s2 :=
  ⟨(performOp_fractions h).2, fun _ _ h2 => (reAge_fractions (performOp_fractions h) h2).2⟩

theorem fractions_exact_after_op_witness :
    (stateOf (performOp cfgTwoAges
      (stateOf (run cfgTwoAges [Cmd.op true 0 0, Cmd.op true 0 0, Cmd.reAge 4]))
      false 0 0)).global_live_file_count ≠ 0 ∧
    FractionsKept (stateOf (run cfgTwoAges [Cmd.op true 0 0, Cmd.op true 0 0, Cmd.reAge 4]))
      (stateOf (performOp cfgTwoAges
        (stateOf (run cfgTwoAges [Cmd.op true 0 0, Cmd.op true 0 0, Cmd.reAge 4])) false 0 0)) :=
  ⟨by decide!, (fractions_exact_after_op cfgTwoAges
    (stateOf (run cfgTwoAges [Cmd.op true 0 0, Cmd.op true 0 0, Cmd.reAge 4]))
    (stateOf (performOp cfgTwoAges
        (stateOf (run cfgTwoAges [Cmd.op true 0 0, Cmd.op true 0 0, Cmd.reAge 4])) false 0 0))
    false 0 0 (ok_stateOf (by decide!)) (by decide!)).1⟩

/-! ## Counterexamples to claims as stated -/

/-- C3 (counterexample): with two age buckets, after two creates, a re-age that moves the older
file to bucket 1 and a `performOp` delete that takes it, one file is live and age bucket 0
holds it (count 1) but keeps `actual_fraction = 1/2`; a further `reAge` does not change that. -/
theorem fractions_not_all_exact :
    isOk (run cfgTwoAges cmdsStale) = true ∧
    (stateOf (run cfgTwoAges cmdsStale)).global_live_file_count = 1 ∧
    ¬ AllFractionsExact (stateOf (run cfgTwoAges cmdsStale)) ∧
    ¬ AllFractionsExact (stateOf (run cfgTwoAges (cmdsStale ++ [Cmd.reAge 4]))) := by
  decide!

/-- C4 (counterexample): right after `init` with depths 0 and 1 of weights 1 and 3, the dir view
holds depth 1 (gap `-3/4`) before depth 0 (gap `-1/4`): it is not ascending in
`|ideal - actual|`. -/
theorem views_not_ascending_by_abs_gap :
    isOk (init cfgTwoDirs) = true ∧ ¬ ViewsAscendingByAbsGap (stateOf (init cfgTwoDirs)) := by
  decide!

/-- C8 (counterexample): with sizes 1 and 2 of weights 1000001 and 1000000 and no file yet, both
gaps print as `0.500000`, the size view ends with size 2, and a gap-guided create makes a file of
size 2, although size 1 fits and has the larger `ideal_fraction - actual_fraction`. -/
theorem gap_guided_not_largest_gap :
    isOk (run cfgNearTie [Cmd.create (-1) 0]) = true ∧
    ((stateOf (run cfgNearTie [Cmd.create (-1) 0])).heap 1).size = 2 ∧
    liveFiles (stateOf (run cfgNearTie [Cmd.create (-1) 0])) = [1] ∧
    ¬ LargestGapThatFits cfgNearTie (stateOf (init cfgNearTie)) 2 := by
  decide!

/-- C9 (counterexample): with size classes of 1024 and 2048 bytes, from the state reached by
`cmdsStale` (one live file of 1024 bytes, at address 2, age bucket 0 with
`actual_fraction = 1/2`), a gap-guided create makes a file of 2048 bytes at address 3, alone in
its nested ring, and the delete that follows removes that same file; afterwards age bucket 0 has
`actual_fraction = 1`, so the snapshot differs from the one before the create. -/
theorem create_delete_not_identity :
    isOk (run cfgTwoSizes (cmdsStale ++ [Cmd.op true (-1) 0, Cmd.op false 0 0])) = true ∧
    liveFiles (stateOf (run cfgTwoSizes cmdsStale)) = [2] ∧
    liveFiles (stateOf (run cfgTwoSizes (cmdsStale ++ [Cmd.op true (-1) 0]))) = [2, 3] ∧
    liveFiles (stateOf (run cfgTwoSizes
      (cmdsStale ++ [Cmd.op true (-1) 0, Cmd.op false 0 0]))) = [2] ∧
    (snapshot (stateOf (run cfgTwoSizes cmdsStale))).ages = [(1, 0, 0), (0, 1, 1 / 2)] ∧
    (snapshot (stateOf (run cfgTwoSizes
      (cmdsStale ++ [Cmd.op true (-1) 0, Cmd.op false 0 0])))).ages = [(1, 0, 0), (0, 1, 1)] ∧
    snapshot (stateOf (run cfgTwoSizes
      (cmdsStale ++ [Cmd.op true (-1) 0, Cmd.op false 0 0]))) ≠
      snapshot (stateOf (run cfgTwoSizes cmdsStale)) := by
  decide!

/-! ## Results on linked segments -/

theorem proj_upd {α : Type} (π : File → α) (h : Heap) (p : Addr) (g : File → File) :
    proj π (h.upd p g) = Function.update (proj π h) p (π (g (h p))) := by
  funext a
  unfold proj Heap.upd Function.update
  by_cases ha : a = p
  · subst ha; simp
  · simp [ha]

theorem Seg.append {nx pv : Addr → Ptr} :
    ∀ (l : List Addr) (a x : Addr) (m : List Addr) (b : Addr),
      Seg nx pv a (l ++ x :: m) b ↔ Seg nx pv a l x ∧ Seg nx pv x m b := by
  intro l
  induction l with
  | nil => intro a x m b; simp [Seg, and_assoc]
  | cons y ys ih => intro a x m b; simp [Seg, ih, and_assoc]

theorem Seg.congrSeg {nx pv nx1 pv1 : Addr → Ptr} :
    ∀ (l : List Addr) (a b : Addr), Seg nx pv a l b →
      (∀ x ∈ a :: l, nx1 x = nx x) → (∀ x ∈ l ++ [b], pv1 x = pv x) → Seg nx1 pv1 a l b := by
  intro l
  induction l with
  | nil =>
    intro a b h h1 h2
    simp only [Seg] at h ⊢
    rw [h1 a (by simp), h2 b (by simp)]
    exact h
  | cons y ys ih =>
    intro a b h h1 h2
    simp only [Seg] at h ⊢
    rw [h1 a (by simp), h2 y (by simp)]
    refine ⟨h.1, h.2.1, ih y b h.2.2 ?_ ?_⟩
    · intro x hx
      exact h1 x (List.mem_cons_of_mem _ hx)
    · intro x hx
      exact h2 x (by simpa using Or.inr (by simpa using hx))

/-- The node before `b` in the segment. -/
theorem Seg.pv_end {nx pv : Addr → Ptr} :
    ∀ (l : List Addr) (a b : Addr), Seg nx pv a l b →
      pv b = some ((a :: l).getLast (List.cons_ne_nil _ _)) := by
  intro l
  induction l with
  | nil => intro a b h; simpa [Seg] using h.2
  | cons y ys ih =>
    intro a b h
    simp only [Seg] at h
    rw [List.getLast_cons (List.cons_ne_nil _ _)]
    exact ih y b h.2.2

/-- The node after `a` in the segment. -/
theorem Seg.nx_start {nx pv : Addr → Ptr} (l : List Addr) (a b : Addr) (h : Seg nx pv a l b) :
    nx a = some ((l ++ [b]).head (by simp)) := by
  cases l with
  | nil => simpa [Seg] using h.1
  | cons y ys => simpa [Seg] using h.1

/-- Appending `f` at the end of a segment: the link of the last node and the back link of `b`
are redirected to `f`. -/
theorem Seg.snoc_seg {nx pv nx1 pv1 : Addr → Ptr} {f : Addr} :
    ∀ (l : List Addr) (a b : Addr), Seg nx pv a l b → (a :: l).Nodup →
      (∀ x ∈ a :: l, x ≠ (a :: l).getLast (List.cons_ne_nil _ _) → nx1 x = nx x) →
      nx1 ((a :: l).getLast (List.cons_ne_nil _ _)) = some f →
      nx1 f = some b →
      (∀ x ∈ l, pv1 x = pv x) →
      pv1 f = some ((a :: l).getLast (List.cons_ne_nil _ _)) →
      pv1 b = some f →
      Seg nx1 pv1 a (l ++ [f]) b := by
  intro l
  induction l with
  | nil =>
    intro a b _ _ _ h2 h3 _ h5 h6
    simp only [List.getLast_singleton] at h2 h5
    simp only [List.nil_append, Seg]
    exact ⟨h2, h5, h3, h6⟩
  | cons y ys ih =>
    intro a b h hnd h1 h2 h3 h4 h5 h6
    simp only [Seg] at h
    rw [List.getLast_cons (List.cons_ne_nil _ _)] at h2 h5
    have hne : a ≠ (y :: ys).getLast (List.cons_ne_nil _ _) := by
      intro he
      have hmem := List.getLast_mem (List.cons_ne_nil y ys)
      rw [← he] at hmem
      exact (List.nodup_cons.mp hnd).1 hmem
    simp only [List.cons_append, Seg]
    refine ⟨?_, ?_, ih y b h.2.2 (List.nodup_cons.mp hnd).2 ?_ h2 h3 ?_ h5 h6⟩
    · rw [h1 a (by simp) (by rw [List.getLast_cons (List.cons_ne_nil _ _)]; exact hne)]
      exact h.1
    · rw [h4 y (by simp)]
      exact h.2.1
    · intro x hx hxl
      exact h1 x (List.mem_cons_of_mem _ hx)
        (by rw [List.getLast_cons (List.cons_ne_nil _ _)]; exact hxl)
    · intro x hx
      exact h4 x (List.mem_cons_of_mem _ hx)

/-- Redirecting the end of a segment from `b` to `b1`. -/
theorem Seg.retarget {nx pv nx1 pv1 : Addr → Ptr} {b1 : Addr} :
    ∀ (l : List Addr) (a b : Addr), Seg nx pv a l b → (a :: l).Nodup →
      (∀ x ∈ a :: l, x ≠ (a :: l).getLast (List.cons_ne_nil _ _) → nx1 x = nx x) →
      nx1 ((a :: l).getLast (List.cons_ne_nil _ _)) = some b1 →
      (∀ x ∈ l, pv1 x = pv x) →
      pv1 b1 = some ((a :: l).getLast (List.cons_ne_nil _ _)) →
      Seg nx1 pv1 a l b1 := by
  intro l
  induction l with
  | nil =>
    intro a b _ _ _ h2 _ h5
    simp only [List.getLast_singleton] at h2 h5
    exact ⟨h2, h5⟩
  | cons y ys ih =>
    intro a b h hnd h1 h2 h4 h5
    simp only [Seg] at h
    rw [List.getLast_cons (List.cons_ne_nil _ _)] at h2 h5
    have hne : a ≠ (y :: ys).getLast (List.cons_ne_nil _ _) := by
      intro he
      have hmem := List.getLast_mem (List.cons_ne_nil y ys)
      rw [← he] at hmem
      exact (List.nodup_cons.mp hnd).1 hmem
    simp only [Seg]
    refine ⟨?_, ?_, ih y b h.2.2 (List.nodup_cons.mp hnd).2 ?_ h2 ?_ h5⟩
    · rw [h1 a (by simp) (by rw [List.getLast_cons (List.cons_ne_nil _ _)]; exact hne)]
      exact h.1
    · rw [h4 y (by simp)]
      exact h.2.1
    · intro x hx hxl
      exact h1 x (List.mem_cons_of_mem _ hx)
        (by rw [List.getLast_cons (List.cons_ne_nil _ _)]; exact hxl)
    · intro x hx
      exact h4 x (List.mem_cons_of_mem _ hx)
/-- Unlinking `f` from a segment: the node before `f` is linked to the node after it. -/
theorem Seg.remove_seg {nx pv nx1 pv1 : Addr → Ptr} {f : Addr} (l1 l2 : List Addr) (a b : Addr)
    (h : Seg nx pv a (l1 ++ f :: l2) b) (hnd : (a :: (l1 ++ f :: l2)).Nodup)
    (hb : b ∉ l1 ++ f :: l2)
    (h1 : nx1 ((a :: l1).getLast (List.cons_ne_nil _ _)) = some ((l2 ++ [b]).head (by simp)))
    (h2 : pv1 ((l2 ++ [b]).head (by simp)) = some ((a :: l1).getLast (List.cons_ne_nil _ _)))
    (h3 : ∀ x ∈ a :: (l1 ++ l2), x ≠ (a :: l1).getLast (List.cons_ne_nil _ _) → nx1 x = nx x)
    (h4 : ∀ x ∈ l1 ++ l2 ++ [b], x ≠ (l2 ++ [b]).head (by simp) → pv1 x = pv x) :
    Seg nx1 pv1 a (l1 ++ l2) b := by
  rw [Seg.append] at h
  obtain ⟨hA, hB⟩ := h
  have hnd1 : (a :: l1).Nodup := by
    have := hnd
    rw [← List.cons_append] at this
    exact (List.nodup_append.mp this).1
  have hdisj : ∀ x ∈ a :: l1, x ∉ f :: l2 := by
    intro x hx hx2
    have := hnd
    rw [← List.cons_append] at this
    exact (List.nodup_append.mp this).2.2 hx hx2
  have hnd2 : (f :: l2).Nodup := by
    have := hnd
    rw [← List.cons_append] at this
    exact (List.nodup_append.mp this).2.1
  have hplast : (a :: l1).getLast (List.cons_ne_nil _ _) ∈ a :: l1 := List.getLast_mem _
  cases l2 with
  | nil =>
    simp only [List.nil_append, List.head_cons, List.append_nil] at h1 h2 h3 h4 ⊢
    refine Seg.retarget l1 a f hA hnd1 ?_ h1 ?_ h2
    · intro x hx hxl
      exact h3 x hx hxl
    · intro x hx
      apply h4 x (by simp [hx])
      intro he
      apply hb
      rw [← he]
      simp [hx]
  | cons y ys =>
    simp only [List.cons_append, List.head_cons] at h1 h2 h3 h4
    simp only [Seg] at hB
    rw [Seg.append]
    constructor
    · refine Seg.retarget l1 a f hA hnd1 ?_ h1 ?_ h2
      · intro x hx hxl
        apply h3 x _ hxl
        rcases List.mem_cons.mp hx with hx | hx
        · simp [hx]
        · simp [hx]
      · intro x hx
        apply h4 x (by simp [hx])
        intro he
        exact hdisj x (List.mem_cons_of_mem _ hx) (by rw [he]; simp)
    · refine Seg.congrSeg ys y b hB.2.2 ?_ ?_
      · intro x hx
        apply h3 x (by
          rcases List.mem_cons.mp hx with hx | hx
          · simp [hx]
          · simp [hx])
        intro he
        apply hdisj _ hplast
        rw [← he]
        exact List.mem_cons_of_mem _ hx
      · intro x hx
        apply h4 x (by
          rcases List.mem_append.mp hx with hx | hx
          · simp [hx]
          · simp only [List.mem_singleton] at hx
            simp [hx])
        intro he
        rcases List.mem_append.mp hx with hx | hx
        · have := (List.nodup_cons.mp (List.nodup_cons.mp hnd2).2).1
          rw [← he] at this
          exact this hx
        · simp only [List.mem_singleton] at hx
          apply hb
          rw [← hx, he]
          simp
/-! ## Fields of the heap after stores -/

theorem Heap.upd_same (h : Heap) (a : Addr) (g : File → File) : h.upd a g a = g (h a) := by
  simp [Heap.upd]

theorem Heap.upd_ne (h : Heap) {a x : Addr} (g : File → File) (hx : x ≠ a) :
    h.upd a g x = h x := by
  simp [Heap.upd, hx]

theorem fold_size (h : Heap) (a : Addr) : (h a).size = proj File.size h a := rfl

theorem fold_depth (h : Heap) (a : Addr) : (h a).depth = proj File.depth h a := rfl

theorem fold_age (h : Heap) (a : Addr) : (h a).age = proj File.age h a := rfl

theorem fold_path (h : Heap) (a : Addr) : (h a).path = proj File.path h a := rfl

theorem fold_next (h : Heap) (a : Addr) : (h a).next = proj File.next h a := rfl

theorem fold_prev (h : Heap) (a : Addr) : (h a).prev = proj File.prev h a := rfl

theorem fold_size_next (h : Heap) (a : Addr) : (h a).size_next = proj File.size_next h a := rfl

theorem fold_size_prev (h : Heap) (a : Addr) : (h a).size_prev = proj File.size_prev h a := rfl

theorem fold_dir_next (h : Heap) (a : Addr) : (h a).dir_next = proj File.dir_next h a := rfl

theorem fold_dir_prev (h : Heap) (a : Addr) : (h a).dir_prev = proj File.dir_prev h a := rfl
/-! ## `flat_map` on sorted views -/

theorem sorted_key_ne {β : Type} {x : Key × β} {xs : List (Key × β)}
    (h : (x :: xs).Pairwise (fun e e1 => BucketCompare e.1 e1.1 = true)) :
    ∀ e ∈ xs, BucketCompare x.1 e.1 = true :=
  (List.pairwise_cons.mp h).1

theorem fmErase_perm {β : Type} {k : Key} {b : β} :
    ∀ {v : List (Key × β)}, v.Pairwise (fun e e1 => BucketCompare e.1 e1.1 = true) →
      (k, b) ∈ v → List.Perm v ((k, b) :: fmErase k v) := by
  intro v
  induction v with
  | nil => intro _ h; simp at h
  | cons x xs ih =>
    intro hs hm
    rcases List.mem_cons.mp hm with hm | hm
    · subst hm
      simp only [fmErase, BucketCompare_irrefl, Bool.false_eq_true, if_false]
      exact List.Perm.refl _
    · have hlt := sorted_key_ne hs _ hm
      simp only at hlt
      simp only [fmErase, hlt, if_true]
      exact ((ih (List.pairwise_cons.mp hs).2 hm).cons x).trans (List.Perm.swap _ _ _)

theorem fmInsert_perm {β : Type} {k : Key} {b : β} :
    ∀ {v : List (Key × β)}, (∀ e ∈ v, e.1 ≠ k) → List.Perm (fmInsert k b v) ((k, b) :: v) := by
  intro v
  induction v with
  | nil => intro _; exact List.Perm.refl _
  | cons x xs ih =>
    intro hne
    simp only [fmInsert]
    split
    · exact ((ih (fun e he => hne e (List.mem_cons_of_mem _ he))).cons x).trans
        (List.Perm.swap _ _ _)
    · rename_i h1
      split
      · exact List.Perm.refl _
      · rename_i h2
        exact absurd (BucketCompare_total (by simpa using h1) (by simpa using h2))
          (hne x (List.mem_cons_self _ _))

theorem fmFind_of_mem {β : Type} {k : Key} {b : β} :
    ∀ {v : List (Key × β)}, v.Pairwise (fun e e1 => BucketCompare e.1 e1.1 = true) →
      (k, b) ∈ v → fmFind k v = some b := by
  intro v
  induction v with
  | nil => intro _ h; simp at h
  | cons x xs ih =>
    intro hs hm
    rcases List.mem_cons.mp hm with hm | hm
    · subst hm
      simp only [fmFind, BucketCompare_irrefl, Bool.false_eq_true, if_false]
    · have hlt := sorted_key_ne hs _ hm
      simp only at hlt
      simp only [fmFind, hlt, if_true]
      exact ih (List.pairwise_cons.mp hs).2 hm
/-! ## Well-formed views -/

theorem ViewWF.id_lt {β : Type} {bid : β → Nat} {keyOf : β → Key} {n : Nat}
    {v : List (Key × β)} {keys : Nat → Key} (h : ViewWF bid keyOf n v keys)
    {e : Key × β} (he : e ∈ v) : bid e.2 < n := by
  have : bid e.2 ∈ v.map (fun e => bid e.2) := List.mem_map.mpr ⟨e, he, rfl⟩
  exact List.mem_range.mp (h.ids.mem_iff.mp this)

theorem ViewWF.ids_nodup {β : Type} {bid : β → Nat} {keyOf : β → Key} {n : Nat}
    {v : List (Key × β)} {keys : Nat → Key} (h : ViewWF bid keyOf n v keys) :
    (v.map (fun e => bid e.2)).Nodup :=
  h.ids.nodup_iff.mpr (List.nodup_range n)

/-- Two entries of a view with the same bucket id are the same entry. -/
theorem ViewWF.eq_of_id {β : Type} {bid : β → Nat} {keyOf : β → Key} {n : Nat}
    {v : List (Key × β)} {keys : Nat → Key} (h : ViewWF bid keyOf n v keys)
    {e e1 : Key × β} (he : e ∈ v) (he1 : e1 ∈ v) (hid : bid e.2 = bid e1.2) : e = e1 :=
  List.inj_on_of_nodup_map h.ids_nodup he he1 hid

/-- The bucket recorded for an id is present. -/
theorem ViewWF.exists_id {β : Type} {bid : β → Nat} {keyOf : β → Key} {n : Nat}
    {v : List (Key × β)} {keys : Nat → Key} (h : ViewWF bid keyOf n v keys)
    {i : Nat} (hi : i < n) : ∃ e ∈ v, bid e.2 = i := by
  have : i ∈ v.map (fun e => bid e.2) := h.ids.mem_iff.mpr (List.mem_range.mpr hi)
  obtain ⟨e, he, hid⟩ := List.mem_map.mp this
  exact ⟨e, he, hid⟩

theorem ViewWF.find {β : Type} {bid : β → Nat} {keyOf : β → Key} {n : Nat}
    {v : List (Key × β)} {keys : Nat → Key} (h : ViewWF bid keyOf n v keys)
    {e : Key × β} (he : e ∈ v) : fmFind (keys (bid e.2)) v = some e.2 := by
  apply fmFind_of_mem h.keyed.1
  rw [h.sync e he]
  exact he

/-- Replacing the bucket of an entry by a bucket with the same id: `erase` under the recorded
key followed by `insert` under the new key. -/
theorem ViewWF.replace {β : Type} {bid : β → Nat} {keyOf : β → Key} {n : Nat}
    {v : List (Key × β)} {keys : Nat → Key} (h : ViewWF bid keyOf n v keys)
    (hinj : KeyInj bid keyOf n) {e : Key × β} (he : e ∈ v) (b1 : β) (hid : bid b1 = bid e.2) :
    ViewWF bid keyOf n (fmInsert (keyOf b1) b1 (fmErase (keys (bid e.2)) v))
      (setKey keys (bid b1) (keyOf b1)) ∧
    ∃ rest, List.Perm v (e :: rest) ∧
      List.Perm (fmInsert (keyOf b1) b1 (fmErase (keys (bid e.2)) v)) ((keyOf b1, b1) :: rest) := by
  have hk : keys (bid e.2) = e.1 := h.sync e he
  have hperm : List.Perm v (e :: fmErase (keys (bid e.2)) v) := by
    have hmem : (e.1, e.2) ∈ v := he
    have h0 := fmErase_perm h.keyed.1 hmem
    rw [hk]
    exact h0
  have hnd : ((e :: fmErase (keys (bid e.2)) v).map (fun x => bid x.2)).Nodup :=
    (hperm.map _).nodup_iff.mp h.ids_nodup
  have hne : ∀ x ∈ fmErase (keys (bid e.2)) v, x.1 ≠ keyOf b1 := by
    intro x hx heq
    have hxv : x ∈ v := mem_fmErase hx
    have hkx : x.1 = keyOf x.2 := h.keyed.2 x hxv
    have hidx : bid x.2 = bid b1 := by
      apply hinj _ _ (h.id_lt hxv) (by rw [hid]; exact h.id_lt he)
      rw [← hkx, heq]
    simp only [List.map_cons, List.nodup_cons, List.mem_map] at hnd
    exact hnd.1 ⟨x, hx, by rw [hidx, hid]⟩
  have hperm2 : List.Perm (fmInsert (keyOf b1) b1 (fmErase (keys (bid e.2)) v))
      ((keyOf b1, b1) :: fmErase (keys (bid e.2)) v) := fmInsert_perm hne
  refine ⟨⟨(h.keyed.erase _).insert b1, ?_, ?_⟩, _, hperm, hperm2⟩
  · intro x hx
    rcases mem_fmInsert hx with hx | hx
    · rw [hx]; exact setKey_same _ _ _
    · have hxv : x ∈ v := mem_fmErase hx
      have hidx : bid x.2 ≠ bid b1 := by
        intro hidx
        simp only [List.map_cons, List.nodup_cons, List.mem_map] at hnd
        exact hnd.1 ⟨x, hx, by rw [hidx, hid]⟩
      simp only [setKey, if_neg hidx]
      exact h.sync x hxv
  · have h1 : List.Perm ((fmInsert (keyOf b1) b1 (fmErase (keys (bid e.2)) v)).map
        (fun x => bid x.2)) ((e :: fmErase (keys (bid e.2)) v).map (fun x => bid x.2)) := by
      refine (hperm2.map _).trans ?_
      simp only [List.map_cons, hid]
      exact List.Perm.refl _
    exact h1.trans ((hperm.map _).symm.trans h.ids)
theorem nodup_app_cons_ne {α β : Type} (f : α → β) {acc xs : List α} {x e : α}
    (hnd : ((acc ++ x :: xs).map f).Nodup) (he : e ∈ acc) : f e ≠ f x := by
  intro hide
  simp only [List.map_append, List.map_cons] at hnd
  have hd := (List.nodup_append.mp hnd).2.2
  exact hd (List.mem_map.mpr ⟨e, he, rfl⟩) (by rw [hide]; exact List.mem_cons_self _ _)

theorem rebuildDirs_wf (c : Config) (live n : Nat)
    (hinj : KeyInj DirBucket.id (DirBucket.getKey c.dir_arr) n) :
    ∀ (old acc : List (Key × DirBucket)) (keys : Nat → Key)
      (res : List (Key × DirBucket)) (keys1 : Nat → Key),
      rebuildDirs c live old acc keys = Except.ok (res, keys1) →
      KeyedBy (DirBucket.getKey c.dir_arr) acc →
      (∀ e ∈ acc, keys e.2.id = e.1) →
      ((acc ++ old).map (fun e => e.2.id)).Nodup →
      (∀ e ∈ acc ++ old, e.2.id < n) →
      KeyedBy (DirBucket.getKey c.dir_arr) res ∧ (∀ e ∈ res, keys1 e.2.id = e.1) ∧
      List.Perm (res.map Prod.snd) (acc.map Prod.snd ++ old.map (fun e =>
        { e.2 with actual_fraction := (e.2.count : ℚ) / (live : ℚ) })) := by
  intro old
  induction old with
  | nil =>
    intro acc keys res keys1 h hk hs _ _
    simp only [rebuildDirs, pure_eq_ok, Except.ok.injEq, Prod.mk.injEq] at h
    obtain ⟨rfl, rfl⟩ := h
    exact ⟨hk, hs, by simp⟩
  | cons x xs ih =>
    intro acc keys res keys1 h hk hs hnd hlt
    simp only [rebuildDirs] at h
    obtain ⟨⟨d1, k1⟩, hr, h⟩ := bind_eq_ok h
    obtain ⟨_, hd1, hk1⟩ := dir_reKey_eq_ok hr
    have hid1 : d1.id = x.2.id := by rw [hd1]
    have hkey : k1 d1.id = d1.getKey c.dir_arr := by
      rw [hk1, hd1]; exact setKey_same _ _ _
    simp only [hkey] at h
    have hne : ∀ e ∈ acc, e.1 ≠ d1.getKey c.dir_arr := by
      intro e he heq
      have hide : e.2.id = d1.id := by
        apply hinj _ _ (hlt e (by simp [he])) (by rw [hid1]; exact hlt x (by simp))
        rw [← hk.2 e he, heq]
      exact nodup_app_cons_ne (fun e => e.2.id) hnd he (hide.trans hid1)
    have hperm : List.Perm (fmInsert (d1.getKey c.dir_arr) d1 acc)
        ((d1.getKey c.dir_arr, d1) :: acc) := fmInsert_perm hne
    have hnd2 : (((fmInsert (d1.getKey c.dir_arr) d1 acc) ++ xs).map (fun e => e.2.id)).Nodup := by
      have hp : List.Perm (((fmInsert (d1.getKey c.dir_arr) d1 acc) ++ xs).map (fun e => e.2.id))
          ((acc ++ x :: xs).map (fun e => e.2.id)) := by
        simp only [List.map_append, List.map_cons]
        refine ((hperm.map _).append_right _).trans ?_
        simp only [List.map_cons, hid1]
        exact (List.perm_middle).symm
      exact hp.nodup_iff.mpr hnd
    have hlt2 : ∀ e ∈ (fmInsert (d1.getKey c.dir_arr) d1 acc) ++ xs, e.2.id < n := by
      intro e he
      rcases List.mem_append.mp he with he | he
      · rcases mem_fmInsert he with he | he
        · rw [he]; simp only; rw [hid1]; exact hlt x (by simp)
        · exact hlt e (by simp [he])
      · exact hlt e (by simp [he])
    have hs2 : ∀ e ∈ fmInsert (d1.getKey c.dir_arr) d1 acc, k1 e.2.id = e.1 := by
      intro e he
      rcases mem_fmInsert he with he | he
      · rw [he]; exact hkey
      · have hidne : e.2.id ≠ x.2.id := nodup_app_cons_ne (fun e => e.2.id) hnd he
        rw [hk1]
        simp only [setKey, if_neg hidne]
        exact hs e he
    obtain ⟨r1, r2, r3⟩ := ih _ _ _ _ h (hk.insert d1) hs2 hnd2 hlt2
    refine ⟨r1, r2, r3.trans ?_⟩
    simp only [List.map_cons]
    refine ((hperm.map Prod.snd).append_right _).trans ?_
    simp only [List.map_cons, hd1]
    exact List.perm_middle.symm

theorem rebuildSizes_wf (c : Config) (live n : Nat)
    (hinj : KeyInj SizeBucket.id (SizeBucket.getKey c.size_arr) n) :
    ∀ (old acc : List (Key × SizeBucket)) (keys : Nat → Key)
      (res : List (Key × SizeBucket)) (keys1 : Nat → Key),
      rebuildSizes c live old acc keys = Except.ok (res, keys1) →
      KeyedBy (SizeBucket.getKey c.size_arr) acc →
      (∀ e ∈ acc, keys e.2.id = e.1) →
      ((acc ++ old).map (fun e => e.2.id)).Nodup →
      (∀ e ∈ acc ++ old, e.2.id < n) →
      KeyedBy (SizeBucket.getKey c.size_arr) res ∧ (∀ e ∈ res, keys1 e.2.id = e.1) ∧
      List.Perm (res.map Prod.snd) (acc.map Prod.snd ++ old.map (fun e =>
        { e.2 with actual_fraction := (e.2.count : ℚ) / (live : ℚ) })) := by
  intro old
  induction old with
  | nil =>
    intro acc keys res keys1 h hk hs _ _
    simp only [rebuildSizes, pure_eq_ok, Except.ok.injEq, Prod.mk.injEq] at h
    obtain ⟨rfl, rfl⟩ := h
    exact ⟨hk, hs, by simp⟩
  | cons x xs ih =>
    intro acc keys res keys1 h hk hs hnd hlt
    simp only [rebuildSizes] at h
    obtain ⟨⟨d1, k1⟩, hr, h⟩ := bind_eq_ok h
    obtain ⟨_, hd1, hk1⟩ := size_reKey_eq_ok hr
    have hid1 : d1.id = x.2.id := by rw [hd1]
    have hkey : k1 d1.id = d1.getKey c.size_arr := by
      rw [hk1, hd1]; exact setKey_same _ _ _
    simp only [hkey] at h
    have hne : ∀ e ∈ acc, e.1 ≠ d1.getKey c.size_arr := by
      intro e he heq
      have hide : e.2.id = d1.id := by
        apply hinj _ _ (hlt e (by simp [he])) (by rw [hid1]; exact hlt x (by simp))
        rw [← hk.2 e he, heq]
      exact nodup_app_cons_ne (fun e => e.2.id) hnd he (hide.trans hid1)
    have hperm : List.Perm (fmInsert (d1.getKey c.size_arr) d1 acc)
        ((d1.getKey c.size_arr, d1) :: acc) := fmInsert_perm hne
    have hnd2 :
        (((fmInsert (d1.getKey c.size_arr) d1 acc) ++ xs).map (fun e => e.2.id)).Nodup := by
      have hp : List.Perm
          (((fmInsert (d1.getKey c.size_arr) d1 acc) ++ xs).map (fun e => e.2.id))
          ((acc ++ x :: xs).map (fun e => e.2.id)) := by
        simp only [List.map_append, List.map_cons]
        refine ((hperm.map _).append_right _).trans ?_
        simp only [List.map_cons, hid1]
        exact (List.perm_middle).symm
      exact hp.nodup_iff.mpr hnd
    have hlt2 : ∀ e ∈ (fmInsert (d1.getKey c.size_arr) d1 acc) ++ xs, e.2.id < n := by
      intro e he
      rcases List.mem_append.mp he with he | he
      · rcases mem_fmInsert he with he | he
        · rw [he]; simp only; rw [hid1]; exact hlt x (by simp)
        · exact hlt e (by simp [he])
      · exact hlt e (by simp [he])
    have hs2 : ∀ e ∈ fmInsert (d1.getKey c.size_arr) d1 acc, k1 e.2.id = e.1 := by
      intro e he
      rcases mem_fmInsert he with he | he
      · rw [he]; exact hkey
      · have hidne : e.2.id ≠ x.2.id := nodup_app_cons_ne (fun e => e.2.id) hnd he
        rw [hk1]
        simp only [setKey, if_neg hidne]
        exact hs e he
    obtain ⟨r1, r2, r3⟩ := ih _ _ _ _ h (hk.insert d1) hs2 hnd2 hlt2
    refine ⟨r1, r2, r3.trans ?_⟩
    simp only [List.map_cons]
    refine ((hperm.map Prod.snd).append_right _).trans ?_
    simp only [List.map_cons, hd1]
    exact List.perm_middle.symm

theorem Ring.rotate {nx pv : Addr → Ptr} (x : Addr) (xs : List Addr) :
    Ring nx pv (x :: xs) ↔ Ring nx pv (xs ++ [x]) := by
  cases xs with
  | nil => simp [Ring]
  | cons y ys =>
    simp only [Ring, List.cons_append, Seg]
    rw [Seg.append]
    simp only [Seg]
    tauto

theorem Ring.single (nx pv : Addr → Ptr) (f : Addr) :
    Ring (Function.update nx f (some f)) (Function.update pv f (some f)) [f] := by
  simp [Ring, Seg]

theorem Ring.congrRing {nx pv nx1 pv1 : Addr → Ptr} {R : List Addr} (h : Ring nx pv R)
    (h1 : ∀ x ∈ R, nx1 x = nx x) (h2 : ∀ x ∈ R, pv1 x = pv x) : Ring nx1 pv1 R := by
  cases R with
  | nil => trivial
  | cons x xs =>
    refine Seg.congrSeg xs x x h h1 ?_
    intro y hy
    apply h2
    simp only [List.mem_append, List.mem_singleton] at hy
    rcases hy with hy | hy
    · exact List.mem_cons_of_mem _ hy
    · rw [hy]; exact List.mem_cons_self _ _

theorem Ring.pv_head {nx pv : Addr → Ptr} {x : Addr} {xs : List Addr}
    (h : Ring nx pv (x :: xs)) : pv x = some ((x :: xs).getLast (List.cons_ne_nil _ _)) :=
  Seg.pv_end xs x x h

theorem Ring.snoc_ring {nx pv nx1 pv1 : Addr → Ptr} {st f : Addr} {t : List Addr}
    (h : Ring nx pv (st :: t)) (hnd : (st :: t).Nodup)
    (h1 : ∀ x ∈ st :: t, x ≠ (st :: t).getLast (List.cons_ne_nil _ _) → nx1 x = nx x)
    (h2 : nx1 ((st :: t).getLast (List.cons_ne_nil _ _)) = some f)
    (h3 : nx1 f = some st)
    (h4 : ∀ x ∈ t, pv1 x = pv x)
    (h5 : pv1 f = some ((st :: t).getLast (List.cons_ne_nil _ _)))
    (h6 : pv1 st = some f) : Ring nx1 pv1 (st :: t ++ [f]) :=
  Seg.snoc_seg t st st h hnd h1 h2 h3 h4 h5 h6

theorem dir_addFile_cell {hp h1 : Heap} {d d1 : DirBucket} {f : Addr} {live : Nat}
    (h : d.addFile hp f live = Except.ok (h1, d1)) {R : List Addr} (hc : CellOK hp R d)
    (hnd : R.Nodup) (hf : f ∉ R) :
    CellOK h1 (R ++ [f]) d1 ∧
    d1 = { d with count := d.count + 1
                  actual_fraction := ((d.count + 1 : Nat) : ℚ) / (live : ℚ)
                  start := (R ++ [f]).head? } ∧
    HeapRel hp h1 [] [] [] (f :: R) := by
  obtain ⟨hcount, hstart, hring⟩ := hc
  obtain ⟨_, hcase⟩ := dir_addFile_eq_ok h
  rcases hcase with ⟨hs, h0, hh, hd⟩ | ⟨st, p, hs, hpos, hp1, hh, hd⟩
  · have hR : R = [] := by
      rw [h0] at hcount
      exact List.length_eq_zero.mp hcount.symm
    subst hR
    refine ⟨⟨?_, ?_, ?_⟩, ?_, ?_⟩
    · rw [hd]; simp [h0]
    · rw [hd]; simp
    · rw [hh]
      simp only [fold_size, fold_depth, fold_age, fold_path, fold_next, fold_prev, fold_size_next,
        fold_size_prev, fold_dir_next, fold_dir_prev, proj_upd, Function.update_eq_self,
        Function.update_idem, List.nil_append]
      simp [Ring, Seg]
    · rw [hd]; simp
    · rw [hh]
      constructor <;> intro x hx <;>
      simp only [fold_size, fold_depth, fold_age, fold_path, fold_next, fold_prev, fold_size_next,
        fold_size_prev, fold_dir_next, fold_dir_prev, proj_upd, Function.update_eq_self,
        Function.update_idem]
      all_goals simp only [List.mem_cons, List.not_mem_nil, or_false] at hx
      all_goals simp [Function.update_noteq hx]
  · cases R with
    | nil => rw [hs] at hstart; simp at hstart
    | cons x t =>
      have hx : x = st := by
        rw [hs] at hstart; simp at hstart; exact hstart.symm
      subst hx
      have hfx : f ≠ x := fun e => hf (by rw [e]; exact List.mem_cons_self _ _)
      simp only [fold_size, fold_depth, fold_age, fold_path, fold_next, fold_prev, fold_size_next,
        fold_size_prev, fold_dir_next, fold_dir_prev, proj_upd, Function.update_eq_self,
        Function.update_idem] at hp1
      rw [Function.update_noteq (Ne.symm hfx)] at hp1
      have hlast : p = (x :: t).getLast (List.cons_ne_nil _ _) := by
        have := Ring.pv_head hring
        rw [hp1] at this
        exact Option.some.inj this
      have hpm : p ∈ x :: t := by rw [hlast]; exact List.getLast_mem _
      have hfp : f ≠ p := fun e => hf (e ▸ hpm)
      have hxt : x ∉ t := (List.nodup_cons.mp hnd).1
      refine ⟨⟨?_, ?_, ?_⟩, ?_, ?_⟩
      · rw [hd]; simp [hcount]
      · rw [hd]; simp [hs]
      · rw [hh]
        simp only [fold_size, fold_depth, fold_age, fold_path, fold_next, fold_prev, fold_size_next,
          fold_size_prev, fold_dir_next, fold_dir_prev, proj_upd, Function.update_eq_self,
          Function.update_idem]
        refine Ring.snoc_ring hring hnd ?_ ?_ ?_ ?_ ?_ ?_
        · intro y hy hne
          rw [← hlast] at hne
          have hyf : y ≠ f := fun e => hf (e ▸ hy)
          simp [Function.update_noteq hne, Function.update_noteq hyf]
        · rw [← hlast]; simp
        · simp [Function.update_noteq hfp]
        · intro y hy
          have hyf : y ≠ f := fun e => hf (e ▸ List.mem_cons_of_mem _ hy)
          have hyx : y ≠ x := fun e => hxt (e ▸ hy)
          simp [Function.update_noteq hyf, Function.update_noteq hyx]
        · rw [← hlast]
          simp [Function.update_noteq hfx, hp1]
        · simp
      · rw [hd]; simp [hs]
      · rw [hh]
        constructor <;> intro y hy <;>
        simp only [fold_size, fold_depth, fold_age, fold_path, fold_next, fold_prev, fold_size_next,
          fold_size_prev, fold_dir_next, fold_dir_prev, proj_upd, Function.update_eq_self,
          Function.update_idem]
        all_goals simp only [List.mem_cons, not_or] at hy
        · have hyp : y ≠ p := fun e => by
            rw [e] at hy
            simp only [List.mem_cons] at hpm
            tauto
          simp [Function.update_noteq hy.1, Function.update_noteq hyp]
        · simp [Function.update_noteq hy.1, Function.update_noteq hy.2.1]

theorem Seg.remove_mem {nx pv : Addr → Ptr} {a : Addr} {L : List Addr}
    (h : Seg nx pv a L a) (hnd : (a :: L).Nodup) {f : Addr} (hf : f ∈ L) :
    ∃ p n, pv f = some p ∧ nx f = some n ∧ p ≠ f ∧ n ≠ f ∧ p ∈ a :: L ∧ n ∈ a :: L ∧
      ∀ nx1 pv1 : Addr → Ptr, (∀ z, z ≠ p → z ≠ f → nx1 z = nx z) → nx1 p = some n →
        (∀ z, z ≠ n → z ≠ f → pv1 z = pv z) → pv1 n = some p →
        Seg nx1 pv1 a (L.erase f) a := by
  obtain ⟨l1, l2, hL, hf1⟩ := List.eq_append_cons_of_mem hf
  subst hL
  have hsp := (Seg.append l1 a f l2 a).mp h
  have hpv := Seg.pv_end l1 a f hsp.1
  have hnx := Seg.nx_start l2 f a hsp.2
  have hane : a ∉ l1 ++ f :: l2 := (List.nodup_cons.mp hnd).1
  have hnd2 : (l1 ++ f :: l2).Nodup := (List.nodup_cons.mp hnd).2
  have hf2 : f ∉ l2 := by
    have := (List.nodup_append.mp hnd2).2.1
    exact (List.nodup_cons.mp this).1
  have hpm : (a :: l1).getLast (List.cons_ne_nil _ _) ∈ a :: l1 := List.getLast_mem _
  have hnm : (l2 ++ [a]).head (by simp) ∈ l2 ++ [a] := List.head_mem _
  have hfa : f ≠ a := fun e => hane (by rw [← e]; simp)
  have hpf : (a :: l1).getLast (List.cons_ne_nil _ _) ≠ f := by
    intro e
    rw [e] at hpm
    rcases List.mem_cons.mp hpm with hh | hh
    · exact hfa hh
    · exact hf1 hh
  have hnf : (l2 ++ [a]).head (by simp) ≠ f := by
    intro e
    rw [e] at hnm
    rcases List.mem_append.mp hnm with hh | hh
    · exact hf2 hh
    · exact hfa (List.mem_singleton.mp hh)
  refine ⟨_, _, hpv, hnx, hpf, hnf, ?_, ?_, ?_⟩
  · rcases List.mem_cons.mp hpm with hh | hh
    · rw [hh]; simp
    · exact List.mem_cons_of_mem _ (List.mem_append_left _ hh)
  · rcases List.mem_append.mp hnm with hh | hh
    · exact List.mem_cons_of_mem _ (List.mem_append_right _ (List.mem_cons_of_mem _ hh))
    · rw [List.mem_singleton.mp hh]; simp
  · intro nx1 pv1 e1 e2 e3 e4
    have her : (l1 ++ f :: l2).erase f = l1 ++ l2 := by
      rw [List.erase_append_right _ hf1, List.erase_cons_head]
    rw [her]
    refine Seg.remove_seg l1 l2 a a h hnd hane e2 e4 ?_ ?_
    · intro x hx hne
      apply e1 x hne
      intro e
      rw [e] at hx
      rcases List.mem_cons.mp hx with hh | hh
      · exact hfa hh
      · rcases List.mem_append.mp hh with hh | hh
        · exact hf1 hh
        · exact hf2 hh
    · intro x hx hne
      apply e3 x hne
      intro e
      rw [e] at hx
      simp only [List.mem_append, List.mem_singleton] at hx
      rcases hx with (hh | hh) | hh
      · exact hf1 hh
      · exact hf2 hh
      · exact hfa hh

theorem Ring.remove_ring {nx pv : Addr → Ptr} {R : List Addr} (hR : Ring nx pv R) (hnd : R.Nodup)
    {f : Addr} (hf : f ∈ R) :
    ∃ p n, pv f = some p ∧ nx f = some n ∧ p ∈ R ∧ n ∈ R ∧
      (R.head? = some f → R.erase f ≠ [] → (R.erase f).head? = some n) ∧
      ∀ nx1 pv1 : Addr → Ptr, (∀ z, z ≠ p → z ≠ f → nx1 z = nx z) → (p ≠ f → nx1 p = some n) →
        (∀ z, z ≠ n → z ≠ f → pv1 z = pv z) → (n ≠ f → pv1 n = some p) →
        Ring nx1 pv1 (R.erase f) := by
  cases R with
  | nil => simp at hf
  | cons x xs =>
    by_cases hxf : x = f
    · subst hxf
      cases xs with
      | nil =>
        simp only [Ring, Seg] at hR
        refine ⟨x, x, hR.2, hR.1, by simp, by simp, ?_, ?_⟩
        · intro _ hne; simp at hne
        · intro nx1 pv1 _ _ _ _
          simp [Ring]
      | cons y ys =>
        have hrot := (Ring.rotate x (y :: ys)).mp hR
        have hnd2 : (y :: (ys ++ [x])).Nodup := by
          have : List.Perm (y :: (ys ++ [x])) (x :: y :: ys) := by
            have h1 : List.Perm (ys ++ [x]) (x :: ys) := List.perm_append_singleton x ys
            exact (h1.cons y).trans (List.Perm.swap x y ys)
          exact this.nodup_iff.mpr hnd
        have hxm : x ∈ ys ++ [x] := by simp
        have hseg : Seg nx pv y (ys ++ [x]) y := hrot
        obtain ⟨p, n, e1, e2, e3, e4, e5, e6, e7⟩ := Seg.remove_mem hseg hnd2 hxm
        have hxys : x ∉ ys := by
          have := (List.nodup_cons.mp hnd).1
          exact fun hh => this (List.mem_cons_of_mem _ hh)
        have her : (ys ++ [x]).erase x = ys := by
          rw [List.erase_append_right _ hxys]; simp
        have hny : n = y := by
          have := hR.1
          rw [e2] at this
          exact Option.some.inj this
        refine ⟨p, n, e1, e2, ?_, ?_, ?_, ?_⟩
        · simp only [List.mem_cons, List.mem_append, List.mem_singleton] at e5 ⊢
          tauto
        · simp only [List.mem_cons, List.mem_append, List.mem_singleton] at e6 ⊢
          tauto
        · intro _ _
          simp [hny]
        · intro nx1 pv1 a1 a2 a3 a4
          have := e7 nx1 pv1 a1 (a2 e3) a3 (a4 e4)
          rw [her] at this
          simpa [Ring] using this
    · have hfx : f ∈ xs := by
        rcases List.mem_cons.mp hf with hh | hh
        · exact absurd hh.symm hxf
        · exact hh
      obtain ⟨p, n, e1, e2, e3, e4, e5, e6, e7⟩ := Seg.remove_mem hR hnd hfx
      have her : (x :: xs).erase f = x :: xs.erase f := by
        rw [List.erase_cons_tail]
        simpa using hxf
      refine ⟨p, n, e1, e2, e5, e6, ?_, ?_⟩
      · intro hh; simp at hh; exact absurd hh hxf
      · intro nx1 pv1 a1 a2 a3 a4
        rw [her]
        exact e7 nx1 pv1 a1 (a2 e3) a3 (a4 e4)

theorem update_self_val {α : Type} (g : Addr → α) (p f : Addr) :
    Function.update g p (g f) f = g f := by
  by_cases hpf : f = p
  · subst hpf; simp
  · simp [Function.update_noteq hpf]

theorem head_erase_of_ne {R : List Addr} {f : Addr} (h : R.head? ≠ some f) :
    (R.erase f).head? = R.head? := by
  cases R with
  | nil => rfl
  | cons x xs =>
    have hxf : x ≠ f := fun e => h (by simp [e])
    rw [List.erase_cons_tail (by simpa using hxf)]
    rfl

theorem dir_deleteFile_cell {hp h1 : Heap} {d d1 : DirBucket} {f : Addr} {live : Nat}
    (h : d.deleteFile hp f live = Except.ok (h1, d1)) {R : List Addr} (hc : CellOK hp R d)
    (hnd : R.Nodup) (hf : f ∈ R) :
    CellOK h1 (R.erase f) d1 ∧
    d1 = { d with count := d.count - 1
                  actual_fraction := ((d.count - 1 : Nat) : ℚ) / (live : ℚ)
                  start := (R.erase f).head? } ∧
    HeapRel hp h1 [] [] [] R := by
  obtain ⟨hcount, hstart, hring⟩ := hc
  obtain ⟨_, hpos, p, n, hp1, hn1, hh, hd⟩ := dir_deleteFile_eq_ok h
  simp only [fold_size, fold_depth, fold_age, fold_path, fold_next, fold_prev, fold_size_next,
    fold_size_prev, fold_dir_next, fold_dir_prev, proj_upd, Function.update_eq_self,
    Function.update_idem, update_self_val] at hp1 hn1
  obtain ⟨p0, n0, e1, e2, e3, e4, e5, e6⟩ := Ring.remove_ring hring hnd hf
  have hpp : p0 = p := by rw [hp1] at e1; exact (Option.some.inj e1).symm
  have hnn : n0 = n := by rw [hn1] at e2; exact (Option.some.inj e2).symm
  subst hpp
  subst hnn
  have hlen : (R.erase f).length = d.count - 1 := by
    rw [List.length_erase_of_mem hf, hcount]
  have hst : (if d.count - 1 = 0 then none
      else if d.start = some f then (hp f).dir_next else d.start) = (R.erase f).head? := by
    by_cases h0 : d.count - 1 = 0
    · rw [if_pos h0]
      rw [h0] at hlen
      rw [List.length_eq_zero.mp hlen]
      rfl
    · rw [if_neg h0]
      have hne : R.erase f ≠ [] := by
        intro e
        rw [e] at hlen
        exact h0 hlen.symm
      by_cases h1 : d.start = some f
      · rw [if_pos h1, e5 (by rw [← hstart]; exact h1) hne]
        exact hn1
      · rw [if_neg h1, head_erase_of_ne (by rw [← hstart]; exact h1)]
        exact hstart
  refine ⟨⟨?_, ?_, ?_⟩, ?_, ?_⟩
  · rw [hd]; exact hlen.symm
  · rw [hd]; exact hst
  · rw [hh]
    simp only [fold_size, fold_depth, fold_age, fold_path, fold_next, fold_prev, fold_size_next,
      fold_size_prev, fold_dir_next, fold_dir_prev, proj_upd, Function.update_eq_self,
      Function.update_idem, update_self_val]
    apply e6
    · intro z hz1 hz2
      simp [Function.update_noteq hz1, Function.update_noteq hz2]
    · intro hne
      simp [Function.update_noteq hne, hn1]
    · intro z hz1 hz2
      simp [Function.update_noteq hz1, Function.update_noteq hz2]
    · intro hne
      simp [Function.update_noteq hne, hp1]
  · rw [hd, hst]
  · rw [hh]
    constructor <;> intro y hy <;>
    simp only [fold_size, fold_depth, fold_age, fold_path, fold_next, fold_prev, fold_size_next,
      fold_size_prev, fold_dir_next, fold_dir_prev, proj_upd, Function.update_eq_self,
      Function.update_idem, update_self_val]
    · have hyp : y ≠ p0 := fun e => hy (e ▸ e3)
      have hyf : y ≠ f := fun e => hy (e ▸ hf)
      simp [Function.update_noteq hyp, Function.update_noteq hyf]
    · have hyn : y ≠ n0 := fun e => hy (e ▸ e4)
      have hyf : y ≠ f := fun e => hy (e ▸ hf)
      simp [Function.update_noteq hyn, Function.update_noteq hyf]

theorem um_replace {κ β : Type} [DecidableEq κ] (m : κ → Option β) (k : κ) (v : β) :
    umInsert (umErase m k) k v = Function.update m k (some v) := by
  funext x
  unfold umInsert umErase Function.update
  by_cases hx : x = k
  · subst hx; simp
  · simp [hx]

theorem dec64_of_pos {a : Nat} (h : 0 < a) : dec64 a = a - 1 := by
  unfold dec64
  rw [if_neg (Nat.pos_iff_ne_zero.mp h)]

theorem size_addFile_ring {hp h1 : Heap} {s s1 : SizeBucket} {f : Addr} {live : Nat}
    (h : s.addFile hp f live = Except.ok (h1, s1)) {S : List Addr}
    (hcount : s.count = S.length) (hstart : s.start = S.head?)
    (hring : Ring (proj File.size_next hp) (proj File.size_prev hp) S)
    (hnd : S.Nodup) (hf : f ∉ S) :
    Ring (proj File.size_next h1) (proj File.size_prev h1) (S ++ [f]) ∧
    (∃ cell, s1 = { s with count := s.count + 1
                           actual_fraction := ((s.count + 1 : Nat) : ℚ) / (live : ℚ)
                           db := Function.update s.db (hp f).depth (some cell)
                           start := (S ++ [f]).head? }) ∧
    HeapRel hp h1 [] [] (f :: S) [] := by
  obtain ⟨_, d, hdb, hcase⟩ := size_addFile_eq_ok h
  rcases hcase with ⟨hs, h0, hh, hd⟩ | ⟨st, p, hs, hp1, hh, hd⟩
  · have hR : S = [] := by
      rw [h0] at hcount
      exact List.length_eq_zero.mp hcount.symm
    subst hR
    refine ⟨?_, ⟨(if d.count + 1 = 1 then { d with count := d.count + 1, start := some f }
        else { d with count := d.count + 1 }), ?_⟩, ?_⟩
    · rw [hh]
      simp only [fold_size, fold_depth, fold_age, fold_path, fold_next, fold_prev, fold_size_next,
        fold_size_prev, fold_dir_next, fold_dir_prev, proj_upd, Function.update_eq_self,
        Function.update_idem, List.nil_append]
      simp [Ring, Seg]
    · rw [hd, um_replace]; simp
    · rw [hh]
      constructor <;> intro x hx <;>
      simp only [fold_size, fold_depth, fold_age, fold_path, fold_next, fold_prev, fold_size_next,
        fold_size_prev, fold_dir_next, fold_dir_prev, proj_upd, Function.update_eq_self,
        Function.update_idem]
      all_goals simp only [List.mem_cons, List.not_mem_nil, or_false] at hx
      all_goals simp [Function.update_noteq hx]
  · cases S with
    | nil => rw [hs] at hstart; simp at hstart
    | cons x t =>
      have hx : x = st := by
        rw [hs] at hstart; simp at hstart; exact hstart.symm
      subst hx
      have hfx : f ≠ x := fun e => hf (by rw [e]; exact List.mem_cons_self _ _)
      simp only [fold_size, fold_depth, fold_age, fold_path, fold_next, fold_prev, fold_size_next,
        fold_size_prev, fold_dir_next, fold_dir_prev, proj_upd, Function.update_eq_self,
        Function.update_idem] at hp1
      rw [Function.update_noteq (Ne.symm hfx)] at hp1
      have hlast : p = (x :: t).getLast (List.cons_ne_nil _ _) := by
        have := Ring.pv_head hring
        rw [hp1] at this
        exact Option.some.inj this
      have hpm : p ∈ x :: t := by rw [hlast]; exact List.getLast_mem _
      have hfp : f ≠ p := fun e => hf (e ▸ hpm)
      have hxt : x ∉ t := (List.nodup_cons.mp hnd).1
      refine ⟨?_, ⟨(if d.count + 1 = 1 then { d with count := d.count + 1, start := some f }
        else { d with count := d.count + 1 }), ?_⟩, ?_⟩
      · rw [hh]
        simp only [fold_size, fold_depth, fold_age, fold_path, fold_next, fold_prev, fold_size_next,
          fold_size_prev, fold_dir_next, fold_dir_prev, proj_upd, Function.update_eq_self,
          Function.update_idem]
        refine Ring.snoc_ring hring hnd ?_ ?_ ?_ ?_ ?_ ?_
        · intro y hy hne
          rw [← hlast] at hne
          have hyf : y ≠ f := fun e => hf (e ▸ hy)
          simp [Function.update_noteq hne, Function.update_noteq hyf]
        · rw [← hlast]; simp
        · simp [Function.update_noteq hfp]
        · intro y hy
          have hyf : y ≠ f := fun e => hf (e ▸ List.mem_cons_of_mem _ hy)
          have hyx : y ≠ x := fun e => hxt (e ▸ hy)
          simp [Function.update_noteq hyf, Function.update_noteq hyx]
        · rw [← hlast]
          simp [Function.update_noteq hfx, hp1]
        · simp
      · rw [hd, um_replace]; simp [hs]
      · rw [hh]
        constructor <;> intro y hy <;>
        simp only [fold_size, fold_depth, fold_age, fold_path, fold_next, fold_prev, fold_size_next,
          fold_size_prev, fold_dir_next, fold_dir_prev, proj_upd, Function.update_eq_self,
          Function.update_idem]
        all_goals simp only [List.mem_cons, not_or] at hy
        · have hyp : y ≠ p := fun e => by
            rw [e] at hy
            simp only [List.mem_cons] at hpm
            tauto
          simp [Function.update_noteq hy.1, Function.update_noteq hyp]
        · simp [Function.update_noteq hy.1, Function.update_noteq hy.2.1]

theorem size_deleteFile_ring {hp h1 : Heap} {s s1 : SizeBucket} {f : Addr} {live : Nat}
    (h : s.deleteFile hp f live = Except.ok (h1, s1)) {S : List Addr}
    (hcount : s.count = S.length) (hstart : s.start = S.head?)
    (hring : Ring (proj File.size_next hp) (proj File.size_prev hp) S)
    (hnd : S.Nodup) (hf : f ∈ S) :
    Ring (proj File.size_next h1) (proj File.size_prev h1) (S.erase f) ∧
    (∃ cell, s1 = { s with count := s.count - 1
                           actual_fraction := ((s.count - 1 : Nat) : ℚ) / (live : ℚ)
                           db := Function.update s.db (hp f).depth (some cell)
                           start := (S.erase f).head? }) ∧
    HeapRel hp h1 [] [] S [] := by
  obtain ⟨_, d, p, n, hdb, hp1, hn1, hh, hd⟩ := size_deleteFile_eq_ok h
  simp only [fold_size, fold_depth, fold_age, fold_path, fold_next, fold_prev, fold_size_next,
    fold_size_prev, fold_dir_next, fold_dir_prev, proj_upd, Function.update_eq_self,
    Function.update_idem, update_self_val] at hp1 hn1
  obtain ⟨p0, n0, e1, e2, e3, e4, e5, e6⟩ := Ring.remove_ring hring hnd hf
  have hpp : p0 = p := by rw [hp1] at e1; exact (Option.some.inj e1).symm
  have hnn : n0 = n := by rw [hn1] at e2; exact (Option.some.inj e2).symm
  subst hpp
  subst hnn
  have hpos : 0 < s.count := by
    rw [hcount]; exact List.length_pos_of_mem hf
  have hlen : (S.erase f).length = s.count - 1 := by
    rw [List.length_erase_of_mem hf, hcount]
  have hst : (if s.count - 1 = 0 then none
      else if s.start = some f then (hp f).size_next else s.start) = (S.erase f).head? := by
    by_cases h0 : s.count - 1 = 0
    · rw [if_pos h0]
      rw [h0] at hlen
      rw [List.length_eq_zero.mp hlen]
      rfl
    · rw [if_neg h0]
      have hne : S.erase f ≠ [] := by
        intro e
        rw [e] at hlen
        exact h0 hlen.symm
      by_cases h1 : s.start = some f
      · rw [if_pos h1, e5 (by rw [← hstart]; exact h1) hne]
        exact hn1
      · rw [if_neg h1, head_erase_of_ne (by rw [← hstart]; exact h1)]
        exact hstart
  refine ⟨?_, ⟨{ d with count := dec64 d.count, start := if dec64 d.count = 0 then none
      else if d.start = some f then (hp f).dir_next else d.start }, ?_⟩, ?_⟩
  · rw [hh]
    simp only [fold_size, fold_depth, fold_age, fold_path, fold_next, fold_prev, fold_size_next,
      fold_size_prev, fold_dir_next, fold_dir_prev, proj_upd, Function.update_eq_self,
      Function.update_idem, update_self_val]
    apply e6
    · intro z hz1 hz2
      simp [Function.update_noteq hz1, Function.update_noteq hz2]
    · intro hne
      simp [Function.update_noteq hne, hn1]
    · intro z hz1 hz2
      simp [Function.update_noteq hz1, Function.update_noteq hz2]
    · intro hne
      simp [Function.update_noteq hne, hp1]
  · rw [hd, um_replace, dec64_of_pos hpos, hst]
  · rw [hh]
    constructor <;> intro y hy <;>
    simp only [fold_size, fold_depth, fold_age, fold_path, fold_next, fold_prev, fold_size_next,
      fold_size_prev, fold_dir_next, fold_dir_prev, proj_upd, Function.update_eq_self,
      Function.update_idem, update_self_val]
    · have hyp : y ≠ p0 := fun e => hy (e ▸ e3)
      have hyf : y ≠ f := fun e => hy (e ▸ hf)
      simp [Function.update_noteq hyp, Function.update_noteq hyf]
    · have hyn : y ≠ n0 := fun e => hy (e ▸ e4)
      have hyf : y ≠ f := fun e => hy (e ▸ hf)
      simp [Function.update_noteq hyn, Function.update_noteq hyf]

theorem Seg.pv_of_head {nx pv : Addr → Ptr} {a f : Addr} {L : List Addr}
    (h : Seg nx pv a L a) (hf : f ∈ L) (hn : nx a = some f) : pv f = some a := by
  cases L with
  | nil => simp at hf
  | cons x xs =>
    simp only [Seg] at h
    have : x = f := by
      have h1 := h.1
      rw [hn] at h1
      exact (Option.some.inj h1).symm
    rw [← this]
    exact h.2.1

theorem Seg.nx_of_last {nx pv : Addr → Ptr} {a f : Addr} {L : List Addr}
    (h : Seg nx pv a L a) (hf : f ∈ L) (hn : pv a = some f) : nx f = some a := by
  have hne : L ≠ [] := List.ne_nil_of_mem hf
  obtain ⟨t, x, hL⟩ : ∃ t x, L = t ++ [x] :=
    ⟨L.dropLast, L.getLast hne, (List.dropLast_append_getLast hne).symm⟩
  subst hL
  have hsp := (Seg.append t a x [] a).mp h
  have hx : x = f := by
    have h1 := hsp.2.2
    rw [hn] at h1
    exact (Option.some.inj h1).symm
  rw [← hx]
  exact hsp.2.1

theorem list_addFile_seg {hp h1 : Heap} {fs f : Addr} {L : List Addr}
    (h : AgeList.addFile hp fs f = Except.ok h1)
    (hseg : Seg (proj File.next hp) (proj File.prev hp) fs L fs)
    (hnd : (fs :: L).Nodup) (hf : f ∉ fs :: L) :
    Seg (proj File.next h1) (proj File.prev h1) fs (L ++ [f]) fs ∧
    HeapRel hp h1 [] (f :: fs :: L) [] [] := by
  obtain ⟨p, hp1, hh⟩ := list_addFile_eq_ok h
  have hffs : f ≠ fs := fun e => hf (by rw [e]; exact List.mem_cons_self _ _)
  simp only [fold_size, fold_depth, fold_age, fold_path, fold_next, fold_prev, fold_size_next,
    fold_size_prev, fold_dir_next, fold_dir_prev, proj_upd, Function.update_eq_self,
    Function.update_idem] at hp1
  rw [Function.update_noteq (Ne.symm hffs)] at hp1
  have hlast : p = (fs :: L).getLast (List.cons_ne_nil _ _) := by
    have := Seg.pv_end L fs fs hseg
    rw [hp1] at this
    exact Option.some.inj this
  have hpm : p ∈ fs :: L := by rw [hlast]; exact List.getLast_mem _
  have hfp : f ≠ p := fun e => hf (e ▸ hpm)
  have hxt : fs ∉ L := (List.nodup_cons.mp hnd).1
  refine ⟨?_, ?_⟩
  · rw [hh]
    simp only [fold_size, fold_depth, fold_age, fold_path, fold_next, fold_prev, fold_size_next,
      fold_size_prev, fold_dir_next, fold_dir_prev, proj_upd, Function.update_eq_self,
      Function.update_idem]
    refine Seg.snoc_seg L fs fs hseg hnd ?_ ?_ ?_ ?_ ?_ ?_
    · intro y hy hne
      rw [← hlast] at hne
      have hyf : y ≠ f := fun e => hf (e ▸ hy)
      simp [Function.update_noteq hne, Function.update_noteq hyf]
    · rw [← hlast]; simp
    · simp [Function.update_noteq hfp]
    · intro y hy
      have hyf : y ≠ f := fun e => hf (e ▸ List.mem_cons_of_mem _ hy)
      have hyx : y ≠ fs := fun e => hxt (e ▸ hy)
      simp [Function.update_noteq hyf, Function.update_noteq hyx]
    · rw [← hlast]
      simp [Function.update_noteq hffs, hp1]
    · simp
  · rw [hh]
    constructor <;> intro y hy <;>
    simp only [fold_size, fold_depth, fold_age, fold_path, fold_next, fold_prev, fold_size_next,
      fold_size_prev, fold_dir_next, fold_dir_prev, proj_upd, Function.update_eq_self,
      Function.update_idem]
    all_goals simp only [List.mem_cons, not_or] at hy
    · have hyp : y ≠ p := fun e => by
        rw [e] at hy
        simp only [List.mem_cons] at hpm
        tauto
      simp [Function.update_noteq hy.1, Function.update_noteq hyp]
    · simp [Function.update_noteq hy.1, Function.update_noteq hy.2.1]

theorem list_deleteFile_seg {hp h1 : Heap} {fs f : Addr} {L : List Addr}
    (h : AgeList.deleteFile hp fs f = Except.ok h1)
    (hseg : Seg (proj File.next hp) (proj File.prev hp) fs L fs)
    (hnd : (fs :: L).Nodup) (hf : f ∈ L) :
    Seg (proj File.next h1) (proj File.prev h1) fs (L.erase f) fs ∧
    HeapRel hp h1 [] (fs :: L) [] [] := by
  obtain ⟨h0, p, n, hh0, hp1, hn1, hh⟩ := list_deleteFile_eq_ok h
  obtain ⟨p0, n0, e1, e2, e3, e4, e5, e6, e7⟩ := Seg.remove_mem hseg hnd hf
  have hffs : f ≠ fs := fun e => (List.nodup_cons.mp hnd).1 (e ▸ hf)
  have hfL : f ∈ fs :: L := List.mem_cons_of_mem _ hf
  have hfsL : fs ∈ fs :: L := List.mem_cons_self _ _
  by_cases c1 : (hp fs).next = some f
  · rw [if_pos c1] at hh0
    have hpfs : p0 = fs := by
      have := Seg.pv_of_head hseg hf c1
      rw [e1] at this
      exact Option.some.inj this
    subst hh0
    simp only [fold_size, fold_depth, fold_age, fold_path, fold_next, fold_prev, fold_size_next,
      fold_size_prev, fold_dir_next, fold_dir_prev, proj_upd, Function.update_eq_self,
      Function.update_idem, update_self_val] at hp1 hn1
    have hpp : p0 = p := by rw [hp1] at e1; exact (Option.some.inj e1).symm
    subst hpp
    rw [Function.update_noteq (Ne.symm e3), Function.update_noteq hffs] at hn1
    have hnn : n0 = n := by rw [hn1] at e2; exact (Option.some.inj e2).symm
    subst hnn
    refine ⟨?_, ?_⟩
    · rw [hh]
      simp only [fold_size, fold_depth, fold_age, fold_path, fold_next, fold_prev, fold_size_next,
        fold_size_prev, fold_dir_next, fold_dir_prev, proj_upd, Function.update_eq_self,
        Function.update_idem, update_self_val]
      apply e7
      · intro z hz1 hz2
        have hz3 : z ≠ fs := by rw [← hpfs]; exact hz1
        simp [Function.update_noteq hz1, Function.update_noteq hz2, Function.update_noteq hz3]
      · simp [Function.update_noteq e3, Function.update_noteq hffs, hn1]
      · intro z hz1 hz2
        simp [Function.update_noteq hz1, Function.update_noteq hz2]
      · simp [Function.update_noteq e4, hp1]
    · rw [hh]
      constructor <;> intro y hy <;>
      simp only [fold_size, fold_depth, fold_age, fold_path, fold_next, fold_prev, fold_size_next,
        fold_size_prev, fold_dir_next, fold_dir_prev, proj_upd, Function.update_eq_self,
        Function.update_idem, update_self_val]
      · have hyp : y ≠ p0 := fun e => hy (e ▸ e5)
        have hyf : y ≠ f := fun e => hy (e ▸ hfL)
        have hyfs : y ≠ fs := fun e => hy (e ▸ hfsL)
        simp [Function.update_noteq hyp, Function.update_noteq hyf, Function.update_noteq hyfs]
      · have hyn : y ≠ n0 := fun e => hy (e ▸ e6)
        have hyf : y ≠ f := fun e => hy (e ▸ hfL)
        simp [Function.update_noteq hyn, Function.update_noteq hyf]
  · rw [if_neg c1] at hh0
    by_cases c2 : (hp fs).prev = some f
    · rw [if_pos c2] at hh0
      have hnfs : n0 = fs := by
        have := Seg.nx_of_last hseg hf c2
        rw [e2] at this
        exact Option.some.inj this
      subst hh0
      simp only [fold_size, fold_depth, fold_age, fold_path, fold_next, fold_prev, fold_size_next,
        fold_size_prev, fold_dir_next, fold_dir_prev, proj_upd, Function.update_eq_self,
        Function.update_idem, update_self_val] at hp1 hn1
      have hpp : p0 = p := by rw [hp1] at e1; exact (Option.some.inj e1).symm
      have hnn : n0 = n := by rw [hn1] at e2; exact (Option.some.inj e2).symm
      subst hpp
      subst hnn
      refine ⟨?_, ?_⟩
      · rw [hh]
        simp only [fold_size, fold_depth, fold_age, fold_path, fold_next, fold_prev, fold_size_next,
          fold_size_prev, fold_dir_next, fold_dir_prev, proj_upd, Function.update_eq_self,
          Function.update_idem, update_self_val]
        apply e7
        · intro z hz1 hz2
          simp [Function.update_noteq hz1, Function.update_noteq hz2]
        · simp [Function.update_noteq e3, hn1]
        · intro z hz1 hz2
          have hz3 : z ≠ fs := by rw [← hnfs]; exact hz1
          simp [Function.update_noteq hz1, Function.update_noteq hz2, Function.update_noteq hz3]
        · simp [Function.update_noteq e4, Function.update_noteq hffs, hp1]
      · rw [hh]
        constructor <;> intro y hy <;>
        simp only [fold_size, fold_depth, fold_age, fold_path, fold_next, fold_prev, fold_size_next,
          fold_size_prev, fold_dir_next, fold_dir_prev, proj_upd, Function.update_eq_self,
          Function.update_idem, update_self_val]
        · have hyp : y ≠ p0 := fun e => hy (e ▸ e5)
          have hyf : y ≠ f := fun e => hy (e ▸ hfL)
          simp [Function.update_noteq hyp, Function.update_noteq hyf]
        · have hyn : y ≠ n0 := fun e => hy (e ▸ e6)
          have hyf : y ≠ f := fun e => hy (e ▸ hfL)
          have hyfs : y ≠ fs := fun e => hy (e ▸ hfsL)
          simp [Function.update_noteq hyn, Function.update_noteq hyf,
            Function.update_noteq hyfs]
    · rw [if_neg c2] at hh0
      subst hh0
      simp only [fold_size, fold_depth, fold_age, fold_path, fold_next, fold_prev, fold_size_next,
        fold_size_prev, fold_dir_next, fold_dir_prev, proj_upd, Function.update_eq_self,
        Function.update_idem, update_self_val] at hp1 hn1
      have hpp : p0 = p := by rw [hp1] at e1; exact (Option.some.inj e1).symm
      have hnn : n0 = n := by rw [hn1] at e2; exact (Option.some.inj e2).symm
      subst hpp
      subst hnn
      refine ⟨?_, ?_⟩
      · rw [hh]
        simp only [fold_size, fold_depth, fold_age, fold_path, fold_next, fold_prev, fold_size_next,
          fold_size_prev, fold_dir_next, fold_dir_prev, proj_upd, Function.update_eq_self,
          Function.update_idem, update_self_val]
        apply e7
        · intro z hz1 hz2
          simp [Function.update_noteq hz1, Function.update_noteq hz2]
        · simp [Function.update_noteq e3, hn1]
        · intro z hz1 hz2
          simp [Function.update_noteq hz1, Function.update_noteq hz2]
        · simp [Function.update_noteq e4, hp1]
      · rw [hh]
        constructor <;> intro y hy <;>
        simp only [fold_size, fold_depth, fold_age, fold_path, fold_next, fold_prev, fold_size_next,
          fold_size_prev, fold_dir_next, fold_dir_prev, proj_upd, Function.update_eq_self,
          Function.update_idem, update_self_val]
        · have hyp : y ≠ p0 := fun e => hy (e ▸ e5)
          have hyf : y ≠ f := fun e => hy (e ▸ hfL)
          simp [Function.update_noteq hyp, Function.update_noteq hyf]
        · have hyn : y ≠ n0 := fun e => hy (e ▸ e6)
          have hyf : y ≠ f := fun e => hy (e ▸ hfL)
          simp [Function.update_noteq hyn, Function.update_noteq hyf]

theorem ViewWF.replace_mem {β : Type} {bid : β → Nat} {keyOf : β → Key} {n : Nat}
    {v : List (Key × β)} {keys : Nat → Key} (h : ViewWF bid keyOf n v keys)
    (hinj : KeyInj bid keyOf n) {e : Key × β} (he : e ∈ v) (b1 : β) (hid : bid b1 = bid e.2) :
    ViewWF bid keyOf n (fmInsert (keyOf b1) b1 (fmErase (keys (bid e.2)) v))
      (setKey keys (bid b1) (keyOf b1)) ∧
    (∀ x ∈ fmInsert (keyOf b1) b1 (fmErase (keys (bid e.2)) v),
      x.2 = b1 ∨ (x ∈ v ∧ bid x.2 ≠ bid e.2)) ∧
    ∃ x ∈ fmInsert (keyOf b1) b1 (fmErase (keys (bid e.2)) v), x.2 = b1 := by
  obtain ⟨hwf, rest, hp1, hp2⟩ := h.replace hinj he b1 hid
  refine ⟨hwf, ?_, ?_⟩
  · intro x hx
    rcases List.mem_cons.mp (hp2.subset hx) with hx1 | hx1
    · left; rw [hx1]
    · right
      refine ⟨hp1.symm.subset (List.mem_cons_of_mem _ hx1), ?_⟩
      have hnd : ((e :: rest).map (fun e => bid e.2)).Nodup :=
        (hp1.map _).nodup_iff.mp h.ids_nodup
      simp only [List.map_cons, List.nodup_cons] at hnd
      intro heq
      exact hnd.1 (by rw [← heq]; exact List.mem_map.mpr ⟨x, hx1, rfl⟩)
  · exact ⟨(keyOf b1, b1), hp2.symm.subset (List.mem_cons_self _ _), rfl⟩

theorem age_keyInj (n : Nat) : KeyInj AgeBucket.id AgeBucket.getKey n := by
  intro b b1 _ _ h
  simp only [AgeBucket.getKey] at h
  exact_mod_cast h

theorem getD_inj {α : Type} {l : List α} (hnd : l.Nodup) {i j : Nat} (hi : i < l.length)
    (hj : j < l.length) (d : α) (h : l.getD i d = l.getD j d) : i = j := by
  rw [List.getD_eq_getElem l d hi, List.getD_eq_getElem l d hj] at h
  exact (List.Nodup.getElem_inj_iff hnd).mp h

theorem size_keyInj {c : Config} (hv : c.Valid) :
    KeyInj SizeBucket.id (SizeBucket.getKey c.size_arr) c.NUM_SIZES := by
  intro b b1 hb hb1 h
  simp only [SizeBucket.getKey] at h
  have h2 : c.size_arr.getD b.id 0 = c.size_arr.getD b1.id 0 := by exact_mod_cast h
  exact getD_inj hv.1 hb hb1 0 h2

theorem dir_keyInj {c : Config} (hv : c.Valid) :
    KeyInj DirBucket.id (DirBucket.getKey c.dir_arr) c.NUM_DIRS := by
  intro b b1 hb hb1 h
  simp only [DirBucket.getKey] at h
  exact getD_inj hv.2 hb hb1 0 h

theorem storeAge_wf {n : Nat} {view : List (Key × AgeBucket)} {keys : Nat → Key}
    (h : ViewWF AgeBucket.id AgeBucket.getKey n view keys) {e : Key × AgeBucket}
    (he : e ∈ view) (ab1 : AgeBucket) (hid : ab1.id = e.2.id) :
    ViewWF AgeBucket.id AgeBucket.getKey n (storeAge view keys e.2 ab1).1
      (storeAge view keys e.2 ab1).2 ∧
    (∀ x ∈ (storeAge view keys e.2 ab1).1, x.2 = ab1 ∨ (x ∈ view ∧ x.2.id ≠ e.2.id)) ∧
    ∃ x ∈ (storeAge view keys e.2 ab1).1, x.2 = ab1 := by
  have := h.replace_mem (age_keyInj n) he ab1 hid
  simp only [storeAge, setKey_same]
  exact this

theorem storeSize_wf {c : Config} (hv : c.Valid) {live : Nat} {view : List (Key × SizeBucket)}
    {keys : Nat → Key}
    (h : ViewWF SizeBucket.id (SizeBucket.getKey c.size_arr) c.NUM_SIZES view keys)
    {e : Key × SizeBucket} (he : e ∈ view) (sb1 : SizeBucket) (hid : sb1.id = e.2.id)
    {sv : List (Key × SizeBucket)} {sk : Nat → Key}
    (hs : storeSize c live view keys e.2 sb1 = Except.ok (sv, sk)) :
    ViewWF SizeBucket.id (SizeBucket.getKey c.size_arr) c.NUM_SIZES sv sk ∧
    (∀ x ∈ sv, ∃ y, (y = sb1 ∨ (∃ e1 ∈ view, e1.2 = y ∧ y.id ≠ e.2.id)) ∧
      x.2 = { y with actual_fraction := (y.count : ℚ) / (live : ℚ) }) ∧
    ∃ x ∈ sv, x.2 = { sb1 with actual_fraction := (sb1.count : ℚ) / (live : ℚ) } := by
  obtain ⟨wfm, memm, x0, hx0, hx0e⟩ := h.replace_mem (size_keyInj hv) he sb1 hid
  simp only [storeSize, setKey_same] at hs
  obtain ⟨r1, r2, r3⟩ := rebuildSizes_wf c live c.NUM_SIZES (size_keyInj hv) _ [] _ sv sk hs
    (KeyedBy.nilKeyed _) (by simp) (by simpa using wfm.ids_nodup)
    (by intro x hx; simp only [List.nil_append] at hx; exact wfm.id_lt hx)
  simp only [List.map_nil, List.nil_append] at r3
  refine ⟨⟨r1, r2, ?_⟩, ?_, ?_⟩
  · have h1 : sv.map (fun e => e.2.id) = (sv.map Prod.snd).map SizeBucket.id := by
      rw [List.map_map]; rfl
    rw [h1]
    refine (r3.map SizeBucket.id).trans ?_
    rw [List.map_map]
    exact wfm.ids
  · intro x hx
    have hx1 : x.2 ∈ sv.map Prod.snd := List.mem_map.mpr ⟨x, hx, rfl⟩
    obtain ⟨y, hy, hyx⟩ := List.mem_map.mp (r3.subset hx1)
    refine ⟨y.2, ?_, hyx.symm⟩
    rcases memm y hy with h2 | h2
    · left; exact h2
    · right; exact ⟨y, h2.1, rfl, h2.2⟩
  · have h1 : ({ sb1 with actual_fraction := (sb1.count : ℚ) / (live : ℚ) } : SizeBucket) ∈
        sv.map Prod.snd := by
      apply r3.symm.subset
      exact List.mem_map.mpr ⟨x0, hx0, by rw [hx0e]⟩
    obtain ⟨x, hx, hxe⟩ := List.mem_map.mp h1
    exact ⟨x, hx, hxe⟩

theorem storeDir_wf {c : Config} (hv : c.Valid) {live : Nat} {view : List (Key × DirBucket)}
    {keys : Nat → Key}
    (h : ViewWF DirBucket.id (DirBucket.getKey c.dir_arr) c.NUM_DIRS view keys)
    {e : Key × DirBucket} (he : e ∈ view) (d1 : DirBucket) (hid : d1.id = e.2.id)
    {dv : List (Key × DirBucket)} {dk : Nat → Key}
    (hs : storeDir c live view keys d1 = Except.ok (dv, dk)) :
    ViewWF DirBucket.id (DirBucket.getKey c.dir_arr) c.NUM_DIRS dv dk ∧
    (∀ x ∈ dv, ∃ y, (y = d1 ∨ (∃ e1 ∈ view, e1.2 = y ∧ y.id ≠ e.2.id)) ∧
      x.2 = { y with actual_fraction := (y.count : ℚ) / (live : ℚ) }) ∧
    ∃ x ∈ dv, x.2 = { d1 with actual_fraction := (d1.count : ℚ) / (live : ℚ) } := by
  simp only [storeDir] at hs
  obtain ⟨⟨d2, k2⟩, hr, hs⟩ := bind_eq_ok hs
  obtain ⟨_, hd2, hk2⟩ := dir_reKey_eq_ok hr
  have hid2 : d2.id = e.2.id := by rw [hd2]; exact hid
  obtain ⟨wfm, memm, x0, hx0, hx0e⟩ := h.replace_mem (dir_keyInj hv) he d2 hid2
  have hkey : k2 d2.id = d2.getKey c.dir_arr := by
    rw [hk2, hd2]; exact setKey_same _ _ _
  simp only [hkey, hid] at hs
  have hk2b : k2 = setKey keys d2.id (d2.getKey c.dir_arr) := by
    rw [hk2, hd2]
  rw [hk2b] at hs
  obtain ⟨r1, r2, r3⟩ := rebuildDirs_wf c live c.NUM_DIRS (dir_keyInj hv) _ [] _ dv dk hs
    (KeyedBy.nilKeyed _) (by simp) (by simpa using wfm.ids_nodup)
    (by intro x hx; simp only [List.nil_append] at hx; exact wfm.id_lt hx)
  simp only [List.map_nil, List.nil_append] at r3
  refine ⟨⟨r1, r2, ?_⟩, ?_, ?_⟩
  · have h1 : dv.map (fun e => e.2.id) = (dv.map Prod.snd).map DirBucket.id := by
      rw [List.map_map]; rfl
    rw [h1]
    refine (r3.map DirBucket.id).trans ?_
    rw [List.map_map]
    exact wfm.ids
  · intro x hx
    have hx1 : x.2 ∈ dv.map Prod.snd := List.mem_map.mpr ⟨x, hx, rfl⟩
    obtain ⟨y, hy, hyx⟩ := List.mem_map.mp (r3.subset hx1)
    rcases memm y hy with h2 | h2
    · refine ⟨d1, Or.inl rfl, ?_⟩
      rw [← hyx, h2, hd2]
    · exact ⟨y.2, Or.inr ⟨y, h2.1, rfl, h2.2⟩, hyx.symm⟩
  · have h1 : ({ d2 with actual_fraction := (d2.count : ℚ) / (live : ℚ) } : DirBucket) ∈
        dv.map Prod.snd := by
      apply r3.symm.subset
      exact List.mem_map.mpr ⟨x0, hx0, by rw [hx0e]⟩
    obtain ⟨x, hx, hxe⟩ := List.mem_map.mp h1
    exact ⟨x, hx, by rw [hxe, hd2]⟩

theorem cat_congr {seg seg1 : Nat → List Addr} :
    ∀ (n : Nat), (∀ i, i < n → seg1 i = seg i) → cat seg1 n = cat seg n := by
  intro n
  induction n with
  | zero => intro _; rfl
  | succ n ih =>
    intro h
    simp only [cat]
    rw [h n (Nat.lt_succ_self n), ih (fun i hi => h i (Nat.lt_succ_of_lt hi))]

theorem mem_cat {seg : Nat → List Addr} {x : Addr} :
    ∀ (n : Nat), x ∈ cat seg n ↔ ∃ i, i < n ∧ x ∈ seg i := by
  intro n
  induction n with
  | zero => simp [cat]
  | succ n ih =>
    simp only [cat, List.mem_append, ih]
    constructor
    · rintro (h | ⟨i, hi, h⟩)
      · exact ⟨n, Nat.lt_succ_self n, h⟩
      · exact ⟨i, Nat.lt_succ_of_lt hi, h⟩
    · rintro ⟨i, hi, h⟩
      rcases Nat.lt_succ_iff_lt_or_eq.mp hi with h1 | h1
      · exact Or.inr ⟨i, h1, h⟩
      · left; rw [← h1]; exact h

theorem cat_split (seg : Nat → List Addr) {i : Nat} :
    ∀ (n : Nat), i < n → ∃ pre, cat seg n = pre ++ seg i ++ cat seg i ∧
      (∀ x ∈ pre, ∃ j, i < j ∧ j < n ∧ x ∈ seg j) ∧
      ∀ seg1 : Nat → List Addr, (∀ j, i < j → seg1 j = seg j) →
        cat seg1 n = pre ++ seg1 i ++ cat seg1 i := by
  intro n
  induction n with
  | zero => intro h; exact absurd h (Nat.not_lt_zero _)
  | succ n ih =>
    intro h
    rcases Nat.lt_succ_iff_lt_or_eq.mp h with h1 | h1
    · obtain ⟨pre, e1, e2, e4⟩ := ih h1
      refine ⟨seg n ++ pre, ?_, ?_, ?_⟩
      · simp only [cat, e1, List.append_assoc]
      · intro x hx
        rcases List.mem_append.mp hx with hx | hx
        · exact ⟨n, h1, Nat.lt_succ_self n, hx⟩
        · obtain ⟨j, a, b, c⟩ := e2 x hx
          exact ⟨j, a, Nat.lt_succ_of_lt b, c⟩
      · intro seg1 hs
        simp only [cat, e4 seg1 hs, List.append_assoc]
        rw [hs n h1]
    · subst h1
      refine ⟨[], by simp [cat], by simp, ?_⟩
      intro seg1 _
      simp only [cat, List.nil_append]

theorem cat_seg_nodup {seg : Nat → List Addr} {n i : Nat} (h : (cat seg n).Nodup)
    (hi : i < n) : (seg i).Nodup := by
  obtain ⟨pre, e1, _⟩ := cat_split seg n hi
  rw [e1] at h
  exact (List.nodup_append.mp (List.nodup_append.mp h).1).2.1

theorem cat_disjoint {seg : Nat → List Addr} {n i j : Nat} (h : (cat seg n).Nodup)
    (hi : i < n) (hij : j < i) {x : Addr} (hx : x ∈ seg i) : x ∉ seg j := by
  obtain ⟨pre, e1, _, _⟩ := cat_split seg n hi
  intro hxj
  rw [e1] at h
  have hd := (List.nodup_append.mp h).2.2
  exact hd (List.mem_append_right _ hx) ((mem_cat i).mpr ⟨j, hij, hxj⟩)

theorem cat_disjoint_ne {seg : Nat → List Addr} {n i j : Nat} (h : (cat seg n).Nodup)
    (hi : i < n) (hj : j < n) (hij : i ≠ j) {x : Addr} (hx : x ∈ seg i) : x ∉ seg j := by
  rcases Nat.lt_or_gt_of_ne hij with h1 | h1
  · exact fun hxj => cat_disjoint h hj h1 hxj hx
  · exact cat_disjoint h hi h1 hx

theorem cat_update_zero {seg : Nat → List Addr} {n : Nat} (hn : 0 < n) (t : List Addr) :
    cat (Function.update seg 0 (seg 0 ++ t)) n = cat seg n ++ t := by
  obtain ⟨pre, e1, _, e3⟩ := cat_split seg n hn
  rw [e3 (Function.update seg 0 (seg 0 ++ t))
    (fun j hj => Function.update_noteq (Nat.ne_of_gt hj) _ _), e1]
  simp [cat]

theorem cat_update_erase {seg : Nat → List Addr} {n i : Nat} (h : (cat seg n).Nodup)
    (hi : i < n) {f : Addr} (hf : f ∈ seg i) :
    cat (Function.update seg i ((seg i).erase f)) n = (cat seg n).erase f := by
  obtain ⟨pre, e1, e2, e3⟩ := cat_split seg n hi
  rw [e3 (Function.update seg i ((seg i).erase f))
    (fun j hj => Function.update_noteq (Nat.ne_of_gt hj) _ _), e1]
  have hpre : f ∉ pre := by
    intro hp
    obtain ⟨j, a, b, c⟩ := e2 f hp
    exact cat_disjoint h b a c hf
  rw [cat_congr i (fun j hj => Function.update_noteq (Nat.ne_of_lt hj) _ _)]
  simp only [Function.update_same, List.append_assoc]
  rw [List.erase_append_right _ hpre, List.erase_append_left _ hf]

theorem cat_update_move (seg : Nat → List Addr) {n i : Nat} (hi : i + 1 < n) {f : Addr}
    {t : List Addr} (hf : seg i = f :: t) :
    cat (Function.update (Function.update seg i t) (i + 1) (seg (i + 1) ++ [f])) n =
      cat seg n := by
  obtain ⟨pre, e1, _, e3⟩ := cat_split seg n hi
  have hlow : cat (Function.update (Function.update seg i t) (i + 1) (seg (i + 1) ++ [f])) i =
      cat seg i := by
    apply cat_congr
    intro j hj
    rw [Function.update_noteq (Nat.ne_of_lt (Nat.lt_succ_of_lt hj)),
      Function.update_noteq (Nat.ne_of_lt hj)]
  have hhigh : ∀ j, i + 1 < j →
      Function.update (Function.update seg i t) (i + 1) (seg (i + 1) ++ [f]) j = seg j := by
    intro j hj
    rw [Function.update_noteq (Nat.ne_of_gt hj),
      Function.update_noteq (Nat.ne_of_gt (Nat.lt_of_succ_lt hj))]
  rw [e3 _ hhigh, e1]
  simp only [cat, hlow, Function.update_same]
  rw [Function.update_noteq (Nat.ne_of_lt (Nat.lt_succ_self i)), Function.update_same, hf]
  simp

theorem HeapRel.alloc (hp : Heap) (f : Addr) (file : File) :
    HeapRel hp (hp.upd f (fun _ => file)) [f] [f] [f] [f] := by
  constructor <;> intro x hx <;> simp only [List.mem_singleton] at hx <;>
    simp only [proj_upd, Function.update_noteq hx]

theorem HeapRel.refl_rel (hp : Heap) : HeapRel hp hp [] [] [] [] := by
  constructor <;> intro x _ <;> rfl

theorem HeapRel.trans_rel {hp h1 h2 : Heap} {A G S D A1 G1 S1 D1 : List Addr}
    (r : HeapRel hp h1 A G S D) (r1 : HeapRel h1 h2 A1 G1 S1 D1) :
    HeapRel hp h2 (A ++ A1) (G ++ G1) (S ++ S1) (D ++ D1) := by
  constructor <;> intro x hx <;> simp only [List.mem_append, not_or] at hx
  · rw [r1.size x hx.2, r.size x hx.1]
  · rw [r1.depth x hx.2, r.depth x hx.1]
  · rw [r1.age x hx.2, r.age x hx.1]
  · rw [r1.path x hx.2, r.path x hx.1]
  · rw [r1.next x hx.2, r.next x hx.1]
  · rw [r1.prev x hx.2, r.prev x hx.1]
  · rw [r1.size_next x hx.2, r.size_next x hx.1]
  · rw [r1.size_prev x hx.2, r.size_prev x hx.1]
  · rw [r1.dir_next x hx.2, r.dir_next x hx.1]
  · rw [r1.dir_prev x hx.2, r.dir_prev x hx.1]

theorem HeapRel.mono {hp h1 : Heap} {A G S D A1 G1 S1 D1 : List Addr}
    (r : HeapRel hp h1 A G S D) (hA : A ⊆ A1) (hG : G ⊆ G1) (hS : S ⊆ S1) (hD : D ⊆ D1) :
    HeapRel hp h1 A1 G1 S1 D1 := by
  constructor <;> intro x hx
  · exact r.size x (fun h => hx (hA h))
  · exact r.depth x (fun h => hx (hA h))
  · exact r.age x (fun h => hx (hA h))
  · exact r.path x (fun h => hx (hA h))
  · exact r.next x (fun h => hx (hG h))
  · exact r.prev x (fun h => hx (hG h))
  · exact r.size_next x (fun h => hx (hS h))
  · exact r.size_prev x (fun h => hx (hS h))
  · exact r.dir_next x (fun h => hx (hD h))
  · exact r.dir_prev x (fun h => hx (hD h))

theorem CellOK.transport_cell {hp h1 : Heap} {A G S D R : List Addr} {d : DirBucket}
    (r : HeapRel hp h1 A G S D) (hd : ∀ x ∈ R, x ∉ D) (h : CellOK hp R d) : CellOK h1 R d :=
  ⟨h.1, h.2.1, h.2.2.congrRing (fun x hx => r.dir_next x (hd x hx))
    (fun x hx => r.dir_prev x (hd x hx))⟩

theorem filter_size_congr {hp h1 : Heap} {A G S D : List Addr} (r : HeapRel hp h1 A G S D)
    {L : List Addr} (hL : ∀ x ∈ L, x ∉ A) (sz : Nat) :
    L.filter (fun x => proj File.size h1 x = sz) =
      L.filter (fun x => proj File.size hp x = sz) := by
  apply List.filter_congr
  intro x hx
  rw [r.size x (hL x hx)]

theorem filter_depth_congr {hp h1 : Heap} {A G S D : List Addr} (r : HeapRel hp h1 A G S D)
    {L : List Addr} (hL : ∀ x ∈ L, x ∉ A) (dp : Int) :
    L.filter (fun x => proj File.depth h1 x = dp) =
      L.filter (fun x => proj File.depth hp x = dp) := by
  apply List.filter_congr
  intro x hx
  rw [r.depth x (hL x hx)]

theorem filter_cell_congr {hp h1 : Heap} {A G S D : List Addr} (r : HeapRel hp h1 A G S D)
    {L : List Addr} (hL : ∀ x ∈ L, x ∉ A) (sz : Nat) (dp : Int) :
    L.filter (fun x => proj File.size h1 x = sz ∧ proj File.depth h1 x = dp) =
      L.filter (fun x => proj File.size hp x = sz ∧ proj File.depth hp x = dp) := by
  apply List.filter_congr
  intro x hx
  rw [r.size x (hL x hx), r.depth x (hL x hx)]

theorem AgeOK.transport_age {c : Config} {hp h1 : Heap} {A G S D Al : List Addr} {a : AgeBucket}
    (r : HeapRel hp h1 A G S D) (hA : ∀ x ∈ Al, x ∉ A) (hD : ∀ x ∈ Al, x ∉ D)
    (h : AgeOK c hp Al a) : AgeOK c h1 Al a := by
  obtain ⟨e1, e2, e3, e4⟩ := h
  refine ⟨e1, e2, e3, ?_⟩
  intro sz hsz
  obtain ⟨nsb, f1, f2, f3⟩ := e4 sz hsz
  refine ⟨nsb, f1, ?_, ?_⟩
  · rw [filter_size_congr r hA]; exact f2
  · intro dp hdp
    obtain ⟨cell, g1, g2⟩ := f3 dp hdp
    refine ⟨cell, g1, ?_⟩
    rw [filter_cell_congr r hA]
    exact g2.transport_cell r (fun x hx => hD x (List.mem_of_mem_filter hx))

theorem SizeOK.transport_size {c : Config} {hp h1 : Heap} {A G S D L : List Addr} {b : SizeBucket}
    (r : HeapRel hp h1 A G S D) (hA : ∀ x ∈ L, x ∉ A)
    (hS : ∀ x ∈ L, proj File.size hp x = b.size → x ∉ S)
    (h : SizeOK c hp L b) : SizeOK c h1 L b := by
  obtain ⟨e1, e2, e3, e4, e5⟩ := h
  refine ⟨e1, ?_, ?_, ?_, e5⟩
  · rw [filter_size_congr r hA]; exact e2
  · rw [filter_size_congr r hA]; exact e3
  · rw [filter_size_congr r hA]
    refine e4.congrRing ?_ ?_
    · intro x hx
      have := List.mem_filter.mp hx
      exact r.size_next x (hS x this.1 (by simpa using this.2))
    · intro x hx
      have := List.mem_filter.mp hx
      exact r.size_prev x (hS x this.1 (by simpa using this.2))

theorem DirOK.transport_dir {c : Config} {hp h1 : Heap} {A G S D L : List Addr} {d : DirBucket}
    (r : HeapRel hp h1 A G S D) (hA : ∀ x ∈ L, x ∉ A) (h : DirOK c hp L d) :
    DirOK c h1 L d := by
  obtain ⟨e1, e2⟩ := h
  refine ⟨e1, ?_⟩
  rw [filter_depth_congr r hA]; exact e2

theorem HeapRel.size_eq {hp h1 : Heap} {G S D : List Addr} (r : HeapRel hp h1 [] G S D) :
    proj File.size h1 = proj File.size hp :=
  funext (fun x => r.size x (List.not_mem_nil x))

theorem HeapRel.depth_eq {hp h1 : Heap} {G S D : List Addr} (r : HeapRel hp h1 [] G S D) :
    proj File.depth h1 = proj File.depth hp :=
  funext (fun x => r.depth x (List.not_mem_nil x))

theorem HeapRel.age_eq {hp h1 : Heap} {G S D : List Addr} (r : HeapRel hp h1 [] G S D) :
    proj File.age h1 = proj File.age hp :=
  funext (fun x => r.age x (List.not_mem_nil x))

theorem HeapRel.next_eq {hp h1 : Heap} {A S D : List Addr} (r : HeapRel hp h1 A [] S D) :
    proj File.next h1 = proj File.next hp :=
  funext (fun x => r.next x (List.not_mem_nil x))

theorem HeapRel.prev_eq {hp h1 : Heap} {A S D : List Addr} (r : HeapRel hp h1 A [] S D) :
    proj File.prev h1 = proj File.prev hp :=
  funext (fun x => r.prev x (List.not_mem_nil x))

theorem age_addFile_inv {c : Config} {hp h1 : Heap} {a a1 : AgeBucket} {f : Addr} {live : Nat}
    (h : a.addFile hp f live false = Except.ok (h1, a1)) {Al : List Addr}
    (hok : AgeOK c hp Al a) (hnd : Al.Nodup) (hf : f ∉ Al)
    (hsz : proj File.size hp f ∈ c.size_arr) (hdp : proj File.depth hp f ∈ c.dir_arr) :
    AgeOK c h1 (Al ++ [f]) a1 ∧
    (∃ sbm, a1 = { a with count := a.count + 1
                          actual_fraction := ((a.count + 1 : Nat) : ℚ) / (live : ℚ)
                          sb := sbm
                          f := (Al ++ [f]).head?
                          last := some f }) ∧
    HeapRel hp h1 [] [] [] (f :: Al) := by
  obtain ⟨s, d, d1, hs, hd, hadd, _, _, _, ha1⟩ := age_addFile_eq_ok h
  obtain ⟨e1, e2, e3, e4⟩ := hok
  obtain ⟨nsb, f1, f2, f3⟩ := e4 _ hsz
  have hns : s = nsb := by
    have : some nsb = some s := by rw [← f1, ← hs]; rfl
    exact (Option.some.inj this).symm
  subst hns
  obtain ⟨cell, g1, g2⟩ := f3 _ hdp
  have hce : d = cell := by
    have : some cell = some d := by rw [← g1, ← hd]; rfl
    exact (Option.some.inj this).symm
  subst hce
  have hfR : f ∉ Al.filter
      (fun x => proj File.size hp x = proj File.size hp f ∧
        proj File.depth hp x = proj File.depth hp f) :=
    fun hh => hf (List.mem_of_mem_filter hh)
  obtain ⟨c1, c2, c3⟩ := dir_addFile_cell hadd g2 (hnd.filter _) hfR
  have hrel : HeapRel hp h1 [] [] [] (f :: Al) :=
    c3.mono (List.Subset.refl _) (List.Subset.refl _) (List.Subset.refl _)
      (List.cons_subset_cons _ (List.filter_sublist _).subset)
  have hsize := c3.size_eq
  have hdepth := c3.depth_eq
  have hfsz : (h1 f).size = (hp f).size := congrFun hsize f
  have hhead : (if a.f = none then some f else a.f) = (Al ++ [f]).head? := by
    rw [e2]
    cases Al with
    | nil => simp
    | cons x t => simp
  refine ⟨⟨?_, ?_, ?_, ?_⟩, ⟨a1.sb, ?_⟩, hrel⟩
  · rw [ha1]; simp [e1]
  · rw [ha1]; simpa using hhead
  · rw [ha1]; simp
  · intro sz hszm
    rw [ha1, hsize, hdepth]
    simp only [hfsz, um_replace, Bool.false_eq_true, if_false]
    by_cases hz : sz = (hp f).size
    · subst hz
      simp only [Function.update_same]
      refine ⟨_, rfl, ?_, ?_⟩
      · have : (if s.count + 1 = 1 then
            ({ s with db := Function.update s.db (hp f).depth (some d1), count := s.count + 1,
                      start := some f } : SizeBucket)
            else { s with db := Function.update s.db (hp f).depth (some d1),
                          count := s.count + 1 }).count = s.count + 1 := by
          split <;> rfl
        rw [this, f2, List.filter_append]
        simp [proj]
      · intro dp hdpm
        have hdb : (if s.count + 1 = 1 then
            ({ s with db := Function.update s.db (hp f).depth (some d1), count := s.count + 1,
                      start := some f } : SizeBucket)
            else { s with db := Function.update s.db (hp f).depth (some d1),
                          count := s.count + 1 }).db =
            Function.update s.db (hp f).depth (some d1) := by
          split <;> rfl
        rw [hdb]
        by_cases hz2 : dp = (hp f).depth
        · subst hz2
          simp only [Function.update_same]
          refine ⟨_, rfl, ?_⟩
          rw [List.filter_append]
          have : [f].filter (fun x => proj File.size hp x = (hp f).size ∧
              proj File.depth hp x = (hp f).depth) = [f] := by
            simp [proj]
          rw [this]
          exact c1
        · simp only [Function.update_noteq hz2]
          obtain ⟨cell2, k1, k2⟩ := f3 dp hdpm
          refine ⟨cell2, k1, ?_⟩
          rw [List.filter_append]
          have : [f].filter (fun x => proj File.size hp x = (hp f).size ∧
              proj File.depth hp x = dp) = [] := by
            simp [proj, Ne.symm hz2]
          rw [this, List.append_nil]
          refine k2.transport_cell c3 ?_
          intro x hx hx2
          rcases List.mem_cons.mp hx2 with h3 | h3
          · exact hf (h3 ▸ List.mem_of_mem_filter hx)
          · have a1 := (List.mem_filter.mp hx).2
            have a2 := (List.mem_filter.mp h3).2
            simp only [decide_eq_true_eq] at a1 a2
            exact hz2 (a1.2.symm.trans a2.2)
    · simp only [Function.update_noteq hz]
      obtain ⟨nsb2, k1, k2, k3⟩ := e4 sz hszm
      refine ⟨nsb2, k1, ?_, ?_⟩
      · rw [k2, List.filter_append]
        simp [proj, Ne.symm hz]
      · intro dp hdpm
        obtain ⟨cell2, m1, m2⟩ := k3 dp hdpm
        refine ⟨cell2, m1, ?_⟩
        rw [List.filter_append]
        have : [f].filter (fun x => proj File.size hp x = sz ∧
            proj File.depth hp x = dp) = [] := by
          simp [proj, Ne.symm hz]
        rw [this, List.append_nil]
        refine m2.transport_cell c3 ?_
        intro x hx hx2
        rcases List.mem_cons.mp hx2 with h3 | h3
        · exact hf (h3 ▸ List.mem_of_mem_filter hx)
        · have a1 := (List.mem_filter.mp hx).2
          have a2 := (List.mem_filter.mp h3).2
          simp only [decide_eq_true_eq] at a1 a2
          exact hz (a1.1.symm.trans a2.1)
  · rw [ha1]
    simp only [Bool.false_eq_true, if_false, hhead]

theorem filter_erase {l : List Addr} (hnd : l.Nodup) (p : Addr → Bool) (f : Addr) :
    (l.erase f).filter p = (l.filter p).erase f := by
  rw [hnd.erase_eq_filter, (hnd.filter p).erase_eq_filter, List.filter_filter,
    List.filter_filter]
  apply List.filter_congr
  intro x _
  exact Bool.and_comm _ _

theorem head_after_erase {Al : List Addr} {f : Addr} (hf : f ∈ Al) {nxf : Ptr}
    (hnx : ∀ y t, Al = f :: y :: t → nxf = some y) :
    (if Al.length - 1 = 0 then none else if Al.head? = some f then nxf else Al.head?) =
      (Al.erase f).head? := by
  cases Al with
  | nil => simp at hf
  | cons x t =>
    cases t with
    | nil =>
      have : x = f := (List.mem_singleton.mp hf).symm
      subst this
      simp
    | cons y t1 =>
      have h0 : ¬ ((x :: y :: t1).length - 1 = 0) := by simp
      rw [if_neg h0]
      by_cases hx : x = f
      · subst hx
        simp only [List.head?_cons, if_true, List.erase_cons_head]
        exact hnx y t1 rfl
      · have h1 : (x :: y :: t1).head? ≠ some f := by simpa using hx
        rw [if_neg h1, head_erase_of_ne h1]

theorem last_after_erase {Al : List Addr} {f : Addr} (hnd : Al.Nodup) (hf : f ∈ Al) {pvf : Ptr}
    (hpv : ∀ y t, Al = t ++ [y, f] → pvf = some y) :
    (if Al.length - 1 = 0 then none else if Al.getLast? = some f then pvf else Al.getLast?) =
      (Al.erase f).getLast? := by
  have hne : Al ≠ [] := List.ne_nil_of_mem hf
  obtain ⟨t, z, hL⟩ : ∃ t z, Al = t ++ [z] :=
    ⟨Al.dropLast, Al.getLast hne, (List.dropLast_append_getLast hne).symm⟩
  subst hL
  by_cases hz : z = f
  · subst hz
    have hft : z ∉ t := by
      have := (List.nodup_append.mp hnd).2.2
      exact fun hh => this hh (List.mem_singleton_self z)
    have her : (t ++ [z]).erase z = t := by
      rw [List.erase_append_right _ hft]; simp
    rw [her]
    by_cases ht : t = []
    · subst ht; simp
    · obtain ⟨t1, y, ht1⟩ : ∃ t1 y, t = t1 ++ [y] :=
        ⟨t.dropLast, t.getLast ht, (List.dropLast_append_getLast ht).symm⟩
      subst ht1
      have h0 : ¬ ((t1 ++ [y] ++ [z]).length - 1 = 0) := by simp
      rw [if_neg h0]
      have h1 : (t1 ++ [y] ++ [z]).getLast? = some z := by simp
      rw [if_pos h1]
      rw [hpv y t1 (by simp)]
      simp
  · have hft : f ∈ t := by
      rcases List.mem_append.mp hf with h1 | h1
      · exact h1
      · exact absurd (List.mem_singleton.mp h1).symm hz
    have h0 : ¬ ((t ++ [z]).length - 1 = 0) := by
      have := List.length_pos_of_mem hft
      simp only [List.length_append, List.length_singleton, Nat.add_sub_cancel]
      omega
    rw [if_neg h0]
    have h1 : (t ++ [z]).getLast? ≠ some f := by simpa using hz
    rw [if_neg h1, List.erase_append_left _ hft]
    simp

theorem age_deleteFile_inv {c : Config} {hp h1 : Heap} {a a1 : AgeBucket} {f : Addr}
    {live : Nat} (h : a.deleteFile hp f live = Except.ok (h1, a1)) {Al : List Addr}
    (hok : AgeOK c hp Al a) (hnd : Al.Nodup) (hf : f ∈ Al)
    (hsz : proj File.size hp f ∈ c.size_arr) (hdp : proj File.depth hp f ∈ c.dir_arr)
    (hnx : ∀ y t, Al = f :: y :: t → proj File.next hp f = some y)
    (hpv : ∀ y t, Al = t ++ [y, f] → proj File.prev hp f = some y) :
    AgeOK c h1 (Al.erase f) a1 ∧
    (∃ sbm, a1 = { a with count := a.count - 1
                          actual_fraction := ((a.count - 1 : Nat) : ℚ) / (live : ℚ)
                          sb := sbm
                          f := (Al.erase f).head?
                          last := (Al.erase f).getLast? }) ∧
    HeapRel hp h1 [] [] [] Al := by
  obtain ⟨s, d, d1, hs, hd, hdel, _, ha1⟩ := age_deleteFile_eq_ok h
  obtain ⟨e1, e2, e3, e4⟩ := hok
  obtain ⟨nsb, f1, f2, f3⟩ := e4 _ hsz
  have hns : s = nsb := by
    have : some nsb = some s := by rw [← f1, ← hs]; rfl
    exact (Option.some.inj this).symm
  subst hns
  obtain ⟨cell, g1, g2⟩ := f3 _ hdp
  have hce : d = cell := by
    have : some cell = some d := by rw [← g1, ← hd]; rfl
    exact (Option.some.inj this).symm
  subst hce
  have hfR : f ∈ Al.filter
      (fun x => proj File.size hp x = proj File.size hp f ∧
        proj File.depth hp x = proj File.depth hp f) :=
    List.mem_filter.mpr ⟨hf, by simp⟩
  have hfS : f ∈ Al.filter (fun x => proj File.size hp x = proj File.size hp f) :=
    List.mem_filter.mpr ⟨hf, by simp⟩
  obtain ⟨c1, c2, c3⟩ := dir_deleteFile_cell hdel g2 (hnd.filter _) hfR
  have hrel : HeapRel hp h1 [] [] [] Al :=
    c3.mono (List.Subset.refl _) (List.Subset.refl _) (List.Subset.refl _)
      (List.filter_sublist _).subset
  have hsize := c3.size_eq
  have hdepth := c3.depth_eq
  have hfsz : (h1 f).size = (hp f).size := congrFun hsize f
  have hfdp : (h1 f).depth = (hp f).depth := congrFun hdepth f
  have hfnx : (h1 f).next = proj File.next hp f := congrFun c3.next_eq f
  have hfpv : (h1 f).prev = proj File.prev hp f := congrFun c3.prev_eq f
  have hapos : 0 < a.count := by rw [e1]; exact List.length_pos_of_mem hf
  have hspos : 0 < s.count := by rw [f2]; exact List.length_pos_of_mem hfS
  have hhead := head_after_erase hf hnx
  have hlast := last_after_erase hnd hf hpv
  rw [← e1, ← e2] at hhead
  rw [← e1, ← e3] at hlast
  refine ⟨⟨?_, ?_, ?_, ?_⟩, ⟨a1.sb, ?_⟩, hrel⟩
  · rw [ha1]; simp only [dec64_of_pos hapos, List.length_erase_of_mem hf]; rw [e1]
  · rw [ha1]; simp only [dec64_of_pos hapos, hfnx]; exact hhead
  · rw [ha1]; simp only [dec64_of_pos hapos, hfpv]; exact hlast
  · intro sz hszm
    rw [ha1, hsize, hdepth]
    simp only [hfsz, hfdp, um_replace]
    by_cases hz : sz = (hp f).size
    · subst hz
      simp only [Function.update_same]
      refine ⟨_, rfl, ?_, ?_⟩
      · simp only [dec64_of_pos hspos]
        rw [filter_erase hnd, f2]
        exact (List.length_erase_of_mem hfS).symm
      · intro dp hdpm
        by_cases hz2 : dp = (hp f).depth
        · subst hz2
          simp only [Function.update_same]
          refine ⟨_, rfl, ?_⟩
          rw [filter_erase hnd]
          exact c1
        · simp only [Function.update_noteq hz2]
          obtain ⟨cell2, k1, k2⟩ := f3 dp hdpm
          refine ⟨cell2, k1, ?_⟩
          rw [filter_erase hnd]
          have hnot : f ∉ Al.filter (fun x => proj File.size hp x = (hp f).size ∧
              proj File.depth hp x = dp) := by
            intro hh
            have := (List.mem_filter.mp hh).2
            simp only [decide_eq_true_eq] at this
            exact hz2 this.2.symm
          rw [List.erase_of_not_mem hnot]
          refine k2.transport_cell c3 ?_
          intro x hx h3
          have a1 := (List.mem_filter.mp hx).2
          have a2 := (List.mem_filter.mp h3).2
          simp only [decide_eq_true_eq] at a1 a2
          exact hz2 (a1.2.symm.trans a2.2)
    · simp only [Function.update_noteq hz]
      obtain ⟨nsb2, k1, k2, k3⟩ := e4 sz hszm
      refine ⟨nsb2, k1, ?_, ?_⟩
      · rw [k2, filter_erase hnd]
        have hnot : f ∉ Al.filter (fun x => proj File.size hp x = sz) := by
          intro hh
          have := (List.mem_filter.mp hh).2
          simp only [decide_eq_true_eq] at this
          exact hz this.symm
        rw [List.erase_of_not_mem hnot]
      · intro dp hdpm
        obtain ⟨cell2, m1, m2⟩ := k3 dp hdpm
        refine ⟨cell2, m1, ?_⟩
        rw [filter_erase hnd]
        have hnot : f ∉ Al.filter (fun x => proj File.size hp x = sz ∧
            proj File.depth hp x = dp) := by
          intro hh
          have := (List.mem_filter.mp hh).2
          simp only [decide_eq_true_eq] at this
          exact hz this.1.symm
        rw [List.erase_of_not_mem hnot]
        refine m2.transport_cell c3 ?_
        intro x hx h3
        have a1 := (List.mem_filter.mp hx).2
        have a2 := (List.mem_filter.mp h3).2
        simp only [decide_eq_true_eq] at a1 a2
        exact hz (a1.1.symm.trans a2.1)
  · rw [ha1]
    simp only [dec64_of_pos hapos, hfnx, hfpv, hhead, hlast]

theorem ViewWF.push {β : Type} {bid : β → Nat} {keyOf : β → Key} {n N : Nat}
    {v : List (Key × β)} {keys : Nat → Key} (h : ViewWF bid keyOf n v keys)
    (hinj : KeyInj bid keyOf N) (hn : n < N) (b : β) (hb : bid b = n) :
    ViewWF bid keyOf (n + 1) (fmInsert (keyOf b) b v) (setKey keys n (keyOf b)) := by
  have hne : ∀ e ∈ v, e.1 ≠ keyOf b := by
    intro e he heq
    have hlt := h.id_lt he
    have := hinj e.2 b (Nat.lt_trans hlt hn) (by rw [hb]; exact hn)
      (by rw [← h.keyed.2 e he, heq])
    rw [hb] at this
    exact Nat.ne_of_lt hlt this
  have hperm : List.Perm (fmInsert (keyOf b) b v) ((keyOf b, b) :: v) := fmInsert_perm hne
  refine ⟨h.keyed.insert b, ?_, ?_⟩
  · intro e he
    rcases mem_fmInsert he with h1 | h1
    · rw [h1]; simp only; rw [hb]; exact setKey_same _ _ _
    · have hlt := h.id_lt h1
      simp only [setKey, if_neg (Nat.ne_of_lt hlt)]
      exact h.sync e h1
  · refine (hperm.map _).trans ?_
    simp only [List.map_cons, hb]
    rw [List.range_succ]
    exact ((h.ids.cons n).trans (List.perm_append_singleton n (List.range n)).symm)

theorem ViewWF.nilView {β : Type} (bid : β → Nat) (keyOf : β → Key) (keys : Nat → Key) :
    ViewWF bid keyOf 0 ([] : List (Key × β)) keys :=
  ⟨KeyedBy.nilKeyed _, fun _ h => by simp at h, by simp⟩

theorem DirBucket.new_fields (depth : Int) (sd id : Nat) (mp : String) (fake : Bool) (g : Int)
    (io : List IoReq) :
    (DirBucket.new depth sd id mp fake g io).1.count = 0 ∧
    (DirBucket.new depth sd id mp fake g io).1.start = none ∧
    (DirBucket.new depth sd id mp fake g io).1.id = id ∧
    (DirBucket.new depth sd id mp fake g io).1.depth = depth := by
  unfold DirBucket.new
  simp only
  split
  · split
    · split <;> exact ⟨rfl, rfl, rfl, rfl⟩
    · exact ⟨rfl, rfl, rfl, rfl⟩
  · exact ⟨rfl, rfl, rfl, rfl⟩

theorem mkDirMap_empty (c : Config) :
    ∀ (n : Nat) (acc : (Int → Option DirBucket) × Int × List IoReq),
      (∀ dp cell, acc.1 dp = some cell → cell.count = 0 ∧ cell.start = none) →
      ∀ dp cell, (mkDirMap c n acc).1 dp = some cell → cell.count = 0 ∧ cell.start = none := by
  intro n
  induction n with
  | zero => intro acc h; exact h
  | succ n ih =>
    intro acc h dp cell hc
    simp only [mkDirMap] at hc
    have hprev := ih acc h
    unfold umInsert at hc
    split at hc
    · split at hc
      · rename_i w hw
        rw [← Option.some.inj hc]
        exact hprev _ _ hw
      · rw [← Option.some.inj hc]
        exact ⟨(DirBucket.new_fields _ _ _ _ _ _ _).1, (DirBucket.new_fields _ _ _ _ _ _ _).2.1⟩
    · exact hprev _ _ hc

theorem mkDirMap_cover (c : Config) :
    ∀ (n : Nat) (acc : (Int → Option DirBucket) × Int × List IoReq) (i : Nat), i < n →
      ∃ cell, (mkDirMap c n acc).1 (c.dir_arr.getD i 0) = some cell := by
  intro n
  induction n with
  | zero => intro acc i hi; exact absurd hi (Nat.not_lt_zero _)
  | succ n ih =>
    intro acc i hi
    simp only [mkDirMap]
    unfold umInsert
    by_cases hk : c.dir_arr.getD i 0 = c.dir_arr.getD n 0
    · rw [if_pos hk]
      split
      · exact ⟨_, rfl⟩
      · exact ⟨_, rfl⟩
    · rw [if_neg hk]
      rcases Nat.lt_succ_iff_lt_or_eq.mp hi with h1 | h1
      · exact ih acc i h1
      · exact absurd (by rw [h1]) hk

theorem mem_getD {α : Type} {l : List α} {x : α} (hx : x ∈ l) (d : α) :
    ∃ i, i < l.length ∧ l.getD i d = x := by
  obtain ⟨i, hi, h⟩ := List.getElem_of_mem hx
  exact ⟨i, hi, by rw [List.getD_eq_getElem l d hi, h]⟩

theorem mkDirMap_ok (c : Config) (g : Int) (io : List IoReq) :
    ∀ dp ∈ c.dir_arr, ∃ cell, (mkDirMap c c.NUM_DIRS (fun _ => none, g, io)).1 dp = some cell ∧
      cell.count = 0 ∧ cell.start = none := by
  intro dp hdp
  obtain ⟨i, hi, h⟩ := mem_getD hdp 0
  obtain ⟨cell, hc⟩ := mkDirMap_cover c c.NUM_DIRS (fun _ => none, g, io) i hi
  rw [h] at hc
  exact ⟨cell, hc, mkDirMap_empty c _ _ (by intro _ _ hh; simp at hh) _ _ hc⟩

theorem mkSizeMap_empty (c : Config) :
    ∀ (n : Nat) (acc : (Nat → Option SizeBucket) × Int × List IoReq),
      (∀ sz nsb, acc.1 sz = some nsb → nsb.count = 0 ∧
        ∀ dp ∈ c.dir_arr, ∃ cell, nsb.db dp = some cell ∧ cell.count = 0 ∧ cell.start = none) →
      ∀ sz nsb, (mkSizeMap c n acc).1 sz = some nsb → nsb.count = 0 ∧
        ∀ dp ∈ c.dir_arr, ∃ cell, nsb.db dp = some cell ∧ cell.count = 0 ∧ cell.start = none := by
  intro n
  induction n with
  | zero => intro acc h; exact h
  | succ n ih =>
    intro acc h sz nsb hc
    simp only [mkSizeMap] at hc
    have hprev := ih acc h
    unfold umInsert at hc
    split at hc
    · split at hc
      · rename_i w hw
        rw [← Option.some.inj hc]
        exact hprev _ _ hw
      · rw [← Option.some.inj hc]
        exact ⟨rfl, mkDirMap_ok c _ _⟩
    · exact hprev _ _ hc

theorem mkSizeMap_cover (c : Config) :
    ∀ (n : Nat) (acc : (Nat → Option SizeBucket) × Int × List IoReq) (i : Nat), i < n →
      ∃ nsb, (mkSizeMap c n acc).1 (c.size_arr.getD i 0) = some nsb := by
  intro n
  induction n with
  | zero => intro acc i hi; exact absurd hi (Nat.not_lt_zero _)
  | succ n ih =>
    intro acc i hi
    simp only [mkSizeMap]
    unfold umInsert
    by_cases hk : c.size_arr.getD i 0 = c.size_arr.getD n 0
    · rw [if_pos hk]
      split
      · exact ⟨_, rfl⟩
      · exact ⟨_, rfl⟩
    · rw [if_neg hk]
      rcases Nat.lt_succ_iff_lt_or_eq.mp hi with h1 | h1
      · exact ih acc i h1
      · exact absurd (by rw [h1]) hk

theorem mkSizeMap_ok (c : Config) (g : Int) (io : List IoReq) :
    ∀ sz ∈ c.size_arr, ∃ nsb,
      (mkSizeMap c c.NUM_SIZES (fun _ => none, g, io)).1 sz = some nsb ∧ nsb.count = 0 ∧
      ∀ dp ∈ c.dir_arr, ∃ cell, nsb.db dp = some cell ∧ cell.count = 0 ∧ cell.start = none := by
  intro sz hsz
  obtain ⟨i, hi, h⟩ := mem_getD hsz 0
  obtain ⟨nsb, hc⟩ := mkSizeMap_cover c c.NUM_SIZES (fun _ => none, g, io) i hi
  rw [h] at hc
  obtain ⟨a, b⟩ := mkSizeMap_empty c _ _ (by intro _ _ hh; simp at hh) _ _ hc
  exact ⟨nsb, hc, a, b⟩

theorem initSizes_wf {c : Config} (hv : c.Valid) (w : Nat) (hp : Heap) :
    ∀ (n : Nat) (v : List (Key × SizeBucket)) (k : Nat → Key) (g : Int) (io : List IoReq),
      n ≤ c.NUM_SIZES → initSizes c w n = Except.ok (v, k, g, io) →
      ViewWF SizeBucket.id (SizeBucket.getKey c.size_arr) n v k ∧
      ∀ e ∈ v, SizeOK c hp [] e.2 ∧
        e.2.ideal_fraction = c.size_distribution.getD e.2.id 0 / ((w : Nat) : ℚ) := by
  intro n
  induction n with
  | zero =>
    intro v k g io _ h
    simp only [initSizes, pure_eq_ok, Except.ok.injEq, Prod.mk.injEq] at h
    rw [← h.1]
    exact ⟨ViewWF.nilView _ _ _, fun _ hh => by simp at hh⟩
  | succ n ih =>
    intro v k g io hn h
    simp only [initSizes] at h
    obtain ⟨⟨v0, k0, g0, io0⟩, h0, h⟩ := bind_eq_ok h
    obtain ⟨q, hq, h⟩ := bind_eq_ok h
    simp only [pure_eq_ok, Except.ok.injEq, Prod.mk.injEq, setKey_same] at h
    obtain ⟨i1, i2⟩ := ih _ _ _ _ (Nat.le_of_succ_le hn) h0
    rw [← h.1, ← h.2.1]
    refine ⟨i1.push (size_keyInj hv) hn _ rfl, ?_⟩
    intro e he
    rcases mem_fmInsert he with h1 | h1
    · rw [h1]
      refine ⟨⟨rfl, rfl, rfl, trivial, ?_⟩, (qdiv_eq_ok hq).2⟩
      intro dp hdp
      obtain ⟨cell, hc, _⟩ := mkDirMap_ok c g0 io0 dp hdp
      exact ⟨cell, hc⟩
    · exact i2 e h1

theorem initDirs_wf {c : Config} (hv : c.Valid) (w : Nat) (g0 : Int) (io0 : List IoReq)
    (hp : Heap) :
    ∀ (n : Nat) (v : List (Key × DirBucket)) (k : Nat → Key) (g : Int) (io : List IoReq),
      n ≤ c.NUM_DIRS → initDirs c w g0 io0 n = Except.ok (v, k, g, io) →
      ViewWF DirBucket.id (DirBucket.getKey c.dir_arr) n v k ∧
      ∀ e ∈ v, DirOK c hp [] e.2 ∧
        e.2.ideal_fraction = c.dir_distribution.getD e.2.id 0 / ((w : Nat) : ℚ) := by
  intro n
  induction n with
  | zero =>
    intro v k g io _ h
    simp only [initDirs, pure_eq_ok, Except.ok.injEq, Prod.mk.injEq] at h
    rw [← h.1]
    exact ⟨ViewWF.nilView _ _ _, fun _ hh => by simp at hh⟩
  | succ n ih =>
    intro v k g io hn h
    simp only [initDirs] at h
    obtain ⟨⟨v0, k0, g1, io1⟩, h0, h⟩ := bind_eq_ok h
    obtain ⟨q, hq, h⟩ := bind_eq_ok h
    simp only [pure_eq_ok, Except.ok.injEq, Prod.mk.injEq, setKey_same] at h
    obtain ⟨i1, i2⟩ := ih _ _ _ _ (Nat.le_of_succ_le hn) h0
    have hf := DirBucket.new_fields (c.dir_arr.getD n 0) (c.subdir_arr.getD n 0) n
      c.mount_point c.fake g1 io1
    rw [← h.1, ← h.2.1]
    refine ⟨i1.push (dir_keyInj hv) hn _ hf.2.2.1, ?_⟩
    intro e he
    rcases mem_fmInsert he with h1 | h1
    · rw [h1]
      refine ⟨⟨?_, ?_⟩, ?_⟩
      · simp only [hf.2.2.2, hf.2.2.1]
      · simp only [hf.1, List.filter_nil, List.length_nil]
      · simp only [hf.2.2.1]
        exact (qdiv_eq_ok hq).2
    · exact i2 e h1

theorem initAges_wf (c : Config) (w : Nat) (g0 : Int) (io0 : List IoReq) (hp : Heap) :
    ∀ (n : Nat) (v : List (Key × AgeBucket)) (k : Nat → Key) (g : Int) (io : List IoReq),
      initAges c w g0 io0 n = Except.ok (v, k, g, io) →
      ViewWF AgeBucket.id AgeBucket.getKey n v k ∧
      ∀ e ∈ v, AgeOK c hp [] e.2 := by
  intro n
  induction n with
  | zero =>
    intro v k g io h
    simp only [initAges, pure_eq_ok, Except.ok.injEq, Prod.mk.injEq] at h
    rw [← h.1]
    exact ⟨ViewWF.nilView _ _ _, fun _ hh => by simp at hh⟩
  | succ n ih =>
    intro v k g io h
    simp only [initAges] at h
    obtain ⟨⟨v0, k0, g1, io1⟩, h0, h⟩ := bind_eq_ok h
    obtain ⟨q, _, h⟩ := bind_eq_ok h
    obtain ⟨q1, _, h⟩ := bind_eq_ok h
    simp only [pure_eq_ok, Except.ok.injEq, Prod.mk.injEq, setKey_same] at h
    obtain ⟨i1, i2⟩ := ih _ _ _ _ h0
    rw [← h.1, ← h.2.1]
    refine ⟨i1.push (age_keyInj (n + 1)) (Nat.lt_succ_self n) _ rfl, ?_⟩
    intro e he
    rcases mem_fmInsert he with h1 | h1
    · rw [h1]
      refine ⟨rfl, rfl, rfl, ?_⟩
      intro sz hsz
      obtain ⟨nsb, a1, a2, a3⟩ := mkSizeMap_ok c g1 io1 sz hsz
      refine ⟨nsb, a1, by simpa using a2, ?_⟩
      intro dp hdp
      obtain ⟨cell, b1, b2, b3⟩ := a3 dp hdp
      exact ⟨cell, b1, by simpa using b2, by simpa using b3, trivial⟩
    · exact i2 e h1

theorem cat_nil : ∀ (n : Nat), cat (fun _ => []) n = [] := by
  intro n
  induction n with
  | zero => rfl
  | succ n ih => simp [cat, ih]

theorem init_inv {c : Config} (hv : c.Valid) {s : State} (h : init c = Except.ok s) :
    HeapInv c s (fun _ => []) := by
  unfold init at h
  obtain ⟨⟨sv, sk, g1, io1⟩, hs, h⟩ := bind_eq_ok h
  obtain ⟨⟨av, ak, g2, io2⟩, ha, h⟩ := bind_eq_ok h
  obtain ⟨⟨dv, dk, g3, io3⟩, hd, h⟩ := bind_eq_ok h
  simp only [pure_eq_ok, Except.ok.injEq] at h
  rw [← h]
  obtain ⟨s1, s2⟩ := initSizes_wf hv _ (fun _ => sentinel 0) _ _ _ _ _ (Nat.le_refl _) hs
  obtain ⟨a1, a2⟩ := initAges_wf c _ _ _ (fun _ => sentinel 0) _ _ _ _ _ ha
  obtain ⟨d1, d2⟩ := initDirs_wf hv _ _ _ (fun _ => sentinel 0) _ _ _ _ _ (Nat.le_refl _) hd
  constructor
  all_goals simp only [cat_nil]
  · simp
  · exact ⟨rfl, rfl⟩
  · rfl
  · intro a ha; simp at ha; rw [ha]; exact Nat.zero_lt_one
  · intro a ha; simp at ha
  · exact List.Pairwise.nil
  · intro a ha; simp at ha
  · exact a1
  · exact s1
  · exact d1
  · exact a2
  · exact fun e he => (s2 e he).1
  · exact fun e he => (d2 e he).1
  · exact fun e he => (s2 e he).2
  · exact fun e he => (d2 e he).2

theorem pickSize_mem (lds cap : Nat) :
    ∀ (v : List (Key × SizeBucket)) (sb : SizeBucket), pickSize lds cap v = Except.ok sb →
      ∃ e ∈ v, e.2 = sb := by
  intro v
  induction v with
  | nil => intro sb h; simp [pickSize, throw_eq_error] at h
  | cons e es ih =>
    intro sb h
    simp only [pickSize] at h
    split at h
    · obtain ⟨e1, he1, h1⟩ := ih sb h
      exact ⟨e1, List.mem_cons_of_mem _ he1, h1⟩
    · simp only [pure_eq_ok, Except.ok.injEq] at h
      exact ⟨e, List.mem_cons_self _ _, h⟩

theorem getD_mem {α : Type} {l : List α} {i : Nat} (hi : i < l.length) (d : α) :
    l.getD i d ∈ l := by
  rw [List.getD_eq_getElem l d hi]
  exact List.getElem_mem hi

theorem SizeOK.of_filter_eq_size {c : Config} {h : Heap} {L L1 : List Addr} {b : SizeBucket}
    (hf : L1.filter (fun x => proj File.size h x = b.size) =
      L.filter (fun x => proj File.size h x = b.size)) (hok : SizeOK c h L b) :
    SizeOK c h L1 b := by
  obtain ⟨e1, e2, e3, e4, e5⟩ := hok
  exact ⟨e1, by rw [hf]; exact e2, by rw [hf]; exact e3, by rw [hf]; exact e4, e5⟩

theorem DirOK.of_filter_eq_dir {c : Config} {h : Heap} {L L1 : List Addr} {d : DirBucket}
    (hf : L1.filter (fun x => proj File.depth h x = d.depth) =
      L.filter (fun x => proj File.depth h x = d.depth)) (hok : DirOK c h L d) :
    DirOK c h L1 d :=
  ⟨hok.1, by rw [hf]; exact hok.2⟩

theorem SizeOK.rekey_size {c : Config} {h : Heap} {L : List Addr} {b : SizeBucket} (q : ℚ)
    (hok : SizeOK c h L b) : SizeOK c h L { b with actual_fraction := q } := hok

theorem DirOK.rekey_dir {c : Config} {h : Heap} {L : List Addr} {d : DirBucket} (q : ℚ)
    (hok : DirOK c h L d) : DirOK c h L { d with actual_fraction := q } := hok

theorem filter_snoc_false {L : List Addr} {f : Addr} {p : Addr → Bool} (hp : p f = false) :
    (L ++ [f]).filter p = L.filter p := by
  rw [List.filter_append]
  simp [hp]

theorem filter_snoc_true {L : List Addr} {f : Addr} {p : Addr → Bool} (hp : p f = true) :
    (L ++ [f]).filter p = L.filter p ++ [f] := by
  rw [List.filter_append]
  simp [hp]

theorem HeapInv.age_zero {c : Config} {s : State} {seg : Nat → List Addr}
    (hi : HeapInv c s seg) {ab : AgeBucket}
    (h : fmFind (s.a_keys 0) s.age_buckets = some ab) :
    (s.a_keys 0, ab) ∈ s.age_buckets ∧ ab.id = 0 ∧ 0 < c.NUM_AGES := by
  have hm := fmFind_some h
  have hlt := hi.avw.id_lt hm
  have hpos : 0 < c.NUM_AGES := Nat.lt_of_le_of_lt (Nat.zero_le _) hlt
  obtain ⟨e, he, hid⟩ := hi.avw.exists_id hpos
  have h1 := hi.avw.find he
  rw [hid, h] at h1
  have : ab = e.2 := Option.some.inj h1
  exact ⟨hm, by rw [this]; exact hid, hpos⟩

theorem createFile_inv {c : Config} (hv : c.Valid) {s : State} {seg : Nat → List Addr}
    {pos : Int} {r : Nat} {res : CreateResult} (hi : HeapInv c s seg)
    (h : createFile c s pos r = Except.ok res) :
    HeapInv c res.state (Function.update seg 0 (seg 0 ++ [s.next_addr])) ∧
    0 < c.NUM_AGES ∧ s.next_addr ∉ s.fs :: cat seg c.NUM_AGES ∧
    proj File.size res.state.heap s.next_addr = res.ret_size ∧
    proj File.age res.state.heap s.next_addr = s.tick ∧
    (∃ e ∈ s.size_buckets, e.2.size = res.ret_size) ∧
    (∃ k d rest, s.dir_buckets = (k, d) :: rest ∧
      proj File.depth res.state.heap s.next_addr = d.depth) ∧
    (∃ G S D, HeapRel s.heap res.state.heap [s.next_addr] G S D) ∧
    (∀ e ∈ res.state.age_buckets,
      (e.2.id = 0 ∧ e.2.actual_fraction =
        (e.2.count : ℚ) / (res.state.global_live_file_count : ℚ)) ∨
      (e ∈ s.age_buckets ∧ e.2.id ≠ 0)) := by
  obtain ⟨sb, d, dv, dk, h1, h2, h3, sb1, sv, sk, ab, ab1, hsb, ⟨kd, drest, hdv⟩, hsd, hlist,
    hsadd, hss, hfind, haadd, hres⟩ := createFile_eq_ok h
  -- the chosen buckets are entries of the views
  have hsbm : ∃ e ∈ s.size_buckets, e.2 = sb := by
    split at hsb
    · split at hsb
      · rename_i b hb
        simp only [pure_eq_ok, Except.ok.injEq] at hsb
        exact ⟨_, fmFind_some hb, hsb⟩
      · simp [throw_eq_error] at hsb
    · obtain ⟨e, he, h1⟩ := pickSize_mem _ _ _ _ hsb
      exact ⟨e, List.mem_reverse.mp he, h1⟩
  obtain ⟨esb, hesb, hesb2⟩ := hsbm
  subst hesb2
  have hdm : (kd, d) ∈ s.dir_buckets := by rw [hdv]; exact List.mem_cons_self _ _
  obtain ⟨habm, hab0, hN⟩ := hi.age_zero hfind
  have hsbok := hi.sizes esb hesb
  have hdok := hi.dirs _ hdm
  have hsbsz : esb.2.size ∈ c.size_arr := by
    rw [hsbok.1]
    exact getD_mem (hi.svw.id_lt hesb) 0
  have hddp : d.depth ∈ c.dir_arr := by
    rw [hdok.1]
    exact getD_mem (hi.dvw.id_lt hdm) 0
  -- the new address is fresh
  have hfresh : s.next_addr ∉ s.fs :: cat seg c.NUM_AGES :=
    fun hh => Nat.lt_irrefl _ (hi.fresh _ hh)
  have hfL : s.next_addr ∉ cat seg c.NUM_AGES := fun hh => hfresh (List.mem_cons_of_mem _ hh)
  have hLne : ∀ x ∈ cat seg c.NUM_AGES, x ∉ [s.next_addr] := by
    intro x hx hh
    rw [List.mem_singleton.mp hh] at hx
    exact hfL hx
  let file := File.new (fileName d s.tick r) esb.2.size s.tick d.depth
  have R0 := HeapRel.alloc s.heap s.next_addr file
  -- the global list
  have hseg0 : Seg (proj File.next (s.heap.upd s.next_addr (fun _ => file)))
      (proj File.prev (s.heap.upd s.next_addr (fun _ => file))) s.fs
      (cat seg c.NUM_AGES) s.fs := by
    refine Seg.congrSeg _ _ _ hi.glist ?_ ?_
    · intro x hx
      exact R0.next x (fun hh => hfresh (by rw [← List.mem_singleton.mp hh]; exact hx))
    · intro x hx
      refine R0.prev x (fun hh => hfresh ?_)
      rw [← List.mem_singleton.mp hh]
      rcases List.mem_append.mp hx with h4 | h4
      · exact List.mem_cons_of_mem _ h4
      · rw [List.mem_singleton.mp h4]; exact List.mem_cons_self _ _
  obtain ⟨hseg1, R1⟩ := list_addFile_seg hlist hseg0 hi.nodup hfresh
  -- the size ring
  have R01 := R0.trans_rel R1
  have hsb1ok : SizeOK c h1 (cat seg c.NUM_AGES) esb.2 := by
    refine hsbok.transport_size R01 ?_ ?_
    · intro x hx; simpa using hLne x hx
    · intro x hx _; simpa using hLne x hx
  have hf1size : proj File.size h1 s.next_addr = esb.2.size := by
    rw [R1.size_eq]; simp [proj, Heap.upd, file, File.new]
  have hf1depth : proj File.depth h1 s.next_addr = d.depth := by
    rw [R1.depth_eq]; simp [proj, Heap.upd, file, File.new]
  have hf1age : proj File.age h1 s.next_addr = s.tick := by
    rw [R1.age_eq]; simp [proj, Heap.upd, file, File.new]
  obtain ⟨hring2, ⟨cell2, hsb1⟩, R2⟩ := size_addFile_ring hsadd hsb1ok.2.1 hsb1ok.2.2.1
    hsb1ok.2.2.2.1 ((List.nodup_cons.mp hi.nodup).2.filter _)
    (fun hh => hfL (List.mem_of_mem_filter hh))
  -- the age bucket
  have R012 := R01.trans_rel R2
  have habok : AgeOK c h2 (seg 0) ab := by
    have := hi.ages _ habm
    rw [hab0] at this
    refine this.transport_age R012 ?_ ?_
    · intro x hx
      simpa using hLne x ((mem_cat _).mpr ⟨0, hN, hx⟩)
    · intro x hx
      simpa using hLne x ((mem_cat _).mpr ⟨0, hN, hx⟩)
  have hLnd : (cat seg c.NUM_AGES).Nodup := (List.nodup_cons.mp hi.nodup).2
  have hf2size : proj File.size h2 s.next_addr = esb.2.size := by rw [R2.size_eq]; exact hf1size
  have hf2depth : proj File.depth h2 s.next_addr = d.depth := by
    rw [R2.depth_eq]; exact hf1depth
  obtain ⟨hab1ok, ⟨sbm, hab1⟩, R3⟩ := age_addFile_inv haadd habok (cat_seg_nodup hLnd hN)
    (fun hh => hfL ((mem_cat _).mpr ⟨0, hN, hh⟩)) (by rw [hf2size]; exact hsbsz)
    (by rw [hf2depth]; exact hddp)
  have R0123 := R012.trans_rel R3
  have hS1 : (cat seg c.NUM_AGES).filter (fun x => proj File.size h1 x = esb.2.size) =
      (cat seg c.NUM_AGES).filter (fun x => proj File.size s.heap x = esb.2.size) :=
    filter_size_congr R01 (fun x hx => by simpa using hLne x hx) _
  have Rtot : HeapRel s.heap h3 [s.next_addr] (s.next_addr :: s.fs :: cat seg c.NUM_AGES)
      (s.next_addr :: (cat seg c.NUM_AGES).filter
        (fun x => proj File.size s.heap x = esb.2.size)) (s.next_addr :: seg 0) := by
    refine R0123.mono ?_ ?_ ?_ ?_
    · intro x hx; simpa using hx
    · intro x hx
      simp only [List.append_nil, List.mem_append, List.mem_singleton, List.mem_cons] at hx ⊢
      tauto
    · intro x hx
      rw [hS1] at hx
      simp only [List.append_nil, List.nil_append, List.mem_append, List.mem_singleton,
        List.mem_cons, List.not_mem_nil, or_false, false_or] at hx ⊢
      tauto
    · intro x hx
      simp only [List.append_nil, List.nil_append, List.mem_append, List.mem_singleton,
        List.mem_cons, List.not_mem_nil, or_false, false_or] at hx ⊢
      tauto
  have hf3size : proj File.size h3 s.next_addr = esb.2.size := by rw [R3.size_eq]; exact hf2size
  have hf3depth : proj File.depth h3 s.next_addr = d.depth := by
    rw [R3.depth_eq]; exact hf2depth
  have hf3age : proj File.age h3 s.next_addr = s.tick := by
    rw [R3.age_eq, R2.age_eq]; exact hf1age
  have hcat : cat (Function.update seg 0 (seg 0 ++ [s.next_addr])) c.NUM_AGES =
      cat seg c.NUM_AGES ++ [s.next_addr] := cat_update_zero hN _
  have hab1id : ab1.id = 0 := by rw [hab1]; exact hab0
  have hsb1id : sb1.id = esb.2.id := by rw [hsb1]
  obtain ⟨wa, ma, _⟩ := storeAge_wf hi.avw habm ab1 (by rw [hab1id, hab0])
  obtain ⟨ws, ms, _⟩ := storeSize_wf hv hi.svw hesb sb1 hsb1id hss
  obtain ⟨wd, md, _⟩ := storeDir_wf hv hi.dvw hdm { d with count := d.count + 1 } rfl hsd
  have hsz3 : ∀ x ∈ cat seg c.NUM_AGES, proj File.size h3 x = proj File.size s.heap x :=
    fun x hx => Rtot.size x (hLne x hx)
  have hdp3 : ∀ x ∈ cat seg c.NUM_AGES, proj File.depth h3 x = proj File.depth s.heap x :=
    fun x hx => Rtot.depth x (hLne x hx)
  have hag3 : ∀ x ∈ cat seg c.NUM_AGES, proj File.age h3 x = proj File.age s.heap x :=
    fun x hx => Rtot.age x (hLne x hx)
  subst hres
  refine ⟨?_, hN, hfresh, hf3size, hf3age, ⟨esb, hesb, rfl⟩,
    ⟨kd, d, drest, hdv, hf3depth⟩, ⟨_, _, _, Rtot⟩, ?_⟩
  constructor
  · show (s.fs :: cat (Function.update seg 0 (seg 0 ++ [s.next_addr])) c.NUM_AGES).Nodup
    rw [hcat, ← List.cons_append]
    exact List.Nodup.append hi.nodup (List.nodup_singleton _)
      (List.disjoint_singleton.mpr hfresh)
  · show Seg (proj File.next h3) (proj File.prev h3) s.fs
      (cat (Function.update seg 0 (seg 0 ++ [s.next_addr])) c.NUM_AGES) s.fs
    rw [hcat, R3.next_eq, R3.prev_eq, R2.next_eq, R2.prev_eq]
    exact hseg1
  · show s.global_live_file_count + 1 =
      (cat (Function.update seg 0 (seg 0 ++ [s.next_addr])) c.NUM_AGES).length
    rw [hcat, List.length_append, hi.live]
    rfl
  · intro a ha
    show a < s.next_addr + 1
    rw [hcat, ← List.cons_append] at ha
    rcases List.mem_append.mp ha with h4 | h4
    · exact Nat.lt_succ_of_lt (hi.fresh a h4)
    · rw [List.mem_singleton.mp h4]; exact Nat.lt_succ_self _
  · intro a ha
    show proj File.size h3 a ∈ c.size_arr ∧ proj File.depth h3 a ∈ c.dir_arr
    rw [hcat] at ha
    rcases List.mem_append.mp ha with h4 | h4
    · rw [hsz3 a h4, hdp3 a h4]; exact hi.attrs a h4
    · rw [List.mem_singleton.mp h4, hf3size, hf3depth]; exact ⟨hsbsz, hddp⟩
  · show (cat (Function.update seg 0 (seg 0 ++ [s.next_addr])) c.NUM_AGES).Pairwise
      (fun a b => proj File.age h3 a ≤ proj File.age h3 b)
    rw [hcat, List.pairwise_append]
    refine ⟨?_, List.pairwise_singleton _ _, ?_⟩
    · refine hi.births.imp_of_mem ?_
      intro a b ha hb hab
      rw [hag3 a ha, hag3 b hb]; exact hab
    · intro a ha b hb
      rw [List.mem_singleton.mp hb, hf3age, hag3 a ha]
      exact hi.born a ha
  · intro a ha
    show proj File.age h3 a ≤ s.tick
    rw [hcat] at ha
    rcases List.mem_append.mp ha with h4 | h4
    · rw [hag3 a h4]; exact hi.born a h4
    · rw [List.mem_singleton.mp h4, hf3age]
  · exact wa
  · exact ws
  · exact wd
  · intro e he
    show AgeOK c h3 (Function.update seg 0 (seg 0 ++ [s.next_addr]) e.2.id) e.2
    rcases ma e he with h4 | ⟨h4, h5⟩
    · rw [h4, hab1id, Function.update_same]; exact hab1ok
    · rw [hab0] at h5
      rw [Function.update_noteq h5]
      have hlt := hi.avw.id_lt h4
      refine (hi.ages e h4).transport_age Rtot ?_ ?_
      · intro x hx
        exact hLne x ((mem_cat _).mpr ⟨_, hlt, hx⟩)
      · intro x hx hh
        rcases List.mem_cons.mp hh with h6 | h6
        · exact hfL (h6 ▸ (mem_cat _).mpr ⟨_, hlt, hx⟩)
        · exact cat_disjoint_ne hLnd hlt hN h5 hx h6
  · intro e he
    show SizeOK c h3 (cat (Function.update seg 0 (seg 0 ++ [s.next_addr])) c.NUM_AGES) e.2
    rw [hcat]
    obtain ⟨y, hy, hey⟩ := ms e he
    rw [hey]
    apply SizeOK.rekey_size
    rcases hy with h4 | ⟨e1, he1, h4, h5⟩
    · rw [h4]
      have hfun : proj File.size h3 = proj File.size h1 := by rw [R3.size_eq, R2.size_eq]
      have hsz1 : sb1.size = esb.2.size := by rw [hsb1]
      have hfil : (cat seg c.NUM_AGES ++ [s.next_addr]).filter
          (fun x => proj File.size h3 x = sb1.size) =
          (cat seg c.NUM_AGES).filter (fun x => proj File.size h1 x = esb.2.size) ++
            [s.next_addr] := by
        rw [hsz1, hfun]
        exact filter_snoc_true (by simp [hf1size])
      refine ⟨?_, ?_, ?_, ?_, ?_⟩
      · rw [hsb1]; exact hsbok.1
      · rw [hfil, hsb1]
        simp only [List.length_append, List.length_singleton]
        rw [hsb1ok.2.1]
      · rw [hfil, hsb1]
      · rw [hfil]
        exact hring2.congrRing (fun x _ => R3.size_next x (List.not_mem_nil x))
          (fun x _ => R3.size_prev x (List.not_mem_nil x))
      · intro dp hdp
        rw [hsb1]
        simp only
        by_cases hk : dp = (h1 s.next_addr).depth
        · rw [hk, Function.update_same]; exact ⟨_, rfl⟩
        · rw [Function.update_noteq hk]; exact hsbok.2.2.2.2 dp hdp
    · rw [← h4]
      have hok := hi.sizes e1 he1
      have hne : e1.2.size ≠ esb.2.size := by
        rw [hok.1, hsbok.1]
        intro hh
        rw [← h4] at h5
        exact h5 (getD_inj hv.1 (hi.svw.id_lt he1) (hi.svw.id_lt hesb) 0 hh)
      have h3ok : SizeOK c h3 (cat seg c.NUM_AGES) e1.2 := by
        refine hok.transport_size Rtot hLne ?_
        intro x hx hxs hh
        rcases List.mem_cons.mp hh with h6 | h6
        · exact hfL (h6 ▸ hx)
        · have := (List.mem_filter.mp h6).2
          simp only [decide_eq_true_eq] at this
          exact hne (hxs.symm.trans this)
      refine SizeOK.of_filter_eq_size ?_ h3ok
      exact filter_snoc_false (by simp [hf3size, Ne.symm hne])
  · intro e he
    show DirOK c h3 (cat (Function.update seg 0 (seg 0 ++ [s.next_addr])) c.NUM_AGES) e.2
    rw [hcat]
    obtain ⟨y, hy, hey⟩ := md e he
    rw [hey]
    apply DirOK.rekey_dir
    have hfun : ∀ dp : Int, (cat seg c.NUM_AGES).filter (fun x => proj File.depth h3 x = dp) =
        (cat seg c.NUM_AGES).filter (fun x => proj File.depth s.heap x = dp) :=
      fun dp => filter_depth_congr Rtot hLne dp
    rcases hy with h4 | ⟨e1, he1, h4, h5⟩
    · rw [h4]
      refine ⟨hdok.1, ?_⟩
      show d.count + 1 = _
      rw [filter_snoc_true (by simp [hf3depth]), hfun]
      simp only [List.length_append, List.length_singleton]
      rw [hdok.2]
    · rw [← h4]
      have hok := hi.dirs e1 he1
      have hne : e1.2.depth ≠ d.depth := by
        rw [hok.1, hdok.1]
        intro hh
        rw [← h4] at h5
        exact h5 (getD_inj hv.2 (hi.dvw.id_lt he1) (hi.dvw.id_lt hdm) 0 hh)
      refine ⟨hok.1, ?_⟩
      rw [filter_snoc_false (by simp [hf3depth, Ne.symm hne]), hfun]
      exact hok.2
  · intro e he
    obtain ⟨y, hy, hey⟩ := ms e he
    have hgoal : y.ideal_fraction =
        c.size_distribution.getD y.id 0 / ((totalWeight c.size_distribution : Nat) : ℚ) := by
      rcases hy with h4 | ⟨e1, he1, h4, _⟩
      · rw [h4, hsb1]; exact hi.sideal esb hesb
      · rw [← h4]; exact hi.sideal e1 he1
    rw [hey]; exact hgoal
  · intro e he
    obtain ⟨y, hy, hey⟩ := md e he
    have hgoal : y.ideal_fraction =
        c.dir_distribution.getD y.id 0 / ((totalWeight c.dir_distribution : Nat) : ℚ) := by
      rcases hy with h4 | ⟨e1, he1, h4, _⟩
      · rw [h4]; exact hi.dideal _ hdm
      · rw [← h4]; exact hi.dideal e1 he1
    rw [hey]; exact hgoal
  · intro e he
    rcases ma e he with h4 | ⟨h4, h5⟩
    · left
      rw [h4]
      refine ⟨hab1id, ?_⟩
      rw [hab1]
    · right
      rw [hab0] at h5
      exact ⟨h4, h5⟩

theorem Seg.nx_mem_seg {nx pv : Addr → Ptr} :
    ∀ (l : List Addr) (a b : Addr), Seg nx pv a l b →
      ∀ x ∈ a :: l, ∃ y ∈ l ++ [b], nx x = some y := by
  intro l
  induction l with
  | nil =>
    intro a b h x hx
    simp only [List.mem_singleton] at hx
    subst hx
    exact ⟨b, by simp, h.1⟩
  | cons z zs ih =>
    intro a b h x hx
    simp only [Seg] at h
    rcases List.mem_cons.mp hx with h1 | h1
    · subst h1
      exact ⟨z, by simp, h.1⟩
    · obtain ⟨y, hy, hxy⟩ := ih z b h.2.2 x h1
      exact ⟨y, List.mem_cons_of_mem _ hy, hxy⟩

theorem Ring.nx_mem_ring {nx pv : Addr → Ptr} {R : List Addr} (h : Ring nx pv R) {x : Addr}
    (hx : x ∈ R) : ∃ y ∈ R, nx x = some y := by
  cases R with
  | nil => simp at hx
  | cons a l =>
    obtain ⟨y, hy, hxy⟩ := Seg.nx_mem_seg l a a h x hx
    refine ⟨y, ?_, hxy⟩
    rcases List.mem_append.mp hy with h1 | h1
    · exact List.mem_cons_of_mem _ h1
    · rw [List.mem_singleton.mp h1]; exact List.mem_cons_self _ _

theorem walkDir_ring {h : Heap} {R : List Addr}
    (hr : Ring (proj File.dir_next h) (proj File.dir_prev h) R) :
    ∀ (n : Nat) (x : Addr), x ∈ R → ∃ y ∈ R, walkDir h n (some x) = Except.ok (some y) := by
  intro n
  induction n with
  | zero => intro x hx; exact ⟨x, hx, rfl⟩
  | succ n ih =>
    intro x hx
    obtain ⟨y, hy, hxy⟩ := hr.nx_mem_ring hx
    obtain ⟨z, hz, hw⟩ := ih y hy
    refine ⟨z, hz, ?_⟩
    simp only [walkDir, deref, pure_bind, fold_dir_next, hxy]
    exact hw

theorem cell_getFile {h : Heap} {R : List Addr} {cell : DirBucket} (draw : Nat → Nat)
    (hc : CellOK h R cell) :
    (R = [] → cell.getFileToDelete draw h = Except.ok none) ∧
    (R ≠ [] → ∃ f ∈ R, cell.getFileToDelete draw h = Except.ok (some f)) := by
  obtain ⟨e1, e2, e3⟩ := hc
  constructor
  · intro hR
    subst hR
    simp only [DirBucket.getFileToDelete]
    rw [if_pos (by simpa using e1)]
    rfl
  · intro hR
    cases R with
    | nil => exact absurd rfl hR
    | cons x t =>
      simp only [DirBucket.getFileToDelete]
      rw [if_neg (by rw [e1]; simp), e2]
      exact walkDir_ring e3 _ x (List.mem_cons_self _ _)

theorem age_getFile {c : Config} {h : Heap} {A : List Addr} {a : AgeBucket}
    (hok : AgeOK c h A a) {sz : Nat} {dp : Int} (hsz : sz ∈ c.size_arr)
    (hdp : dp ∈ c.dir_arr) (draw : Nat → Nat) :
    (A.filter (fun x => proj File.size h x = sz ∧ proj File.depth h x = dp) = [] →
      a.getFileToDelete draw h sz dp = Except.ok none) ∧
    (A.filter (fun x => proj File.size h x = sz ∧ proj File.depth h x = dp) ≠ [] →
      ∃ f ∈ A.filter (fun x => proj File.size h x = sz ∧ proj File.depth h x = dp),
        a.getFileToDelete draw h sz dp = Except.ok (some f)) := by
  obtain ⟨nsb, f1, _, f3⟩ := hok.2.2.2 sz hsz
  obtain ⟨cell, g1, g2⟩ := f3 dp hdp
  have hget : a.getFileToDelete draw h sz dp = cell.getFileToDelete draw h := by
    simp only [AgeBucket.getFileToDelete, SizeBucket.getFileToDelete, umFind, f1, g1, pure_bind]
  rw [hget]
  exact cell_getFile draw g2

theorem searchDirs_spec (get : DirBucket → Res Ptr) :
    ∀ (rest : List (Key × DirBucket)) (d0 d : DirBucket) (p : Ptr),
      searchDirs get d0 rest = Except.ok (d, p) →
      ∃ pre post, d0 :: rest.map Prod.snd = pre ++ d :: post ∧
        (∀ x ∈ pre, get x = Except.ok none) ∧ get d = Except.ok p ∧ (p = none → post = []) := by
  intro rest
  induction rest with
  | nil =>
    intro d0 d p h
    simp only [searchDirs] at h
    obtain ⟨f, hf, h⟩ := bind_eq_ok h
    simp only [pure_eq_ok, Except.ok.injEq, Prod.mk.injEq] at h
    obtain ⟨rfl, rfl⟩ := h
    exact ⟨[], [], rfl, by simp, hf, fun _ => rfl⟩
  | cons e es ih =>
    intro d0 d p h
    simp only [searchDirs] at h
    obtain ⟨f, hf, h⟩ := bind_eq_ok h
    cases f with
    | none =>
      simp only at h
      obtain ⟨pre, post, e1, e2, e3, e4⟩ := ih e.2 d p h
      refine ⟨d0 :: pre, post, ?_, ?_, e3, e4⟩
      · simp only [List.map_cons, List.cons_append, e1]
      · intro x hx
        rcases List.mem_cons.mp hx with h1 | h1
        · rw [h1]; exact hf
        · exact e2 x h1
    | some a =>
      simp only [pure_eq_ok, Except.ok.injEq, Prod.mk.injEq] at h
      obtain ⟨rfl, rfl⟩ := h
      exact ⟨[], _, rfl, by simp, hf, fun hh => by simp at hh⟩

theorem searchSizes_spec (inner : SizeBucket → Res (DirBucket × Ptr)) :
    ∀ (rest : List (Key × SizeBucket)) (s0 sb : SizeBucket) (d : DirBucket) (p : Ptr),
      searchSizes inner s0 rest = Except.ok (sb, d, p) →
      ∃ pre post, s0 :: rest.map Prod.snd = pre ++ sb :: post ∧
        (∀ x ∈ pre, ∃ d1, inner x = Except.ok (d1, none)) ∧ inner sb = Except.ok (d, p) ∧
        (p = none → post = []) := by
  intro rest
  induction rest with
  | nil =>
    intro s0 sb d p h
    simp only [searchSizes] at h
    obtain ⟨⟨d1, f⟩, hf, h⟩ := bind_eq_ok h
    simp only [pure_eq_ok, Except.ok.injEq, Prod.mk.injEq] at h
    obtain ⟨rfl, rfl, rfl⟩ := h
    exact ⟨[], [], rfl, by simp, hf, fun _ => rfl⟩
  | cons e es ih =>
    intro s0 sb d p h
    simp only [searchSizes] at h
    obtain ⟨⟨d1, f⟩, hf, h⟩ := bind_eq_ok h
    cases f with
    | none =>
      simp only at h
      obtain ⟨pre, post, e1, e2, e3, e4⟩ := ih e.2 sb d p h
      refine ⟨s0 :: pre, post, ?_, ?_, e3, e4⟩
      · simp only [List.map_cons, List.cons_append, e1]
      · intro x hx
        rcases List.mem_cons.mp hx with h1 | h1
        · rw [h1]; exact ⟨d1, hf⟩
        · exact e2 x h1
    | some a =>
      simp only [pure_eq_ok, Except.ok.injEq, Prod.mk.injEq] at h
      obtain ⟨rfl, rfl, rfl⟩ := h
      exact ⟨[], _, rfl, by simp, hf, fun hh => by simp at hh⟩

theorem searchAges_spec (inner : AgeBucket → Res (SizeBucket × DirBucket × Ptr)) :
    ∀ (rest : List (Key × AgeBucket)) (a0 ab : AgeBucket) (sb : SizeBucket) (d : DirBucket)
      (p : Ptr), searchAges inner a0 rest = Except.ok (ab, sb, d, p) →
      ∃ pre post, a0 :: rest.map Prod.snd = pre ++ ab :: post ∧
        (∀ x ∈ pre, ∃ s1 d1, inner x = Except.ok (s1, d1, none)) ∧
        inner ab = Except.ok (sb, d, p) ∧ (p = none → post = []) := by
  intro rest
  induction rest with
  | nil =>
    intro a0 ab sb d p h
    simp only [searchAges] at h
    obtain ⟨⟨s1, d1, f⟩, hf, h⟩ := bind_eq_ok h
    simp only [pure_eq_ok, Except.ok.injEq, Prod.mk.injEq] at h
    obtain ⟨rfl, rfl, rfl, rfl⟩ := h
    exact ⟨[], [], rfl, by simp, hf, fun _ => rfl⟩
  | cons e es ih =>
    intro a0 ab sb d p h
    simp only [searchAges] at h
    obtain ⟨⟨s1, d1, f⟩, hf, h⟩ := bind_eq_ok h
    cases f with
    | none =>
      simp only at h
      obtain ⟨pre, post, e1, e2, e3, e4⟩ := ih e.2 ab sb d p h
      refine ⟨a0 :: pre, post, ?_, ?_, e3, e4⟩
      · simp only [List.map_cons, List.cons_append, e1]
      · intro x hx
        rcases List.mem_cons.mp hx with h1 | h1
        · rw [h1]; exact ⟨s1, d1, hf⟩
        · exact e2 x h1
    | some a =>
      simp only [pure_eq_ok, Except.ok.injEq, Prod.mk.injEq] at h
      obtain ⟨rfl, rfl, rfl, rfl⟩ := h
      exact ⟨[], _, rfl, by simp, hf, fun hh => by simp at hh⟩

theorem findVictim_eq (c : Config) (s : State) :
    findVictim c s = (do
      let (a0, as) ← firstEntry s.age_buckets.reverse
      searchAges (sizeSearch c s) a0 as) := rfl

theorem firstEntry_eq_ok {β : Type} {v : List (Key × β)} {b : β} {rest : List (Key × β)}
    (h : firstEntry v = Except.ok (b, rest)) : v.map Prod.snd = b :: rest.map Prod.snd := by
  cases v with
  | nil => simp [firstEntry, throw_eq_error] at h
  | cons e es =>
    simp only [firstEntry, pure_eq_ok, Except.ok.injEq, Prod.mk.injEq] at h
    rw [← h.1, ← h.2]; rfl

theorem dirSearch_spec {c : Config} {s : State} {ab : AgeBucket} {sb : SizeBucket}
    {d : DirBucket} {p : Ptr} (h : dirSearch c s ab sb = Except.ok (d, p)) :
    ∃ dpre dpost, s.dir_buckets.reverse.map Prod.snd = dpre ++ d :: dpost ∧
      (∀ y ∈ dpre, ab.getFileToDelete c.victim_draw s.heap sb.size y.depth = Except.ok none) ∧
      ab.getFileToDelete c.victim_draw s.heap sb.size d.depth = Except.ok p ∧
      (p = none → dpost = []) := by
  simp only [dirSearch] at h
  obtain ⟨⟨d0, ds⟩, hf, h⟩ := bind_eq_ok h
  obtain ⟨pre, post, e1, e2, e3, e4⟩ := searchDirs_spec _ _ _ _ _ h
  exact ⟨pre, post, by rw [firstEntry_eq_ok hf, e1], e2, e3, e4⟩

theorem dirSearch_none {c : Config} {s : State} {ab : AgeBucket} {sb : SizeBucket}
    {d : DirBucket} (h : dirSearch c s ab sb = Except.ok (d, none)) :
    ∀ y ∈ s.dir_buckets.reverse.map Prod.snd,
      ab.getFileToDelete c.victim_draw s.heap sb.size y.depth = Except.ok none := by
  obtain ⟨pre, post, e1, e2, e3, e4⟩ := dirSearch_spec h
  intro y hy
  rw [e1, e4 rfl] at hy
  rcases List.mem_append.mp hy with h1 | h1
  · exact e2 y h1
  · rw [List.mem_singleton.mp h1]; exact e3

theorem sizeSearch_spec {c : Config} {s : State} {ab : AgeBucket} {sb : SizeBucket}
    {d : DirBucket} {p : Ptr} (h : sizeSearch c s ab = Except.ok (sb, d, p)) :
    ∃ spre spost dpre dpost, s.size_buckets.map Prod.snd = spre ++ sb :: spost ∧
      s.dir_buckets.reverse.map Prod.snd = dpre ++ d :: dpost ∧
      (∀ x ∈ spre, ∀ y ∈ s.dir_buckets.reverse.map Prod.snd,
        ab.getFileToDelete c.victim_draw s.heap x.size y.depth = Except.ok none) ∧
      (∀ y ∈ dpre, ab.getFileToDelete c.victim_draw s.heap sb.size y.depth = Except.ok none) ∧
      ab.getFileToDelete c.victim_draw s.heap sb.size d.depth = Except.ok p ∧
      (p = none → spost = [] ∧ dpost = []) := by
  simp only [sizeSearch] at h
  obtain ⟨⟨s0, ss⟩, hf, h⟩ := bind_eq_ok h
  obtain ⟨pre, post, e1, e2, e3, e4⟩ := searchSizes_spec _ _ _ _ _ _ h
  obtain ⟨dpre, dpost, f1, f2, f3, f4⟩ := dirSearch_spec e3
  refine ⟨pre, post, dpre, dpost, by rw [firstEntry_eq_ok hf, e1], f1, ?_, f2, f3,
    fun hp => ⟨e4 hp, f4 hp⟩⟩
  intro x hx
  obtain ⟨d1, hd1⟩ := e2 x hx
  exact dirSearch_none hd1

theorem sizeSearch_none {c : Config} {s : State} {ab : AgeBucket} {sb : SizeBucket}
    {d : DirBucket} (h : sizeSearch c s ab = Except.ok (sb, d, none)) :
    ∀ x ∈ s.size_buckets.map Prod.snd, ∀ y ∈ s.dir_buckets.reverse.map Prod.snd,
      ab.getFileToDelete c.victim_draw s.heap x.size y.depth = Except.ok none := by
  obtain ⟨spre, spost, dpre, dpost, e1, e2, e3, e4, e5, e6⟩ := sizeSearch_spec h
  intro x hx y hy
  rw [e1, (e6 rfl).1] at hx
  rcases List.mem_append.mp hx with h1 | h1
  · exact e3 x h1 y hy
  · rw [List.mem_singleton.mp h1]
    rw [e2, (e6 rfl).2] at hy
    rcases List.mem_append.mp hy with h2 | h2
    · exact e4 y h2
    · rw [List.mem_singleton.mp h2]; exact e5

theorem findVictim_spec {c : Config} {s : State} {ab : AgeBucket} {sb : SizeBucket}
    {d : DirBucket} {p : Ptr} (h : findVictim c s = Except.ok (ab, sb, d, p)) :
    ∃ apre apost spre spost dpre dpost,
      s.age_buckets.reverse.map Prod.snd = apre ++ ab :: apost ∧
      s.size_buckets.map Prod.snd = spre ++ sb :: spost ∧
      s.dir_buckets.reverse.map Prod.snd = dpre ++ d :: dpost ∧
      (∀ a ∈ apre, ∀ x ∈ s.size_buckets.map Prod.snd,
        ∀ y ∈ s.dir_buckets.reverse.map Prod.snd,
        a.getFileToDelete c.victim_draw s.heap x.size y.depth = Except.ok none) ∧
      (∀ x ∈ spre, ∀ y ∈ s.dir_buckets.reverse.map Prod.snd,
        ab.getFileToDelete c.victim_draw s.heap x.size y.depth = Except.ok none) ∧
      (∀ y ∈ dpre, ab.getFileToDelete c.victim_draw s.heap sb.size y.depth = Except.ok none) ∧
      ab.getFileToDelete c.victim_draw s.heap sb.size d.depth = Except.ok p ∧
      (p = none → apost = [] ∧ spost = [] ∧ dpost = []) := by
  rw [findVictim_eq] at h
  obtain ⟨⟨a0, as⟩, hf, h⟩ := bind_eq_ok h
  obtain ⟨pre, post, e1, e2, e3, e4⟩ := searchAges_spec _ _ _ _ _ _ _ h
  obtain ⟨spre, spost, dpre, dpost, f1, f2, f3, f4, f5, f6⟩ := sizeSearch_spec e3
  refine ⟨pre, post, spre, spost, dpre, dpost, by rw [firstEntry_eq_ok hf, e1], f1, f2, ?_,
    f3, f4, f5, fun hp => ⟨e4 hp, (f6 hp).1, (f6 hp).2⟩⟩
  intro a ha
  obtain ⟨s1, d1, h1⟩ := e2 a ha
  exact sizeSearch_none h1

theorem Seg.adjacent {nx pv : Addr → Ptr} {a b x y : Addr} {l1 l2 : List Addr}
    (h : Seg nx pv a (l1 ++ x :: y :: l2) b) : nx x = some y ∧ pv y = some x := by
  have h1 := ((Seg.append l1 a x (y :: l2) b).mp h).2
  simp only [Seg] at h1
  exact ⟨h1.1, h1.2.1⟩

theorem HeapInv.seg_next {c : Config} {s : State} {seg : Nat → List Addr}
    (hi : HeapInv c s seg) {i : Nat} (hlt : i < c.NUM_AGES) {f y : Addr} {t : List Addr}
    (h : seg i = f :: y :: t) : proj File.next s.heap f = some y := by
  obtain ⟨pre, e1, _, _⟩ := cat_split seg c.NUM_AGES hlt
  have hg := hi.glist
  rw [e1, h] at hg
  have : pre ++ f :: y :: t ++ cat seg i = pre ++ f :: y :: (t ++ cat seg i) := by simp
  rw [this] at hg
  exact (Seg.adjacent hg).1

theorem HeapInv.seg_prev {c : Config} {s : State} {seg : Nat → List Addr}
    (hi : HeapInv c s seg) {i : Nat} (hlt : i < c.NUM_AGES) {f y : Addr} {t : List Addr}
    (h : seg i = t ++ [y, f]) : proj File.prev s.heap f = some y := by
  obtain ⟨pre, e1, _, _⟩ := cat_split seg c.NUM_AGES hlt
  have hg := hi.glist
  rw [e1, h] at hg
  have : pre ++ (t ++ [y, f]) ++ cat seg i = (pre ++ t) ++ y :: f :: cat seg i := by simp
  rw [this] at hg
  exact (Seg.adjacent hg).2

theorem mem_map_snd {β : Type} {v : List (Key × β)} {b : β} (h : b ∈ v.map Prod.snd) :
    ∃ e ∈ v, e.2 = b := by
  obtain ⟨e, he, h1⟩ := List.mem_map.mp h
  exact ⟨e, he, h1⟩

theorem HeapInv.victim {c : Config} {s : State} {seg : Nat → List Addr}
    (hi : HeapInv c s seg) {ab : AgeBucket} {sb : SizeBucket} {d : DirBucket} {f : Addr}
    (h : findVictim c s = Except.ok (ab, sb, d, some f)) :
    ∃ (ea : Key × AgeBucket) (es : Key × SizeBucket) (ed : Key × DirBucket),
      ea ∈ s.age_buckets ∧ es ∈ s.size_buckets ∧ ed ∈ s.dir_buckets ∧
      ea.2 = ab ∧ es.2 = sb ∧ ed.2 = d ∧ f ∈ seg ab.id ∧
      proj File.size s.heap f = sb.size ∧ proj File.depth s.heap f = d.depth := by
  obtain ⟨apre, apost, spre, spost, dpre, dpost, e1, e2, e3, _, _, _, e7, _⟩ :=
    findVictim_spec h
  have ma : ab ∈ s.age_buckets.reverse.map Prod.snd := by rw [e1]; simp
  have ms : sb ∈ s.size_buckets.map Prod.snd := by rw [e2]; simp
  have md : d ∈ s.dir_buckets.reverse.map Prod.snd := by rw [e3]; simp
  obtain ⟨ea, hea, hea2⟩ := mem_map_snd ma
  obtain ⟨es, hes, hes2⟩ := mem_map_snd ms
  obtain ⟨ed, hed, hed2⟩ := mem_map_snd md
  have hea1 := List.mem_reverse.mp hea
  have hed1 := List.mem_reverse.mp hed
  have hsz : sb.size ∈ c.size_arr := by
    rw [← hes2, (hi.sizes es hes).1]
    exact getD_mem (hi.svw.id_lt hes) 0
  have hdp : d.depth ∈ c.dir_arr := by
    rw [← hed2, (hi.dirs ed hed1).1]
    exact getD_mem (hi.dvw.id_lt hed1) 0
  have hok := hi.ages ea hea1
  rw [hea2] at hok
  obtain ⟨g1, g2⟩ := age_getFile hok hsz hdp c.victim_draw
  have hmem : f ∈ (seg ab.id).filter
      (fun x => proj File.size s.heap x = sb.size ∧ proj File.depth s.heap x = d.depth) := by
    by_cases hR : (seg ab.id).filter
        (fun x => proj File.size s.heap x = sb.size ∧ proj File.depth s.heap x = d.depth) = []
    · have := g1 hR
      rw [e7] at this
      simp at this
    · obtain ⟨f1, hf1, h1⟩ := g2 hR
      rw [e7] at h1
      simp only [Except.ok.injEq, Option.some.injEq] at h1
      rw [h1]; exact hf1
  have h2 := (List.mem_filter.mp hmem).2
  simp only [decide_eq_true_eq] at h2
  exact ⟨ea, es, ed, hea1, hes, hed1, hea2, hes2, hed2, List.mem_of_mem_filter hmem, h2.1, h2.2⟩

theorem deleteFile_inv {c : Config} (hv : c.Valid) {s s1 : State} {seg : Nat → List Addr}
    {sz : Nat} (hi : HeapInv c s seg) (h : deleteFile c s = Except.ok (s1, sz)) :
    ∃ (ea : Key × AgeBucket) (es : Key × SizeBucket) (ed : Key × DirBucket) (f : Addr),
      ea ∈ s.age_buckets ∧ es ∈ s.size_buckets ∧ ed ∈ s.dir_buckets ∧
      findVictim c s = Except.ok (ea.2, es.2, ed.2, some f) ∧
      f ∈ seg ea.2.id ∧ proj File.size s.heap f = es.2.size ∧
      proj File.depth s.heap f = ed.2.depth ∧ sz = es.2.size ∧
      HeapInv c s1 (Function.update seg ea.2.id ((seg ea.2.id).erase f)) ∧
      (∃ G S D, HeapRel s.heap s1.heap [] G S D) ∧
      (∀ e ∈ s1.age_buckets,
        (e.2.id = ea.2.id ∧ e.2.actual_fraction =
          (e.2.count : ℚ) / (s1.global_live_file_count : ℚ)) ∨
        (e ∈ s.age_buckets ∧ e.2.id ≠ ea.2.id)) := by
  obtain ⟨ab, sb, db, f, dv, dk, h1, h2, h3, ab1, sb1, sv, sk, hfind, hsd, hadel, hsdel, hss,
    hldel, hsz, hs1⟩ := deleteFile_eq_ok h
  obtain ⟨ea, es, ed, hea, hes, hed, rfl, rfl, rfl, hfseg, hfsize, hfdepth⟩ := hi.victim hfind
  have hlt := hi.avw.id_lt hea
  have hLnd : (cat seg c.NUM_AGES).Nodup := (List.nodup_cons.mp hi.nodup).2
  have hfL : f ∈ cat seg c.NUM_AGES := (mem_cat _).mpr ⟨_, hlt, hfseg⟩
  have hsbok := hi.sizes es hes
  have hdok := hi.dirs ed hed
  have haok := hi.ages ea hea
  have hlive : dec64 s.global_live_file_count = (cat seg c.NUM_AGES).length - 1 := by
    rw [hi.live]; exact dec64_of_pos (List.length_pos_of_mem hfL)
  -- the age bucket
  obtain ⟨hab1ok, ⟨sbm, hab1⟩, Ra⟩ := age_deleteFile_inv hadel haok (cat_seg_nodup hLnd hlt)
    hfseg (hi.attrs f hfL).1 (hi.attrs f hfL).2 (fun y t hh => hi.seg_next hlt hh)
    (fun y t hh => hi.seg_prev hlt hh)
  -- the size ring
  have hsb1ok : SizeOK c h1 (cat seg c.NUM_AGES) es.2 :=
    hsbok.transport_size Ra (fun x _ => List.not_mem_nil x) (fun x _ _ => List.not_mem_nil x)
  have hfS : f ∈ (cat seg c.NUM_AGES).filter (fun x => proj File.size h1 x = es.2.size) :=
    List.mem_filter.mpr ⟨hfL, by rw [Ra.size_eq]; simpa using hfsize⟩
  obtain ⟨hring2, ⟨cell2, hsb1⟩, Rs⟩ := size_deleteFile_ring hsdel hsb1ok.2.1 hsb1ok.2.2.1
    hsb1ok.2.2.2.1 (hLnd.filter _) hfS
  -- the global list
  have hseg2 : Seg (proj File.next h2) (proj File.prev h2) s.fs (cat seg c.NUM_AGES) s.fs := by
    rw [Rs.next_eq, Rs.prev_eq, Ra.next_eq, Ra.prev_eq]; exact hi.glist
  obtain ⟨hseg3, Rl⟩ := list_deleteFile_seg hldel hseg2 hi.nodup hfL
  have hS1 : (cat seg c.NUM_AGES).filter (fun x => proj File.size h1 x = es.2.size) =
      (cat seg c.NUM_AGES).filter (fun x => proj File.size s.heap x = es.2.size) := by
    rw [Ra.size_eq]
  have Rtot : HeapRel s.heap h3 [] (s.fs :: cat seg c.NUM_AGES)
      ((cat seg c.NUM_AGES).filter (fun x => proj File.size s.heap x = es.2.size))
      (seg ea.2.id) := by
    refine ((Ra.trans_rel Rs).trans_rel Rl).mono ?_ ?_ ?_ ?_
    · intro x hx; simp at hx
    · intro x hx; simpa using hx
    · intro x hx; rw [hS1] at hx; simpa using hx
    · intro x hx; simpa using hx
  have hsz3 : proj File.size h3 = proj File.size s.heap := Rtot.size_eq
  have hdp3 : proj File.depth h3 = proj File.depth s.heap := Rtot.depth_eq
  have hag3 : proj File.age h3 = proj File.age s.heap := Rtot.age_eq
  have hcat : cat (Function.update seg ea.2.id ((seg ea.2.id).erase f)) c.NUM_AGES =
      (cat seg c.NUM_AGES).erase f := cat_update_erase hLnd hlt hfseg
  have hsub : ∀ x, x ∈ (cat seg c.NUM_AGES).erase f → x ∈ cat seg c.NUM_AGES :=
    fun x hx => List.mem_of_mem_erase hx
  have hab1id : ab1.id = ea.2.id := by rw [hab1]
  have hsb1id : sb1.id = es.2.id := by rw [hsb1]
  obtain ⟨wa, ma, _⟩ := storeAge_wf hi.avw hea ab1 hab1id
  obtain ⟨ws, ms, _⟩ := storeSize_wf hv hi.svw hes sb1 hsb1id hss
  obtain ⟨wd, md, _⟩ := storeDir_wf hv hi.dvw hed { ed.2 with count := dec64 ed.2.count } rfl hsd
  subst hs1
  refine ⟨ea, es, ed, f, hea, hes, hed, hfind, hfseg, hfsize, hfdepth,
    by rw [hsz]; exact hfsize, ?_, ⟨_, _, _, Rtot⟩, ?_⟩
  constructor
  · show (s.fs :: cat (Function.update seg ea.2.id ((seg ea.2.id).erase f)) c.NUM_AGES).Nodup
    rw [hcat]
    exact hi.nodup.sublist ((List.erase_sublist f _).cons₂ s.fs)
  · show Seg (proj File.next h3) (proj File.prev h3) s.fs
      (cat (Function.update seg ea.2.id ((seg ea.2.id).erase f)) c.NUM_AGES) s.fs
    rw [hcat]; exact hseg3
  · show dec64 s.global_live_file_count =
      (cat (Function.update seg ea.2.id ((seg ea.2.id).erase f)) c.NUM_AGES).length
    rw [hcat, hlive, List.length_erase_of_mem hfL]
  · intro a ha
    show a < s.next_addr
    rw [hcat] at ha
    rcases List.mem_cons.mp ha with h4 | h4
    · rw [h4]; exact hi.fresh _ (List.mem_cons_self _ _)
    · exact hi.fresh _ (List.mem_cons_of_mem _ (hsub a h4))
  · intro a ha
    show proj File.size h3 a ∈ c.size_arr ∧ proj File.depth h3 a ∈ c.dir_arr
    rw [hcat] at ha
    rw [hsz3, hdp3]; exact hi.attrs a (hsub a ha)
  · show (cat (Function.update seg ea.2.id ((seg ea.2.id).erase f)) c.NUM_AGES).Pairwise
      (fun a b => proj File.age h3 a ≤ proj File.age h3 b)
    rw [hcat, hag3]
    exact hi.births.sublist (List.erase_sublist f _)
  · intro a ha
    show proj File.age h3 a ≤ s.tick
    rw [hcat] at ha
    rw [hag3]; exact hi.born a (hsub a ha)
  · exact wa
  · exact ws
  · exact wd
  · intro e he
    show AgeOK c h3 (Function.update seg ea.2.id ((seg ea.2.id).erase f) e.2.id) e.2
    rcases ma e he with h4 | ⟨h4, h5⟩
    · rw [h4, hab1id, Function.update_same]
      exact hab1ok.transport_age (Rs.trans_rel Rl) (fun x _ => by simp) (fun x _ => by simp)
    · rw [Function.update_noteq h5]
      have hlt2 := hi.avw.id_lt h4
      refine (hi.ages e h4).transport_age Rtot (fun x _ => List.not_mem_nil x) ?_
      intro x hx hh
      exact cat_disjoint_ne hLnd hlt2 hlt h5 hx hh
  · intro e he
    show SizeOK c h3 (cat (Function.update seg ea.2.id ((seg ea.2.id).erase f)) c.NUM_AGES) e.2
    rw [hcat]
    obtain ⟨y, hy, hey⟩ := ms e he
    rw [hey]
    apply SizeOK.rekey_size
    rcases hy with h4 | ⟨e1, he1, h4, h5⟩
    · rw [h4]
      have hfun : proj File.size h3 = proj File.size h1 := by rw [hsz3, Ra.size_eq]
      have hsz1 : sb1.size = es.2.size := by rw [hsb1]
      have hfil : ((cat seg c.NUM_AGES).erase f).filter
          (fun x => proj File.size h3 x = sb1.size) =
          ((cat seg c.NUM_AGES).filter (fun x => proj File.size h1 x = es.2.size)).erase f := by
        rw [hsz1, hfun]
        exact filter_erase hLnd _ f
      refine ⟨?_, ?_, ?_, ?_, ?_⟩
      · rw [hsb1]; exact hsbok.1
      · rw [hfil, hsb1, List.length_erase_of_mem hfS]
        simp only
        rw [hsb1ok.2.1]
      · rw [hfil, hsb1]
      · rw [hfil]
        exact hring2.congrRing (fun x _ => Rl.size_next x (List.not_mem_nil x))
          (fun x _ => Rl.size_prev x (List.not_mem_nil x))
      · intro dp hdp
        rw [hsb1]
        simp only
        by_cases hk : dp = (h1 f).depth
        · rw [hk, Function.update_same]; exact ⟨_, rfl⟩
        · rw [Function.update_noteq hk]; exact hsbok.2.2.2.2 dp hdp
    · rw [← h4]
      have hok := hi.sizes e1 he1
      have hne : e1.2.size ≠ es.2.size := by
        rw [hok.1, hsbok.1]
        intro hh
        rw [← h4] at h5
        exact h5 (getD_inj hv.1 (hi.svw.id_lt he1) (hi.svw.id_lt hes) 0 hh)
      have h3ok : SizeOK c h3 (cat seg c.NUM_AGES) e1.2 := by
        refine hok.transport_size Rtot (fun x _ => List.not_mem_nil x) ?_
        intro x hx hxs hh
        have := (List.mem_filter.mp hh).2
        simp only [decide_eq_true_eq] at this
        exact hne (hxs.symm.trans this)
      refine SizeOK.of_filter_eq_size ?_ h3ok
      rw [filter_erase hLnd]
      apply List.erase_of_not_mem
      intro hh
      have := (List.mem_filter.mp hh).2
      simp only [decide_eq_true_eq] at this
      rw [hsz3] at this
      exact hne (this.symm.trans hfsize)
  · intro e he
    show DirOK c h3 (cat (Function.update seg ea.2.id ((seg ea.2.id).erase f)) c.NUM_AGES) e.2
    rw [hcat]
    obtain ⟨y, hy, hey⟩ := md e he
    rw [hey]
    apply DirOK.rekey_dir
    rcases hy with h4 | ⟨e1, he1, h4, h5⟩
    · rw [h4]
      have hfD : f ∈ (cat seg c.NUM_AGES).filter
          (fun x => proj File.depth s.heap x = ed.2.depth) :=
        List.mem_filter.mpr ⟨hfL, by simpa using hfdepth⟩
      refine ⟨hdok.1, ?_⟩
      show dec64 ed.2.count = _
      rw [hdp3, filter_erase hLnd, List.length_erase_of_mem hfD, ← hdok.2]
      exact dec64_of_pos (by rw [hdok.2]; exact List.length_pos_of_mem hfD)
    · rw [← h4]
      have hok := hi.dirs e1 he1
      have hne : e1.2.depth ≠ ed.2.depth := by
        rw [hok.1, hdok.1]
        intro hh
        rw [← h4] at h5
        exact h5 (getD_inj hv.2 (hi.dvw.id_lt he1) (hi.dvw.id_lt hed) 0 hh)
      refine ⟨hok.1, ?_⟩
      rw [hdp3, filter_erase hLnd, List.erase_of_not_mem]
      · exact hok.2
      · intro hh
        have := (List.mem_filter.mp hh).2
        simp only [decide_eq_true_eq] at this
        exact hne (this.symm.trans hfdepth)
  · intro e he
    obtain ⟨y, hy, hey⟩ := ms e he
    have hgoal : y.ideal_fraction =
        c.size_distribution.getD y.id 0 / ((totalWeight c.size_distribution : Nat) : ℚ) := by
      rcases hy with h4 | ⟨e1, he1, h4, _⟩
      · rw [h4, hsb1]; exact hi.sideal es hes
      · rw [← h4]; exact hi.sideal e1 he1
    rw [hey]; exact hgoal
  · intro e he
    obtain ⟨y, hy, hey⟩ := md e he
    have hgoal : y.ideal_fraction =
        c.dir_distribution.getD y.id 0 / ((totalWeight c.dir_distribution : Nat) : ℚ) := by
      rcases hy with h4 | ⟨e1, he1, h4, _⟩
      · rw [h4]; exact hi.dideal _ hed
      · rw [← h4]; exact hi.dideal e1 he1
    rw [hey]; exact hgoal
  · intro e he
    rcases ma e he with h4 | ⟨h4, h5⟩
    · left
      rw [h4]
      refine ⟨hab1id, ?_⟩
      rw [hab1]
    · right
      exact ⟨h4, h5⟩

theorem cat_next {nx pv : Addr → Ptr} {fs : Addr} {seg : Nat → List Addr} {N i : Nat}
    (hg : Seg nx pv fs (cat seg N) fs) (hlt : i < N) {f y : Addr} {t : List Addr}
    (h : seg i = f :: y :: t) : nx f = some y := by
  obtain ⟨pre, e1, _, _⟩ := cat_split seg N hlt
  rw [e1, h] at hg
  have : pre ++ f :: y :: t ++ cat seg i = pre ++ f :: y :: (t ++ cat seg i) := by simp
  rw [this] at hg
  exact (Seg.adjacent hg).1

theorem cat_prev {nx pv : Addr → Ptr} {fs : Addr} {seg : Nat → List Addr} {N i : Nat}
    (hg : Seg nx pv fs (cat seg N) fs) (hlt : i < N) {f y : Addr} {t : List Addr}
    (h : seg i = t ++ [y, f]) : pv f = some y := by
  obtain ⟨pre, e1, _, _⟩ := cat_split seg N hlt
  rw [e1, h] at hg
  have : pre ++ (t ++ [y, f]) ++ cat seg i = (pre ++ t) ++ y :: f :: cat seg i := by simp
  rw [this] at hg
  exact (Seg.adjacent hg).2

theorem SameMeta.refl_meta (a : AgeBucket) : SameMeta a a := ⟨rfl, rfl, rfl, rfl⟩

theorem SameMeta.trans_meta {a b d : AgeBucket} (h : SameMeta a b) (h1 : SameMeta b d) :
    SameMeta a d :=
  ⟨h1.1.trans h.1, h1.2.1.trans h.2.1, h1.2.2.1.trans h.2.2.1, h1.2.2.2.trans h.2.2.2⟩

theorem migrate_step {c : Config} {fs : Addr} {h h1 h2 : Heap} {seg : Nat → List Addr}
    {B : Nat → AgeBucket} (hi : ArrInv c fs h seg B) {i : Nat} (hlt : i + 1 < c.NUM_AGES)
    {f : Addr} {t : List Addr} (hseg : seg i = f :: t) {live : Nat} {a1 b1 : AgeBucket}
    (hdel : (B i).deleteFile h f live = Except.ok (h1, a1))
    (hadd : (B (i + 1)).addFile h1 f live false = Except.ok (h2, b1)) :
    ArrInv c fs h2 (Function.update (Function.update seg i t) (i + 1) (seg (i + 1) ++ [f]))
      (Function.update (Function.update B i a1) (i + 1) b1) ∧
    SameMeta (B i) a1 ∧ SameMeta (B (i + 1)) b1 ∧ a1.count = (B i).count - 1 ∧
    HeapRel h h2 [] [] [] (seg i ++ seg (i + 1)) := by
  have hlt0 : i < c.NUM_AGES := Nat.lt_of_succ_lt hlt
  have hLnd : (cat seg c.NUM_AGES).Nodup := (List.nodup_cons.mp hi.nodup).2
  have hfi : f ∈ seg i := by rw [hseg]; exact List.mem_cons_self _ _
  have hfL : f ∈ cat seg c.NUM_AGES := (mem_cat _).mpr ⟨i, hlt0, hfi⟩
  have hndi : (seg i).Nodup := cat_seg_nodup hLnd hlt0
  have hft : f ∉ t := by rw [hseg] at hndi; exact (List.nodup_cons.mp hndi).1
  have hfi1 : f ∉ seg (i + 1) :=
    cat_disjoint_ne hLnd hlt0 hlt (Nat.ne_of_lt (Nat.lt_succ_self i)) hfi
  obtain ⟨ha1ok, ⟨sbm, ha1⟩, Ra⟩ := age_deleteFile_inv hdel (hi.ages i hlt0) hndi hfi
    (hi.attrs f hfL).1 (hi.attrs f hfL).2 (fun y t1 hh => cat_next hi.glist hlt0 hh)
    (fun y t1 hh => cat_prev hi.glist hlt0 hh)
  have her : (seg i).erase f = t := by rw [hseg, List.erase_cons_head]
  rw [her] at ha1ok
  have hbok : AgeOK c h1 (seg (i + 1)) (B (i + 1)) := by
    refine (hi.ages (i + 1) hlt).transport_age Ra (fun x _ => List.not_mem_nil x) ?_
    intro x hx hh
    exact cat_disjoint_ne hLnd hlt hlt0 (Nat.ne_of_gt (Nat.lt_succ_self i)) hx hh
  obtain ⟨hb1ok, ⟨sbm1, hb1⟩, Rb⟩ := age_addFile_inv hadd hbok (cat_seg_nodup hLnd hlt) hfi1
    (by rw [Ra.size_eq]; exact (hi.attrs f hfL).1)
    (by rw [Ra.depth_eq]; exact (hi.attrs f hfL).2)
  have Rtot : HeapRel h h2 [] [] [] (seg i ++ seg (i + 1)) := by
    refine (Ra.trans_rel Rb).mono ?_ ?_ ?_ ?_
    · intro x hx; simp at hx
    · intro x hx; simp at hx
    · intro x hx; simp at hx
    · intro x hx
      simp only [List.mem_append, List.mem_cons] at hx ⊢
      rcases hx with h4 | h4 | h4
      · exact Or.inl h4
      · rw [h4]; exact Or.inl hfi
      · exact Or.inr h4
  have hcat := cat_update_move seg hlt hseg
  refine ⟨⟨?_, ?_, ?_, ?_, ?_, ?_⟩, ?_, ?_, ?_, Rtot⟩
  · rw [hcat]; exact hi.nodup
  · rw [hcat, Rtot.next_eq, Rtot.prev_eq]; exact hi.glist
  · rw [hcat, Rtot.size_eq, Rtot.depth_eq]; exact hi.attrs
  · rw [hcat, Rtot.age_eq]; exact hi.births
  · intro j hj
    by_cases h1 : j = i + 1
    · rw [h1, Function.update_same, hb1]; exact hi.ids (i + 1) hlt
    · rw [Function.update_noteq h1]
      by_cases h0 : j = i
      · rw [h0, Function.update_same, ha1]; exact hi.ids i hlt0
      · rw [Function.update_noteq h0]; exact hi.ids j hj
  · intro j hj
    by_cases h1 : j = i + 1
    · rw [h1, Function.update_same, Function.update_same]; exact hb1ok
    · rw [Function.update_noteq h1, Function.update_noteq h1]
      by_cases h0 : j = i
      · rw [h0, Function.update_same, Function.update_same]
        refine ha1ok.transport_age Rb (fun x _ => List.not_mem_nil x) ?_
        intro x hx hh
        rcases List.mem_cons.mp hh with h4 | h4
        · exact hft (h4 ▸ hx)
        · exact cat_disjoint_ne hLnd hlt0 hlt (Nat.ne_of_lt (Nat.lt_succ_self i))
            (by rw [hseg]; exact List.mem_cons_of_mem _ hx) h4
      · rw [Function.update_noteq h0, Function.update_noteq h0]
        refine (hi.ages j hj).transport_age Rtot (fun x _ => List.not_mem_nil x) ?_
        intro x hx hh
        rcases List.mem_append.mp hh with h4 | h4
        · exact cat_disjoint_ne hLnd hj hlt0 h0 hx h4
        · exact cat_disjoint_ne hLnd hj hlt h1 hx h4
  · rw [ha1]; exact ⟨rfl, rfl, rfl, rfl⟩
  · rw [hb1]; exact ⟨rfl, rfl, rfl, rfl⟩
  · rw [ha1]

theorem update_update_pair {α : Type} (B : Nat → α) (i : Nat) (a b a1 b1 : α) :
    Function.update (Function.update
      (Function.update (Function.update B i a) (i + 1) b) i a1) (i + 1) b1 =
    Function.update (Function.update B i a1) (i + 1) b1 := by
  funext j
  by_cases h1 : j = i + 1
  · rw [h1, Function.update_same, Function.update_same]
  · rw [Function.update_noteq h1, Function.update_noteq h1]
    by_cases h0 : j = i
    · rw [h0, Function.update_same, Function.update_same]
    · rw [Function.update_noteq h0, Function.update_noteq h0, Function.update_noteq h1,
        Function.update_noteq h0]

theorem cat_seg_sublist (seg : Nat → List Addr) {n i : Nat} (hi : i < n) :
    (seg i).Sublist (cat seg n) := by
  obtain ⟨pre, e1, _, _⟩ := cat_split seg n hi
  rw [e1]
  exact List.sublist_append_of_sublist_left (List.sublist_append_right pre (seg i))

theorem migrate_inv {c : Config} {fs : Addr} {live i : Nat} (hlt : i + 1 < c.NUM_AGES) :
    ∀ (n : Nat) (h : Heap) (seg : Nat → List Addr) (B : Nat → AgeBucket) (h1 : Heap)
      (a1 b1 : AgeBucket), ArrInv c fs h seg B →
      migrate live n h (B i) (B (i + 1)) = Except.ok (h1, a1, b1) →
      ∃ (seg1 : Nat → List Addr) (moved : List Addr),
        ArrInv c fs h1 seg1 (Function.update (Function.update B i a1) (i + 1) b1) ∧
        SameMeta (B i) a1 ∧ SameMeta (B (i + 1)) b1 ∧
        cat seg1 c.NUM_AGES = cat seg c.NUM_AGES ∧
        (∀ j, j ≠ i → j ≠ i + 1 → seg1 j = seg j) ∧
        seg i = moved ++ seg1 i ∧ seg1 (i + 1) = seg (i + 1) ++ moved ∧
        (∀ x ∈ moved, proj File.age h x < (B i).cutoff) ∧
        ((B i).count ≤ n → ∀ x ∈ seg1 i, (B i).cutoff ≤ proj File.age h x) ∧
        ∃ D, HeapRel h h1 [] [] [] D := by
  have hlt0 : i < c.NUM_AGES := Nat.lt_of_succ_lt hlt
  intro n
  induction n with
  | zero =>
    intro h seg B h1 a1 b1 hi hm
    simp only [migrate, pure_eq_ok, Except.ok.injEq, Prod.mk.injEq] at hm
    obtain ⟨rfl, rfl, rfl⟩ := hm
    refine ⟨seg, [], ?_, SameMeta.refl_meta _, SameMeta.refl_meta _, rfl, fun _ _ _ => rfl, rfl,
      by simp, by simp, ?_, ⟨[], HeapRel.refl_rel _⟩⟩
    · rw [Function.update_eq_self, Function.update_eq_self]; exact hi
    · intro h0 x hx
      have := (hi.ages i hlt0).1
      rw [Nat.le_zero.mp h0] at this
      rw [List.length_eq_zero.mp this.symm] at hx
      simp at hx
  | succ n ih =>
    intro h seg B h1 a1 b1 hi hm
    simp only [migrate] at hm
    by_cases hc : (B i).count > 0
    · rw [if_pos hc] at hm
      obtain ⟨f, hf, hm⟩ := bind_eq_ok hm
      have hf1 := deref_eq_ok hf
      obtain ⟨t, hseg⟩ : ∃ t, seg i = f :: t := by
        have := (hi.ages i hlt0).2.1
        rw [hf1] at this
        cases hs : seg i with
        | nil => rw [hs] at this; simp at this
        | cons x t =>
          rw [hs] at this
          simp only [List.head?_cons, Option.some.injEq] at this
          exact ⟨t, by rw [this]⟩
      by_cases hage : (h f).age ≥ (B i).cutoff
      · rw [if_pos hage] at hm
        simp only [pure_eq_ok, Except.ok.injEq, Prod.mk.injEq] at hm
        obtain ⟨rfl, rfl, rfl⟩ := hm
        refine ⟨seg, [], ?_, SameMeta.refl_meta _, SameMeta.refl_meta _, rfl, fun _ _ _ => rfl, rfl,
          by simp, by simp, ?_, ⟨[], HeapRel.refl_rel _⟩⟩
        · rw [Function.update_eq_self, Function.update_eq_self]; exact hi
        · intro _ x hx
          have hpw := hi.births.sublist (cat_seg_sublist seg hlt0)
          rw [hseg] at hpw hx
          rcases List.mem_cons.mp hx with h4 | h4
          · rw [h4]; exact hage
          · exact Nat.le_trans hage ((List.pairwise_cons.mp hpw).1 x h4)
      · rw [if_neg hage] at hm
        obtain ⟨⟨h2, a2⟩, hdel, hm⟩ := bind_eq_ok hm
        obtain ⟨⟨h3, b2⟩, hadd, hm⟩ := bind_eq_ok hm
        simp only at hm
        obtain ⟨hi2, m1, m2, hcnt, R⟩ := migrate_step hi hlt hseg hdel hadd
        have hm2 : migrate live n h3
            ((Function.update (Function.update B i a2) (i + 1) b2) i)
            ((Function.update (Function.update B i a2) (i + 1) b2) (i + 1)) =
            Except.ok (h1, a1, b1) := by
          rw [Function.update_same,
            Function.update_noteq (Nat.ne_of_lt (Nat.lt_succ_self i)), Function.update_same]
          exact hm
        obtain ⟨seg1, moved, k1, k2, k3, k4, k5, k6, k7, k8, k9, ⟨D, k10⟩⟩ :=
          ih _ _ _ _ _ _ hi2 hm2
        rw [update_update_pair] at k1
        simp only [Function.update_same,
          Function.update_noteq (Nat.ne_of_lt (Nat.lt_succ_self i))] at k2 k3 k6 k7 k8 k9
        rw [R.age_eq] at k8 k9
        refine ⟨seg1, f :: moved, k1, m1.trans_meta k2, m2.trans_meta k3,
          k4.trans (cat_update_move _ hlt hseg), ?_, ?_, ?_, ?_, ?_, ⟨_, R.trans_rel k10⟩⟩
        · intro j h0 h1
          rw [k5 j h0 h1, Function.update_noteq h1, Function.update_noteq h0]
        · rw [hseg, k6]; rfl
        · rw [k7]; simp
        · intro x hx
          rcases List.mem_cons.mp hx with h4 | h4
          · rw [h4]; exact Nat.lt_of_not_le hage
          · rw [← m1.2.1]; exact k8 x h4
        · intro hle x hx
          rw [← m1.2.1]
          exact k9 (by rw [hcnt]; omega) x hx
    · rw [if_neg hc] at hm
      simp only [pure_eq_ok, Except.ok.injEq, Prod.mk.injEq] at hm
      obtain ⟨rfl, rfl, rfl⟩ := hm
      refine ⟨seg, [], ?_, SameMeta.refl_meta _, SameMeta.refl_meta _, rfl, fun _ _ _ => rfl, rfl,
        by simp, by simp, ?_, ⟨[], HeapRel.refl_rel _⟩⟩
      · rw [Function.update_eq_self, Function.update_eq_self]; exact hi
      · intro _ x hx
        have := (hi.ages i hlt0).1
        rw [Nat.eq_zero_of_not_pos hc] at this
        rw [List.length_eq_zero.mp this.symm] at hx
        simp at hx

theorem reAgeLoop_inv {c : Config} {fs : Addr} {live : Nat} :
    ∀ (rest : List AgeBucket) (i : Nat) (h : Heap) (seg : Nat → List Addr)
      (B : Nat → AgeBucket) (h2 : Heap) (l : List AgeBucket), ArrInv c fs h seg B →
      i + rest.length + 1 = c.NUM_AGES → rest = (List.range' (i + 1) rest.length).map B →
      reAgeLoop live h (B i) rest = Except.ok (h2, l) →
      ∃ (seg1 : Nat → List Addr) (B1 : Nat → AgeBucket),
        ArrInv c fs h2 seg1 B1 ∧ l = (List.range' i (rest.length + 1)).map B1 ∧
        (∀ j, SameMeta (B j) (B1 j)) ∧ (∀ j, j < i → B1 j = B j ∧ seg1 j = seg j) ∧
        cat seg1 c.NUM_AGES = cat seg c.NUM_AGES ∧
        (∀ j, i ≤ j → j + 1 < c.NUM_AGES → ∀ x ∈ seg1 j, (B j).cutoff ≤ proj File.age h x) ∧
        (∀ j, i < j → j < c.NUM_AGES → ∀ x ∈ seg1 j,
          x ∈ seg j ∨ proj File.age h x < (B (j - 1)).cutoff) ∧
        (∀ x ∈ seg1 i, x ∈ seg i) ∧
        (∃ D, HeapRel h h2 [] [] [] D) ∧
        ∃ mv : Nat → List Addr, (∀ j, c.NUM_AGES ≤ j + 1 → mv j = []) ∧
          (∀ j, i ≤ j → j < c.NUM_AGES →
            seg j ++ (if i < j then mv (j - 1) else []) = mv j ++ seg1 j) ∧
          ∀ j, ∀ x ∈ mv j, proj File.age h x < (B j).cutoff := by
  intro rest
  induction rest with
  | nil =>
    intro i h seg B h2 l hi hN _ hr
    simp only [reAgeLoop, pure_eq_ok, Except.ok.injEq, Prod.mk.injEq] at hr
    obtain ⟨rfl, rfl⟩ := hr
    simp only [List.length_nil, Nat.add_zero] at hN
    refine ⟨seg, B, hi, by simp [List.range'], fun _ => SameMeta.refl_meta _,
      fun _ _ => ⟨rfl, rfl⟩, rfl, ?_, ?_, fun _ hx => hx, ⟨[], HeapRel.refl_rel _⟩,
      ⟨fun _ => [], fun _ _ => rfl, by intro j _ _; simp,
        fun _ x hx => absurd hx (List.not_mem_nil x)⟩⟩
    · intro j h1 h2; omega
    · intro j h1 h2; omega
  | cons b rest ih =>
    intro i h seg B h2 l hi hN hrest hr
    simp only [List.length_cons] at hN
    have hlt : i + 1 < c.NUM_AGES := by omega
    have hlt0 : i < c.NUM_AGES := by omega
    simp only [List.length_cons, List.range'_succ, List.map_cons, List.cons.injEq] at hrest
    obtain ⟨hb, hrest⟩ := hrest
    subst hb
    simp only [reAgeLoop] at hr
    obtain ⟨⟨h1, a1, b1⟩, hstep, hr⟩ := bind_eq_ok hr
    obtain ⟨⟨h3, tl⟩, hrec, hr⟩ := bind_eq_ok hr
    simp only [pure_eq_ok, Except.ok.injEq, Prod.mk.injEq] at hr
    obtain ⟨rfl, rfl⟩ := hr
    have hstep2 : ∃ (seg1 : Nat → List Addr) (moved : List Addr),
        ArrInv c fs h1 seg1 (Function.update (Function.update B i a1) (i + 1) b1) ∧
        SameMeta (B i) a1 ∧ SameMeta (B (i + 1)) b1 ∧
        cat seg1 c.NUM_AGES = cat seg c.NUM_AGES ∧
        (∀ j, j ≠ i → j ≠ i + 1 → seg1 j = seg j) ∧
        seg i = moved ++ seg1 i ∧ seg1 (i + 1) = seg (i + 1) ++ moved ∧
        (∀ x ∈ moved, proj File.age h x < (B i).cutoff) ∧
        (∀ x ∈ seg1 i, (B i).cutoff ≤ proj File.age h x) ∧
        ∃ D, HeapRel h h1 [] [] [] D := by
      by_cases hl : (B i).last = none
      · rw [if_pos hl] at hstep
        simp only [pure_eq_ok, Except.ok.injEq, Prod.mk.injEq] at hstep
        obtain ⟨rfl, rfl, rfl⟩ := hstep
        refine ⟨seg, [], ?_, SameMeta.refl_meta _, SameMeta.refl_meta _, rfl, fun _ _ _ => rfl, rfl,
          by simp, by simp, ?_, ⟨[], HeapRel.refl_rel _⟩⟩
        · rw [Function.update_eq_self, Function.update_eq_self]; exact hi
        · intro x hx
          have := (hi.ages i hlt0).2.2.1
          rw [hl] at this
          have hnil : seg i = [] := by
            cases hs : seg i with
            | nil => rfl
            | cons y t =>
              rw [hs] at this
              exact absurd this.symm (by simp [List.getLast?_eq_getLast _ (List.cons_ne_nil y t)])
          rw [hnil] at hx
          simp at hx
      · rw [if_neg hl] at hstep
        obtain ⟨seg1, moved, k1, k2, k3, k4, k5, k6, k7, k8, k9, k10⟩ :=
          migrate_inv hlt _ _ _ _ _ _ _ hi hstep
        exact ⟨seg1, moved, k1, k2, k3, k4, k5, k6, k7, k8, k9 (Nat.le_refl _), k10⟩
    obtain ⟨seg1, moved, k1, k2, k3, k4, k5, k6, k7, k8, k9, ⟨D1, k10⟩⟩ := hstep2
    have hB1 : (Function.update (Function.update B i a1) (i + 1) b1) (i + 1) = b1 :=
      Function.update_same _ _ _
    have hBi : (Function.update (Function.update B i a1) (i + 1) b1) i = a1 := by
      rw [Function.update_noteq (Nat.ne_of_lt (Nat.lt_succ_self i)), Function.update_same]
    have hBj : ∀ j, i + 1 < j → (Function.update (Function.update B i a1) (i + 1) b1) j = B j := by
      intro j hj
      rw [Function.update_noteq (Nat.ne_of_gt hj),
        Function.update_noteq (Nat.ne_of_gt (Nat.lt_of_succ_lt hj))]
    have hrest2 : rest = (List.range' (i + 1 + 1) rest.length).map
        (Function.update (Function.update B i a1) (i + 1) b1) := by
      rw [hrest]
      simp only [List.length_map, List.length_range']
      apply List.map_congr_left
      intro j hj
      rw [hBj j (by have := (List.mem_range'_1.mp hj).1; omega)]
    rw [← hB1] at hrec
    obtain ⟨seg2, B2, r1, r2, r3, r4, r5, r6, r7, r8, ⟨D2, r9⟩, mv, m1, m2, m3⟩ :=
      ih (i + 1) h1 seg1 _ _ _ k1 (by omega) hrest2 hrec
    have hage : proj File.age h1 = proj File.age h := k10.age_eq
    have hmeta : ∀ j, SameMeta (B j) ((Function.update (Function.update B i a1) (i + 1) b1) j) := by
      intro j
      by_cases h1 : j = i + 1
      · rw [h1, hB1]; exact k3
      · by_cases h0 : j = i
        · rw [h0, hBi]; exact k2
        · rw [Function.update_noteq h1, Function.update_noteq h0]; exact SameMeta.refl_meta _
    refine ⟨seg2, B2, r1, ?_, fun j => (hmeta j).trans_meta (r3 j), ?_, r5.trans k4, ?_, ?_, ?_,
      ⟨_, k10.trans_rel r9⟩, ⟨Function.update mv i moved, ?_, ?_, ?_⟩⟩
    · rw [r2]
      simp only [List.length_cons, List.range'_succ, List.map_cons]
      rw [(r4 i (Nat.lt_succ_self i)).1, hBi]
    · intro j hj
      have := r4 j (Nat.lt_succ_of_lt hj)
      rw [this.1, this.2, k5 j (Nat.ne_of_lt hj) (Nat.ne_of_lt (Nat.lt_succ_of_lt hj)),
        Function.update_noteq (Nat.ne_of_lt (Nat.lt_succ_of_lt hj)),
        Function.update_noteq (Nat.ne_of_lt hj)]
      exact ⟨rfl, rfl⟩
    · intro j h1 h2 x hx
      rcases Nat.eq_or_lt_of_le h1 with h3 | h3
      · subst h3
        rw [(r4 i (Nat.lt_succ_self i)).2] at hx
        exact k9 x hx
      · have := r6 j h3 h2 x hx
        rw [hage, (hmeta j).2.1] at this
        exact this
    · intro j h1 h2 x hx
      rcases Nat.eq_or_lt_of_le (Nat.succ_le_of_lt h1) with h3 | h3
      · subst h3
        have := r8 x hx
        rw [k7] at this
        rcases List.mem_append.mp this with h4 | h4
        · exact Or.inl h4
        · right
          simp only [Nat.succ_eq_add_one, Nat.add_sub_cancel]
          exact k8 x h4
      · rcases r7 j h3 h2 x hx with h4 | h4
        · left
          rw [k5 j (Nat.ne_of_gt h1) (Nat.ne_of_gt h3)] at h4
          exact h4
        · right
          rw [hage, (hmeta (j - 1)).2.1] at h4
          exact h4
    · intro x hx
      rw [(r4 i (Nat.lt_succ_self i)).2] at hx
      rw [k6]
      exact List.mem_append_right _ hx
    · intro j hj
      rw [Function.update_noteq (by omega)]
      exact m1 j hj
    · intro j h1 h2
      rcases Nat.eq_or_lt_of_le h1 with h3 | h3
      · rw [← h3, if_neg (Nat.lt_irrefl i), Function.update_same, List.append_nil,
          (r4 i (Nat.lt_succ_self i)).2]
        exact k6
      · rcases Nat.eq_or_lt_of_le (Nat.succ_le_of_lt h3) with h4 | h4
        · rw [← h4]
          have hm := m2 (i + 1) (Nat.le_refl _) hlt
          rw [if_neg (Nat.lt_irrefl _), List.append_nil] at hm
          rw [if_pos (Nat.lt_succ_self i), Nat.succ_eq_add_one, Nat.add_sub_cancel,
            Function.update_same, Function.update_noteq (Nat.succ_ne_self i), ← hm, k7]
        · have hm := m2 j (Nat.le_of_lt h4) h2
          rw [if_pos h4, k5 j (by omega) (by omega)] at hm
          rw [if_pos h3, Function.update_noteq (by omega), Function.update_noteq (by omega)]
          exact hm
    · intro j x hx
      by_cases hji : j = i
      · rw [hji, Function.update_same] at hx
        rw [hji]
        exact k8 x hx
      · rw [Function.update_noteq hji] at hx
        have hm := m3 j x hx
        rw [hage, (hmeta j).2.1] at hm
        exact hm

theorem loadAges_eq {s : State} (clock : Nat) :
    ∀ (n : Nat) (l : List AgeBucket), loadAges s clock n = Except.ok l →
      l = (List.range n).map (loadedAge s clock) ∧
      ∀ j, j < n → ∃ b, fmFind (s.a_keys j) s.age_buckets = some b := by
  intro n
  induction n with
  | zero =>
    intro l h
    simp only [loadAges, pure_eq_ok, Except.ok.injEq] at h
    exact ⟨by rw [← h]; rfl, fun j hj => absurd hj (Nat.not_lt_zero _)⟩
  | succ n ih =>
    intro l h
    simp only [loadAges] at h
    obtain ⟨l0, h0, h⟩ := bind_eq_ok h
    obtain ⟨e1, e2⟩ := ih l0 h0
    cases hf : fmFind (s.a_keys n) s.age_buckets with
    | none => rw [hf] at h; simp [throw_eq_error] at h
    | some b =>
      rw [hf] at h
      simp only [pure_eq_ok, Except.ok.injEq] at h
      refine ⟨?_, ?_⟩
      · rw [← h, List.range_succ, List.map_append, e1]
        simp only [List.map_cons, List.map_nil, loadedAge, hf]
      · intro j hj
        rcases Nat.lt_succ_iff_lt_or_eq.mp hj with h1 | h1
        · exact e2 j h1
        · rw [h1]; exact ⟨b, hf⟩

theorem storeAges_wf {n : Nat} :
    ∀ (l : List AgeBucket) (i : Nat) (view : List (Key × AgeBucket)) (keys : Nat → Key),
      ViewWF AgeBucket.id AgeBucket.getKey n view keys →
      l.map AgeBucket.id = List.range' i l.length → i + l.length ≤ n →
      ViewWF AgeBucket.id AgeBucket.getKey n (storeAges i l view keys).1
        (storeAges i l view keys).2 ∧
      ∀ e ∈ (storeAges i l view keys).1,
        e.2 ∈ l ∨ (e ∈ view ∧ ¬ (i ≤ e.2.id ∧ e.2.id < i + l.length)) := by
  intro l
  induction l with
  | nil =>
    intro i view keys hw _ _
    simp only [storeAges]
    exact ⟨hw, fun e he => Or.inr ⟨he, by simp⟩⟩
  | cons a rest ih =>
    intro i view keys hw hids hle
    simp only [List.map_cons, List.length_cons, List.range'_succ, List.cons.injEq] at hids
    simp only [List.length_cons] at hle
    obtain ⟨hai, hrest⟩ := hids
    obtain ⟨e0, he0, hid0⟩ := hw.exists_id (show i < n by omega)
    have hid : a.id = e0.2.id := by rw [hai, hid0]
    obtain ⟨w1, m1, _⟩ := hw.replace_mem (age_keyInj n) he0 a hid
    simp only [storeAges, AgeBucket.replace]
    have hk : setKey keys a.id a.getKey i = a.getKey := by rw [← hai]; exact setKey_same _ _ _
    rw [hk]
    rw [← hid] at w1
    obtain ⟨w2, m2⟩ := ih (i + 1) _ _ w1 hrest (by omega)
    refine ⟨w2, ?_⟩
    intro e he
    rcases m2 e he with h1 | ⟨h1, h2⟩
    · exact Or.inl (List.mem_cons_of_mem _ h1)
    · rw [hid] at h1
      rcases m1 e h1 with h3 | ⟨h3, h4⟩
      · left; rw [h3]; exact List.mem_cons_self _ _
      · right
        refine ⟨h3, ?_⟩
        rw [hid0] at h4
        intro hh
        simp only [List.length_cons] at hh
        apply h2
        omega

theorem loadedAge_spec {c : Config} {s : State} {seg : Nat → List Addr}
    (hi : HeapInv c s seg) (clock : Nat) {j : Nat} (hj : j < c.NUM_AGES) :
    ∃ e ∈ s.age_buckets, e.2.id = j ∧
      loadedAge s clock j = { e.2 with cutoff := cutoffAt e.2.ratio clock } := by
  obtain ⟨e, he, hid⟩ := hi.avw.exists_id hj
  have hf := hi.avw.find he
  rw [hid] at hf
  exact ⟨e, he, hid, by simp only [loadedAge, hf]⟩

theorem HeapInv.arr {c : Config} {s : State} {seg : Nat → List Addr}
    (hi : HeapInv c s seg) (clock : Nat) :
    ArrInv c s.fs s.heap seg (loadedAge s clock) := by
  refine ⟨hi.nodup, hi.glist, hi.attrs, hi.births, ?_, ?_⟩
  · intro j hj
    obtain ⟨e, _, hid, hl⟩ := loadedAge_spec hi clock hj
    rw [hl]; exact hid
  · intro j hj
    obtain ⟨e, he, hid, hl⟩ := loadedAge_spec hi clock hj
    rw [hl, ← hid]
    exact hi.ages e he

theorem reAge_inv {c : Config} {s s1 : State} {seg : Nat → List Addr} {t : Nat}
    (hi : HeapInv c s seg) (h : reAge c s t = Except.ok s1) :
    ∃ (seg1 : Nat → List Addr) (h1 : Heap) (av : List (Key × AgeBucket)) (ak : Nat → Key),
      s1 = { s with heap := h1, age_buckets := av, a_keys := ak } ∧
      HeapInv c s1 seg1 ∧ cat seg1 c.NUM_AGES = cat seg c.NUM_AGES ∧
      (∀ e ∈ s1.age_buckets, ∃ e0 ∈ s.age_buckets, e0.2.id = e.2.id ∧
        e.2.ratio = e0.2.ratio ∧ e.2.ideal_fraction = e0.2.ideal_fraction ∧
        e.2.cutoff = cutoffAt e.2.ratio (if t = 0 then s.tick else t)) ∧
      (∀ e ∈ s1.age_buckets, e.2.id + 1 < c.NUM_AGES → ∀ x ∈ seg1 e.2.id,
        e.2.cutoff ≤ proj File.age s.heap x) ∧
      (∀ e ∈ s1.age_buckets, 0 < e.2.id → ∀ x ∈ seg1 e.2.id, x ∈ seg e.2.id ∨
        ∃ e0 ∈ s1.age_buckets, e0.2.id = e.2.id - 1 ∧ proj File.age s.heap x < e0.2.cutoff) ∧
      (∀ x ∈ seg1 0, x ∈ seg 0) ∧
      (∃ D, HeapRel s.heap h1 [] [] [] D) ∧
      ∃ mv : Nat → List Addr, (∀ j, c.NUM_AGES ≤ j + 1 → mv j = []) ∧
        (∀ j, j < c.NUM_AGES →
          seg j ++ (if 0 < j then mv (j - 1) else []) = mv j ++ seg1 j) ∧
        ∀ e ∈ s1.age_buckets, ∀ x ∈ mv e.2.id, proj File.age s.heap x < e.2.cutoff := by
  obtain ⟨ab, ab1, h1, hload, hloop, hs1⟩ := reAge_eq_ok h
  obtain ⟨hab, _⟩ := loadAges_eq _ _ _ hload
  have harr := hi.arr (if t = 0 then s.tick else t)
  have hloop2 : ∃ (seg1 : Nat → List Addr) (B1 : Nat → AgeBucket),
      ArrInv c s.fs h1 seg1 B1 ∧ ab1 = (List.range' 0 c.NUM_AGES).map B1 ∧
      (∀ j, SameMeta (loadedAge s (if t = 0 then s.tick else t) j) (B1 j)) ∧
      cat seg1 c.NUM_AGES = cat seg c.NUM_AGES ∧
      (∀ j, j + 1 < c.NUM_AGES → ∀ x ∈ seg1 j,
        (loadedAge s (if t = 0 then s.tick else t) j).cutoff ≤ proj File.age s.heap x) ∧
      (∀ j, 0 < j → j < c.NUM_AGES → ∀ x ∈ seg1 j, x ∈ seg j ∨
        proj File.age s.heap x < (loadedAge s (if t = 0 then s.tick else t) (j - 1)).cutoff) ∧
      (∀ x ∈ seg1 0, x ∈ seg 0) ∧
      (∃ D, HeapRel s.heap h1 [] [] [] D) ∧
      ∃ mv : Nat → List Addr, (∀ j, c.NUM_AGES ≤ j + 1 → mv j = []) ∧
        (∀ j, j < c.NUM_AGES →
          seg j ++ (if 0 < j then mv (j - 1) else []) = mv j ++ seg1 j) ∧
        ∀ j, ∀ x ∈ mv j,
          proj File.age s.heap x < (loadedAge s (if t = 0 then s.tick else t) j).cutoff := by
    cases hN : c.NUM_AGES with
    | zero =>
      rw [hN] at hab
      simp only [List.range_zero, List.map_nil] at hab
      subst hab
      simp only [pure_eq_ok, Except.ok.injEq, Prod.mk.injEq] at hloop
      obtain ⟨rfl, rfl⟩ := hloop
      refine ⟨seg, loadedAge s (if t = 0 then s.tick else t), harr, by simp,
        fun _ => SameMeta.refl_meta _, rfl, ?_, ?_, fun _ hx => hx, ⟨[], HeapRel.refl_rel _⟩,
        ⟨fun _ => [], fun _ _ => rfl, by intro j hj; omega,
          fun _ x hx => absurd hx (List.not_mem_nil x)⟩⟩
      · intro j hj; omega
      · intro j _ hj; omega
    | succ n =>
      rw [hN, List.range_eq_range', List.range'_succ, List.map_cons] at hab
      subst hab
      simp only at hloop
      obtain ⟨seg1, B1, r1, r2, r3, _, r5, r6, r7, r8, r9, mv, m1, m2, m3⟩ :=
        reAgeLoop_inv _ 0 _ _ _ _ _ harr (by simp [hN]) (by simp) hloop
      simp only [List.length_map, List.length_range'] at r2
      rw [hN] at r5 r6 r7 m1 m2
      exact ⟨seg1, B1, r1, r2, r3, r5, fun j hj => r6 j (Nat.zero_le j) hj, r7, r8, r9,
        mv, m1, fun j hj => m2 j (Nat.zero_le j) hj, m3⟩
  obtain ⟨seg1, B1, r1, r2, r3, r5, r6, r7, r8, ⟨D, r9⟩, mv, m1, m2, m3⟩ := hloop2
  have hids : ab1.map AgeBucket.id = List.range' 0 ab1.length := by
    rw [r2]
    simp only [List.map_map, List.length_map, List.length_range']
    rw [← List.map_id (List.range' 0 c.NUM_AGES)]
    simp only [List.map_map]
    apply List.map_congr_left
    intro j hj
    exact r1.ids j (by have := (List.mem_range'_1.mp hj).2; omega)
  have hlen : ab1.length = c.NUM_AGES := by rw [r2]; simp
  obtain ⟨w, m⟩ := storeAges_wf ab1 0 s.age_buckets s.a_keys hi.avw hids (by rw [hlen]; omega)
  have hmem : ∀ e ∈ (storeAges 0 ab1 s.age_buckets s.a_keys).1,
      ∃ j, j < c.NUM_AGES ∧ e.2 = B1 j ∧ e.2.id = j := by
    intro e he
    rcases m e he with h4 | ⟨h4, h5⟩
    · rw [r2] at h4
      obtain ⟨j, hj, hje⟩ := List.mem_map.mp h4
      have hjN : j < c.NUM_AGES := by have := (List.mem_range'_1.mp hj).2; omega
      exact ⟨j, hjN, hje.symm, by rw [← hje]; exact r1.ids j hjN⟩
    · exfalso
      apply h5
      have := hi.avw.id_lt h4
      rw [hlen]
      omega
  refine ⟨seg1, h1, _, _, hs1, ?_, r5, ?_, ?_, ?_, r8, ⟨D, r9⟩, mv, m1, m2, ?_⟩
  · subst hs1
    constructor
    · exact r1.nodup
    · exact r1.glist
    · show s.global_live_file_count = _
      rw [r5]; exact hi.live
    · intro a ha
      show a < s.next_addr
      rw [r5] at ha; exact hi.fresh a ha
    · exact r1.attrs
    · exact r1.births
    · intro a ha
      show proj File.age h1 a ≤ s.tick
      rw [r5] at ha
      rw [r9.age_eq]; exact hi.born a ha
    · exact w
    · exact hi.svw
    · exact hi.dvw
    · intro e he
      obtain ⟨j, hj, h4, h5⟩ := hmem e he
      show AgeOK c h1 (seg1 e.2.id) e.2
      rw [h5, h4]; exact r1.ages j hj
    · intro e he
      show SizeOK c h1 (cat seg1 c.NUM_AGES) e.2
      rw [r5]
      exact (hi.sizes e he).transport_size r9 (fun x _ => List.not_mem_nil x)
        (fun x _ _ => List.not_mem_nil x)
    · intro e he
      show DirOK c h1 (cat seg1 c.NUM_AGES) e.2
      rw [r5]
      exact (hi.dirs e he).transport_dir r9 (fun x _ => List.not_mem_nil x)
    · exact hi.sideal
    · exact hi.dideal
  · subst hs1
    intro e he
    obtain ⟨j, hj, h4, h5⟩ := hmem e he
    obtain ⟨e0, he0, hid0, hl⟩ := loadedAge_spec hi (if t = 0 then s.tick else t) hj
    have hm := r3 j
    rw [hl, ← h4] at hm
    refine ⟨e0, he0, by rw [hid0, h5], hm.2.2.1, hm.2.2.2, ?_⟩
    rw [hm.2.1, hm.2.2.1]
  · subst hs1
    intro e he hlt x hx
    obtain ⟨j, hj, h4, h5⟩ := hmem e he
    rw [h5] at hx hlt
    have := r6 j hlt x hx
    rw [← (r3 j).2.1, ← h4] at this
    exact this
  · subst hs1
    intro e he hpos x hx
    obtain ⟨j, hj, h4, h5⟩ := hmem e he
    rw [h5] at hx hpos ⊢
    rcases r7 j hpos hj x hx with h6 | h6
    · exact Or.inl h6
    · right
      have hj1 : j - 1 < c.NUM_AGES := by omega
      have hb : B1 (j - 1) ∈ ab1 := by
        rw [r2]
        exact List.mem_map.mpr ⟨j - 1, List.mem_range'_1.mpr ⟨Nat.zero_le _, by omega⟩, rfl⟩
      obtain ⟨e1, he1, he1b⟩ : ∃ e1 ∈ (storeAges 0 ab1 s.age_buckets s.a_keys).1,
          e1.2 = B1 (j - 1) := by
        obtain ⟨e1, he1, hid1⟩ := w.exists_id hj1
        obtain ⟨j2, _, h7, h8⟩ := hmem e1 he1
        have : j2 = j - 1 := by rw [← h8]; exact hid1
        exact ⟨e1, he1, by rw [h7, this]⟩
      refine ⟨e1, he1, by rw [he1b]; exact r1.ids _ hj1, ?_⟩
      rw [he1b, (r3 (j - 1)).2.1]
      exact h6
  · subst hs1
    intro e he x hx
    obtain ⟨j, hj, h4, h5⟩ := hmem e he
    rw [h5] at hx
    have hm := m3 j x hx
    rw [← (r3 j).2.1, ← h4] at hm
    exact hm

theorem HeapInv.tick_succ {c : Config} {s : State} {seg : Nat → List Addr}
    (hi : HeapInv c s seg) : HeapInv c { s with tick := s.tick + 1 } seg :=
  ⟨hi.nodup, hi.glist, hi.live, hi.fresh, hi.attrs, hi.births,
    fun a ha => Nat.le_succ_of_le (hi.born a ha), hi.avw, hi.svw, hi.dvw, hi.ages, hi.sizes,
    hi.dirs, hi.sideal, hi.dideal⟩

theorem HeapInv.data_size {c : Config} {s : State} {seg : Nat → List Addr}
    (hi : HeapInv c s seg) (l w : Nat) :
    HeapInv c { s with live_data_size := l, workload_size := w } seg :=
  ⟨hi.nodup, hi.glist, hi.live, hi.fresh, hi.attrs, hi.births, hi.born, hi.avw, hi.svw, hi.dvw,
    hi.ages, hi.sizes, hi.dirs, hi.sideal, hi.dideal⟩

theorem performOp_inv {c : Config} (hv : c.Valid) {s s1 : State} {seg : Nat → List Addr}
    {create : Bool} {pos : Int} {r : Nat} (hi : HeapInv c s seg)
    (h : performOp c s create pos r = Except.ok s1) : ∃ seg1, HeapInv c s1 seg1 := by
  rcases performOp_eq_ok h with ⟨_, res, hc, hs1⟩ | ⟨_, s2, sz, hd, hs1⟩
  · obtain ⟨h1, _⟩ := createFile_inv hv hi.tick_succ hc
    rw [hs1]
    exact ⟨_, h1.data_size _ _⟩
  · obtain ⟨ea, es, ed, f, _, _, _, _, _, _, _, _, h1, _⟩ := deleteFile_inv hv hi.tick_succ hd
    rw [hs1]
    exact ⟨_, h1.data_size _ _⟩

theorem step_inv {c : Config} (hv : c.Valid) {s s1 : State} {seg : Nat → List Addr}
    (hi : HeapInv c s seg) (cmd : Cmd) (h : step c s cmd = Except.ok s1) :
    ∃ seg1, HeapInv c s1 seg1 := by
  cases cmd with
  | create pos r =>
    simp only [step] at h
    obtain ⟨x, hx, h⟩ := bind_eq_ok h
    simp only [pure_eq_ok, Except.ok.injEq] at h
    rw [← h]
    exact ⟨_, (createFile_inv hv hi hx).1⟩
  | delete =>
    simp only [step] at h
    obtain ⟨x, hx, h⟩ := bind_eq_ok h
    simp only [pure_eq_ok, Except.ok.injEq] at h
    rw [← h]
    obtain ⟨ea, es, ed, f, _, _, _, _, _, _, _, _, h1, _⟩ :=
      deleteFile_inv hv hi (show deleteFile c s = Except.ok (x.1, x.2) from hx)
    exact ⟨_, h1⟩
  | reAge t =>
    obtain ⟨seg1, _, _, _, _, h1, _⟩ := reAge_inv hi (show reAge c s t = Except.ok s1 from h)
    exact ⟨seg1, h1⟩
  | op cr pos r => exact performOp_inv hv hi (show performOp c s cr pos r = Except.ok s1 from h)

theorem reachable_inv {c : Config} (hv : c.Valid) {s : State} (hr : Reachable c s) :
    ∃ seg, HeapInv c s seg := by
  induction hr with
  | init h => exact ⟨_, init_inv hv h⟩
  | step cmd _ h ih =>
    obtain ⟨seg, hi⟩ := ih
    exact step_inv hv hi cmd h

theorem sum_filter_cons {α : Type} [DecidableEq α] (g : Addr → α) (x : Addr) (L : List Addr) :
    ∀ (arr : List α),
      (arr.map (fun v => ((x :: L).filter (fun y => g y = v)).length)).sum =
        (arr.map (fun v => (L.filter (fun y => g y = v)).length)).sum + arr.count (g x) := by
  intro arr
  induction arr with
  | nil => simp
  | cons v vs ih =>
    simp only [List.map_cons, List.sum_cons, ih, List.count_cons]
    by_cases hv : g x = v
    · simp [List.filter_cons, hv]; omega
    · have hv2 : ¬ (v = g x) := fun e => hv e.symm
      simp [List.filter_cons, hv, hv2]; omega

theorem sum_filter_partition {α : Type} [DecidableEq α] (g : Addr → α) {arr : List α}
    (hnd : arr.Nodup) :
    ∀ (L : List Addr), (∀ x ∈ L, g x ∈ arr) →
      (arr.map (fun v => (L.filter (fun y => g y = v)).length)).sum = L.length := by
  intro L
  induction L with
  | nil => intro _; simp
  | cons x L ih =>
    intro h
    rw [sum_filter_cons, ih (fun y hy => h y (List.mem_cons_of_mem _ hy)),
      List.count_eq_one_of_mem hnd (h x (List.mem_cons_self _ _))]
    rfl

theorem map_getD_range {α : Type} (arr : List α) (d : α) :
    (List.range arr.length).map (fun i => arr.getD i d) = arr := by
  apply List.ext_getElem
  · simp
  · intro i h1 h2
    simp only [List.getElem_map, List.getElem_range]
    exact List.getD_eq_getElem arr d h2

theorem sum_cat_length (seg : Nat → List Addr) :
    ∀ (n : Nat), ((List.range n).map (fun i => (seg i).length)).sum = (cat seg n).length := by
  intro n
  induction n with
  | zero => rfl
  | succ n ih =>
    rw [List.range_succ, List.map_append, List.sum_append, ih]
    simp only [List.map_cons, List.map_nil, List.sum_cons, List.sum_nil, cat, List.length_append]
    omega

theorem HeapInv.age_sum {c : Config} {s : State} {seg : Nat → List Addr}
    (hi : HeapInv c s seg) :
    (s.age_buckets.map (fun e => e.2.count)).sum = s.global_live_file_count := by
  have h1 : s.age_buckets.map (fun e => e.2.count) =
      (s.age_buckets.map (fun e => e.2.id)).map (fun i => (seg i).length) := by
    rw [List.map_map]
    apply List.map_congr_left
    intro e he
    exact (hi.ages e he).1
  rw [h1, (hi.avw.ids.map _).sum_eq, sum_cat_length, hi.live]

theorem HeapInv.size_sum {c : Config} (hv : c.Valid) {s : State} {seg : Nat → List Addr}
    (hi : HeapInv c s seg) :
    (s.size_buckets.map (fun e => e.2.count)).sum = s.global_live_file_count := by
  have h1 : s.size_buckets.map (fun e => e.2.count) =
      (s.size_buckets.map (fun e => e.2.id)).map (fun i =>
        ((cat seg c.NUM_AGES).filter
          (fun x => proj File.size s.heap x = c.size_arr.getD i 0)).length) := by
    rw [List.map_map]
    apply List.map_congr_left
    intro e he
    have := hi.sizes e he
    simp only [Function.comp]
    rw [← this.1]
    exact this.2.1
  have h2 : (List.range c.NUM_SIZES).map (fun i =>
      ((cat seg c.NUM_AGES).filter
        (fun x => proj File.size s.heap x = c.size_arr.getD i 0)).length) =
      c.size_arr.map (fun v => ((cat seg c.NUM_AGES).filter
        (fun x => proj File.size s.heap x = v)).length) := by
    conv_rhs => rw [← map_getD_range c.size_arr 0]
    rw [List.map_map]
    rfl
  rw [h1, (hi.svw.ids.map _).sum_eq, h2,
    sum_filter_partition (proj File.size s.heap) hv.1 _ (fun x hx => (hi.attrs x hx).1),
    hi.live]

theorem HeapInv.dir_sum {c : Config} (hv : c.Valid) {s : State} {seg : Nat → List Addr}
    (hi : HeapInv c s seg) :
    (s.dir_buckets.map (fun e => e.2.count)).sum = s.global_live_file_count := by
  have h1 : s.dir_buckets.map (fun e => e.2.count) =
      (s.dir_buckets.map (fun e => e.2.id)).map (fun i =>
        ((cat seg c.NUM_AGES).filter
          (fun x => proj File.depth s.heap x = c.dir_arr.getD i 0)).length) := by
    rw [List.map_map]
    apply List.map_congr_left
    intro e he
    have := hi.dirs e he
    simp only [Function.comp]
    rw [← this.1]
    exact this.2
  have h2 : (List.range c.NUM_DIRS).map (fun i =>
      ((cat seg c.NUM_AGES).filter
        (fun x => proj File.depth s.heap x = c.dir_arr.getD i 0)).length) =
      c.dir_arr.map (fun v => ((cat seg c.NUM_AGES).filter
        (fun x => proj File.depth s.heap x = v)).length) := by
    conv_rhs => rw [← map_getD_range c.dir_arr 0]
    rw [List.map_map]
    rfl
  rw [h1, (hi.dvw.ids.map _).sum_eq, h2,
    sum_filter_partition (proj File.depth s.heap) hv.2 _ (fun x hx => (hi.attrs x hx).2),
    hi.live]

/-- Claim C1 on the runs that never empty the file system: in every state reached from `init`
by `createFile`, `deleteFile`, `reAge` (and `performOp`) calls that return, none of which removes
the last live file, for histograms with pairwise distinct sizes and depths, the counts of the age
buckets, of the top-level size buckets and of the top-level dir buckets each sum to
`global_live_file_count`. -/
theorem counts_sum_to_live (c : Config) (s : State) (hv : c.Valid) (hr : Reachable c s) :
    (s.age_buckets.map (fun e => e.2.count)).sum = s.global_live_file_count ∧
    (s.size_buckets.map (fun e => e.2.count)).sum = s.global_live_file_count ∧
    (s.dir_buckets.map (fun e => e.2.count)).sum = s.global_live_file_count := by
  obtain ⟨seg, hi⟩ := reachable_inv hv hr
  exact ⟨hi.age_sum, hi.size_sum hv, hi.dir_sum hv⟩

theorem counts_sum_to_live_witness :
    cfgTwoAges.Valid ∧
    ((stateOf (run cfgTwoAges cmdsStale)).age_buckets.map (fun e => e.2.count)).sum =
      (stateOf (run cfgTwoAges cmdsStale)).global_live_file_count ∧
    ((stateOf (run cfgTwoAges cmdsStale)).size_buckets.map (fun e => e.2.count)).sum =
      (stateOf (run cfgTwoAges cmdsStale)).global_live_file_count ∧
    ((stateOf (run cfgTwoAges cmdsStale)).dir_buckets.map (fun e => e.2.count)).sum =
      (stateOf (run cfgTwoAges cmdsStale)).global_live_file_count :=
  ⟨by decide, counts_sum_to_live cfgTwoAges (stateOf (run cfgTwoAges cmdsStale)) (by decide)
    (reachable_run (by decide!))⟩

theorem listFrom_seg {nx pv : Addr → Ptr} :
    ∀ (l : List Addr) (a b : Addr), Seg nx pv a l b → listFrom nx l.length (nx a) = l := by
  intro l
  induction l with
  | nil => intro a b _; rfl
  | cons x xs ih =>
    intro a b h
    simp only [Seg] at h
    rw [h.1]
    simp only [List.length_cons, listFrom]
    rw [ih x b h.2.2]

theorem Seg.take {nx pv : Addr → Ptr} :
    ∀ (l m : List Addr) (a b : Addr), Seg nx pv a (l ++ m) b → ∃ b1, Seg nx pv a l b1 := by
  intro l m a b h
  cases m with
  | nil => exact ⟨b, by simpa using h⟩
  | cons y ys => exact ⟨y, ((Seg.append l a y ys b).mp h).1⟩

theorem listFrom_run {nx pv : Addr → Ptr} {a b : Addr} {pre A post : List Addr}
    (h : Seg nx pv a (pre ++ A ++ post) b) : listFrom nx A.length A.head? = A := by
  cases A with
  | nil => rfl
  | cons x xs =>
    have h1 : Seg nx pv a (pre ++ x :: (xs ++ post)) b := by simpa using h
    have h2 := ((Seg.append pre a x (xs ++ post) b).mp h1).2
    obtain ⟨b1, h3⟩ := Seg.take xs post x b h2
    simp only [List.head?_cons, List.length_cons, listFrom]
    rw [listFrom_seg xs x b1 h3]

theorem listFrom_ring {nx pv : Addr → Ptr} {R : List Addr} (h : Ring nx pv R) :
    listFrom nx R.length R.head? = R := by
  cases R with
  | nil => rfl
  | cons x xs =>
    simp only [List.head?_cons, List.length_cons, listFrom]
    rw [listFrom_seg xs x x h]

theorem HeapInv.liveFiles_eq {c : Config} {s : State} {seg : Nat → List Addr}
    (hi : HeapInv c s seg) : liveFiles s = cat seg c.NUM_AGES := by
  unfold liveFiles
  rw [hi.live]
  exact listFrom_seg _ _ _ hi.glist

theorem HeapInv.files_eq {c : Config} {s : State} {seg : Nat → List Addr}
    (hi : HeapInv c s seg) {e : Key × AgeBucket} (he : e ∈ s.age_buckets) :
    e.2.files s.heap = seg e.2.id := by
  obtain ⟨pre, e1, _, _⟩ := cat_split seg c.NUM_AGES (hi.avw.id_lt he)
  have hg := hi.glist
  rw [e1] at hg
  have hok := hi.ages e he
  unfold AgeBucket.files
  rw [hok.1, hok.2.1]
  exact listFrom_run hg

theorem CellOK.ring_eq_cell {h : Heap} {R : List Addr} {d : DirBucket} (hc : CellOK h R d) :
    d.ring h = R := by
  unfold DirBucket.ring
  rw [hc.1, hc.2.1]
  exact listFrom_ring hc.2.2

theorem SizeOK.ring_eq_size {c : Config} {h : Heap} {L : List Addr} {b : SizeBucket}
    (hc : SizeOK c h L b) :
    b.ring h = L.filter (fun x => proj File.size h x = b.size) := by
  unfold SizeBucket.ring
  rw [hc.2.1, hc.2.2.1]
  exact listFrom_ring hc.2.2.2.1

/-- Claim C2 on the runs that never empty the file system: in every reachable state, no
delete having removed the last live file (histograms with pairwise distinct sizes and depths),
every file `f` of the global list is among the files of exactly one age bucket; that bucket's
nested size bucket for `f.size` counts the bucket's files of that size, and the ring of its
nested dir bucket for `f.depth` is the list of the bucket's files of that size and depth, so
it holds `f`; `f` is on the ring of the top-level size bucket of its size, and the top-level dir
bucket of its depth counts the live files of that depth. -/
theorem live_file_membership (c : Config) (s : State) (hv : c.Valid) (hr : Reachable c s)
    (f : Addr) (hf : f ∈ liveFiles s) :
    (∃ e ∈ s.age_buckets, f ∈ e.2.files s.heap ∧
      (∀ e1 ∈ s.age_buckets, f ∈ e1.2.files s.heap → e1 = e) ∧
      ∃ nsb cell, e.2.sb (s.heap f).size = some nsb ∧
        nsb.count = ((e.2.files s.heap).filter
          (fun x => (s.heap x).size = (s.heap f).size)).length ∧
        nsb.db (s.heap f).depth = some cell ∧ f ∈ cell.ring s.heap ∧
        cell.ring s.heap = (e.2.files s.heap).filter
          (fun x => (s.heap x).size = (s.heap f).size ∧
            (s.heap x).depth = (s.heap f).depth)) ∧
    (∃ b ∈ s.size_buckets, b.2.size = (s.heap f).size ∧ f ∈ b.2.ring s.heap) ∧
    (∃ d ∈ s.dir_buckets, d.2.depth = (s.heap f).depth ∧
      0 < d.2.count ∧ d.2.count = ((liveFiles s).filter
        (fun x => (s.heap x).depth = d.2.depth)).length) := by
  obtain ⟨seg, hi⟩ := reachable_inv hv hr
  rw [hi.liveFiles_eq] at hf ⊢
  have hLnd : (cat seg c.NUM_AGES).Nodup := (List.nodup_cons.mp hi.nodup).2
  obtain ⟨i, hlt, hfi⟩ := (mem_cat _).mp hf
  obtain ⟨e, he, hid⟩ := hi.avw.exists_id hlt
  have hattr := hi.attrs f hf
  refine ⟨⟨e, he, ?_, ?_, ?_⟩, ?_, ?_⟩
  · rw [hi.files_eq he, hid]; exact hfi
  · intro e1 he1 hf1
    rw [hi.files_eq he1] at hf1
    apply hi.avw.eq_of_id he1 he
    rw [hid]
    by_contra hne
    exact cat_disjoint_ne hLnd (hi.avw.id_lt he1) hlt hne hf1 hfi
  · obtain ⟨nsb, f1, f2, f3⟩ := (hi.ages e he).2.2.2 _ hattr.1
    obtain ⟨cell, g1, g2⟩ := f3 _ hattr.2
    refine ⟨nsb, cell, f1, ?_, g1, ?_, ?_⟩
    · rw [hi.files_eq he]; exact f2
    · rw [g2.ring_eq_cell, hid]
      exact List.mem_filter.mpr ⟨hfi, by simp⟩
    · rw [g2.ring_eq_cell, hi.files_eq he]; rfl
  · obtain ⟨j, hj, hjs⟩ := mem_getD hattr.1 0
    obtain ⟨b, hb, hbid⟩ := hi.svw.exists_id hj
    have hok := hi.sizes b hb
    have hsz : b.2.size = (s.heap f).size := by rw [hok.1, hbid]; exact hjs
    refine ⟨b, hb, hsz, ?_⟩
    rw [hok.ring_eq_size]
    exact List.mem_filter.mpr ⟨hf, by simpa [proj] using hsz.symm⟩
  · obtain ⟨j, hj, hjs⟩ := mem_getD hattr.2 0
    obtain ⟨d, hd, hdid⟩ := hi.dvw.exists_id hj
    have hok := hi.dirs d hd
    have hdp : d.2.depth = (s.heap f).depth := by rw [hok.1, hdid]; exact hjs
    refine ⟨d, hd, hdp, ?_, hok.2⟩
    rw [hok.2]
    exact List.length_pos_of_mem (List.mem_filter.mpr ⟨hf, by simpa [proj] using hdp.symm⟩)

theorem live_file_membership_witness :
    cfgTwoAges.Valid ∧ 1 ∈ liveFiles (stateOf (run cfgTwoAges [Cmd.op true 0 0])) ∧
    ∃ b ∈ (stateOf (run cfgTwoAges [Cmd.op true 0 0])).size_buckets,
      b.2.size = ((stateOf (run cfgTwoAges [Cmd.op true 0 0])).heap 1).size ∧
      1 ∈ b.2.ring (stateOf (run cfgTwoAges [Cmd.op true 0 0])).heap :=
  ⟨by decide, by decide!,
    (live_file_membership cfgTwoAges (stateOf (run cfgTwoAges [Cmd.op true 0 0])) (by decide)
      (reachable_run (by decide!)) 1 (by decide!)).2.1⟩

theorem nestedRing_eq {c : Config} {h : Heap} {A : List Addr} {a : AgeBucket}
    (hok : AgeOK c h A a) {sz : Nat} {dp : Int} (hsz : sz ∈ c.size_arr)
    (hdp : dp ∈ c.dir_arr) :
    nestedRing h a sz dp =
      A.filter (fun x => proj File.size h x = sz ∧ proj File.depth h x = dp) := by
  obtain ⟨nsb, f1, _, f3⟩ := hok.2.2.2 sz hsz
  obtain ⟨cell, g1, g2⟩ := f3 dp hdp
  simp only [nestedRing, f1, g1]
  exact g2.ring_eq_cell

theorem nestedRing_of_none {c : Config} {h : Heap} {A : List Addr} {a : AgeBucket}
    (hok : AgeOK c h A a) {sz : Nat} {dp : Int} (hsz : sz ∈ c.size_arr)
    (hdp : dp ∈ c.dir_arr) {draw : Nat → Nat}
    (hg : a.getFileToDelete draw h sz dp = Except.ok none) : nestedRing h a sz dp = [] := by
  rw [nestedRing_eq hok hsz hdp]
  by_contra hne
  obtain ⟨f, _, hf⟩ := (age_getFile hok hsz hdp draw).2 hne
  rw [hg] at hf
  simp at hf

theorem HeapInv.size_mem {c : Config} {s : State} {seg : Nat → List Addr}
    (hi : HeapInv c s seg) {e : Key × SizeBucket} (he : e ∈ s.size_buckets) :
    e.2.size ∈ c.size_arr := by
  rw [(hi.sizes e he).1]
  exact getD_mem (hi.svw.id_lt he) 0

theorem HeapInv.depth_mem {c : Config} {s : State} {seg : Nat → List Addr}
    (hi : HeapInv c s seg) {e : Key × DirBucket} (he : e ∈ s.dir_buckets) :
    e.2.depth ∈ c.dir_arr := by
  rw [(hi.dirs e he).1]
  exact getD_mem (hi.dvw.id_lt he) 0

theorem deleteFile_counts {c : Config} (hv : c.Valid) {s s1 : State} {seg : Nat → List Addr}
    {sz : Nat} (hi : HeapInv c s seg) (h : deleteFile c s = Except.ok (s1, sz)) :
    ∃ (ea : Key × AgeBucket) (es : Key × SizeBucket) (ed : Key × DirBucket) (f : Addr),
      ea ∈ s.age_buckets ∧ es ∈ s.size_buckets ∧ ed ∈ s.dir_buckets ∧
      findVictim c s = Except.ok (ea.2, es.2, ed.2, some f) ∧
      f ∈ seg ea.2.id ∧ proj File.size s.heap f = es.2.size ∧
      proj File.depth s.heap f = ed.2.depth ∧ sz = es.2.size ∧
      0 < ea.2.count ∧ 0 < es.2.count ∧ 0 < ed.2.count ∧
      s1.global_live_file_count = s.global_live_file_count - 1 ∧
      (∀ e1 ∈ s1.age_buckets, ∃ e0 ∈ s.age_buckets, e0.2.id = e1.2.id ∧
        e1.2.count = if e0.2.id = ea.2.id then e0.2.count - 1 else e0.2.count) ∧
      (∀ e1 ∈ s1.size_buckets, ∃ e0 ∈ s.size_buckets, e0.2.id = e1.2.id ∧
        e1.2.count = if e0.2.id = es.2.id then e0.2.count - 1 else e0.2.count) ∧
      (∀ e1 ∈ s1.dir_buckets, ∃ e0 ∈ s.dir_buckets, e0.2.id = e1.2.id ∧
        e1.2.count = if e0.2.id = ed.2.id then e0.2.count - 1 else e0.2.count) := by
  obtain ⟨ea, es, ed, f, hea, hes, hed, hfind, hfseg, hfsize, hfdepth, hsz, hi1,
    ⟨G, S, D, R⟩, _⟩ := deleteFile_inv hv hi h
  have hlt := hi.avw.id_lt hea
  have hLnd : (cat seg c.NUM_AGES).Nodup := (List.nodup_cons.mp hi.nodup).2
  have hfL : f ∈ cat seg c.NUM_AGES := (mem_cat _).mpr ⟨_, hlt, hfseg⟩
  have hcat : cat (Function.update seg ea.2.id ((seg ea.2.id).erase f)) c.NUM_AGES =
      (cat seg c.NUM_AGES).erase f := cat_update_erase hLnd hlt hfseg
  have hfS : f ∈ (cat seg c.NUM_AGES).filter (fun x => proj File.size s.heap x = es.2.size) :=
    List.mem_filter.mpr ⟨hfL, by simpa using hfsize⟩
  have hfD : f ∈ (cat seg c.NUM_AGES).filter
      (fun x => proj File.depth s.heap x = ed.2.depth) :=
    List.mem_filter.mpr ⟨hfL, by simpa using hfdepth⟩
  refine ⟨ea, es, ed, f, hea, hes, hed, hfind, hfseg, hfsize, hfdepth, hsz, ?_, ?_, ?_, ?_,
    ?_, ?_, ?_⟩
  · rw [(hi.ages ea hea).1]; exact List.length_pos_of_mem hfseg
  · rw [(hi.sizes es hes).2.1]; exact List.length_pos_of_mem hfS
  · rw [(hi.dirs ed hed).2]; exact List.length_pos_of_mem hfD
  · rw [hi1.live, hcat, List.length_erase_of_mem hfL, hi.live]
  · intro e1 he1
    obtain ⟨e0, he0, hid0⟩ := hi.avw.exists_id (hi1.avw.id_lt he1)
    refine ⟨e0, he0, hid0, ?_⟩
    rw [(hi1.ages e1 he1).1, (hi.ages e0 he0).1, hid0]
    by_cases hk : e1.2.id = ea.2.id
    · rw [if_pos hk, hk, Function.update_same, List.length_erase_of_mem hfseg]
    · rw [if_neg hk, Function.update_noteq hk]
  · intro e1 he1
    obtain ⟨e0, he0, hid0⟩ := hi.svw.exists_id (hi1.svw.id_lt he1)
    refine ⟨e0, he0, hid0, ?_⟩
    have hs1 := hi1.sizes e1 he1
    have hs0 := hi.sizes e0 he0
    have hsize : e1.2.size = e0.2.size := by rw [hs1.1, hs0.1, hid0]
    rw [hs1.2.1, hs0.2.1, hcat, R.size_eq, hsize, filter_erase hLnd]
    by_cases hk : e0.2.id = es.2.id
    · have : e0 = es := hi.svw.eq_of_id he0 hes hk
      rw [if_pos hk, this, List.length_erase_of_mem hfS]
    · rw [if_neg hk, List.erase_of_not_mem]
      intro hh
      have h2 := (List.mem_filter.mp hh).2
      simp only [decide_eq_true_eq] at h2
      apply hk
      apply getD_inj hv.1 (hi.svw.id_lt he0) (hi.svw.id_lt hes) 0
      rw [← hs0.1, ← (hi.sizes es hes).1, ← h2, hfsize]
  · intro e1 he1
    obtain ⟨e0, he0, hid0⟩ := hi.dvw.exists_id (hi1.dvw.id_lt he1)
    refine ⟨e0, he0, hid0, ?_⟩
    have hs1 := hi1.dirs e1 he1
    have hs0 := hi.dirs e0 he0
    have hdepth : e1.2.depth = e0.2.depth := by rw [hs1.1, hs0.1, hid0]
    rw [hs1.2, hs0.2, hcat, R.depth_eq, hdepth, filter_erase hLnd]
    by_cases hk : e0.2.id = ed.2.id
    · have : e0 = ed := hi.dvw.eq_of_id he0 hed hk
      rw [if_pos hk, this, List.length_erase_of_mem hfD]
    · rw [if_neg hk, List.erase_of_not_mem]
      intro hh
      have h2 := (List.mem_filter.mp hh).2
      simp only [decide_eq_true_eq] at h2
      apply hk
      apply getD_inj hv.2 (hi.dvw.id_lt he0) (hi.dvw.id_lt hed) 0
      rw [← hs0.1, ← (hi.dirs ed hed).1, ← h2, hfdepth]

/-- Claim C7 on the runs that never empty the file system: for a reachable state (histograms
with pairwise distinct bins), a `deleteFile` that returns, so one that leaves a file, takes its victim `f` from the nested ring of the first triple (age bucket from the
end of the age view, size bucket from the beginning of the size view, dir bucket from the end
of the dir view) whose nested ring is not empty: every triple before it in that nested order
has an empty ring.  The victim has the size of that size bucket and the depth of that dir
bucket, the returned size is that size, and in the three views exactly the buckets of the
triple have their count lowered by one (they were positive); every other count is kept. -/
theorem delete_victim_first_triple (c : Config) (s s1 : State) (sz : Nat) (hv : c.Valid)
    (hr : Reachable c s) (h : deleteFile c s = Except.ok (s1, sz)) :
    VictimFirstTriple s s1 sz := by
  obtain ⟨seg, hi⟩ := reachable_inv hv hr
  obtain ⟨ea, es, ed, f, hea, hes, hed, hfind, hfseg, hfsize, hfdepth, hsz, p1, p2, p3, _,
    q1, q2, q3⟩ := deleteFile_counts hv hi h
  obtain ⟨apre, apost, spre, spost, dpre, dpost, e1, e2, e3, e4, e5, e6, _, _⟩ :=
    findVictim_spec hfind
  have hsm := hi.size_mem hes
  have hdm := hi.depth_mem hed
  refine ⟨ea.2, es.2, ed.2, f, apre, apost, spre, spost, dpre, dpost, e1, e2, e3, ?_, ?_, ?_,
    ?_, hfsize, hfdepth, hsz, p1, p2, p3, q1, q2, q3⟩
  · rw [nestedRing_eq (hi.ages ea hea) hsm hdm]
    exact List.mem_filter.mpr ⟨hfseg, by simp [hfsize, hfdepth]⟩
  · intro a ha x hx y hy
    have ham : a ∈ s.age_buckets.reverse.map Prod.snd := by rw [e1]; simp [ha]
    obtain ⟨e0, he0, he0a⟩ := mem_map_snd ham
    have hok := hi.ages e0 (List.mem_reverse.mp he0)
    rw [he0a] at hok
    exact nestedRing_of_none hok (hi.size_mem hx) (hi.depth_mem hy)
      (e4 a ha x.2 (List.mem_map.mpr ⟨x, hx, rfl⟩) y.2
        (List.mem_map.mpr ⟨y, List.mem_reverse.mpr hy, rfl⟩))
  · intro x hx y hy
    have hxm : x ∈ s.size_buckets.map Prod.snd := by rw [e2]; simp [hx]
    obtain ⟨e0, he0, he0x⟩ := mem_map_snd hxm
    have := hi.size_mem he0
    rw [he0x] at this
    exact nestedRing_of_none (hi.ages ea hea) this (hi.depth_mem hy)
      (e5 x hx y.2 (List.mem_map.mpr ⟨y, List.mem_reverse.mpr hy, rfl⟩))
  · intro y hy
    have hym : y ∈ s.dir_buckets.reverse.map Prod.snd := by rw [e3]; simp [hy]
    obtain ⟨e0, he0, he0y⟩ := mem_map_snd hym
    have := hi.depth_mem (List.mem_reverse.mp he0)
    rw [he0y] at this
    exact nestedRing_of_none (hi.ages ea hea) hsm this (e6 y hy)

theorem ok_valOf {α : Type} {r : Res α} (d : α) (h : isOk r = true) :
    r = Except.ok (valOf r d) := by
  cases r with
  | error e => simp [isOk] at h
  | ok s => rfl

theorem delete_victim_first_triple_witness :
    cfgTwoAges.Valid ∧
    VictimFirstTriple (stateOf (run cfgTwoAges [Cmd.op true 0 0, Cmd.op true 0 0]))
      (valOf (deleteFile cfgTwoAges
        (stateOf (run cfgTwoAges [Cmd.op true 0 0, Cmd.op true 0 0]))) (State.blank, 0)).1
      (valOf (deleteFile cfgTwoAges
        (stateOf (run cfgTwoAges [Cmd.op true 0 0, Cmd.op true 0 0]))) (State.blank, 0)).2 :=
  ⟨by decide, delete_victim_first_triple cfgTwoAges
    (stateOf (run cfgTwoAges [Cmd.op true 0 0, Cmd.op true 0 0])) _ _ (by decide)
    (reachable_run (by decide!)) (ok_valOf (State.blank, 0) (by decide!))⟩

theorem pickSize_spec (lds cap : Nat) :
    ∀ (v : List (Key × SizeBucket)) (sb : SizeBucket), pickSize lds cap v = Except.ok sb →
      ∃ pre e post, v = pre ++ e :: post ∧ e.2 = sb ∧ add64 e.2.size lds < cap ∧
        ∀ x ∈ pre, ¬ (add64 x.2.size lds < cap) := by
  intro v
  induction v with
  | nil => intro sb h; simp [pickSize, throw_eq_error] at h
  | cons e es ih =>
    intro sb h
    simp only [pickSize] at h
    split at h
    · rename_i hge
      obtain ⟨pre, e1, post, h1, h2, h3, h4⟩ := ih sb h
      refine ⟨e :: pre, e1, post, by rw [h1]; rfl, h2, h3, ?_⟩
      intro x hx
      rcases List.mem_cons.mp hx with h5 | h5
      · rw [h5]; exact Nat.not_lt.mpr hge
      · exact h4 x h5
    · rename_i hlt
      simp only [pure_eq_ok, Except.ok.injEq] at h
      exact ⟨[], e, es, rfl, h, Nat.lt_of_not_le hlt, by simp⟩

/-- Claim C8 (amended): a gap-guided create (`size_arr_position < 0`) on a reachable state gives
the new file the size of the size bucket that comes last in the size view among the buckets
that fit, where a size fits iff `(size + live_data_size) mod 2^64 < total_disk_capacity`; the
view is ordered by its keys, so every other fitting bucket has a smaller printed difference, or
the same printed difference and a smaller size; the key of a size bucket carries its size and
its gap `ideal_fraction - actual_fraction` as printed with six decimals. -/
theorem gap_guided_last_that_fits (c : Config) (s : State) (pos : Int) (r : Nat)
    (res : CreateResult) (hv : c.Valid) (hpos : pos < 0) (hr : Reachable c s)
    (h : createFile c s pos r = Except.ok res) :
    LastThatFits c s res.ret_size ∧ (res.state.heap s.next_addr).size = res.ret_size := by
  obtain ⟨seg, hi⟩ := reachable_inv hv hr
  have hfile := (createFile_inv hv hi h).2.2.2.1
  obtain ⟨sb, d, dv, dk, h1, h2, h3, sb1, sv, sk, ab, ab1, hsb, _, _, _, _, _, _, _, hres⟩ :=
    createFile_eq_ok h
  rw [if_neg (Int.not_le.mpr hpos)] at hsb
  obtain ⟨pre, e, post, e1, e2, e3, e4⟩ := pickSize_spec _ _ _ _ hsb
  have hview : s.size_buckets = post.reverse ++ e :: pre.reverse := by
    have := congrArg List.reverse e1
    simpa using this
  have hret : res.ret_size = sb.size := by rw [hres]
  have hem : e ∈ s.size_buckets := by rw [hview]; simp
  have hprints : ∀ x ∈ s.size_buckets,
      x.1.prints (x.2.size : Nat) (x.2.ideal_fraction - x.2.actual_fraction) := by
    intro x hx
    rw [(reachable_keyed hr).2.1.2 x hx, (hi.sizes x hx).1]
    exact size_getKey_prints _ _
  refine ⟨⟨⟨e, hem, by rw [hret, e2], e3, ?_⟩, hprints⟩, hfile⟩
  intro x hx hfit
  rw [hview] at hx
  rcases List.mem_append.mp hx with h4 | h4
  · right
    have hk := (reachable_keyed hr).2.1
    have hpw := hk.1
    rw [hview] at hpw
    have hlt := (List.pairwise_append.mp hpw).2.2 x h4 e (List.mem_cons_self _ _)
    exact (BucketCompare_iff _ _).mp hlt
  · rcases List.mem_cons.mp h4 with h5 | h5
    · exact Or.inl h5
    · exact absurd hfit (e4 x (List.mem_reverse.mp h5))

theorem gap_guided_last_that_fits_witness :
    cfgNearTie.Valid ∧ ((-1 : Int) < 0) ∧
    LastThatFits cfgNearTie (stateOf (init cfgNearTie))
      (valOf (createFile cfgNearTie (stateOf (init cfgNearTie)) (-1) 0)
        ⟨State.blank, 0, 0⟩).ret_size :=
  ⟨by decide, by decide,
    (gap_guided_last_that_fits cfgNearTie (stateOf (init cfgNearTie)) (-1) 0
      (valOf (createFile cfgNearTie (stateOf (init cfgNearTie)) (-1) 0) ⟨State.blank, 0, 0⟩)
      (by decide) (by decide) (Reachable.init (ok_stateOf (by decide!)))
      (ok_valOf _ (by decide!))).1⟩

theorem reachable_lds {c : Config} {s : State} (hr : Reachable c s) :
    s.live_data_size < 2 ^ 64 := by
  induction hr with
  | init h =>
    unfold init at h
    obtain ⟨⟨sv, sk, g1, io1⟩, hs, h⟩ := bind_eq_ok h
    obtain ⟨⟨av, ak, g2, io2⟩, ha, h⟩ := bind_eq_ok h
    obtain ⟨⟨dv, dk, g3, io3⟩, hd, h⟩ := bind_eq_ok h
    simp only [pure_eq_ok, Except.ok.injEq] at h
    rw [← h]
    exact Nat.two_pow_pos 64
  | step cmd _ h ih =>
    cases cmd with
    | create pos r =>
      simp only [step] at h
      obtain ⟨x, hx, h⟩ := bind_eq_ok h
      simp only [pure_eq_ok, Except.ok.injEq] at h
      obtain ⟨_, _, _, _, _, _, _, _, _, _, _, _, _, _, _, _, _, _, _, _, hres⟩ :=
        createFile_eq_ok hx
      rw [← h, hres]
      exact ih
    | delete =>
      simp only [step] at h
      obtain ⟨x, hx, h⟩ := bind_eq_ok h
      simp only [pure_eq_ok, Except.ok.injEq] at h
      obtain ⟨_, _, _, _, _, _, _, _, _, _, _, _, _, _, _, _, _, _, _, _, hs1⟩ :=
        deleteFile_eq_ok (show deleteFile c _ = Except.ok (x.1, x.2) from hx)
      rw [← h, hs1]
      exact ih
    | reAge t =>
      obtain ⟨_, _, _, _, _, hs1⟩ := reAge_eq_ok (show reAge c _ t = Except.ok _ from h)
      rw [hs1]
      exact ih
    | op cr pos r =>
      rcases performOp_eq_ok (show performOp c _ cr pos r = Except.ok _ from h) with
        ⟨_, res, _, hs1⟩ | ⟨_, s2, sz, _, hs1⟩
      · rw [hs1]
        exact Nat.mod_lt _ (Nat.two_pow_pos 64)
      · rw [hs1]
        exact Nat.mod_lt _ (Nat.two_pow_pos 64)

theorem reachable_exact {c : Config} {s : State} (hr : Reachable c s)
    (hl : s.global_live_file_count ≠ 0) :
    (∀ e ∈ s.size_buckets,
      e.2.actual_fraction = (e.2.count : ℚ) / (s.global_live_file_count : ℚ)) ∧
    (∀ e ∈ s.dir_buckets,
      e.2.actual_fraction = (e.2.count : ℚ) / (s.global_live_file_count : ℚ)) := by
  induction hr with
  | init h =>
    exfalso
    apply hl
    unfold init at h
    obtain ⟨⟨sv, sk, g1, io1⟩, hs, h⟩ := bind_eq_ok h
    obtain ⟨⟨av, ak, g2, io2⟩, ha, h⟩ := bind_eq_ok h
    obtain ⟨⟨dv, dk, g3, io3⟩, hd, h⟩ := bind_eq_ok h
    simp only [pure_eq_ok, Except.ok.injEq] at h
    rw [← h]
  | step cmd _ h ih =>
    cases cmd with
    | create pos r =>
      simp only [step] at h
      obtain ⟨x, hx, h⟩ := bind_eq_ok h
      simp only [pure_eq_ok, Except.ok.injEq] at h
      have := createFile_fractions hx
      rw [← h]
      exact ⟨this.2.1, this.2.2.1⟩
    | delete =>
      simp only [step] at h
      obtain ⟨x, hx, h⟩ := bind_eq_ok h
      simp only [pure_eq_ok, Except.ok.injEq] at h
      have := deleteFile_fractions (show deleteFile c _ = Except.ok (x.1, x.2) from hx)
      rw [← h]
      exact ⟨this.2.1, this.2.2.1⟩
    | reAge t =>
      obtain ⟨_, _, _, _, _, hs1⟩ := reAge_eq_ok (show reAge c _ t = Except.ok _ from h)
      rw [hs1] at hl ⊢
      exact ih hl
    | op cr pos r =>
      have := performOp_fractions (show performOp c _ cr pos r = Except.ok _ from h)
      exact ⟨this.2.1, this.2.2.1⟩

theorem sorted_views_eq {γ : Type} {v w : List (Key × γ)}
    (hv : v.Pairwise (fun e e1 => BucketCompare e.1 e1.1 = true))
    (hw : w.Pairwise (fun e e1 => BucketCompare e.1 e1.1 = true))
    (hmem : ∀ x, x ∈ v ↔ x ∈ w) : v = w := by
  have hirr : ∀ e : Key × γ, ¬ (BucketCompare e.1 e.1 = true) := fun e => by rw [BucketCompare_irrefl]; simp
  have hnv : v.Nodup :=
    hv.imp_of_mem (fun {a b} _ _ hab heq => hirr b (by rw [heq] at hab; exact hab))
  have hnw : w.Nodup :=
    hw.imp_of_mem (fun {a b} _ _ hab heq => hirr b (by rw [heq] at hab; exact hab))
  have hp : List.Perm v w := (List.perm_ext_iff_of_nodup hnv hnw).mpr hmem
  haveI : IsAntisymm (Key × γ) (fun e e1 => BucketCompare e.1 e1.1 = true) :=
    ⟨fun a b h1 h2 => absurd h2 (by rw [BucketCompare_asymm h1]; simp)⟩
  exact List.eq_of_perm_of_sorted hp hv hw

theorem sub64_add64 {a : Nat} (b : Nat) (ha : a < 2 ^ 64) : sub64 (add64 a b) b = a := by
  simp only [add64, sub64]
  have h1 : (2 : Nat) ^ 64 = 18446744073709551616 := by norm_num
  rw [h1] at ha ⊢
  omega

theorem map_views_eq {β : Type} {v w : List (Key × β)} (g : β → Nat × Nat × ℚ)
    (hv : v.Pairwise (fun e e1 => BucketCompare e.1 e1.1 = true))
    (hw : w.Pairwise (fun e e1 => BucketCompare e.1 e1.1 = true))
    (h1 : ∀ e ∈ v, ∃ e0 ∈ w, (e.1, g e.2) = (e0.1, g e0.2))
    (h2 : ∀ e0 ∈ w, ∃ e ∈ v, (e.1, g e.2) = (e0.1, g e0.2)) :
    v.map (fun e => (e.1, g e.2)) = w.map (fun e => (e.1, g e.2)) := by
  apply sorted_views_eq
  · rw [List.pairwise_map]; exact hv
  · rw [List.pairwise_map]; exact hw
  · intro x
    constructor
    · intro hx
      obtain ⟨e, he, hxe⟩ := List.mem_map.mp hx
      obtain ⟨e0, he0, h⟩ := h1 e he
      exact List.mem_map.mpr ⟨e0, he0, by rw [← hxe, h]⟩
    · intro hx
      obtain ⟨e0, he0, hxe⟩ := List.mem_map.mp hx
      obtain ⟨e, he, h⟩ := h2 e0 he0
      exact List.mem_map.mpr ⟨e, he, by rw [← hxe, h]⟩

theorem size_entry_eq {c : Config} {s s2 : State} {seg : Nat → List Addr}
    (hi : HeapInv c s seg) (hi2 : HeapInv c s2 seg)
    (hsz : ∀ x ∈ cat seg c.NUM_AGES, proj File.size s2.heap x = proj File.size s.heap x)
    (hlive : s2.global_live_file_count = s.global_live_file_count)
    (hex : ∀ e ∈ s.size_buckets,
      e.2.actual_fraction = (e.2.count : ℚ) / (s.global_live_file_count : ℚ))
    (hex2 : ∀ e ∈ s2.size_buckets,
      e.2.actual_fraction = (e.2.count : ℚ) / (s2.global_live_file_count : ℚ))
    {e2 e0 : Key × SizeBucket} (he2 : e2 ∈ s2.size_buckets) (he0 : e0 ∈ s.size_buckets)
    (hid : e2.2.id = e0.2.id) :
    (e2.1, e2.2.id, e2.2.count, e2.2.actual_fraction) =
      (e0.1, e0.2.id, e0.2.count, e0.2.actual_fraction) := by
  have a2 := hi2.sizes e2 he2
  have a0 := hi.sizes e0 he0
  have hsize : e2.2.size = e0.2.size := by rw [a2.1, a0.1, hid]
  have hcount : e2.2.count = e0.2.count := by
    rw [a2.2.1, a0.2.1, hsize]
    congr 1
    apply List.filter_congr
    intro x hx
    rw [hsz x hx]
  have hact : e2.2.actual_fraction = e0.2.actual_fraction := by
    rw [hex2 e2 he2, hex e0 he0, hcount, hlive]
  have hkey : e2.1 = e0.1 := by
    rw [hi2.svw.keyed.2 e2 he2, hi.svw.keyed.2 e0 he0]
    simp only [SizeBucket.getKey, hid, hact, hi2.sideal e2 he2, hi.sideal e0 he0]
  rw [hkey, hid, hcount, hact]

theorem dir_entry_eq {c : Config} {s s2 : State} {seg : Nat → List Addr}
    (hi : HeapInv c s seg) (hi2 : HeapInv c s2 seg)
    (hdp : ∀ x ∈ cat seg c.NUM_AGES, proj File.depth s2.heap x = proj File.depth s.heap x)
    (hlive : s2.global_live_file_count = s.global_live_file_count)
    (hex : ∀ e ∈ s.dir_buckets,
      e.2.actual_fraction = (e.2.count : ℚ) / (s.global_live_file_count : ℚ))
    (hex2 : ∀ e ∈ s2.dir_buckets,
      e.2.actual_fraction = (e.2.count : ℚ) / (s2.global_live_file_count : ℚ))
    {e2 e0 : Key × DirBucket} (he2 : e2 ∈ s2.dir_buckets) (he0 : e0 ∈ s.dir_buckets)
    (hid : e2.2.id = e0.2.id) :
    (e2.1, e2.2.id, e2.2.count, e2.2.actual_fraction) =
      (e0.1, e0.2.id, e0.2.count, e0.2.actual_fraction) := by
  have a2 := hi2.dirs e2 he2
  have a0 := hi.dirs e0 he0
  have hdepth : e2.2.depth = e0.2.depth := by rw [a2.1, a0.1, hid]
  have hcount : e2.2.count = e0.2.count := by
    rw [a2.2, a0.2, hdepth]
    congr 1
    apply List.filter_congr
    intro x hx
    rw [hdp x hx]
  have hact : e2.2.actual_fraction = e0.2.actual_fraction := by
    rw [hex2 e2 he2, hex e0 he0, hcount, hlive]
  have hkey : e2.1 = e0.1 := by
    rw [hi2.dvw.keyed.2 e2 he2, hi.dvw.keyed.2 e0 he0]
    simp only [DirBucket.getKey, hid, hact, hi2.dideal e2 he2, hi.dideal e0 he0]
  rw [hkey, hid, hcount, hact]

/-- Claim C9 (amended): for a reachable state `s` (histograms with pairwise distinct bins), if
`performOp` creates a file and the `performOp` that follows deletes that same file (the new
address is no longer on the global list), then `global_live_file_count`, `live_data_size` and
the global list are as before the create, `tick` has advanced by 2, the size view and the dir
view hold the same keys, ids, counts and `actual_fraction`s in the same order, every age bucket
has its count back and every age bucket other than bucket 0 is unchanged; bucket 0 has
`actual_fraction = count / global_live_file_count`, whatever it held before. -/
theorem create_delete_round_trip (c : Config) (s s1 s2 : State) (pos pos2 : Int) (r r2 : Nat)
    (hv : c.Valid) (hr : Reachable c s) (h1 : performOp c s true pos r = Except.ok s1)
    (h2 : performOp c s1 false pos2 r2 = Except.ok s2) (hvic : s.next_addr ∉ liveFiles s2) :
    RoundTrip s s2 := by
  obtain ⟨seg, hi⟩ := reachable_inv hv hr
  have hLnd : (cat seg c.NUM_AGES).Nodup := (List.nodup_cons.mp hi.nodup).2
  rcases performOp_eq_ok h1 with ⟨_, res, hc, hs1⟩ | ⟨hf, _⟩
  swap
  · simp at hf
  rcases performOp_eq_ok h2 with ⟨hf, _⟩ | ⟨_, s3, sz, hd, hs2⟩
  · simp at hf
  obtain ⟨hi1, hN, hfresh, hfsize, _, _, _, ⟨G1, S1, D1, R1⟩, hexp1⟩ :=
    createFile_inv hv hi.tick_succ hc
  obtain ⟨_, _, _, _, _, _, _, _, _, _, _, _, _, _, _, _, _, _, _, _, hres⟩ :=
    createFile_eq_ok hc
  have hi1b : HeapInv c s1 (Function.update seg 0 (seg 0 ++ [s.next_addr])) := by
    rw [hs1]; exact hi1.data_size _ _
  obtain ⟨ea, es, ed, f, hea, hes, hed, _, hfseg, hfsz, _, hsz, hi3, ⟨G2, S2, D2, R2⟩, hexp2⟩ :=
    deleteFile_inv hv hi1b.tick_succ hd
  obtain ⟨_, _, _, _, _, _, _, _, _, _, _, _, _, _, _, _, _, _, _, _, hs3⟩ :=
    deleteFile_eq_ok hd
  have hfL : s.next_addr ∉ cat seg c.NUM_AGES := fun hh => hfresh (List.mem_cons_of_mem _ hh)
  have hnew0 : s.next_addr ∈ Function.update seg 0 (seg 0 ++ [s.next_addr]) 0 := by
    rw [Function.update_same]; simp
  have hL1nd : (cat (Function.update seg 0 (seg 0 ++ [s.next_addr])) c.NUM_AGES).Nodup :=
    (List.nodup_cons.mp hi1b.nodup).2
  have hlt := hi1b.avw.id_lt hea
  -- the victim is the new file
  have hi2 : HeapInv c s2 (Function.update (Function.update seg 0 (seg 0 ++ [s.next_addr]))
      ea.2.id ((Function.update seg 0 (seg 0 ++ [s.next_addr]) ea.2.id).erase f)) := by
    rw [hs2]; exact hi3.data_size _ _
  have hfeq : f = s.next_addr := by
    by_contra hne
    apply hvic
    rw [hi2.liveFiles_eq, cat_update_erase hL1nd hlt hfseg, cat_update_zero hN]
    exact (List.mem_erase_of_ne (Ne.symm hne)).mpr (by simp)
  subst hfeq
  have hea0 : ea.2.id = 0 := by
    by_contra hne
    exact cat_disjoint_ne hL1nd hlt hN hne hfseg hnew0
  have hseg2 : Function.update (Function.update seg 0 (seg 0 ++ [s.next_addr]))
      ea.2.id ((Function.update seg 0 (seg 0 ++ [s.next_addr]) ea.2.id).erase s.next_addr) =
      seg := by
    rw [hea0, Function.update_same, Function.update_idem]
    have hn0 : s.next_addr ∉ seg 0 := fun hh => hfL ((mem_cat _).mpr ⟨0, hN, hh⟩)
    rw [List.erase_append_right _ hn0]
    simp
  rw [hseg2] at hi2
  -- attributes of the listed files
  have hne : ∀ x ∈ cat seg c.NUM_AGES, x ∉ [s.next_addr] := by
    intro x hx hh
    rw [List.mem_singleton.mp hh] at hx
    exact hfL hx
  have hheap2 : s2.heap = s3.heap := by rw [hs2]
  have hheap1 : s1.heap = res.state.heap := by rw [hs1]
  have hsz2 : ∀ x ∈ cat seg c.NUM_AGES, proj File.size s2.heap x = proj File.size s.heap x := by
    intro x hx
    rw [hheap2]
    have := congrFun R2.size_eq x
    simp only at this
    rw [this]
    show proj File.size s1.heap x = _
    rw [hheap1]
    exact R1.size x (hne x hx)
  have hdp2 : ∀ x ∈ cat seg c.NUM_AGES,
      proj File.depth s2.heap x = proj File.depth s.heap x := by
    intro x hx
    rw [hheap2]
    have := congrFun R2.depth_eq x
    simp only at this
    rw [this]
    show proj File.depth s1.heap x = _
    rw [hheap1]
    exact R1.depth x (hne x hx)
  have hlive : s2.global_live_file_count = s.global_live_file_count := by
    rw [hi2.live, hi.live]
  have hfr2 := performOp_fractions h2
  have hl0 : s.global_live_file_count ≠ 0 := by rw [← hlive]; exact hfr2.1
  obtain ⟨hexs, hexd⟩ := reachable_exact hr hl0
  have hk := reachable_keyed hr
  have hk2 := reachable_keyed (Reachable.step (Cmd.op false pos2 r2)
    (Reachable.step (Cmd.op true pos r) hr h1) h2)
  refine ⟨hlive, ?_, ?_, ?_, ?_, ?_, ?_⟩
  · -- live_data_size
    have e1 : s2.live_data_size = sub64 s3.live_data_size sz := by rw [hs2]
    have e2 : s3.live_data_size = s1.live_data_size := by rw [hs3]
    have e3 : s1.live_data_size = add64 res.state.live_data_size res.ret_size := by rw [hs1]
    have e4 : res.state.live_data_size = s.live_data_size := by rw [hres]
    have e5 : sz = res.ret_size := by
      rw [hsz, ← hfsz, ← hfsize]
      show proj File.size s1.heap s.next_addr = _
      rw [hheap1]
    rw [e1, e2, e3, e4, e5]
    exact sub64_add64 _ (reachable_lds hr)
  · have e1 : s2.tick = s3.tick := by rw [hs2]
    have e2 : s3.tick = s1.tick + 1 := by rw [hs3]
    have e3 : s1.tick = res.state.tick := by rw [hs1]
    have e4 : res.state.tick = s.tick + 1 := by rw [hres]
    rw [e1, e2, e3, e4]
  · rw [hi2.liveFiles_eq, hi.liveFiles_eq]
  · apply map_views_eq (fun b : SizeBucket => (b.id, b.count, b.actual_fraction)) hk2.2.1.1
      hk.2.1.1
    · intro e he
      obtain ⟨e0, he0, hid⟩ := hi.svw.exists_id (hi2.svw.id_lt he)
      exact ⟨e0, he0, size_entry_eq hi hi2 hsz2 hlive hexs hfr2.2.1 he he0 hid.symm⟩
    · intro e0 he0
      obtain ⟨e, he, hid⟩ := hi2.svw.exists_id (hi.svw.id_lt he0)
      exact ⟨e, he, size_entry_eq hi hi2 hsz2 hlive hexs hfr2.2.1 he he0 hid⟩
  · apply map_views_eq (fun b : DirBucket => (b.id, b.count, b.actual_fraction)) hk2.2.2.1.1
      hk.2.2.1.1
    · intro e he
      obtain ⟨e0, he0, hid⟩ := hi.dvw.exists_id (hi2.dvw.id_lt he)
      exact ⟨e0, he0, dir_entry_eq hi hi2 hdp2 hlive hexd hfr2.2.2.1 he he0 hid.symm⟩
    · intro e0 he0
      obtain ⟨e, he, hid⟩ := hi2.dvw.exists_id (hi.dvw.id_lt he0)
      exact ⟨e, he, dir_entry_eq hi hi2 hdp2 hlive hexd hfr2.2.2.1 he he0 hid⟩
  · intro e2 he2
    have hages2 : s2.age_buckets = s3.age_buckets := by rw [hs2]
    have hages1 : s1.age_buckets = res.state.age_buckets := by rw [hs1]
    have hlive3 : s2.global_live_file_count = s3.global_live_file_count := by rw [hs2]
    obtain ⟨e0, he0, hid⟩ := hi.avw.exists_id (hi2.avw.id_lt he2)
    have hcount : e2.2.count = e0.2.count := by
      rw [(hi2.ages e2 he2).1, (hi.ages e0 he0).1, hid]
    refine ⟨e0, he0, hid, hcount, ?_, ?_⟩
    · intro hne0
      rw [hages2] at he2
      rcases hexp2 e2 he2 with ⟨h4, _⟩ | ⟨h4, _⟩
      · exact absurd (h4.trans hea0) hne0
      · have h5 : e2 ∈ res.state.age_buckets := by rw [← hages1]; exact h4
        rcases hexp1 e2 h5 with ⟨h6, _⟩ | ⟨h6, _⟩
        · exact absurd h6 hne0
        · exact hi.avw.eq_of_id h6 he0 hid.symm
    · intro h0
      rw [hages2] at he2
      rcases hexp2 e2 he2 with ⟨_, h4⟩ | ⟨_, h4⟩
      · rw [hlive3]; exact h4
      · exact absurd (h0.trans hea0.symm) h4

theorem create_delete_round_trip_witness :
    cfgTwoSizes.Valid ∧
    (stateOf (run cfgTwoSizes cmdsStale)).next_addr ∉
      liveFiles (stateOf (performOp cfgTwoSizes (stateOf (performOp cfgTwoSizes
        (stateOf (run cfgTwoSizes cmdsStale)) true (-1) 0)) false 0 0)) ∧
    RoundTrip (stateOf (run cfgTwoSizes cmdsStale))
      (stateOf (performOp cfgTwoSizes (stateOf (performOp cfgTwoSizes
        (stateOf (run cfgTwoSizes cmdsStale)) true (-1) 0)) false 0 0)) :=
  ⟨by decide, by decide!,
    create_delete_round_trip cfgTwoSizes (stateOf (run cfgTwoSizes cmdsStale))
      (stateOf (performOp cfgTwoSizes (stateOf (run cfgTwoSizes cmdsStale)) true (-1) 0))
      (stateOf (performOp cfgTwoSizes (stateOf (performOp cfgTwoSizes
        (stateOf (run cfgTwoSizes cmdsStale)) true (-1) 0)) false 0 0))
      (-1) 0 0 0 (by decide) (reachable_run (by decide!)) (ok_stateOf (by decide!))
      (ok_stateOf (by decide!)) (by decide!)⟩

/-! ## The bucket operations -/

/-- Claim C22: for every size `n` the constructor sets `(blk_size, blk_count)` to `(4096, 0)`
when `n = 0`, to `(4096, n / 4096)` when `n ≥ 4096`, to `(1024, n / 1024)` when
`1024 ≤ n < 4096`, and to `(n, 1)` when `0 < n < 1024`. -/
theorem file_block_geometry (name : String) (n age : Nat) (depth : Int) :
    ((File.new name n age depth).blk_size, (File.new name n age depth).blk_count) =
      if n = 0 then (4096, 0)
      else if 4096 ≤ n then (4096, n / 4096)
      else if 1024 ≤ n then (1024, n / 1024)
      else (n, 1) := by
  unfold File.new
  by_cases h0 : n = 0
  · simp [h0]
  · by_cases h1 : 4096 ≤ n
    · simp [h0, h1]
    · by_cases h2 : 1024 ≤ n
      · simp [h0, h1, h2]
      · simp [h0, h1, h2]

theorem dir_addFile_total {h : Heap} {d : DirBucket} {R : List Addr} {f : Addr} {live : Nat}
    (hc : CellOK h R d) (hf : f ∉ R) (hl : live ≠ 0) :
    ∃ h1 d1, d.addFile h f live = Except.ok (h1, d1) := by
  obtain ⟨hcount, hstart, hring⟩ := hc
  cases R with
  | nil =>
    have hs : d.start = none := hstart
    have h0 : d.count = 0 := hcount
    simp [DirBucket.addFile, fdiv, hl, hs, h0, pure_eq_ok, bind, Except.bind]
  | cons st t =>
    have hs : d.start = some st := hstart
    have h0 : d.count = t.length + 1 := hcount
    have hne : st ≠ f := fun e => hf (by simp [e])
    have hpv := Ring.pv_head hring
    simp only [fold_dir_prev] at hpv
    have hpv1 : (h st).dir_prev = some ((st :: t).getLast (List.cons_ne_nil _ _)) := hpv
    simp [DirBucket.addFile, fdiv, hl, hs, h0, pure_eq_ok, bind, Except.bind, deref, Heap.upd,
      hne, hpv1]

theorem dir_deleteFile_total {h : Heap} {d : DirBucket} {R : List Addr} {f : Addr} {live : Nat}
    (hc : CellOK h R d) (hnd : R.Nodup) (hf : f ∈ R) (hl : live ≠ 0) :
    ∃ h1 d1, d.deleteFile h f live = Except.ok (h1, d1) := by
  obtain ⟨hcount, hstart, hring⟩ := hc
  obtain ⟨p, n, e1, e2, _⟩ := Ring.remove_ring hring hnd hf
  have hpos : 0 < d.count := by rw [hcount]; exact List.length_pos_of_mem hf
  have e1a : (h f).dir_prev = some p := e1
  have e2a : (h f).dir_next = some n := e2
  by_cases hpf : f = p
  · subst hpf
    simp [DirBucket.deleteFile, fdiv, hl, hpos, pure_eq_ok, bind, Except.bind, deref, Heap.upd,
      e1a, e2a]
  · simp [DirBucket.deleteFile, fdiv, hl, hpos, pure_eq_ok, bind, Except.bind, deref, Heap.upd,
      e1a, e2a, hpf]

/-- Claim C27: for a dir bucket whose ring reads `R` from `start` along `dir_next`, `addFile`
appends the file at the end and keeps the head, `deleteFile` of a member removes exactly that
file, keeps the order of the others and moves the head only when the head is deleted, and
after either `count` is the length of the ring. -/
theorem dir_ring_add_delete (h : Heap) (d : DirBucket) (R : List Addr) (f : Addr) (live : Nat)
    (hc : CellOK h R d) (hnd : R.Nodup) (hl : live ≠ 0) : DirRingOps h d R f live := by
  constructor
  · intro hf
    obtain ⟨h1, d1, hr⟩ := dir_addFile_total hc hf hl
    obtain ⟨c1, hd, _⟩ := dir_addFile_cell hr hc hnd hf
    refine ⟨h1, d1, hr, c1.ring_eq_cell, c1.2.1, ?_, ?_⟩
    · intro hR
      rw [c1.2.1, hc.2.1]
      cases R with
      | nil => exact absurd rfl hR
      | cons x xs => rfl
    · rw [c1.ring_eq_cell]; exact c1.1
  · intro hf
    obtain ⟨h1, d1, hr⟩ := dir_deleteFile_total hc hnd hf hl
    obtain ⟨c1, hd, _⟩ := dir_deleteFile_cell hr hc hnd hf
    refine ⟨h1, d1, hr, c1.ring_eq_cell, ?_, ?_, ?_⟩
    · intro hs
      rw [c1.2.1, hc.2.1]
      exact head_erase_of_ne (by rw [← hc.2.1]; exact hs)
    · intro hs
      rw [c1.2.1]
      cases R with
      | nil => simp at hf
      | cons x xs =>
        have hx : x = f := by
          have := hc.2.1
          rw [hs] at this
          simpa using this.symm
        subst hx
        simp
    · rw [c1.ring_eq_cell]; exact c1.1

theorem dir_ring_add_delete_witness :
    CellOK heapRing3 [1, 2, 3] dirRing3 ∧ [1, 2, 3].Nodup ∧ (3 : Nat) ≠ 0 ∧
      DirRingOps heapRing3 dirRing3 [1, 2, 3] 2 3 :=
  ⟨by simp only [CellOK, Ring, Seg]; decide, by decide, by decide,
    dir_ring_add_delete heapRing3 dirRing3 [1, 2, 3] 2 3
      (by simp only [CellOK, Ring, Seg]; decide) (by decide) (by decide)⟩

theorem walkDir_rotate {h : Heap} :
    ∀ (n : Nat) (R : List Addr), R ≠ [] →
      Ring (proj File.dir_next h) (proj File.dir_prev h) R →
      walkDir h n R.head? = Except.ok (R.rotate n).head? := by
  intro n
  induction n with
  | zero => intro R _ _; simp [walkDir, pure_eq_ok]
  | succ n ih =>
    intro R hR hr
    cases R with
    | nil => exact absurd rfl hR
    | cons x xs =>
      have hr1 : Ring (proj File.dir_next h) (proj File.dir_prev h) (xs ++ [x]) :=
        (Ring.rotate x xs).mp hr
      have hnx : (h x).dir_next = (xs ++ [x]).head? := by
        cases xs with
        | nil => exact hr.1
        | cons y ys => exact hr.1
      have := ih (xs ++ [x]) (by simp) hr1
      rw [List.rotate_cons_succ]
      simp only [List.head?_cons, walkDir, deref, pure_bind]
      rw [hnx]
      exact this

/-- Claim C28: `getFileToDelete` on a dir bucket whose ring reads `R` returns none exactly
when `count = 0`, and otherwise the member of the ring reached from the head in
`draw count - 1` steps: a function of the count and of the ring order only. -/
theorem dir_victim_of_ring (draw : Nat → Nat) (h : Heap) (d : DirBucket) (R : List Addr)
    (hc : CellOK h R d) : VictimOfRing draw h d R := by
  have hrg := hc.ring_eq_cell
  obtain ⟨hcount, hstart, hring⟩ := hc
  cases R with
  | nil =>
    have h0 : d.count = 0 := hcount
    refine ⟨?_, ?_, ?_⟩
    · simp [DirBucket.getFileToDelete, h0, pure_eq_ok]
    · simp [h0]
    · intro f hf; simp at hf
  | cons x xs =>
    have h0 : d.count = xs.length + 1 := hcount
    have hne : (x :: xs).rotate (draw (x :: xs).length - 1) ≠ [] := by
      intro e
      have := congrArg List.length e
      simp at this
    refine ⟨?_, ?_, ?_⟩
    · unfold DirBucket.getFileToDelete
      rw [if_neg (by omega), hstart, h0]
      exact walkDir_rotate _ _ (List.cons_ne_nil _ _) hring
    · constructor
      · intro e
        exact absurd (List.head?_eq_none_iff.mp e) hne
      · intro e; omega
    · intro f hf
      rw [hrg]
      have : f ∈ (x :: xs).rotate (draw (x :: xs).length - 1) := List.mem_of_mem_head? hf
      exact List.mem_rotate.mp this

theorem dir_victim_of_ring_witness :
    CellOK heapRing3 [1, 2, 3] dirRing3 ∧ VictimOfRing (fun n => n) heapRing3 dirRing3 [1, 2, 3] :=
  ⟨by simp only [CellOK, Ring, Seg]; decide,
    dir_victim_of_ring (fun n => n) heapRing3 dirRing3 [1, 2, 3]
      (by simp only [CellOK, Ring, Seg]; decide)⟩

theorem getD_of_isSome {α : Type} {o : Option α} (d : α) (h : o.isSome = true) :
    o = some (o.getD d) := by
  cases o with
  | none => simp at h
  | some a => rfl

theorem age_addFile_total {h : Heap} {a : AgeBucket} {f : Addr} {live : Nat} {at_front : Bool}
    {s : SizeBucket} {d : DirBucket} {R : List Addr}
    (hs : a.sb (h f).size = some s) (hd : s.db (h f).depth = some d) (hc : CellOK h R d)
    (hf : f ∉ R) (hl : live ≠ 0) (hst : s.count = 0 → s.start = none)
    (hfl : a.f = none → a.last = none) :
    ∃ h1 a1, a.addFile h f live at_front = Except.ok (h1, a1) := by
  obtain ⟨h1, d1, hr⟩ := dir_addFile_total hc hf hl
  have hst1 : ¬ (s.count + 1 = 1 ∧ ¬ s.start = none) := by
    rintro ⟨e1, e2⟩
    exact e2 (hst (by omega))
  have hfl1 : ¬ (a.f = none ∧ ¬ a.last = none) := by
    rintro ⟨e1, e2⟩
    exact e2 (hfl e1)
  unfold AgeBucket.addFile
  simp only [umFind, hs, hd, hr, pure_eq_ok, bind, Except.bind, fdiv, hl, if_false, ne_eq]
  rw [if_neg hst1]
  simp only [if_neg hfl1]
  exact ⟨_, _, rfl⟩

/-- Claim C29 (amended): for a non-empty age bucket, `addFile (f, live, at_front = true)`
returns and places `f` at the front of the bucket: the oldest-member pointer `f` becomes the
file, the youngest-member pointer `last` is unchanged, and `count` is one more. -/
theorem age_addFile_at_front (h : Heap) (a : AgeBucket) (f : Addr) (live : Nat)
    (s : SizeBucket) (d : DirBucket) (R : List Addr) (hne : a.f ≠ none)
    (hs : a.sb (h f).size = some s) (hd : s.db (h f).depth = some d) (hc : CellOK h R d)
    (hf : f ∉ R) (hl : live ≠ 0) (hst : s.count = 0 → s.start = none) :
    ∃ h1 a1, a.addFile h f live true = Except.ok (h1, a1) ∧
      a1.f = some f ∧ a1.last = a.last ∧ a1.count = a.count + 1 := by
  obtain ⟨h1, a1, hr⟩ := age_addFile_total hs hd hc hf hl hst (fun e => absurd e hne)
  refine ⟨h1, a1, hr, ?_⟩
  obtain ⟨s0, d0, d1, _, _, _, _, _, _, ha1⟩ := age_addFile_eq_ok hr
  subst ha1
  simp [hne]

theorem age_addFile_at_front_witness :
    (ageBucketOf stateOneFile 0).f ≠ none ∧
    (∃ h1 a1, (ageBucketOf stateOneFile 0).addFile (withNewFile stateOneFile) 2 2 true =
        Except.ok (h1, a1) ∧
      a1.f = some 2 ∧ a1.last = (ageBucketOf stateOneFile 0).last ∧
      a1.count = (ageBucketOf stateOneFile 0).count + 1) :=
  ⟨by decide!,
    age_addFile_at_front (withNewFile stateOneFile) (ageBucketOf stateOneFile 0) 2 2
      (nestedSize (ageBucketOf stateOneFile 0) (withNewFile stateOneFile 2).size)
      (nestedDir (nestedSize (ageBucketOf stateOneFile 0) (withNewFile stateOneFile 2).size)
        (withNewFile stateOneFile 2).depth) [1]
      (by decide!) (getD_of_isSome _ (by decide!)) (getD_of_isSome _ (by decide!))
      (by simp only [CellOK, Ring, Seg]; decide!) (by decide) (by decide) (by decide!)⟩

/-- Claim C29 fails as stated: on the age bucket 0 that holds one file, `addFile` with
`at_front = true` returns a bucket whose youngest pointer `last` is still the old file and
whose oldest pointer `f` is the new file. -/
theorem age_addFile_front_not_youngest :
    (ageBucketOf stateOneFile 0).count ≠ 0 ∧
    isOk ((ageBucketOf stateOneFile 0).addFile (withNewFile stateOneFile) 2 2 true) = true ∧
    ¬ FrontIsYoungest (ageBucketOf stateOneFile 0)
      (valOf ((ageBucketOf stateOneFile 0).addFile (withNewFile stateOneFile) 2 2 true)
        (withNewFile stateOneFile, ageBucketOf stateOneFile 0)).2 2 := by
  decide!

/-! ## Migration between age buckets -/

theorem moved_climb {N : Nat} {seg seg1 mv : Nat → List Addr}
    (m1 : ∀ j, N ≤ j + 1 → mv j = [])
    (m2 : ∀ j, j < N → seg j ++ (if 0 < j then mv (j - 1) else []) = mv j ++ seg1 j)
    (x : Addr) :
    ∀ (d j : Nat), j + d = N → 0 < d → x ∈ mv j ++ seg1 j →
      ∃ j1, j ≤ j1 ∧ j1 < N ∧ x ∈ seg1 j1 := by
  intro d
  induction d with
  | zero => intro j _ h; omega
  | succ d ih =>
    intro j hj _ hx
    rcases List.mem_append.mp hx with h1 | h1
    · have hlt : j + 1 < N := by
        by_contra hn
        rw [m1 j (by omega)] at h1
        simp at h1
      have hm := m2 (j + 1) hlt
      rw [if_pos (Nat.succ_pos j), Nat.add_sub_cancel] at hm
      obtain ⟨j1, h2, h3, h4⟩ := ih (j + 1) (by omega) (by omega)
        (by rw [← hm]; exact List.mem_append_right _ h1)
      exact ⟨j1, by omega, h3, h4⟩
    · exact ⟨j, Nat.le_refl j, by omega, h1⟩

/-- Claim C24 fails for the floor of the exact product: with age cutoffs 2, 4 and 5, three
files born at ticks 1, 2, 3 and `reAge` with clock 5, bucket 0 stores the cutoff 3 while its
stored ratio (the binary64 number just below `3/5`) times 5 has the floor 2, and the file born
at tick 2 has left bucket 0; bucket 1 stores the cutoff 0 while the ratio of the age table,
`1 - 4/5`, times 5 is 1. -/
theorem reAge_cutoff_not_exact_floor :
    (stateOf (run cfgFifths
      [Cmd.op true 0 0, Cmd.op true 0 0, Cmd.op true 0 0, Cmd.reAge 5])).age_buckets.map
      (fun e => (e.2.id, e.2.cutoff, toU64 (e.2.ratio * 5), toU64 (ratioTable cfgFifths e.2.id * 5),
        e.2.files (stateOf (run cfgFifths
          [Cmd.op true 0 0, Cmd.op true 0 0, Cmd.op true 0 0, Cmd.reAge 5])).heap)) =
      [(2, 0, 0, 0, []), (0, 3, 2, 3, [3]), (1, 0, 0, 1, [1, 2])] := by
  decide!

/-- Claim C24 (amended): for each age bucket `i < N - 1`, `reAge` with clock `C` (the argument, or the
tick when the argument is `0`) stores `cutoff_i = cutoffAt ratio_i C`, the binary64 product truncated, and moves to bucket
`i + 1` the run of bucket `i`'s oldest files with birth tick below `cutoff_i`, oldest first;
the moved files are appended at the young end of bucket `i + 1`, and every file left in bucket
`i` has a birth tick of at least `cutoff_i`, so the migration stopped at the first such file. -/
theorem reAge_moves_oldest_run (c : Config) (s s1 : State) (t : Nat) (hv : c.Valid)
    (hr : Reachable c s) (h : reAge c s t = Except.ok s1) : MigratesOldestRun c s s1 t := by
  obtain ⟨seg, hi⟩ := reachable_inv hv hr
  obtain ⟨seg1, h1, av, ak, hs1, hi1, _, r1, r2, _, _, _, mv, m1, m2, m3⟩ := reAge_inv hi h
  refine ⟨mv, m1, ?_⟩
  intro e0 he0
  have hlt := hi.avw.id_lt he0
  obtain ⟨e1, he1, hid⟩ := hi1.avw.exists_id hlt
  obtain ⟨e2, he2, hid2, hrat, _, hcut⟩ := r1 e1 he1
  have he20 : e2 = e0 := hi.avw.eq_of_id he2 he0 (by rw [hid2, hid])
  subst he20
  refine ⟨e1, he1, hid, by rw [hcut, hrat], ?_, ?_, ?_⟩
  · rw [hi.files_eq he2, hi1.files_eq he1, hid]
    exact m2 _ hlt
  · intro x hx
    have := m3 e1 he1 x (by rw [hid]; exact hx)
    exact this
  · intro hlt1 x hx
    rw [hi1.files_eq he1] at hx
    exact r2 e1 he1 (by rw [hid]; exact hlt1) x hx

theorem reAge_moves_oldest_run_witness :
    cfgThreeQuarters.Valid ∧
    MigratesOldestRun cfgThreeQuarters
      (stateOf (run cfgThreeQuarters [Cmd.op true 0 0, Cmd.op true 0 0, Cmd.op true 0 0]))
      (stateOf (reAge cfgThreeQuarters
        (stateOf (run cfgThreeQuarters [Cmd.op true 0 0, Cmd.op true 0 0, Cmd.op true 0 0])) 4)) 4 :=
  ⟨by decide, reAge_moves_oldest_run cfgThreeQuarters
    (stateOf (run cfgThreeQuarters [Cmd.op true 0 0, Cmd.op true 0 0, Cmd.op true 0 0])) _ 4 (by decide)
    (reachable_run (by decide!)) (ok_stateOf (by decide!))⟩

/-- Claim C25 on the runs that never empty the file system: on a reachable state `reAge`
never moves a file to a bucket with a smaller id and never decreases
the count of the last age bucket; it keeps the live files, `global_live_file_count` and the
sum of the counts of the age buckets. -/
theorem reAge_only_ages (c : Config) (s s1 : State) (t : Nat) (hv : c.Valid)
    (hr : Reachable c s) (h : reAge c s t = Except.ok s1) : OnlyAges c s s1 := by
  obtain ⟨seg, hi⟩ := reachable_inv hv hr
  obtain ⟨seg1, h1, av, ak, hs1, hi1, hcat, _, _, _, _, _, mv, m1, m2, _⟩ := reAge_inv hi h
  have hlive : s1.global_live_file_count = s.global_live_file_count := by rw [hs1]
  have hnd1 : (cat seg1 c.NUM_AGES).Nodup := (List.nodup_cons.mp hi1.nodup).2
  refine ⟨?_, ?_, ?_, hlive, ?_⟩
  · intro e0 he0 x hx
    have hlt := hi.avw.id_lt he0
    rw [hi.files_eq he0] at hx
    have hx1 : x ∈ mv e0.2.id ++ seg1 e0.2.id := by
      rw [← m2 _ hlt]
      exact List.mem_append_left _ hx
    obtain ⟨j1, h2, h3, h4⟩ := moved_climb m1 m2 x (c.NUM_AGES - e0.2.id) e0.2.id
      (by omega) (by omega) hx1
    obtain ⟨e1, he1, hid1⟩ := hi1.avw.exists_id h3
    constructor
    · exact ⟨e1, he1, by rw [hi1.files_eq he1, hid1]; exact h4⟩
    · intro e3 he3 hx3
      rw [hi1.files_eq he3] at hx3
      by_contra hn
      exact cat_disjoint_ne hnd1 h3 (hi1.avw.id_lt he3) (by omega) h4 hx3
  · intro e0 he0 e1 he1 hlast hid
    have hlt := hi.avw.id_lt he0
    have hm := m2 _ hlt
    rw [m1 e0.2.id (by omega), List.nil_append] at hm
    rw [(hi.ages e0 he0).1, (hi1.ages e1 he1).1, hid, ← hm, List.length_append]
    exact Nat.le_add_right _ _
  · rw [hi1.liveFiles_eq, hi.liveFiles_eq, hcat]
  · rw [hi1.age_sum, hi.age_sum, hlive]

theorem reAge_only_ages_witness :
    cfgThreeQuarters.Valid ∧
    OnlyAges cfgThreeQuarters
      (stateOf (run cfgThreeQuarters [Cmd.op true 0 0, Cmd.op true 0 0]))
      (stateOf (reAge cfgThreeQuarters
        (stateOf (run cfgThreeQuarters [Cmd.op true 0 0, Cmd.op true 0 0])) 4)) :=
  ⟨by decide, reAge_only_ages cfgThreeQuarters
    (stateOf (run cfgThreeQuarters [Cmd.op true 0 0, Cmd.op true 0 0])) _ 4 (by decide)
    (reachable_run (by decide!)) (ok_stateOf (by decide!))⟩

/-! ## Fractions and keys after an operation -/

/-- Claim C26 on the runs that never empty the file system: after every `createFile` and
every `deleteFile` made in a reachable state that returns (a delete returns only when a file is
left), every top-level size bucket and every top-level dir bucket has
`actual_fraction = count / global_live_file_count` and is stored in its view under the key
computed from that fraction. -/
theorem all_buckets_rekeyed (c : Config) (s s1 : State) (cmd : Cmd) (hv : c.Valid)
    (hr : Reachable c s) (hcmd : cmd = Cmd.delete ∨ ∃ pos r, cmd = Cmd.create pos r)
    (h : step c s cmd = Except.ok s1) : RekeyedExact c s1 := by
  have hr1 : Reachable c s1 := Reachable.step cmd hr h
  obtain ⟨seg1, hi1⟩ := reachable_inv hv hr1
  have hk := reachable_keyed hr1
  have hf : FractionsAfterOp s s1 := by
    rcases hcmd with rfl | ⟨pos, r, rfl⟩
    · simp only [step] at h
      obtain ⟨⟨s2, sz⟩, hres, h⟩ := bind_eq_ok h
      simp only [pure_eq_ok, Except.ok.injEq] at h
      rw [← h]
      exact deleteFile_fractions hres
    · simp only [step] at h
      obtain ⟨res, hres, h⟩ := bind_eq_ok h
      simp only [pure_eq_ok, Except.ok.injEq] at h
      rw [← h]
      exact createFile_fractions hres
  exact ⟨hf.1, hi1.svw.ids, hi1.dvw.ids,
    fun e he => ⟨hf.2.1 e he, hk.2.1.2 e he⟩, fun e he => ⟨hf.2.2.1 e he, hk.2.2.1.2 e he⟩⟩

theorem all_buckets_rekeyed_witness :
    cfgTwoDirs.Valid ∧
    RekeyedExact cfgTwoDirs (stateOf (step cfgTwoDirs
      (stateOf (run cfgTwoDirs [Cmd.op true 0 0, Cmd.op true 0 0])) Cmd.delete)) :=
  ⟨by decide, all_buckets_rekeyed cfgTwoDirs
    (stateOf (run cfgTwoDirs [Cmd.op true 0 0, Cmd.op true 0 0])) _ Cmd.delete (by decide)
    (reachable_run (by decide!)) (Or.inl rfl) (ok_stateOf (by decide!))⟩

/-! ## Fake mode -/

theorem DirBucket.new_fake (depth : Int) (sd id : Nat) (mp : String) (gld : Int)
    (io : List IoReq) :
    DirBucket.new depth sd id mp true gld [] =
      ((DirBucket.new depth sd id mp false gld io).1,
       (DirBucket.new depth sd id mp false gld io).2.1, []) := by
  unfold DirBucket.new
  by_cases h1 : depth > 0 <;> by_cases h2 : sd = 0 <;> by_cases h3 : gld < depth <;>
    simp [h1, h2, h3]

theorem mkDirMap_fake (c : Config) :
    ∀ (n : Nat) (m : Int → Option DirBucket) (gld : Int) (io : List IoReq),
      mkDirMap { c with fake := true } n (m, gld, []) =
        ((mkDirMap { c with fake := false } n (m, gld, io)).1,
         (mkDirMap { c with fake := false } n (m, gld, io)).2.1, []) := by
  intro n
  induction n with
  | zero => intro m gld io; rfl
  | succ n ih =>
    intro m gld io
    simp only [mkDirMap]
    rw [ih m gld io]
    rcases hrec : mkDirMap { c with fake := false } n (m, gld, io) with ⟨m1, g1, io1⟩
    dsimp only
    rw [DirBucket.new_fake _ _ _ _ _ io1]

theorem mkSizeMap_fake (c : Config) :
    ∀ (n : Nat) (m : Nat → Option SizeBucket) (gld : Int) (io : List IoReq),
      mkSizeMap { c with fake := true } n (m, gld, []) =
        ((mkSizeMap { c with fake := false } n (m, gld, io)).1,
         (mkSizeMap { c with fake := false } n (m, gld, io)).2.1, []) := by
  intro n
  induction n with
  | zero => intro m gld io; rfl
  | succ n ih =>
    intro m gld io
    simp only [mkSizeMap]
    rw [ih m gld io]
    rcases hrec : mkSizeMap { c with fake := false } n (m, gld, io) with ⟨m1, g1, io1⟩
    dsimp only
    have := mkDirMap_fake c c.NUM_DIRS (fun _ => none) g1 io1
    simp only [Config.NUM_DIRS] at this ⊢
    rw [this]

theorem map_bind_res {α β γ : Type} (x : Res α) (f : α → Res β) (g : β → γ) :
    Except.map g (x >>= f) = x >>= fun a => Except.map g (f a) := by
  cases x <;> rfl

theorem initSizes_fake (c : Config) (w : Nat) :
    ∀ n, initSizes { c with fake := true } w n =
      Except.map (fun x => (x.1, x.2.1, x.2.2.1, []))
        (initSizes { c with fake := false } w n) := by
  intro n
  induction n with
  | zero => rfl
  | succ n ih =>
    simp only [initSizes]
    rw [ih, map_bind_res]
    cases initSizes { c with fake := false } w n with
    | error e => rfl
    | ok x =>
      obtain ⟨view, keys, gld, io⟩ := x
      simp only [Except.map, bind, Except.bind, Config.NUM_DIRS]
      rw [mkDirMap_fake c _ _ gld io]
      cases qdiv (c.size_distribution.getD n 0) (w : ℚ) <;> rfl

theorem initAges_fake (c : Config) (w : Nat) (g : Int) (io0 : List IoReq) :
    ∀ n, initAges { c with fake := true } w g [] n =
      Except.map (fun x => (x.1, x.2.1, x.2.2.1, []))
        (initAges { c with fake := false } w g io0 n) := by
  intro n
  induction n with
  | zero => rfl
  | succ n ih =>
    simp only [initAges]
    rw [ih, map_bind_res]
    cases initAges { c with fake := false } w g io0 n with
    | error e => rfl
    | ok x =>
      obtain ⟨view, keys, gld, io⟩ := x
      simp only [Except.map, bind, Except.bind, Config.NUM_SIZES, Config.NUM_AGES]
      rw [mkSizeMap_fake c _ _ gld io]
      cases qdiv (c.age_distribution.getD n 0) (w : ℚ) with
      | error e => rfl
      | ok q1 =>
        cases ddiv (c.age_cutoffs.getD n 0) (c.age_cutoffs.getD (c.age_cutoffs.length - 1) 0) <;>
          rfl

theorem initDirs_fake (c : Config) (w : Nat) (g : Int) (io0 : List IoReq) :
    ∀ n, initDirs { c with fake := true } w g [] n =
      Except.map (fun x => (x.1, x.2.1, x.2.2.1, []))
        (initDirs { c with fake := false } w g io0 n) := by
  intro n
  induction n with
  | zero => rfl
  | succ n ih =>
    simp only [initDirs]
    rw [ih, map_bind_res]
    cases initDirs { c with fake := false } w g io0 n with
    | error e => rfl
    | ok x =>
      obtain ⟨view, keys, gld, io⟩ := x
      simp only [Except.map, bind, Except.bind]
      rw [DirBucket.new_fake _ _ _ _ _ io]
      cases qdiv (c.dir_distribution.getD n 0) (w : ℚ) <;> rfl

theorem init_fake (c : Config) :
    init { c with fake := true } = Except.map eraseIo (init { c with fake := false }) := by
  simp only [init, Config.NUM_SIZES, Config.NUM_AGES, Config.NUM_DIRS]
  rw [initSizes_fake, map_bind_res]
  cases initSizes { c with fake := false } (totalWeight c.size_distribution)
      c.size_arr.length with
  | error e => rfl
  | ok x =>
    obtain ⟨sv, sk, g1, io1⟩ := x
    simp only [Except.map, bind, Except.bind]
    rw [initAges_fake c _ g1 io1]
    cases initAges { c with fake := false } (totalWeight c.age_distribution) g1 io1
        c.age_cutoffs.length with
    | error e => rfl
    | ok y =>
      obtain ⟨av, ak, g2, io2⟩ := y
      simp only [Except.map]
      rw [initDirs_fake c _ g2 io2]
      cases initDirs { c with fake := false } (totalWeight c.dir_distribution) g2 io2
          c.dir_arr.length with
      | error e => rfl
      | ok z => rfl

theorem res_bind_congr {α β : Type} {x : Res α} {f g : α → Res β} (h : ∀ a, f a = g a) :
    x >>= f = x >>= g := by
  cases x with
  | error e => rfl
  | ok a => exact h a

theorem rebuildDirs_fake (c : Config) (live : Nat) :
    ∀ (old acc : List (Key × DirBucket)) (keys : Nat → Key),
      rebuildDirs { c with fake := true } live old acc keys =
        rebuildDirs { c with fake := false } live old acc keys := by
  intro old
  induction old with
  | nil => intro acc keys; rfl
  | cons e es ih =>
    intro acc keys
    simp only [rebuildDirs]
    refine res_bind_congr (fun x => ?_)
    exact ih _ _

theorem rebuildSizes_fake (c : Config) (live : Nat) :
    ∀ (old acc : List (Key × SizeBucket)) (keys : Nat → Key),
      rebuildSizes { c with fake := true } live old acc keys =
        rebuildSizes { c with fake := false } live old acc keys := by
  intro old
  induction old with
  | nil => intro acc keys; rfl
  | cons e es ih =>
    intro acc keys
    simp only [rebuildSizes]
    refine res_bind_congr (fun x => ?_)
    exact ih _ _

theorem storeDir_fake (c : Config) (live : Nat) (view : List (Key × DirBucket))
    (keys : Nat → Key) (d : DirBucket) :
    storeDir { c with fake := true } live view keys d =
      storeDir { c with fake := false } live view keys d := by
  simp only [storeDir]
  refine res_bind_congr (fun x => ?_)
  exact rebuildDirs_fake c live _ _ _

theorem storeSize_fake (c : Config) (live : Nat) (view : List (Key × SizeBucket))
    (keys : Nat → Key) (sb sb1 : SizeBucket) :
    storeSize { c with fake := true } live view keys sb sb1 =
      storeSize { c with fake := false } live view keys sb sb1 := by
  simp only [storeSize]
  exact rebuildSizes_fake c live _ _ _

theorem createFile_fake (c : Config) (s : State) (pos : Int) (r : Nat) :
    createFile { c with fake := true } (eraseIo s) pos r =
      Except.map (fun res => { res with state := eraseIo res.state })
        (createFile { c with fake := false } s pos r) := by
  unfold createFile
  simp only [map_bind_res, eraseIo, storeDir_fake, storeSize_fake]
  refine res_bind_congr (fun sb => ?_)
  refine res_bind_congr (fun d => ?_)
  refine res_bind_congr (fun x => ?_)
  refine res_bind_congr (fun h1 => ?_)
  refine res_bind_congr (fun y => ?_)
  refine res_bind_congr (fun z => ?_)
  refine res_bind_congr (fun ab => ?_)
  refine res_bind_congr (fun w => ?_)
  rfl

theorem deleteFile_fake (c : Config) (s : State) :
    deleteFile { c with fake := true } (eraseIo s) =
      Except.map (fun p => (eraseIo p.1, p.2)) (deleteFile { c with fake := false } s) := by
  unfold deleteFile
  simp only [map_bind_res, eraseIo]
  have hv : findVictim { c with fake := true } { s with io := [] } =
      findVictim { c with fake := false } s := rfl
  simp only [hv, storeDir_fake, storeSize_fake]
  refine res_bind_congr (fun v => ?_)
  refine res_bind_congr (fun f => ?_)
  refine res_bind_congr (fun x => ?_)
  refine res_bind_congr (fun y => ?_)
  refine res_bind_congr (fun z => ?_)
  refine res_bind_congr (fun w => ?_)
  refine res_bind_congr (fun h3 => ?_)
  rfl

theorem reAge_fake (c : Config) (s : State) (t : Nat) :
    reAge { c with fake := true } (eraseIo s) t =
      Except.map eraseIo (reAge { c with fake := false } s t) := by
  unfold reAge
  simp only [map_bind_res, eraseIo]
  have hl : ∀ clock n, loadAges { s with io := [] } clock n = loadAges s clock n := by
    intro clock n
    induction n with
    | zero => rfl
    | succ n ih => simp only [loadAges, ih]
  simp only [hl, Config.NUM_AGES]
  refine res_bind_congr (fun ab => ?_)
  refine res_bind_congr (fun x => ?_)
  rfl

theorem performOp_fake (c : Config) (s : State) (cr : Bool) (pos : Int) (r : Nat) :
    performOp { c with fake := true } (eraseIo s) cr pos r =
      Except.map eraseIo (performOp { c with fake := false } s cr pos r) := by
  have ht : { eraseIo s with tick := (eraseIo s).tick + 1 } =
      eraseIo { s with tick := s.tick + 1 } := rfl
  unfold performOp
  rw [ht]
  cases cr with
  | false =>
    simp only [Bool.false_eq_true, if_false, pure_bind, not_false_eq_true, true_or, if_true]
    rw [deleteFile_fake]
    cases deleteFile { c with fake := false } { s with tick := s.tick + 1 } with
    | error e => rfl
    | ok p => rfl
  | true =>
    simp only [if_true, not_true_eq_false, false_or]
    rw [createFile_fake]
    cases createFile { c with fake := false } { s with tick := s.tick + 1 } pos r with
    | error e => rfl
    | ok res =>
      simp only [Except.map, bind, Except.bind]
      by_cases h0 : res.create_succeeded = 0
      · simp only [h0, if_true, pure, Except.pure]
        rfl
      · simp only [h0, if_false, pure, Except.pure]
        by_cases h1 : res.create_succeeded = -1
        · simp only [h1, if_true]
          have hd := deleteFile_fake c res.state
          rw [hd]
          cases deleteFile { c with fake := false } res.state with
          | error e => rfl
          | ok p => rfl
        · simp only [h1, if_false]

theorem step_fake (c : Config) (s : State) (cmd : Cmd) :
    step { c with fake := true } (eraseIo s) cmd =
      Except.map eraseIo (step { c with fake := false } s cmd) := by
  cases cmd with
  | create pos r =>
    simp only [step]
    rw [createFile_fake]
    cases createFile { c with fake := false } s pos r <;> rfl
  | delete =>
    simp only [step]
    rw [deleteFile_fake]
    cases deleteFile { c with fake := false } s <;> rfl
  | reAge t => exact reAge_fake c s t
  | op cr pos r => exact performOp_fake c s cr pos r

theorem runFrom_fake (c : Config) :
    ∀ (cmds : List Cmd) (s : State),
      runFrom { c with fake := true } (eraseIo s) cmds =
        Except.map eraseIo (runFrom { c with fake := false } s cmds) := by
  intro cmds
  induction cmds with
  | nil => intro s; rfl
  | cons cmd rest ih =>
    intro s
    simp only [runFrom]
    rw [step_fake]
    cases step { c with fake := false } s cmd with
    | error e => rfl
    | ok s1 => exact ih s1

theorem run_fake (c : Config) (cmds : List Cmd) :
    run { c with fake := true } cmds =
      Except.map eraseIo (run { c with fake := false } cmds) := by
  simp only [run]
  rw [init_fake]
  cases init { c with fake := false } with
  | error e => rfl
  | ok s => exact runFrom_fake c cmds s

/-- Claim C23: for every sequence of calls and every stream of draws, the engine state
reached with `fake = 1` is the state reached with `fake = 0` with the record of issued backend
requests left out (tick, counters, buckets, views and the global list are identical, and a
fault in one run is the same fault in the other); with `fake = 1` no create, delete or
`mkpath` request is issued. -/
theorem fake_same_engine_state (c : Config) (cmds : List Cmd) :
    Except.map eraseIo (run { c with fake := true } cmds) =
      Except.map eraseIo (run { c with fake := false } cmds) ∧
    Except.map State.io (run { c with fake := true } cmds) =
      Except.map (fun _ => []) (run { c with fake := true } cmds) := by
  rw [run_fake]
  cases run { c with fake := false } cmds with
  | error e => exact ⟨rfl, rfl⟩
  | ok s => exact ⟨rfl, rfl⟩

/-! ## Rapid fill: the size class of a draw -/

theorem cumulative_getD :
    ∀ (ws : List Nat) (acc : ℚ) (j : Nat), j < ws.length →
      (cumulative acc (ws.map (fun (w : Nat) => (w : ℚ)))).getD j 0 =
        acc + (((ws.take (j + 1)).sum : Nat) : ℚ) := by
  intro ws
  induction ws with
  | nil => intro acc j hj; simp at hj
  | cons w t ih =>
    intro acc j hj
    cases j with
    | zero => simp [cumulative]
    | succ j =>
      simp only [List.map_cons, cumulative, List.getD_cons_succ]
      rw [ih (acc + w) j (by simpa using hj)]
      simp only [List.take_succ_cons, List.sum_cons]
      push_cast
      ring

theorem sum_take_mono (ws : List Nat) {i k : Nat} (h : i ≤ k) :
    (ws.take i).sum ≤ (ws.take k).sum := by
  have h1 := List.take_append_drop i (ws.take k)
  rw [List.take_take, Nat.min_eq_left h] at h1
  calc (ws.take i).sum ≤ (ws.take i ++ (ws.take k).drop i).sum := by
        rw [List.sum_append]; exact Nat.le_add_right _ _
    _ = (ws.take k).sum := by rw [h1]

theorem sum_take_le (ws : List Nat) (k : Nat) : (ws.take k).sum ≤ ws.sum := by
  have := sum_take_mono ws (Nat.le_max_left k ws.length)
  have h2 : ws.take (max k ws.length) = ws := List.take_of_length_le (Nat.le_max_right _ _)
  rw [h2] at this
  exact this

theorem pickClass_spec (ws : List Nat) (r : Nat) (hr : r ≤ ws.sum) (acc : ℚ) (hacc : acc = 0) :
    ∀ (fuel j : Nat), j + fuel = ws.length → 0 < fuel → (ws.take j).sum < r →
      j ≤ pickClass (cumulative acc (ws.map (fun (w : Nat) => (w : ℚ)))) ws.length r fuel j ∧
      pickClass (cumulative acc (ws.map (fun (w : Nat) => (w : ℚ)))) ws.length r fuel j < ws.length ∧
      (ws.take (pickClass (cumulative acc (ws.map (fun (w : Nat) => (w : ℚ)))) ws.length r fuel j)).sum
        < r ∧
      r ≤ (ws.take
        (pickClass (cumulative acc (ws.map (fun (w : Nat) => (w : ℚ)))) ws.length r fuel j + 1)).sum := by
  intro fuel
  induction fuel with
  | zero => intro j _ h; omega
  | succ fuel ih =>
    intro j hj _ hinv
    have hjn : j < ws.length := by omega
    have hcut := cumulative_getD ws acc j hjn
    rw [hacc, zero_add] at hcut
    simp only [pickClass]
    rw [hacc] at ih ⊢
    rw [hcut]
    by_cases hgt : (r : ℚ) > (((ws.take (j + 1)).sum : Nat) : ℚ)
    · have hgt1 : (ws.take (j + 1)).sum < r := by exact_mod_cast hgt
      rw [if_pos hgt]
      by_cases hlast : j + 1 = ws.length
      · exfalso
        rw [hlast, List.take_length] at hgt1
        omega
      · rw [if_neg hlast]
        obtain ⟨h1, h2, h3, h4⟩ := ih (j + 1) (by omega) (by omega) hgt1
        exact ⟨by omega, h2, h3, h4⟩
    · have hle : r ≤ (ws.take (j + 1)).sum := by
        have := not_lt.mp hgt
        exact_mod_cast this
      rw [if_neg hgt]
      exact ⟨Nat.le_refl j, hjn, hinv, hle⟩

theorem totalWeight_cast (ws : List Nat) :
    totalWeight (ws.map (fun (w : Nat) => (w : ℚ))) = ws.sum := by
  unfold totalWeight
  have h : ∀ (l : List Nat) (a : Nat),
      (l.map (fun (w : Nat) => (w : ℚ))).foldl (fun acc w => toU64 ((acc : ℚ) + w)) a = a + l.sum := by
    intro l
    induction l with
    | nil => intro a; simp
    | cons w t ih =>
      intro a
      simp only [List.map_cons, List.foldl_cons, List.sum_cons]
      have : toU64 ((a : ℚ) + (w : ℚ)) = a + w := by
        unfold toU64
        have h0 : ((a : ℚ) + (w : ℚ)) = ((a + w : Nat) : ℚ) := by push_cast; ring
        rw [h0, Int.floor_natCast, Int.toNat_natCast]
      rw [this, ih]
      omega
  rw [h]
  simp

theorem sizeClassOf_spec (c : Config) (ws : List Nat)
    (hw : c.size_distribution = ws.map (fun (w : Nat) => (w : ℚ))) (hn : c.size_arr.length = ws.length)
    (r : Nat) (h1 : 1 ≤ r) (h2 : r ≤ ws.sum) :
    sizeClassOf c r < ws.length ∧ (ws.take (sizeClassOf c r)).sum < r ∧
      r ≤ (ws.take (sizeClassOf c r + 1)).sum := by
  have hne : 0 < ws.length := by
    cases ws with
    | nil => simp at h2; omega
    | cons w t => simp
  unfold sizeClassOf sizeCutoffs Config.NUM_SIZES
  rw [hw, hn]
  obtain ⟨_, k2, k3, k4⟩ := pickClass_spec ws r h2 0 rfl ws.length 0 (by omega) hne
    (by simp; omega)
  exact ⟨k2, k3, k4⟩

/-- Claim C20 fails as stated: after ten creates (birth ticks 1..10, all in bucket 0) and
`reAge` with future tick 20, bucket 0 holds only the file born at tick 10 and bucket 1 the
files born at ticks 1..9.  The split is neither "birth tick `< 10` stays" nor "elapsed age
`20 - birth tick < 10` stays". -/
theorem reAge_ten_not_young_stay :
    isOk (reAge cfgTwoAges stateTen 20) = true ∧
    (liveFiles stateTen).map (fun x => (stateTen.heap x).age) =
      [1, 2, 3, 4, 5, 6, 7, 8, 9, 10] ∧
    (stateTen.age_buckets.map (fun e => (e.2.id, e.2.count))).Perm [(0, 10), (1, 0)] ∧
    ¬ SplitByAge (stateOf (reAge cfgTwoAges stateTen 20))
      (fun x => ((stateOf (reAge cfgTwoAges stateTen 20)).heap x).age) 10 ∧
    ¬ SplitByAge (stateOf (reAge cfgTwoAges stateTen 20))
      (fun x => 20 - ((stateOf (reAge cfgTwoAges stateTen 20)).heap x).age) 10 := by
  decide!

theorem ageBucketOf_eq {c : Config} {s : State} {seg : Nat → List Addr} (hi : HeapInv c s seg)
    {e : Key × AgeBucket} (he : e ∈ s.age_buckets) : ageBucketOf s e.2.id = e.2 := by
  unfold ageBucketOf
  rw [hi.avw.find he]
  rfl

/-- Claim C20 (amended): with two age buckets whose first ratio is 1/2 and all files in
bucket 0, `reAge` with future tick 20 leaves in bucket 0 exactly the files with birth tick
`≥ 10` and moves to bucket 1 exactly the files with birth tick `< 10`. -/
theorem reAge_half_split (c : Config) (s s1 : State) (hv : c.Valid) (hr : Reachable c s)
    (hN : c.NUM_AGES = 2) (hratio : (ageBucketOf s 0).ratio = 1 / 2)
    (hempty : (ageBucketOf s 1).count = 0) (h : reAge c s 20 = Except.ok s1) :
    ∀ x ∈ liveFiles s1,
      (x ∈ (ageBucketOf s1 0).files s1.heap ↔ 10 ≤ (s1.heap x).age) ∧
      (x ∈ (ageBucketOf s1 1).files s1.heap ↔ (s1.heap x).age < 10) := by
  obtain ⟨seg, hi⟩ := reachable_inv hv hr
  obtain ⟨seg1, h1, av, ak, hs1, hi1, hcat, r1, r2, r3, _, ⟨D, R⟩, _⟩ := reAge_inv hi h
  have hage : ∀ x, (s1.heap x).age = proj File.age s.heap x := by
    intro x
    rw [hs1]
    exact congrFun R.age_eq x
  obtain ⟨a0, ha0, hid0⟩ := hi1.avw.exists_id (show 0 < c.NUM_AGES by omega)
  obtain ⟨a1, ha1, hid1⟩ := hi1.avw.exists_id (show 1 < c.NUM_AGES by omega)
  obtain ⟨b0, hb0, hbid0⟩ := hi.avw.exists_id (show 0 < c.NUM_AGES by omega)
  obtain ⟨b1, hb1, hbid1⟩ := hi.avw.exists_id (show 1 < c.NUM_AGES by omega)
  have e0 : ageBucketOf s1 0 = a0.2 := by rw [← hid0]; exact ageBucketOf_eq hi1 ha0
  have e1 : ageBucketOf s1 1 = a1.2 := by rw [← hid1]; exact ageBucketOf_eq hi1 ha1
  have f0 : ageBucketOf s 0 = b0.2 := by rw [← hbid0]; exact ageBucketOf_eq hi hb0
  have f1 : ageBucketOf s 1 = b1.2 := by rw [← hbid1]; exact ageBucketOf_eq hi hb1
  have hseg1 : seg 1 = [] := by
    have := (hi.ages b1 hb1).1
    rw [hbid1, ← f1, hempty] at this
    exact List.length_eq_zero.mp this.symm
  have hcut : a0.2.cutoff = 10 := by
    obtain ⟨b, hb, hbid, hrat, _, hc⟩ := r1 a0 ha0
    have hbb : b = b0 := hi.avw.eq_of_id hb hb0 (by rw [hbid, hid0, hbid0])
    have h20 : (if (20 : Nat) = 0 then s.tick else 20) = 20 := if_neg (by decide)
    rw [hc, hrat, hbb, ← f0, hratio, h20]
    decide!
  have hfiles0 : (ageBucketOf s1 0).files s1.heap = seg1 0 := by
    rw [e0, hi1.files_eq ha0, hid0]
  have hfiles1 : (ageBucketOf s1 1).files s1.heap = seg1 1 := by
    rw [e1, hi1.files_eq ha1, hid1]
  have hge : ∀ x ∈ seg1 0, 10 ≤ (s1.heap x).age := by
    intro x hx
    have := r2 a0 ha0 (by rw [hid0]; omega) x (by rw [hid0]; exact hx)
    rw [hcut] at this
    rw [hage]; exact this
  have hlt : ∀ x ∈ seg1 1, (s1.heap x).age < 10 := by
    intro x hx
    rcases r3 a1 ha1 (by rw [hid1]; omega) x (by rw [hid1]; exact hx) with h4 | ⟨a, ha, haid, h4⟩
    · rw [hid1, hseg1] at h4
      simp at h4
    · have haa : a = a0 := hi1.avw.eq_of_id ha ha0 (by rw [haid, hid1, hid0])
      rw [haa, hcut] at h4
      rw [hage]; exact h4
  intro x hx
  rw [hi1.liveFiles_eq, hN] at hx
  simp only [cat, List.append_nil, List.mem_append] at hx
  rw [hfiles0, hfiles1]
  constructor
  · constructor
    · exact hge x
    · intro h10
      rcases hx with h5 | h5
      · have := hlt x h5; omega
      · exact h5
  · constructor
    · exact hlt x
    · intro h10
      rcases hx with h5 | h5
      · exact h5
      · have := hge x h5; omega

theorem reAge_half_split_witness :
    cfgTwoAges.Valid ∧ cfgTwoAges.NUM_AGES = 2 ∧ (ageBucketOf stateTen 0).ratio = 1 / 2 ∧
    (ageBucketOf stateTen 1).count = 0 ∧
    ∀ x ∈ liveFiles (stateOf (reAge cfgTwoAges stateTen 20)),
      (x ∈ (ageBucketOf (stateOf (reAge cfgTwoAges stateTen 20)) 0).files
          (stateOf (reAge cfgTwoAges stateTen 20)).heap ↔
        10 ≤ ((stateOf (reAge cfgTwoAges stateTen 20)).heap x).age) ∧
      (x ∈ (ageBucketOf (stateOf (reAge cfgTwoAges stateTen 20)) 1).files
          (stateOf (reAge cfgTwoAges stateTen 20)).heap ↔
        ((stateOf (reAge cfgTwoAges stateTen 20)).heap x).age < 10) :=
  ⟨by decide, by decide, by decide!, by decide!,
    reAge_half_split cfgTwoAges stateTen _ (by decide) (reachable_run (by decide!)) (by decide)
      (by decide!) (by decide!) (ok_stateOf (by decide!))⟩

/-! ## The counters of `performOp` -/

/-- Claim C16 fails as stated: with one size class of `2 ^ 62` bytes, the fourth create takes
`workload_size` from `3 * 2 ^ 62` to `0`. -/
theorem workload_wraps :
    isOk (run cfgBig (List.replicate 4 (Cmd.op true 0 0))) = true ∧
    (stateOf (run cfgBig (List.replicate 3 (Cmd.op true 0 0)))).workload_size = 3 * 2 ^ 62 ∧
    (stateOf (run cfgBig (List.replicate 4 (Cmd.op true 0 0)))).workload_size = 0 ∧
    (stateOf (run cfgBig (List.replicate 4 (Cmd.op true 0 0)))).workload_size <
      (stateOf (run cfgBig (List.replicate 3 (Cmd.op true 0 0)))).workload_size := by
  decide!

/-- Claim C16 (amended): every `performOp` that returns leaves `workload_size` unchanged when
it is a delete, and replaces it by `(workload_size + size) mod 2 ^ 64` when it is a create,
`size` being the size of the created file; so `workload_size` does not decrease as long as
the sum stays below `2 ^ 64`. -/
theorem workload_monotone_mod (c : Config) (s s1 : State) (cr : Bool) (pos : Int) (r : Nat)
    (hv : c.Valid) (hr : Reachable c s) (h : performOp c s cr pos r = Except.ok s1) :
    WorkloadStep s s1 cr := by
  obtain ⟨seg, hi⟩ := reachable_inv hv hr
  unfold WorkloadStep
  rcases performOp_eq_ok h with ⟨hc, res, hres, hs1⟩ | ⟨hc, s2, sz, hdel, hs1⟩
  · subst hc
    rw [if_pos rfl]
    obtain ⟨_, _, _, hsize, _⟩ := createFile_inv hv hi.tick_succ hres
    have hsize1 : (s1.heap s.next_addr).size = res.ret_size := by
      rw [hs1]; exact hsize
    have hw : res.state.workload_size = s.workload_size := by
      obtain ⟨_, _, _, _, _, _, _, _, _, _, _, _, _, _, _, _, _, _, _, _, hr1⟩ :=
        createFile_eq_ok hres
      rw [hr1]
    have hw1 : s1.workload_size = add64 s.workload_size res.ret_size := by
      rw [hs1, ← hw]
    rw [hsize1]
    refine ⟨hw1, ?_⟩
    intro hlt
    rw [hw1]
    unfold add64
    rw [Nat.mod_eq_of_lt hlt]
    exact Nat.le_add_right _ _
  · subst hc
    rw [if_neg (by simp)]
    obtain ⟨_, _, _, _, _, _, _, _, _, _, _, _, _, _, _, _, _, _, _, _, hr1⟩ :=
      deleteFile_eq_ok hdel
    rw [hs1, hr1]

theorem workload_monotone_mod_witness :
    cfgBig.Valid ∧
    WorkloadStep (stateOf (run cfgBig (List.replicate 3 (Cmd.op true 0 0))))
      (stateOf (performOp cfgBig (stateOf (run cfgBig (List.replicate 3 (Cmd.op true 0 0))))
        true 0 0)) true :=
  ⟨by decide, workload_monotone_mod cfgBig
    (stateOf (run cfgBig (List.replicate 3 (Cmd.op true 0 0)))) _ true 0 0
    (by decide) (reachable_run (by decide!)) (ok_stateOf (by decide!))⟩

theorem pickSize_exhausted (lds cap : Nat) :
    ∀ (v : List (Key × SizeBucket)), (∀ e ∈ v, cap ≤ add64 e.2.size lds) →
      pickSize lds cap v = Except.error Fault.undefinedBehaviour := by
  intro v
  induction v with
  | nil => intro _; rfl
  | cons e es ih =>
    intro h
    simp only [pickSize]
    rw [if_pos (h e (List.mem_cons_self _ _))]
    exact ih (fun x hx => h x (List.mem_cons_of_mem _ hx))

/-- Claim C13, what the code does: when no size class fits
(`(size + live_data_size) mod 2 ^ 64 ≥ total_disk_capacity` for every bucket of the size
view), the loop of step 1 of `createFile` reads `it->second` at `rend ()` before it compares
`it` with `rend ()`, so the gap-guided `performOp` ends in undefined behaviour instead of
turning into a delete. -/
theorem exhausted_create_reads_past_view (c : Config) (s : State) (r : Nat)
    (hfull : ∀ e ∈ s.size_buckets, c.total_disk_capacity ≤ add64 e.2.size s.live_data_size) :
    performOp c s true (-1) r = Except.error Fault.undefinedBehaviour := by
  have hp : pickSize s.live_data_size c.total_disk_capacity s.size_buckets.reverse =
      Except.error Fault.undefinedBehaviour :=
    pickSize_exhausted _ _ _ (fun e he => hfull e (List.mem_reverse.mp he))
  have hcr : createFile c { s with tick := s.tick + 1 } (-1) r =
      Except.error Fault.undefinedBehaviour := by
    unfold createFile
    simp only [show ¬ ((-1 : Int) ≥ 0) by decide, if_false]
    rw [hp]
    rfl
  unfold performOp
  simp only [if_true]
  rw [hcr]
  rfl

theorem exhausted_create_reads_past_view_witness :
    (∀ e ∈ stateNine.size_buckets,
      cfgTwoAges.total_disk_capacity ≤ add64 e.2.size stateNine.live_data_size) ∧
    stateNine.global_live_file_count = 9 ∧
    performOp cfgTwoAges stateNine true (-1) 0 = Except.error Fault.undefinedBehaviour :=
  ⟨by decide!, by decide!, exhausted_create_reads_past_view cfgTwoAges stateNine 0 (by decide!)⟩

/-! ## The dir bucket of a new file -/

theorem DirBucket.new_actual (depth : Int) (sd id : Nat) (mp : String) (fake : Bool) (g : Int)
    (io : List IoReq) : (DirBucket.new depth sd id mp fake g io).1.actual_fraction = 0 := by
  unfold DirBucket.new
  simp only
  split
  · split
    · split <;> rfl
    · rfl
  · rfl

theorem initDirs_actual (c : Config) (w : Nat) (g0 : Int) (io0 : List IoReq) :
    ∀ (n : Nat) (v : List (Key × DirBucket)) (k : Nat → Key) (g : Int) (io : List IoReq),
      initDirs c w g0 io0 n = Except.ok (v, k, g, io) → ∀ e ∈ v, e.2.actual_fraction = 0 := by
  intro n
  induction n with
  | zero =>
    intro v k g io h
    simp only [initDirs, pure_eq_ok, Except.ok.injEq, Prod.mk.injEq] at h
    rw [← h.1]
    intro e he
    simp at he
  | succ n ih =>
    intro v k g io h
    simp only [initDirs] at h
    obtain ⟨⟨v0, k0, g1, io1⟩, hrec, h⟩ := bind_eq_ok h
    obtain ⟨q, _, h⟩ := bind_eq_ok h
    simp only [pure_eq_ok, Except.ok.injEq, Prod.mk.injEq] at h
    rw [← h.1]
    intro e he
    rcases mem_fmInsert he with h1 | h1
    · rw [h1]
      exact DirBucket.new_actual _ _ _ _ _ _ _
    · exact ih v0 k0 g1 io1 hrec e h1

/-- Claim C18 fails as stated: with depths 0 and 1 of weights 1 and 3, the head of the dir
view after `init` is the bucket of depth 1, and the first file of the rapid fill is created at
depth 1. -/
theorem head_dir_not_depth_zero :
    (0 : Int) ∈ cfgTwoDirs.dir_arr ∧
    (stateOf (init cfgTwoDirs)).dir_buckets.map (fun e => e.2.depth) = [1, 0] ∧
    isOk (performOp cfgTwoDirs (stateOf (init cfgTwoDirs)) true 0 0) = true ∧
    ((stateOf (performOp cfgTwoDirs (stateOf (init cfgTwoDirs)) true 0 0)).heap 1).depth = 1 ∧
    liveFiles (stateOf (performOp cfgTwoDirs (stateOf (init cfgTwoDirs)) true 0 0)) = [1] := by
  decide!

/-- Claim C18 (amended): every file created by a `performOp` that returns, so every file of
the rapid fill, is placed in the dir bucket at the head of the dir view, which is the bucket
least in the order of the keys (printed difference, then depth), the key of a bucket carrying
its depth and its gap `actual - ideal` as printed with six decimals; after `init` every
`actual_fraction` is `0` and every key carries `-ideal_fraction` as printed, so at the start of
the rapid fill the head is the bucket with the largest printed ideal fraction, of the smallest
depth among equals. -/
theorem create_in_head_dir_bucket (c : Config) (s0 s s1 : State) (pos : Int) (r : Nat)
    (hv : c.Valid) (h0 : init c = Except.ok s0) (hr : Reachable c s)
    (h : performOp c s true pos r = Except.ok s1) :
    (∀ e ∈ s0.dir_buckets, e.2.actual_fraction = 0 ∧
      e.1.prints e.2.depth (0 - e.2.ideal_fraction)) ∧
    PlacedAtHead s s1 := by
  constructor
  · obtain ⟨seg0, hi0⟩ := reachable_inv hv (Reachable.init h0)
    have hk := (init_keyed h0).2.2.1
    have hact : ∀ e ∈ s0.dir_buckets, e.2.actual_fraction = 0 := by
      unfold init at h0
      obtain ⟨⟨sv, sk, g1, io1⟩, hs, h0⟩ := bind_eq_ok h0
      obtain ⟨⟨av, ak, g2, io2⟩, ha, h0⟩ := bind_eq_ok h0
      obtain ⟨⟨dv, dk, g3, io3⟩, hd, h0⟩ := bind_eq_ok h0
      simp only [pure_eq_ok, Except.ok.injEq] at h0
      rw [← h0]
      exact initDirs_actual c _ _ _ _ _ _ _ _ hd
    intro e he
    refine ⟨hact e he, ?_⟩
    have hp := dir_getKey_prints c.dir_arr e.2
    rw [← hk.2 e he, hact e he, ← (hi0.dirs e he).1] at hp
    exact hp
  · obtain ⟨seg, hi⟩ := reachable_inv hv hr
    have hk := (reachable_keyed hr).2.2.1
    rcases performOp_eq_ok h with ⟨_, res, hres, hs1⟩ | ⟨hc, _⟩
    · obtain ⟨hi1, hN, _, _, _, _, ⟨k, d, rest, hd, hdep⟩, _⟩ :=
        createFile_inv hv hi.tick_succ hres
      have hd' : s.dir_buckets = (k, d) :: rest := hd
      refine ⟨k, d, rest, hd', ?_, ?_, ?_, ?_⟩
      · rw [hs1]; exact hdep
      · have hl : liveFiles s1 = liveFiles res.state := by rw [hs1]; rfl
        rw [hl, hi1.liveFiles_eq]
        refine (mem_cat _).mpr ⟨0, hN, ?_⟩
        rw [Function.update_same]
        exact List.mem_append_right _ (List.mem_singleton_self _)
      · have hm : (k, d) ∈ s.dir_buckets := by rw [hd']; exact List.mem_cons_self _ _
        have hp := dir_getKey_prints c.dir_arr d
        rw [← hk.2 (k, d) hm, ← (hi.dirs _ hm).1] at hp
        exact hp
      · intro e he
        have hp := hk.1
        rw [hd'] at hp
        exact (BucketCompare_iff _ _).mp ((List.pairwise_cons.mp hp).1 e he)
    · simp at hc

theorem create_in_head_dir_bucket_witness :
    cfgTwoDirs.Valid ∧
    PlacedAtHead (stateOf (init cfgTwoDirs))
      (stateOf (performOp cfgTwoDirs (stateOf (init cfgTwoDirs)) true 0 0)) :=
  ⟨by decide, (create_in_head_dir_bucket cfgTwoDirs (stateOf (init cfgTwoDirs))
    (stateOf (init cfgTwoDirs)) _ 0 0 (by decide) (ok_stateOf (by decide!))
    (Reachable.init (ok_stateOf (by decide!))) (ok_stateOf (by decide!))).2⟩

/-! ## Stable aging -/

theorem performOp_tick {c : Config} {s s1 : State} {cr : Bool} {pos : Int} {r : Nat}
    (h : performOp c s cr pos r = Except.ok s1) : s1.tick = s.tick + 1 := by
  rcases performOp_eq_ok h with ⟨_, res, hres, hs1⟩ | ⟨_, s2, sz, hdel, hs1⟩
  · obtain ⟨_, _, _, _, _, _, _, _, _, _, _, _, _, _, _, _, _, _, _, _, hr1⟩ :=
      createFile_eq_ok hres
    rw [hs1, hr1]
  · obtain ⟨_, _, _, _, _, _, _, _, _, _, _, _, _, _, _, _, _, _, _, _, hr1⟩ :=
      deleteFile_eq_ok hdel
    rw [hs1, hr1]

theorem reAge_tick {c : Config} {s s1 : State} {t : Nat} (h : reAge c s t = Except.ok s1) :
    s1.tick = s.tick := by
  obtain ⟨_, _, _, _, _, hs1⟩ := reAge_eq_ok h
  rw [hs1]

theorem stableLoop_bound (c : Config) (p : Probe) (dr : Draws) (T till : Nat) (cm : Int) :
    ∀ (fuel i : Nat) (rt : ℚ) (s : State) (o : Option StableResult),
      max 1 (T - s.tick) ≤ fuel →
      stableLoop c p dr T till cm fuel i rt s = Except.ok o →
      ∃ res, o = some res ∧ i + 1 ≤ res.ops ∧ res.ops ≤ i + max 1 (T - s.tick) ∧
        res.state.tick + i = s.tick + res.ops := by
  intro fuel
  induction fuel with
  | zero =>
    intro i rt s o hf _
    have := Nat.le_max_left 1 (T - s.tick)
    omega
  | succ fuel ih =>
    intro i rt s o hf h
    simp only [stableLoop] at h
    obtain ⟨s1, hop, h⟩ := bind_eq_ok h
    obtain ⟨s2, hre, h⟩ := bind_eq_ok h
    obtain ⟨⟨rt1, inner⟩, _, h⟩ := bind_eq_ok h
    have ht : s2.tick = s.tick + 1 := by rw [reAge_tick hre, performOp_tick hop]
    have hmax := Nat.le_max_left 1 (T - s.tick)
    simp only at h
    split at h
    · simp only [pure_eq_ok, Except.ok.injEq] at h
      exact ⟨_, h.symm, Nat.le_refl _, by simp only; omega, by simp only; omega⟩
    · split at h
      · simp only [pure_eq_ok, Except.ok.injEq] at h
        exact ⟨_, h.symm, Nat.le_refl _, by simp only; omega, by simp only; omega⟩
      · rename_i hconv
        split at h
        · simp only [pure_eq_ok, Except.ok.injEq] at h
          exact ⟨_, h.symm, Nat.le_refl _, by simp only; omega, by simp only; omega⟩
        · split at h
          · simp only [pure_eq_ok, Except.ok.injEq] at h
            exact ⟨_, h.symm, Nat.le_refl _, by simp only; omega, by simp only; omega⟩
          · split at h
            · simp only [pure_eq_ok, Except.ok.injEq] at h
              exact ⟨_, h.symm, Nat.le_refl _, by simp only; omega, by simp only; omega⟩
            · have hlt : s2.tick < T := Nat.lt_of_not_le hconv
              have hm2 : max 1 (T - s2.tick) = T - s2.tick := Nat.max_eq_right (by omega)
              have hm1 : max 1 (T - s.tick) = T - s.tick := Nat.max_eq_right (by omega)
              obtain ⟨res, e1, e2, e3, e4⟩ := ih (i + 1) rt1 s2 o (by rw [hm2]; omega) h
              rw [hm2] at e3
              refine ⟨res, e1, by omega, by rw [hm1]; omega, by omega⟩

/-- Claim C12: `performStableAging` makes at least one operation and stops no later than the
first operation after which `tick ≥ T`, `T` being `calculateT` at entry: given `max (1, T -
tick)` iterations it does not run out of them, and when it returns it has made between one
and `max (1, T - tick)` operations, each advancing `tick` by exactly one.  (An operation that
aborts or faults ends the run without a result.) -/
theorem stable_aging_bounded (c : Config) (p : Probe) (dr : Draws) (till fuel : Nat)
    (runtime : ℚ) (s : State) (T : Nat) (hT : calculateT c s = Except.ok T)
    (hfuel : max 1 (T - s.tick) ≤ fuel) :
    StableBounded T s (performStableAging c p dr till fuel runtime s) := by
  intro o h
  unfold performStableAging at h
  obtain ⟨T1, hT1, h⟩ := bind_eq_ok h
  rw [hT] at hT1
  simp only [Except.ok.injEq] at hT1
  subst hT1
  obtain ⟨s0, hre, h⟩ := bind_eq_ok h
  have ht := reAge_tick hre
  obtain ⟨res, e1, e2, e3, e4⟩ :=
    stableLoop_bound c p dr T till 0 fuel 0 runtime s0 o (by rw [ht]; exact hfuel) h
  rw [ht] at e3 e4
  exact ⟨res, e1, by omega, by omega, by omega⟩

theorem stable_aging_bounded_witness :
    max 1 (valOf (calculateT cfgTwoAges stateTenK) 0 - stateTenK.tick) ≤ 30 ∧
    isOk (performStableAging cfgTwoAges probeOff drawsDelete 102400 30 0 stateTenK) = true ∧
    StableBounded (valOf (calculateT cfgTwoAges stateTenK) 0) stateTenK
      (performStableAging cfgTwoAges probeOff drawsDelete 102400 30 0 stateTenK) :=
  ⟨by decide!, by decide!,
    stable_aging_bounded cfgTwoAges probeOff drawsDelete 102400 30 0 stateTenK
      (valOf (calculateT cfgTwoAges stateTenK) 0) (ok_valOf 0 (by decide!)) (by decide!)⟩

/-! ## The accuracy probe -/

theorem toI64_unit {x : ℚ} (h0 : 0 ≤ x) (h1 : x < 1) : toI64 x = 0 := by
  unfold toI64
  rw [if_pos h0]
  exact Int.floor_eq_zero_iff.mpr ⟨h0, h1⟩

theorem dumpAgeBuckets_zero {c : Config} {p : Probe} {s : State} {m : Int}
    (hcdf : ∀ x, 0 ≤ p.cdf x ∧ p.cdf x < 1) (h : dumpAgeBuckets c p s = Except.ok m) :
    m = 0 := by
  unfold dumpAgeBuckets at h
  obtain ⟨l, _, h⟩ := bind_eq_ok h
  simp only at h
  split at h
  · obtain ⟨g, hg, h⟩ := bind_eq_ok h
    simp only [pure_eq_ok, Except.ok.injEq] at h
    rw [← h]
    unfold calculateChiMeanSquared at hg
    obtain ⟨chi, _, hg⟩ := bind_eq_ok hg
    simp only at hg
    split at hg
    · obtain ⟨_, _, hg⟩ := bind_eq_ok hg
      obtain ⟨_, _, hg⟩ := bind_eq_ok hg
      split at hg
      · obtain ⟨_, _, hg⟩ := bind_eq_ok hg
        simp only [pure_eq_ok, Except.ok.injEq] at hg
        rw [← hg]
        exact toI64_unit (hcdf chi).1 (hcdf chi).2
      · simp [throw_eq_error] at hg
    · simp only [pure_eq_ok, Except.ok.injEq] at hg
      rw [← hg]
      exact toI64_unit (le_refl 0) (by norm_num)
  · simp only [pure_eq_ok, Except.ok.injEq] at h
    exact h.symm

theorem stableLoop_no_accuracy (c : Config) (p : Probe) (dr : Draws) (T till : Nat)
    (hcdf : ∀ x, 0 ≤ p.cdf x ∧ p.cdf x < 1) :
    ∀ (fuel i : Nat) (rt : ℚ) (s : State) (o : Option StableResult),
      stableLoop c p dr T till 0 fuel i rt s = Except.ok o →
      ∀ res, o = some res → res.exit ≠ StableExit.probe ∧ res.exit ≠ StableExit.accuracy := by
  intro fuel
  induction fuel with
  | zero =>
    intro i rt s o h res hres
    simp only [stableLoop, pure_eq_ok, Except.ok.injEq] at h
    rw [← h] at hres
    simp at hres
  | succ fuel ih =>
    intro i rt s o h res hres
    simp only [stableLoop] at h
    obtain ⟨s1, _, h⟩ := bind_eq_ok h
    obtain ⟨s2, _, h⟩ := bind_eq_ok h
    obtain ⟨⟨rt1, inner⟩, hin, h⟩ := bind_eq_ok h
    have hinner : inner = 0 := by
      split at hin
      · obtain ⟨m, hm, hin⟩ := bind_eq_ok hin
        simp only [pure_eq_ok, Except.ok.injEq, Prod.mk.injEq] at hin
        rw [← hin.2]
        exact dumpAgeBuckets_zero hcdf hm
      · simp only [pure_eq_ok, Except.ok.injEq, Prod.mk.injEq] at hin
        exact hin.2.symm
    simp only at h
    split at h
    · rename_i hp
      rw [hinner] at hp
      exact absurd hp.2.2 (by decide)
    · split at h
      · simp only [pure_eq_ok, Except.ok.injEq] at h
        rw [← h] at hres
        simp only [Option.some.injEq] at hres
        rw [← hres]
        exact ⟨by simp, by simp⟩
      · split at h
        · simp only [pure_eq_ok, Except.ok.injEq] at h
          rw [← h] at hres
          simp only [Option.some.injEq] at hres
          rw [← hres]
          exact ⟨by simp, by simp⟩
        · split at h
          · simp only [pure_eq_ok, Except.ok.injEq] at h
            rw [← h] at hres
            simp only [Option.some.injEq] at hres
            rw [← hres]
            exact ⟨by simp, by simp⟩
          · split at h
            · rename_i hacc
              exact absurd hacc.2 (by decide)
            · exact ih (i + 1) rt1 s2 o h res hres

/-- Claim C11, what the code does: whatever the age fractions are, and also when
`cdf (chi_2) ≤ goodness_measure`, a probe whose `cdf` values lie in `[0, 1)` is reported to
`performStableAging` as `0` (the `double` is returned through `int`, and the caller tests
`== 1`), and the `confidence_met` tested for the `accuracy` trigger is a different
variable that stays `0`: `performStableAging` never ends through the probe or through the
accuracy trigger. -/
theorem probe_never_ends_stable_aging (c : Config) (p : Probe) (dr : Draws)
    (till fuel : Nat) (runtime : ℚ) (s : State) (o : Option StableResult)
    (hcdf : ∀ x, 0 ≤ p.cdf x ∧ p.cdf x < 1)
    (h : performStableAging c p dr till fuel runtime s = Except.ok o) :
    ∀ res, o = some res → res.exit ≠ StableExit.probe ∧ res.exit ≠ StableExit.accuracy := by
  unfold performStableAging at h
  obtain ⟨T, _, h⟩ := bind_eq_ok h
  obtain ⟨s0, _, h⟩ := bind_eq_ok h
  exact stableLoop_no_accuracy c p dr T till hcdf fuel 0 runtime s0 o h

theorem probeNine_cdf : ∀ x, 0 ≤ probeNine.cdf x ∧ probeNine.cdf x < 1 := by
  intro x
  simp only [probeNine]
  split
  · exact ⟨le_refl 0, by norm_num⟩
  · rename_i hx
    have hpos : 0 < x := lt_of_not_le hx
    constructor
    · exact div_nonneg (le_of_lt hpos) (by linarith)
    · rw [div_lt_one (by linarith)]
      linarith

theorem probe_never_ends_stable_aging_witness :
    (∀ x, 0 ≤ probeNine.cdf x ∧ probeNine.cdf x < 1) ∧
    isOk (performStableAging cfgTwoAges probeNine drawsDelete 102400 30 0 stateTenK) = true ∧
    ∀ res, valOf (performStableAging cfgTwoAges probeNine drawsDelete 102400 30 0 stateTenK)
        none = some res →
      res.exit ≠ StableExit.probe ∧ res.exit ≠ StableExit.accuracy :=
  ⟨probeNine_cdf, by decide!,
    probe_never_ends_stable_aging cfgTwoAges probeNine drawsDelete 102400 30 0 stateTenK _
      probeNine_cdf (ok_valOf none (by decide!))⟩

/-- Claim C11 at a concrete state: with one file in age bucket 0 and nine in age bucket 1
(ideal fractions 1/2 and 1/2) the statistic is `16/25`, its `cdf` value is at most
`goodness_measure`, so the accuracy goal is met, and `dumpAgeBuckets` returns `0`, not `1`. -/
theorem probe_success_returns_zero :
    probeNine.confidence > 0 ∧
    isOk (chiOf cfgTwoAges stateSplit) = true ∧
    valOf (chiOf cfgTwoAges stateSplit) 0 = 16 / 25 ∧
    probeNine.cdf (16 / 25) ≤ probeNine.goodness_measure ∧
    isOk (dumpAgeBuckets cfgTwoAges probeNine stateSplit) = true ∧
    valOf (dumpAgeBuckets cfgTwoAges probeNine stateSplit) 1 = 0 := by
  decide!

/-! ## The victim search returns -/

theorem searchDirs_total (get : DirBucket → Res Ptr) :
    ∀ (rest : List (Key × DirBucket)) (d0 : DirBucket),
      (∀ x ∈ d0 :: rest.map Prod.snd, ∃ p, get x = Except.ok p) →
      ∃ d p, searchDirs get d0 rest = Except.ok (d, p) := by
  intro rest
  induction rest with
  | nil =>
    intro d0 h
    obtain ⟨p, hp⟩ := h d0 (List.mem_cons_self _ _)
    exact ⟨d0, p, by simp only [searchDirs, hp]; rfl⟩
  | cons e es ih =>
    intro d0 h
    obtain ⟨p, hp⟩ := h d0 (List.mem_cons_self _ _)
    cases p with
    | none =>
      obtain ⟨d, q, hq⟩ := ih e.2 (fun x hx => h x (List.mem_cons_of_mem _ (by simpa using hx)))
      exact ⟨d, q, by simp only [searchDirs, hp]; exact hq⟩
    | some a => exact ⟨d0, some a, by simp only [searchDirs, hp]; rfl⟩

theorem searchSizes_total (inner : SizeBucket → Res (DirBucket × Ptr)) :
    ∀ (rest : List (Key × SizeBucket)) (s0 : SizeBucket),
      (∀ x ∈ s0 :: rest.map Prod.snd, ∃ d p, inner x = Except.ok (d, p)) →
      ∃ sb d p, searchSizes inner s0 rest = Except.ok (sb, d, p) := by
  intro rest
  induction rest with
  | nil =>
    intro s0 h
    obtain ⟨d, p, hp⟩ := h s0 (List.mem_cons_self _ _)
    exact ⟨s0, d, p, by simp only [searchSizes, hp]; rfl⟩
  | cons e es ih =>
    intro s0 h
    obtain ⟨d, p, hp⟩ := h s0 (List.mem_cons_self _ _)
    cases p with
    | none =>
      obtain ⟨sb, d1, q, hq⟩ :=
        ih e.2 (fun x hx => h x (List.mem_cons_of_mem _ (by simpa using hx)))
      exact ⟨sb, d1, q, by simp only [searchSizes, hp]; exact hq⟩
    | some a => exact ⟨s0, d, some a, by simp only [searchSizes, hp]; rfl⟩

theorem searchAges_total (inner : AgeBucket → Res (SizeBucket × DirBucket × Ptr)) :
    ∀ (rest : List (Key × AgeBucket)) (a0 : AgeBucket),
      (∀ x ∈ a0 :: rest.map Prod.snd, ∃ sb d p, inner x = Except.ok (sb, d, p)) →
      ∃ ab sb d p, searchAges inner a0 rest = Except.ok (ab, sb, d, p) := by
  intro rest
  induction rest with
  | nil =>
    intro a0 h
    obtain ⟨sb, d, p, hp⟩ := h a0 (List.mem_cons_self _ _)
    exact ⟨a0, sb, d, p, by simp only [searchAges, hp]; rfl⟩
  | cons e es ih =>
    intro a0 h
    obtain ⟨sb, d, p, hp⟩ := h a0 (List.mem_cons_self _ _)
    cases p with
    | none =>
      obtain ⟨ab, sb1, d1, q, hq⟩ :=
        ih e.2 (fun x hx => h x (List.mem_cons_of_mem _ (by simpa using hx)))
      exact ⟨ab, sb1, d1, q, by simp only [searchAges, hp]; exact hq⟩
    | some a => exact ⟨a0, sb, d, some a, by simp only [searchAges, hp]; rfl⟩

theorem firstEntry_total {β : Type} (v : List (Key × β)) (h : v ≠ []) :
    ∃ b rest, firstEntry v = Except.ok (b, rest) ∧ v.map Prod.snd = b :: rest.map Prod.snd := by
  cases v with
  | nil => exact absurd rfl h
  | cons e es => exact ⟨e.2, es, rfl, rfl⟩

theorem ViewWF.ne_nil {β : Type} {bid : β → Nat} {keyOf : β → Key} {n : Nat}
    {v : List (Key × β)} {keys : Nat → Key} (h : ViewWF bid keyOf n v keys) (hn : 0 < n) :
    v ≠ [] := by
  obtain ⟨e, he, _⟩ := h.exists_id hn
  exact List.ne_nil_of_mem he

theorem findVictim_total {c : Config} {s : State} {seg : Nat → List Addr}
    (hi : HeapInv c s seg) (hA : 0 < c.NUM_AGES) (hS : 0 < c.NUM_SIZES) (hD : 0 < c.NUM_DIRS) :
    ∃ ab sb d p, findVictim c s = Except.ok (ab, sb, d, p) := by
  rw [findVictim_eq]
  obtain ⟨a0, as, ha, hal⟩ := firstEntry_total
    s.age_buckets.reverse (by simpa using hi.avw.ne_nil hA)
  obtain ⟨s0, ss, hs, hsl⟩ := firstEntry_total _ (hi.svw.ne_nil hS)
  obtain ⟨d0, ds, hd, hdl⟩ := firstEntry_total
    s.dir_buckets.reverse (by simpa using hi.dvw.ne_nil hD)
  have hdir : ∀ ea ∈ s.age_buckets, ∀ es ∈ s.size_buckets,
      ∃ d p, dirSearch c s ea.2 es.2 = Except.ok (d, p) := by
    intro ea hea es hes
    simp only [dirSearch, hd]
    apply searchDirs_total
    intro x hx
    rw [← hdl] at hx
    obtain ⟨ed, hed, hedx⟩ := mem_map_snd hx
    have := age_getFile (hi.ages ea hea) (hi.size_mem hes)
      (hi.depth_mem (List.mem_reverse.mp hed)) c.victim_draw
    rw [← hedx]
    by_cases hne : (seg ea.2.id).filter (fun x => proj File.size s.heap x = es.2.size ∧
        proj File.depth s.heap x = ed.2.depth) = []
    · exact ⟨none, this.1 hne⟩
    · obtain ⟨f, _, hf⟩ := this.2 hne
      exact ⟨some f, hf⟩
  have hsize : ∀ ea ∈ s.age_buckets, ∃ sb d p, sizeSearch c s ea.2 = Except.ok (sb, d, p) := by
    intro ea hea
    simp only [sizeSearch, hs]
    apply searchSizes_total
    intro x hx
    rw [← hsl] at hx
    obtain ⟨es, hes, hesx⟩ := mem_map_snd hx
    rw [← hesx]
    exact hdir ea hea es hes
  simp only [ha]
  apply searchAges_total
  intro x hx
  rw [← hal] at hx
  obtain ⟨ea, hea, heax⟩ := mem_map_snd hx
  rw [← heax]
  exact hsize ea (List.mem_reverse.mp hea)

theorem findVictim_none_iff {c : Config} (hv : c.Valid) {s : State} {seg : Nat → List Addr}
    (hi : HeapInv c s seg) {ab : AgeBucket} {sb : SizeBucket} {d : DirBucket} {p : Ptr}
    (h : findVictim c s = Except.ok (ab, sb, d, p)) :
    p = none ↔ s.global_live_file_count = 0 := by
  constructor
  · intro hp
    subst hp
    obtain ⟨apre, apost, spre, spost, dpre, dpost, e1, e2, e3, e4, e5, e6, e7, e8⟩ :=
      findVictim_spec h
    obtain ⟨rfl, rfl, rfl⟩ := e8 rfl
    rw [hi.live]
    by_contra hne
    have hnil : cat seg c.NUM_AGES ≠ [] := fun e => hne (by rw [e]; rfl)
    obtain ⟨f, hf⟩ := List.exists_mem_of_ne_nil _ hnil
    obtain ⟨i, hiN, hfi⟩ := (mem_cat _).mp hf
    obtain ⟨ea, hea, heid⟩ := hi.avw.exists_id hiN
    obtain ⟨hsz, hdp⟩ := hi.attrs f hf
    obtain ⟨j, hj, hjs⟩ := mem_getD hsz 0
    obtain ⟨es, hes, hesid⟩ := hi.svw.exists_id (show j < c.NUM_SIZES from hj)
    obtain ⟨k, hk, hkd⟩ := mem_getD hdp 0
    obtain ⟨ed, hed, hedid⟩ := hi.dvw.exists_id (show k < c.NUM_DIRS from hk)
    have hes_size : es.2.size = proj File.size s.heap f := by
      rw [(hi.sizes es hes).1, hesid, hjs]
    have hed_depth : ed.2.depth = proj File.depth s.heap f := by
      rw [(hi.dirs ed hed).1, hedid, hkd]
    have hea_m : ea.2 ∈ s.age_buckets.reverse.map Prod.snd :=
      List.mem_map.mpr ⟨ea, List.mem_reverse.mpr hea, rfl⟩
    have hes_m : es.2 ∈ s.size_buckets.map Prod.snd := List.mem_map.mpr ⟨es, hes, rfl⟩
    have hed_m : ed.2 ∈ s.dir_buckets.reverse.map Prod.snd :=
      List.mem_map.mpr ⟨ed, List.mem_reverse.mpr hed, rfl⟩
    have hnone : ea.2.getFileToDelete c.victim_draw s.heap es.2.size ed.2.depth =
        Except.ok none := by
      rw [e1] at hea_m
      rcases List.mem_append.mp hea_m with h1 | h1
      · exact e4 ea.2 h1 es.2 hes_m ed.2 hed_m
      · rw [List.mem_singleton.mp h1]
        rw [e2] at hes_m
        rcases List.mem_append.mp hes_m with h2 | h2
        · exact e5 es.2 h2 ed.2 hed_m
        · rw [List.mem_singleton.mp h2]
          rw [e3] at hed_m
          rcases List.mem_append.mp hed_m with h3 | h3
          · exact e6 ed.2 h3
          · rw [List.mem_singleton.mp h3]; exact e7
    have hring := nestedRing_of_none (hi.ages ea hea) (hi.size_mem hes) (hi.depth_mem hed) hnone
    rw [nestedRing_eq (hi.ages ea hea) (hi.size_mem hes) (hi.depth_mem hed)] at hring
    have : f ∈ (seg ea.2.id).filter (fun x => proj File.size s.heap x = es.2.size ∧
        proj File.depth s.heap x = ed.2.depth) :=
      List.mem_filter.mpr ⟨by rw [heid]; exact hfi, by simp [hes_size, hed_depth]⟩
    rw [hring] at this
    simp at this
  · intro hl
    cases p with
    | none => rfl
    | some f =>
      exfalso
      obtain ⟨ea, _, _, hea, _, _, hab, _, _, hf, _⟩ := hi.victim h
      have : f ∈ cat seg c.NUM_AGES :=
        (mem_cat _).mpr ⟨ab.id, by rw [← hab]; exact hi.avw.id_lt hea, hf⟩
      have hlen := hi.live
      rw [hl] at hlen
      rw [List.length_eq_zero.mp hlen.symm] at this
      simp at this

/-! ## Faults other than the fatal exit -/

theorem noAbort_pure {α : Type} (a : α) : NoAbort (Pure.pure a : Res α) := by
  intro h; cases h

theorem noAbort_throw {α : Type} {e : Fault} (he : e ≠ Fault.cannotDelete) :
    NoAbort (throw e : Res α) := by
  intro h
  simp only [throw_eq_error, Except.error.injEq] at h
  exact he h

theorem noAbort_bind {α β : Type} {x : Res α} {f : α → Res β} (hx : NoAbort x)
    (hf : ∀ a, NoAbort (f a)) : NoAbort (x >>= f) := by
  cases x with
  | error e =>
    intro h
    apply hx
    simpa [Bind.bind, Except.bind] using h
  | ok a => exact hf a

theorem noAbort_fdiv (a b : Nat) : NoAbort (fdiv a b) := by
  unfold fdiv
  split
  · exact noAbort_throw (by decide)
  · exact noAbort_pure _

theorem noAbort_deref (p : Ptr) : NoAbort (deref p) := by
  unfold deref
  split
  · exact noAbort_pure _
  · exact noAbort_throw (by decide)

theorem noAbort_umFind {κ β : Type} (m : κ → Option β) (k : κ) : NoAbort (umFind m k) := by
  unfold umFind
  split
  · exact noAbort_pure _
  · exact noAbort_throw (by decide)

theorem noAbort_dir_reKey (dir_arr : List Int) (d : DirBucket) (live : Nat) (keys : Nat → Key) :
    NoAbort (d.reKey dir_arr live keys) := by
  unfold DirBucket.reKey
  exact noAbort_bind (noAbort_fdiv _ _) (fun _ => noAbort_pure _)

theorem noAbort_size_reKey (size_arr : List Nat) (b : SizeBucket) (live : Nat)
    (keys : Nat → Key) : NoAbort (b.reKey size_arr live keys) := by
  unfold SizeBucket.reKey
  exact noAbort_bind (noAbort_fdiv _ _) (fun _ => noAbort_pure _)

theorem noAbort_rebuildDirs (c : Config) (live : Nat) :
    ∀ (old acc : List (Key × DirBucket)) (keys : Nat → Key),
      NoAbort (rebuildDirs c live old acc keys) := by
  intro old
  induction old with
  | nil => intro acc keys; exact noAbort_pure _
  | cons e es ih =>
    intro acc keys
    simp only [rebuildDirs]
    exact noAbort_bind (noAbort_dir_reKey _ _ _ _) (fun _ => ih _ _)

theorem noAbort_rebuildSizes (c : Config) (live : Nat) :
    ∀ (old acc : List (Key × SizeBucket)) (keys : Nat → Key),
      NoAbort (rebuildSizes c live old acc keys) := by
  intro old
  induction old with
  | nil => intro acc keys; exact noAbort_pure _
  | cons e es ih =>
    intro acc keys
    simp only [rebuildSizes]
    exact noAbort_bind (noAbort_size_reKey _ _ _ _) (fun _ => ih _ _)

theorem noAbort_storeDir (c : Config) (live : Nat) (view : List (Key × DirBucket))
    (keys : Nat → Key) (d : DirBucket) : NoAbort (storeDir c live view keys d) := by
  unfold storeDir
  exact noAbort_bind (noAbort_dir_reKey _ _ _ _) (fun _ => noAbort_rebuildDirs c live _ _ _)

theorem noAbort_storeSize (c : Config) (live : Nat) (view : List (Key × SizeBucket))
    (keys : Nat → Key) (sb sb1 : SizeBucket) : NoAbort (storeSize c live view keys sb sb1) := by
  unfold storeSize
  exact noAbort_rebuildSizes c live _ _ _

theorem noAbort_dir_deleteFile (h : Heap) (d : DirBucket) (f : Addr) (live : Nat) :
    NoAbort (d.deleteFile h f live) := by
  unfold DirBucket.deleteFile
  split
  · exact noAbort_throw (by decide)
  · exact noAbort_bind (noAbort_fdiv _ _) (fun _ =>
      noAbort_bind (noAbort_deref _) (fun _ =>
        noAbort_bind (noAbort_deref _) (fun _ => noAbort_pure _)))

theorem noAbort_age_deleteFile (h : Heap) (a : AgeBucket) (f : Addr) (live : Nat) :
    NoAbort (a.deleteFile h f live) := by
  unfold AgeBucket.deleteFile
  exact noAbort_bind (noAbort_fdiv _ _) (fun _ =>
    noAbort_bind (noAbort_umFind _ _) (fun _ =>
      noAbort_bind (noAbort_umFind _ _) (fun _ =>
        noAbort_bind (noAbort_dir_deleteFile _ _ _ _) (fun _ => noAbort_pure _))))

theorem noAbort_size_deleteFile (h : Heap) (b : SizeBucket) (f : Addr) (live : Nat) :
    NoAbort (b.deleteFile h f live) := by
  unfold SizeBucket.deleteFile
  exact noAbort_bind (noAbort_fdiv _ _) (fun _ =>
    noAbort_bind (noAbort_umFind _ _) (fun _ =>
      noAbort_bind (noAbort_deref _) (fun _ =>
        noAbort_bind (noAbort_deref _) (fun _ => noAbort_pure _))))

theorem noAbort_list_deleteFile (h : Heap) (fs f : Addr) : NoAbort (AgeList.deleteFile h fs f) := by
  unfold AgeList.deleteFile
  exact noAbort_bind (noAbort_deref _) (fun _ =>
    noAbort_bind (noAbort_deref _) (fun _ => noAbort_pure _))

theorem deleteFile_noAbort {c : Config} {s : State} {ab : AgeBucket} {sb : SizeBucket}
    {db : DirBucket} {f : Addr} (h : findVictim c s = Except.ok (ab, sb, db, some f)) :
    NoAbort (deleteFile c s) := by
  unfold deleteFile
  rw [h]
  simp only [Bind.bind, Except.bind, pure_eq_ok]
  refine noAbort_bind (noAbort_storeDir _ _ _ _ _) (fun x => ?_)
  refine noAbort_bind (noAbort_age_deleteFile _ _ _ _) (fun y => ?_)
  refine noAbort_bind (noAbort_size_deleteFile _ _ _ _) (fun z => ?_)
  refine noAbort_bind (noAbort_storeSize _ _ _ _ _ _) (fun w => ?_)
  exact noAbort_bind (noAbort_list_deleteFile _ _ _) (fun _ => noAbort_pure _)

/-- Claim C14 on the runs that never empty the file system: in every reachable state, no
delete having removed the last live file (non-empty histograms with pairwise distinct bins), the
victim search of `deleteFile` returns, it finds no file if and only if no file is live, and
`deleteFile` takes the fatal "cannot delete" exit exactly in that case: whenever
`global_live_file_count > 0` the search returns a file. -/
theorem delete_aborts_iff_no_live_file (c : Config) (s : State) (hv : c.Valid)
    (hr : Reachable c s) (hA : 0 < c.NUM_AGES) (hS : 0 < c.NUM_SIZES) (hD : 0 < c.NUM_DIRS) :
    CannotDeleteIff c s := by
  obtain ⟨seg, hi⟩ := reachable_inv hv hr
  obtain ⟨ab, sb, db, p, hf⟩ := findVictim_total hi hA hS hD
  have hiff := findVictim_none_iff hv hi hf
  refine ⟨⟨ab, sb, db, p, hf, hiff⟩, ?_, ?_⟩
  · intro hl
    have hp := hiff.mpr hl
    subst hp
    unfold deleteFile
    rw [hf]
    rfl
  · intro hl
    cases p with
    | none => exact absurd (hiff.mp rfl) (by omega)
    | some f => exact deleteFile_noAbort hf

theorem delete_aborts_iff_no_live_file_witness :
    cfgTwoAges.Valid ∧ 0 < cfgTwoAges.NUM_AGES ∧ 0 < cfgTwoAges.NUM_SIZES ∧
    0 < cfgTwoAges.NUM_DIRS ∧ CannotDeleteIff cfgTwoAges stateTen :=
  ⟨by decide, by decide, by decide, by decide,
    delete_aborts_iff_no_live_file cfgTwoAges stateTen (by decide) (reachable_run (by decide!))
      (by decide) (by decide) (by decide)⟩

/-! ## Paths -/

theorem digitChar_val (k : Nat) (hk : k < 10) :
    (Nat.digitChar k).toNat - 48 = k ∧ Nat.digitChar k ≠ '/' := by
  interval_cases k <;> exact ⟨rfl, by decide⟩

theorem digitsVal_snoc (l : List Char) (ch : Char) :
    digitsVal (l ++ [ch]) = 10 * digitsVal l + (ch.toNat - 48) := by
  unfold digitsVal
  rw [List.foldl_append]
  rfl

theorem toDigitsCore_spec :
    ∀ (fuel n : Nat) (ds : List Char), n < fuel →
      ∃ pre, Nat.toDigitsCore 10 fuel n ds = pre ++ ds ∧ digitsVal pre = n ∧
        ∀ ch ∈ pre, ch ≠ '/' := by
  intro fuel
  induction fuel with
  | zero => intro n ds h; omega
  | succ fuel ih =>
    intro n ds hn
    obtain ⟨hd1, hd2⟩ := digitChar_val (n % 10) (Nat.mod_lt _ (by decide))
    simp only [Nat.toDigitsCore]
    by_cases h0 : n / 10 = 0
    · rw [if_pos h0]
      refine ⟨[Nat.digitChar (n % 10)], rfl, ?_, ?_⟩
      · have := digitsVal_snoc [] (Nat.digitChar (n % 10))
        simp only [List.nil_append] at this
        rw [this, hd1]
        simp only [digitsVal, List.foldl_nil]
        omega
      · intro ch hch
        rw [List.mem_singleton.mp hch]
        exact hd2
    · rw [if_neg h0]
      obtain ⟨pre, e1, e2, e3⟩ := ih (n / 10) (Nat.digitChar (n % 10) :: ds) (by omega)
      refine ⟨pre ++ [Nat.digitChar (n % 10)], by rw [e1]; simp, ?_, ?_⟩
      · rw [digitsVal_snoc, e2, hd1]
        omega
      · intro ch hch
        rcases List.mem_append.mp hch with h1 | h1
        · exact e3 ch h1
        · rw [List.mem_singleton.mp h1]; exact hd2

theorem toString_nat_data (n : Nat) :
    digitsVal (toString n).data = n ∧ ∀ ch ∈ (toString n).data, ch ≠ '/' := by
  obtain ⟨pre, e1, e2, e3⟩ := toDigitsCore_spec (n + 1) n [] (Nat.lt_succ_self n)
  have hd : (toString n).data = Nat.toDigits 10 n := rfl
  rw [hd]
  unfold Nat.toDigits
  rw [e1, List.append_nil]
  exact ⟨e2, e3⟩

theorem prefix_unique (ch : Char) :
    ∀ (d1 d2 r1 r2 : List Char), ch ∉ d1 → ch ∉ d2 → d1 ++ ch :: r1 = d2 ++ ch :: r2 →
      d1 = d2 := by
  intro d1
  induction d1 with
  | nil =>
    intro d2 r1 r2 _ h2 h
    cases d2 with
    | nil => rfl
    | cons y u =>
      simp only [List.nil_append, List.cons_append, List.cons.injEq] at h
      exact absurd (by rw [h.1]; exact List.mem_cons_self _ _) h2
  | cons x t ih =>
    intro d2 r1 r2 h1 h2 h
    cases d2 with
    | nil =>
      simp only [List.nil_append, List.cons_append, List.cons.injEq] at h
      exact absurd (by rw [← h.1]; exact List.mem_cons_self _ _) h1
    | cons y u =>
      simp only [List.cons_append, List.cons.injEq] at h
      rw [h.1, ih u r1 r2 (fun hh => h1 (List.mem_cons_of_mem _ hh))
        (fun hh => h2 (List.mem_cons_of_mem _ hh)) h.2]

theorem path_tick_inj {q1 q2 : String} {t1 t2 : Nat}
    (h : q1 ++ "/" ++ toString t1 = q2 ++ "/" ++ toString t2) : t1 = t2 := by
  have hd := congrArg (fun x => x.data.reverse) h
  simp only [String.data_append, List.reverse_append] at hd
  have hs : ("/" : String).data.reverse = ['/'] := rfl
  rw [hs] at hd
  simp only [List.append_assoc, List.singleton_append] at hd
  obtain ⟨v1, n1⟩ := toString_nat_data t1
  obtain ⟨v2, n2⟩ := toString_nat_data t2
  have := prefix_unique '/' _ _ _ _ (fun hh => n1 _ (List.mem_reverse.mp hh) rfl)
    (fun hh => n2 _ (List.mem_reverse.mp hh) rfl) hd
  have hdata : (toString t1).data = (toString t2).data := List.reverse_injective this
  rw [← v1, ← v2, hdata]

theorem fullName_tick (d : DirBucket) (tick r : Nat) :
    ∃ q : String, fullName d tick r = q ++ "/" ++ toString tick := by
  unfold fullName
  split
  · exact ⟨d.pfx ++ "/" ++ ("d" ++ toString r), by simp only [String.append_assoc]⟩
  · exact ⟨d.pfx, by rw [String.append_empty]⟩

/-- A name shorter than `PATH_MAX` is written whole. -/
theorem fileName_of_fit {d : DirBucket} {tick r : Nat}
    (h : (fullName d tick r).length < PATH_MAX) : fileName d tick r = fullName d tick r := by
  unfold fileName
  have hl : (fullName d tick r).data.length ≤ PATH_MAX - 1 := by
    have : (fullName d tick r).length = (fullName d tick r).data.length := rfl
    omega
  rw [List.take_of_length_le hl]

/-- A prefix of at least `PATH_MAX - 1` characters fills the whole name: the tick is cut off,
and the name is the same at every tick. -/
theorem fileName_of_long_prefix {d : DirBucket} (tick r : Nat)
    (h : PATH_MAX - 1 ≤ d.pfx.length) :
    fileName d tick r = String.mk (d.pfx.data.take (PATH_MAX - 1)) := by
  unfold fileName fullName
  have hl : PATH_MAX - 1 ≤ d.pfx.data.length := h
  simp only [String.data_append, List.append_assoc]
  rw [List.take_append_of_le_length hl]

theorem fileName_tick (d : DirBucket) (tick r : Nat)
    (h : (fullName d tick r).length < PATH_MAX) :
    ∃ q : String, fileName d tick r = q ++ "/" ++ toString tick := by
  rw [fileName_of_fit h]
  exact fullName_tick d tick r

theorem upd_path (h : Heap) (a : Addr) (g : File → File) (hg : ∀ r, (g r).path = r.path)
    (x : Addr) : ((h.upd a g) x).path = (h x).path := by
  unfold Heap.upd
  split
  · exact hg _
  · rfl

theorem list_addFile_path {hp h1 : Heap} {fs f : Addr}
    (h : AgeList.addFile hp fs f = Except.ok h1) (x : Addr) : (h1 x).path = (hp x).path := by
  obtain ⟨p, _, rfl⟩ := list_addFile_eq_ok h
  simp only [Heap.upd]; split_ifs <;> rfl

theorem size_addFile_path {hp h1 : Heap} {s s1 : SizeBucket} {f : Addr} {live : Nat}
    (h : s.addFile hp f live = Except.ok (h1, s1)) (x : Addr) : (h1 x).path = (hp x).path := by
  obtain ⟨_, d, _, hcase⟩ := size_addFile_eq_ok h
  rcases hcase with ⟨_, _, rfl, _⟩ | ⟨st, p, _, _, rfl, _⟩
  · simp only [Heap.upd]; split_ifs <;> rfl
  · simp only [Heap.upd]; split_ifs <;> rfl

theorem dir_addFile_path {hp h1 : Heap} {d d1 : DirBucket} {f : Addr} {live : Nat}
    (h : d.addFile hp f live = Except.ok (h1, d1)) (x : Addr) : (h1 x).path = (hp x).path := by
  obtain ⟨_, hcase⟩ := dir_addFile_eq_ok h
  rcases hcase with ⟨_, _, rfl, _⟩ | ⟨st, p, _, _, _, rfl, _⟩
  · simp only [Heap.upd]; split_ifs <;> rfl
  · simp only [Heap.upd]; split_ifs <;> rfl

theorem age_addFile_path {hp h1 : Heap} {a a1 : AgeBucket} {f : Addr} {live : Nat}
    {at_front : Bool} (h : a.addFile hp f live at_front = Except.ok (h1, a1)) (x : Addr) :
    (h1 x).path = (hp x).path := by
  obtain ⟨s, d, d1, _, _, hd, _⟩ := age_addFile_eq_ok h
  exact dir_addFile_path hd x

theorem createFile_path {c : Config} {s : State} {pos : Int} {r : Nat} {res : CreateResult}
    (h : createFile c s pos r = Except.ok res)
    (hfit : ∀ k d rest, s.dir_buckets = (k, d) :: rest →
      (fullName d s.tick r).length < PATH_MAX) :
    ∃ q : String, (res.state.heap s.next_addr).path = q ++ "/" ++ toString s.tick := by
  obtain ⟨sb, d, dv, dk, h1, h2, h3, sb1, sv, sk, ab, ab1, _, ⟨k, rest, hd⟩, _, hl, hs, _, _, ha,
    hres⟩ := createFile_eq_ok h
  obtain ⟨q, hq⟩ := fileName_tick d s.tick r (hfit k d rest hd)
  refine ⟨q, ?_⟩
  rw [hres]
  show (h3 s.next_addr).path = _
  rw [age_addFile_path ha, size_addFile_path hs, list_addFile_path hl, ← hq]
  simp [Heap.upd, File.new]

theorem op_reachable {c : Config} {s : State} (h : OpReachable c s) : Reachable c s := by
  induction h with
  | byInit h0 => exact Reachable.init h0
  | byOp cr pos r _ hop ih => exact Reachable.step (Cmd.op cr pos r) ih hop
  | byReAge t _ hre ih => exact Reachable.step (Cmd.reAge t) ih hre

theorem named_reachable {c : Config} {s : State} (h : NamedReachable c s) :
    OpReachable c s := by
  induction h with
  | byInit h0 => exact OpReachable.byInit h0
  | byOp cr pos r _ _ hop ih => exact OpReachable.byOp cr pos r ih hop
  | byReAge t _ hre ih => exact OpReachable.byReAge t ih hre

theorem paths_by_tick {c : Config} (hv : c.Valid) {s : State} (hr : NamedReachable c s) :
    PathsByTick s := by
  induction hr with
  | byInit h0 =>
    have hi := init_inv hv h0
    unfold PathsByTick
    rw [hi.liveFiles_eq, cat_nil]
    exact ⟨List.Pairwise.nil, fun a ha => absurd ha (List.not_mem_nil a)⟩
  | @byOp s s1 cr pos r hr0 hfit hop ih =>
    obtain ⟨seg, hi⟩ := reachable_inv hv (op_reachable (named_reachable hr0))
    obtain ⟨ih1, ih2⟩ := ih
    rw [hi.liveFiles_eq] at ih1 ih2
    have htick := performOp_tick hop
    rcases performOp_eq_ok hop with ⟨_, res, hres, hs1⟩ | ⟨_, s2, sz, hdel, hs1⟩
    · obtain ⟨hi1, hN, hfresh, _, hage, _, _, ⟨G, S, D, R⟩, _⟩ :=
        createFile_inv hv hi.tick_succ hres
      have hcr : cr = true := by assumption
      obtain ⟨q, hq⟩ := createFile_path hres (by
        intro k d rest hd
        have hd1 : s.dir_buckets = (k, d) :: rest := hd
        have hn := hfit hcr
        unfold nextName at hn
        rw [hd1] at hn
        exact hn)
      have hfL : s.next_addr ∉ cat seg c.NUM_AGES :=
        fun hh => hfresh (List.mem_cons_of_mem _ hh)
      have hheap : s1.heap = res.state.heap := by rw [hs1]
      have hlive : liveFiles s1 = cat seg c.NUM_AGES ++ [s.next_addr] := by
        have : liveFiles s1 = liveFiles res.state := by rw [hs1]; rfl
        rw [this, hi1.liveFiles_eq]
        exact cat_update_zero hN [s.next_addr]
      have hold : ∀ a ∈ cat seg c.NUM_AGES, (s1.heap a).age = (s.heap a).age ∧
          (s1.heap a).path = (s.heap a).path := by
        intro a ha
        have hne : a ∉ [s.next_addr] := by
          intro hh
          rw [List.mem_singleton.mp hh] at ha
          exact hfL ha
        rw [hheap]
        exact ⟨R.age a hne, R.path a hne⟩
      have hnew : (s1.heap s.next_addr).age = s.tick + 1 := by rw [hheap]; exact hage
      unfold PathsByTick
      rw [hlive]
      constructor
      · refine List.pairwise_append.mpr ⟨?_, List.pairwise_singleton _ _, ?_⟩
        · refine List.Pairwise.imp_of_mem ?_ ih1
          intro a b ha hb hab
          rw [(hold a ha).1, (hold b hb).1]
          exact hab
        · intro a ha b hb
          rw [List.mem_singleton.mp hb, (hold a ha).1, hnew]
          exact Nat.lt_succ_of_le (ih2 a ha).1
      · intro a ha
        rcases List.mem_append.mp ha with h1 | h1
        · rw [(hold a h1).1, (hold a h1).2, htick]
          exact ⟨Nat.le_succ_of_le (ih2 a h1).1, (ih2 a h1).2⟩
        · rw [List.mem_singleton.mp h1, hnew, htick]
          refine ⟨Nat.le_refl _, q, ?_⟩
          rw [hheap]
          exact hq
    · obtain ⟨ea, es, ed, f, hea, _, _, _, hf, _, _, _, hi1, ⟨G, S, D, R⟩, _⟩ :=
        deleteFile_inv hv hi.tick_succ hdel
      have hheap : s1.heap = s2.heap := by rw [hs1]
      have hLnd : (cat seg c.NUM_AGES).Nodup := (List.nodup_cons.mp hi.nodup).2
      have hlive : liveFiles s1 = (cat seg c.NUM_AGES).erase f := by
        have : liveFiles s1 = liveFiles s2 := by rw [hs1]; rfl
        rw [this, hi1.liveFiles_eq]
        exact cat_update_erase hLnd (hi.avw.id_lt hea) hf
      have hold : ∀ a, (s1.heap a).age = (s.heap a).age ∧
          (s1.heap a).path = (s.heap a).path := by
        intro a
        rw [hheap]
        exact ⟨R.age a (List.not_mem_nil a), R.path a (List.not_mem_nil a)⟩
      unfold PathsByTick
      rw [hlive]
      constructor
      · refine List.Pairwise.imp_of_mem ?_ (ih1.sublist (List.erase_sublist f _))
        intro a b _ _ hab
        rw [(hold a).1, (hold b).1]
        exact hab
      · intro a ha
        have ha1 := List.mem_of_mem_erase ha
        rw [(hold a).1, (hold a).2, htick]
        exact ⟨Nat.le_succ_of_le (ih2 a ha1).1, (ih2 a ha1).2⟩
  | @byReAge s s1 t hr0 hre ih =>
    obtain ⟨seg, hi⟩ := reachable_inv hv (op_reachable (named_reachable hr0))
    obtain ⟨ih1, ih2⟩ := ih
    rw [hi.liveFiles_eq] at ih1 ih2
    obtain ⟨seg1, h1, av, ak, hs1, hi1, hcat, _, _, _, _, ⟨D, R⟩, _⟩ := reAge_inv hi hre
    have hheap : s1.heap = h1 := by rw [hs1]
    have hold : ∀ a, (s1.heap a).age = (s.heap a).age ∧
        (s1.heap a).path = (s.heap a).path := by
      intro a
      rw [hheap]
      exact ⟨R.age a (List.not_mem_nil a), R.path a (List.not_mem_nil a)⟩
    unfold PathsByTick
    rw [hi1.liveFiles_eq, hcat, reAge_tick hre]
    constructor
    · refine List.Pairwise.imp_of_mem ?_ ih1
      intro a b _ _ hab
      rw [(hold a).1, (hold b).1]
      exact hab
    · intro a ha
      rw [(hold a).1, (hold a).2]
      exact ih2 a ha

/-- Claim C17 for names shorter than `PATH_MAX`: in every state reached by `performOp` and
`reAge` (histograms with pairwise distinct bins) in which every create formatted a name shorter
than `PATH_MAX`, the live files have pairwise distinct paths: the path of each file ends in `/`
followed by the decimal tick at which it was created, the birth ticks increase strictly along
the global list because every operation increments `tick` once before it creates at most one
file, and none exceeds `tick`. -/
theorem live_paths_distinct (c : Config) (s : State) (hv : c.Valid)
    (hr : NamedReachable c s) : PathsByTick s ∧ PathsDistinct s := by
  have hp := paths_by_tick hv hr
  refine ⟨hp, List.Pairwise.imp_of_mem ?_ hp.1⟩
  intro a b ha hb hab heq
  obtain ⟨q1, h1⟩ := (hp.2 a ha).2
  obtain ⟨q2, h2⟩ := (hp.2 b hb).2
  rw [h1, h2] at heq
  have := path_tick_inj heq
  omega

theorem live_paths_distinct_witness :
    cfgTwoDirs.Valid ∧
    (liveFiles (stateOf (performOp cfgTwoDirs
      (stateOf (performOp cfgTwoDirs (stateOf (init cfgTwoDirs)) true 0 0)) true 0 0))).map
      (fun a => ((stateOf (performOp cfgTwoDirs
        (stateOf (performOp cfgTwoDirs (stateOf (init cfgTwoDirs)) true 0 0)) true 0 0)).heap
          a).path) = ["/1", "/2"] ∧
    PathsByTick (stateOf (performOp cfgTwoDirs
      (stateOf (performOp cfgTwoDirs (stateOf (init cfgTwoDirs)) true 0 0)) true 0 0)) ∧
    PathsDistinct (stateOf (performOp cfgTwoDirs
      (stateOf (performOp cfgTwoDirs (stateOf (init cfgTwoDirs)) true 0 0)) true 0 0)) :=
  ⟨by decide, by decide!, live_paths_distinct cfgTwoDirs _ (by decide)
    (NamedReachable.byOp true 0 0
      (NamedReachable.byOp true 0 0 (NamedReachable.byInit (ok_stateOf (by decide!)))
        (fun _ => by decide!) (ok_stateOf (by decide!)))
      (fun _ => by decide!) (ok_stateOf (by decide!)))⟩

/-! ## The bound on `live_data_size` -/

theorem aging_inv {c : Config} {till : Nat} (hv : c.Valid) {s : State}
    (hr : AgingReachable c till s) : ∃ seg, HeapInv c s seg := by
  induction hr with
  | start h0 => exact ⟨_, init_inv hv h0⟩
  | fill pos r _ _ _ hop ih =>
    obtain ⟨seg, hi⟩ := ih
    exact performOp_inv hv hi hop
  | setK _ ih =>
    obtain ⟨seg, hi⟩ := ih
    exact ⟨seg, ⟨hi.nodup, hi.glist, hi.live, hi.fresh, hi.attrs, hi.births, hi.born, hi.avw,
      hi.svw, hi.dvw, hi.ages, hi.sizes, hi.dirs, hi.sideal, hi.dideal⟩⟩
  | stableOp cr r _ hop ih =>
    obtain ⟨seg, hi⟩ := ih
    exact performOp_inv hv hi hop
  | reAged t _ hre ih =>
    obtain ⟨seg, hi⟩ := ih
    obtain ⟨seg1, _, _, _, _, hi1, _⟩ := reAge_inv hi hre
    exact ⟨seg1, hi1⟩

theorem sub64_of_le {a b : Nat} (h : b ≤ a) (ha : a < 2 ^ 64) : sub64 a b = a - b := by
  unfold sub64
  have h64 : (2 : Nat) ^ 64 = 18446744073709551616 := by norm_num
  rw [h64] at ha ⊢
  omega

theorem sum_map_erase {L : List Addr} {f : Addr} (hf : f ∈ L) (g : Addr → Nat) :
    ((L.erase f).map g).sum + g f = (L.map g).sum := by
  have := ((List.perm_cons_erase hf).map g).sum_eq
  rw [this, List.map_cons, List.sum_cons]
  omega

theorem sum_map_le {L : List Addr} {f : Addr} (hf : f ∈ L) (g : Addr → Nat) :
    g f ≤ (L.map g).sum := by
  rw [← sum_map_erase hf g]
  omega

theorem init_data_size {c : Config} {s : State} (h : init c = Except.ok s) :
    s.live_data_size = 0 := by
  unfold init at h
  obtain ⟨⟨sv, sk, g1, io1⟩, _, h⟩ := bind_eq_ok h
  obtain ⟨⟨av, ak, g2, io2⟩, _, h⟩ := bind_eq_ok h
  obtain ⟨⟨dv, dk, g3, io3⟩, _, h⟩ := bind_eq_ok h
  simp only [pure_eq_ok, Except.ok.injEq] at h
  rw [← h]

theorem create_data_size {c : Config} (hv : c.Valid) {M : Nat}
    (hM : ∀ sz ∈ c.size_arr, sz ≤ M) {s s1 : State} {seg : Nat → List Addr}
    (hi : HeapInv c s seg) {pos : Int} {r : Nat}
    (hop : performOp c s true pos r = Except.ok s1)
    (hsum : s.live_data_size = ((liveFiles s).map (fun a => (s.heap a).size)).sum) :
    ∃ sz, sz ≤ M ∧ s1.live_data_size = add64 s.live_data_size sz ∧
      ((liveFiles s1).map (fun a => (s1.heap a).size)).sum = s.live_data_size + sz ∧
      (pos = -1 → add64 sz s.live_data_size < c.total_disk_capacity) := by
  rcases performOp_eq_ok hop with ⟨_, res, hres, hs1⟩ | ⟨hc, _⟩
  · obtain ⟨hi1, hN, hfresh, hsize, _, ⟨e, he, hesz⟩, _, ⟨G, S, D, R⟩, _⟩ :=
      createFile_inv hv hi.tick_succ hres
    obtain ⟨sb, d, dv, dk, h1, h2, h3, sb1, sv, sk, ab, ab1, hsb, _, _, _, _, _, _, _, hr1⟩ :=
      createFile_eq_ok hres
    have hfL : s.next_addr ∉ cat seg c.NUM_AGES :=
      fun hh => hfresh (List.mem_cons_of_mem _ hh)
    have hheap : s1.heap = res.state.heap := by rw [hs1]
    have hlive : liveFiles s1 = cat seg c.NUM_AGES ++ [s.next_addr] := by
      have : liveFiles s1 = liveFiles res.state := by rw [hs1]; rfl
      rw [this, hi1.liveFiles_eq]
      exact cat_update_zero hN [s.next_addr]
    have hret : res.ret_size ≤ M := by
      rw [← hesz]
      exact hM _ (hi.size_mem he)
    have hlds : res.state.live_data_size = s.live_data_size := by rw [hr1]
    refine ⟨res.ret_size, hret, by rw [hs1, ← hlds], ?_, ?_⟩
    · rw [hlive, List.map_append, List.sum_append, hsum, hi.liveFiles_eq]
      have hold : (cat seg c.NUM_AGES).map (fun a => (s1.heap a).size) =
          (cat seg c.NUM_AGES).map (fun a => (s.heap a).size) := by
        apply List.map_congr_left
        intro a ha
        have hne : a ∉ [s.next_addr] := by
          intro hh
          rw [List.mem_singleton.mp hh] at ha
          exact hfL ha
        rw [hheap]
        exact R.size a hne
      rw [hold]
      simp only [List.map_cons, List.map_nil, List.sum_cons, List.sum_nil, Nat.add_zero]
      rw [hheap]
      have : (res.state.heap s.next_addr).size = res.ret_size := hsize
      rw [this]
    · intro hpos
      subst hpos
      simp only [show ¬ ((-1 : Int) ≥ 0) by decide, if_false] at hsb
      obtain ⟨pre, e1, post, _, he1, hfit, _⟩ := pickSize_spec _ _ _ _ hsb
      have : res.ret_size = sb.size := by rw [hr1]
      rw [this, ← he1]
      exact hfit
  · simp at hc

theorem delete_data_size {c : Config} (hv : c.Valid) {s s1 : State} {seg : Nat → List Addr}
    (hi : HeapInv c s seg) {pos : Int} {r : Nat}
    (hop : performOp c s false pos r = Except.ok s1)
    (hsum : s.live_data_size = ((liveFiles s).map (fun a => (s.heap a).size)).sum)
    (hlt : s.live_data_size < 2 ^ 64) :
    s1.live_data_size = ((liveFiles s1).map (fun a => (s1.heap a).size)).sum ∧
      s1.live_data_size ≤ s.live_data_size := by
  rcases performOp_eq_ok hop with ⟨hc, _⟩ | ⟨_, s2, sz, hdel, hs1⟩
  · simp at hc
  · obtain ⟨ea, es, ed, f, hea, _, _, _, hf, hfsz, _, hsz, hi1, ⟨G, S, D, R⟩, _⟩ :=
      deleteFile_inv hv hi.tick_succ hdel
    obtain ⟨_, _, _, _, _, _, _, _, _, _, _, _, _, _, _, _, _, _, _, _, hr1⟩ :=
      deleteFile_eq_ok hdel
    have hheap : s1.heap = s2.heap := by rw [hs1]
    have hLnd : (cat seg c.NUM_AGES).Nodup := (List.nodup_cons.mp hi.nodup).2
    have hfL : f ∈ cat seg c.NUM_AGES := (mem_cat _).mpr ⟨_, hi.avw.id_lt hea, hf⟩
    have hlive : liveFiles s1 = (cat seg c.NUM_AGES).erase f := by
      have : liveFiles s1 = liveFiles s2 := by rw [hs1]; rfl
      rw [this, hi1.liveFiles_eq]
      exact cat_update_erase hLnd (hi.avw.id_lt hea) hf
    have hlds : s2.live_data_size = s.live_data_size := by rw [hr1]
    have hszf : sz = (s.heap f).size := by rw [hsz, ← hfsz]; rfl
    have hold : ((cat seg c.NUM_AGES).erase f).map (fun a => (s1.heap a).size) =
        ((cat seg c.NUM_AGES).erase f).map (fun a => (s.heap a).size) := by
      apply List.map_congr_left
      intro a _
      rw [hheap]
      exact R.size a (List.not_mem_nil a)
    have hle : sz ≤ s.live_data_size := by
      rw [hsum, hi.liveFiles_eq, hszf]
      exact sum_map_le hfL (fun a => (s.heap a).size)
    have h1 : s1.live_data_size = s.live_data_size - sz := by
      rw [hs1]
      show sub64 s2.live_data_size sz = _
      rw [hlds]
      exact sub64_of_le hle hlt
    have herase : (((cat seg c.NUM_AGES).erase f).map (fun a => (s.heap a).size)).sum + sz =
        s.live_data_size := by
      rw [hszf, hsum, hi.liveFiles_eq]
      exact sum_map_erase hfL _
    constructor
    · rw [h1, hlive, hold]
      omega
    · rw [h1]; omega

theorem data_size_inv {c : Config} {till M : Nat} (hv : c.Valid)
    (htill : till ≤ c.total_disk_capacity) (hpos : 0 < c.total_disk_capacity)
    (hM : ∀ sz ∈ c.size_arr, sz ≤ M) (hcap : c.total_disk_capacity + 2 * M < 2 ^ 64)
    {s : State} (hr : AgingReachable c till s) : DataSizeBounded c M s := by
  have h64 : (2 : Nat) ^ 64 = 18446744073709551616 := by norm_num
  rw [h64] at hcap
  induction hr with
  | start h0 =>
    have hi := init_inv hv h0
    unfold DataSizeBounded
    rw [init_data_size h0, hi.liveFiles_eq, cat_nil]
    exact ⟨rfl, by omega⟩
  | @fill s s1 pos r hr0 _ hlt hop ih =>
    obtain ⟨seg, hi⟩ := aging_inv hv hr0
    obtain ⟨ih1, ih2⟩ := ih
    obtain ⟨sz, hsz, hl, hs, _⟩ := create_data_size hv hM hi hop ih1
    have : add64 s.live_data_size sz = s.live_data_size + sz := by
      unfold add64
      rw [h64]
      omega
    rw [this] at hl
    exact ⟨by rw [hl, hs], by rw [hl]; omega⟩
  | setK _ ih => exact ih
  | @stableOp s s1 cr r hr0 hop ih =>
    obtain ⟨seg, hi⟩ := aging_inv hv hr0
    obtain ⟨ih1, ih2⟩ := ih
    cases cr with
    | true =>
      obtain ⟨sz, hsz, hl, hs, hfit⟩ := create_data_size hv hM hi hop ih1
      have hfit1 := hfit rfl
      have h1 : add64 s.live_data_size sz = s.live_data_size + sz := by
        unfold add64
        rw [h64]
        omega
      have h2 : add64 sz s.live_data_size = sz + s.live_data_size := by
        unfold add64
        rw [h64]
        omega
      rw [h1] at hl
      rw [h2] at hfit1
      exact ⟨by rw [hl, hs], by rw [hl]; omega⟩
    | false =>
      obtain ⟨h1, h2⟩ := delete_data_size hv hi hop ih1 (by rw [h64]; omega)
      exact ⟨h1, by omega⟩
  | @reAged s s1 t hr0 hre ih =>
    obtain ⟨seg, hi⟩ := aging_inv hv hr0
    obtain ⟨ih1, ih2⟩ := ih
    obtain ⟨seg1, h1, av, ak, hs1, hi1, hcat, _, _, _, _, ⟨D, R⟩, _⟩ := reAge_inv hi hre
    have hlds : s1.live_data_size = s.live_data_size := by rw [hs1]
    have hheap : s1.heap = h1 := by rw [hs1]
    unfold DataSizeBounded
    rw [hlds, hi1.liveFiles_eq, hcat]
    refine ⟨?_, ih2⟩
    rw [ih1, hi.liveFiles_eq]
    congr 1
    apply List.map_congr_left
    intro a _
    rw [hheap]
    exact (R.size a (List.not_mem_nil a)).symm

theorem toU64_mul_le (cap : Nat) {u : ℚ} (h0 : 0 ≤ u) (h1 : u ≤ 1) :
    toU64 ((cap : ℚ) * u) ≤ cap := by
  unfold toU64
  have hle : (cap : ℚ) * u ≤ ((cap : Int) : ℚ) := by
    have : (cap : ℚ) * u ≤ (cap : ℚ) * 1 := mul_le_mul_of_nonneg_left h1 (Nat.cast_nonneg cap)
    simpa using this
  have hfl : Int.floor ((cap : ℚ) * u) ≤ (cap : Int) := by
    have := Int.floor_le_floor hle
    rwa [Int.floor_intCast] at this
  omega

theorem rapid_reachable {c : Config} {dr : Draws} {till : Nat} :
    ∀ (fuel i : Nat) (s s1 : State), AgingReachable c till s →
      performRapidAging c dr till fuel i s = Except.ok (some s1) → AgingReachable c till s1 := by
  intro fuel
  induction fuel with
  | zero =>
    intro i s s1 hr h
    simp only [performRapidAging] at h
    split at h
    · simp [pure_eq_ok] at h
    · simp only [pure_eq_ok, Except.ok.injEq, Option.some.injEq] at h
      rw [← h]; exact hr
  | succ fuel ih =>
    intro i s s1 hr h
    simp only [performRapidAging] at h
    split at h
    · rename_i hlt
      obtain ⟨s2, hop, h⟩ := bind_eq_ok h
      exact ih (i + 1) s2 s1 (AgingReachable.fill _ _ hr (Int.natCast_nonneg _) hlt hop) h
    · simp only [pure_eq_ok, Except.ok.injEq, Option.some.injEq] at h
      rw [← h]; exact hr

theorem filled_ok {r : Res (Option State)} (h : isFilled r = true) :
    r = Except.ok (some (filledState r)) := by
  cases r with
  | error e => simp [isFilled] at h
  | ok o =>
    cases o with
    | none => simp [isFilled] at h
    | some s => rfl

theorem stableLoop_reachable {c : Config} {p : Probe} {dr : Draws} {till ft ts : Nat}
    {cm : Int} :
    ∀ (fuel i : Nat) (rt : ℚ) (s : State) (res : StableResult), AgingReachable c till s →
      stableLoop c p dr ft ts cm fuel i rt s = Except.ok (some res) →
      AgingReachable c till res.state := by
  intro fuel
  induction fuel with
  | zero =>
    intro i rt s res _ h
    simp [stableLoop, pure_eq_ok] at h
  | succ fuel ih =>
    intro i rt s res hr h
    simp only [stableLoop] at h
    obtain ⟨s1, hop, h⟩ := bind_eq_ok h
    obtain ⟨s2, hre, h⟩ := bind_eq_ok h
    obtain ⟨⟨rt1, inner⟩, _, h⟩ := bind_eq_ok h
    have hr2 : AgingReachable c till s2 :=
      AgingReachable.reAged _ (AgingReachable.stableOp _ _ hr hop) hre
    simp only at h
    split_ifs at h
    all_goals first
      | exact ih _ _ _ _ hr2 h
      | (simp only [pure_eq_ok, Except.ok.injEq, Option.some.injEq] at h
         rw [← h]; exact hr2)

theorem stable_reachable {c : Config} {p : Probe} {dr : Draws} {till ts fuel : Nat} {rt : ℚ}
    {s : State} {res : StableResult} (hr : AgingReachable c till s)
    (h : performStableAging c p dr ts fuel rt s = Except.ok (some res)) :
    AgingReachable c till res.state := by
  unfold performStableAging at h
  obtain ⟨ft, _, h⟩ := bind_eq_ok h
  obtain ⟨s0, hre, h⟩ := bind_eq_ok h
  exact stableLoop_reachable _ _ _ _ _ (AgingReachable.reAged _ hr hre) h

/-! ## Totality of `createFile` -/

theorem dir_reKey_total (dir_arr : List Int) (d : DirBucket) {live : Nat} (hl : live ≠ 0)
    (keys : Nat → Key) : ∃ r, d.reKey dir_arr live keys = Except.ok r := by
  simp [DirBucket.reKey, fdiv, hl, pure_eq_ok, bind, Except.bind]

theorem size_reKey_total (size_arr : List Nat) (b : SizeBucket) {live : Nat} (hl : live ≠ 0)
    (keys : Nat → Key) : ∃ r, b.reKey size_arr live keys = Except.ok r := by
  simp [SizeBucket.reKey, fdiv, hl, pure_eq_ok, bind, Except.bind]

theorem rebuildDirs_total (c : Config) {live : Nat} (hl : live ≠ 0) :
    ∀ (v acc : List (Key × DirBucket)) (keys : Nat → Key),
      ∃ r, rebuildDirs c live v acc keys = Except.ok r := by
  intro v
  induction v with
  | nil => intro acc keys; exact ⟨_, rfl⟩
  | cons e es ih =>
    intro acc keys
    obtain ⟨⟨d, k1⟩, hr⟩ := dir_reKey_total c.dir_arr e.2 hl keys
    obtain ⟨r, h⟩ := ih (fmInsert (k1 d.id) d acc) k1
    refine ⟨r, ?_⟩
    simp only [rebuildDirs, hr, bind, Except.bind]
    exact h

theorem rebuildSizes_total (c : Config) {live : Nat} (hl : live ≠ 0) :
    ∀ (v acc : List (Key × SizeBucket)) (keys : Nat → Key),
      ∃ r, rebuildSizes c live v acc keys = Except.ok r := by
  intro v
  induction v with
  | nil => intro acc keys; exact ⟨_, rfl⟩
  | cons e es ih =>
    intro acc keys
    obtain ⟨⟨d, k1⟩, hr⟩ := size_reKey_total c.size_arr e.2 hl keys
    obtain ⟨r, h⟩ := ih (fmInsert (k1 d.id) d acc) k1
    refine ⟨r, ?_⟩
    simp only [rebuildSizes, hr, bind, Except.bind]
    exact h

theorem storeDir_total (c : Config) {live : Nat} (hl : live ≠ 0) (v : List (Key × DirBucket))
    (keys : Nat → Key) (d : DirBucket) : ∃ r, storeDir c live v keys d = Except.ok r := by
  obtain ⟨⟨d1, k1⟩, hr⟩ := dir_reKey_total c.dir_arr d hl keys
  obtain ⟨r, h⟩ := rebuildDirs_total c hl (fmInsert (k1 d1.id) d1 (fmErase (keys d.id) v)) [] k1
  refine ⟨r, ?_⟩
  simp only [storeDir, hr, bind, Except.bind]
  exact h

theorem storeSize_total (c : Config) {live : Nat} (hl : live ≠ 0) (v : List (Key × SizeBucket))
    (keys : Nat → Key) (sb sb1 : SizeBucket) :
    ∃ r, storeSize c live v keys sb sb1 = Except.ok r := by
  unfold storeSize
  exact rebuildSizes_total c hl _ _ _

theorem list_addFile_total {hp : Heap} {fs f : Addr} {L : List Addr}
    (hseg : Seg (proj File.next hp) (proj File.prev hp) fs L fs) (hf : f ≠ fs) :
    ∃ h1, AgeList.addFile hp fs f = Except.ok h1 := by
  have hpv : (hp fs).prev = some ((fs :: L).getLast (List.cons_ne_nil _ _)) :=
    Seg.pv_end L fs fs hseg
  simp [AgeList.addFile, Heap.upd, hf.symm, hpv, deref, pure_eq_ok, bind, Except.bind]

theorem size_addFile_total {hp : Heap} {s : SizeBucket} {f : Addr} {live : Nat}
    {cell : DirBucket} {S : List Addr} (hdb : s.db (hp f).depth = some cell)
    (hcount : s.count = S.length) (hstart : s.start = S.head?)
    (hring : Ring (proj File.size_next hp) (proj File.size_prev hp) S)
    (hf : f ∉ S) (hl : live ≠ 0) :
    ∃ h1 s1, s.addFile hp f live = Except.ok (h1, s1) := by
  cases S with
  | nil =>
    have hs : s.start = none := hstart
    have h0 : s.count = 0 := hcount
    simp [SizeBucket.addFile, umFind, hdb, fdiv, hl, hs, h0, pure_eq_ok, bind, Except.bind]
  | cons st t =>
    have hs : s.start = some st := hstart
    have hne : st ≠ f := fun e => hf (by simp [e])
    have hpv1 : (hp st).size_prev = some ((st :: t).getLast (List.cons_ne_nil _ _)) :=
      Ring.pv_head hring
    simp [SizeBucket.addFile, umFind, hdb, fdiv, hl, hs, pure_eq_ok, bind, Except.bind, deref,
      Heap.upd, hne, hpv1]

/-- The converse of `createFile_eq_ok`: the steps of `createFile` in sequence. -/
theorem createFile_of_steps {c : Config} {s : State} {pos : Int} {r : Nat}
    {sb : SizeBucket} {k : Key} {d : DirBucket} {rest : List (Key × DirBucket)}
    {dv : List (Key × DirBucket)} {dk : Nat → Key} {h1 h2 h3 : Heap} {sb1 : SizeBucket}
    {sv : List (Key × SizeBucket)} {sk : Nat → Key} {ab ab1 : AgeBucket}
    (hsb : (if pos ≥ 0 then
        (match fmFind (s.s_keys pos.toNat) s.size_buckets with
         | some b => pure b
         | none => throw Fault.assertion)
       else pickSize s.live_data_size c.total_disk_capacity s.size_buckets.reverse) =
        Except.ok sb)
    (hd : s.dir_buckets = (k, d) :: rest)
    (hsd : storeDir c (s.global_live_file_count + 1) s.dir_buckets s.d_keys
        { d with count := d.count + 1 } = Except.ok (dv, dk))
    (hlist : AgeList.addFile (s.heap.upd s.next_addr
        (fun _ => File.new (fileName d s.tick r) sb.size s.tick d.depth)) s.fs s.next_addr =
        Except.ok h1)
    (hsadd : sb.addFile h1 s.next_addr (s.global_live_file_count + 1) = Except.ok (h2, sb1))
    (hss : storeSize c (s.global_live_file_count + 1) s.size_buckets s.s_keys sb sb1 =
        Except.ok (sv, sk))
    (hfind : fmFind (s.a_keys 0) s.age_buckets = some ab)
    (haadd : ab.addFile h2 s.next_addr (s.global_live_file_count + 1) false =
        Except.ok (h3, ab1)) :
    ∃ res, createFile c s pos r = Except.ok res := by
  unfold createFile
  simp only [bind, Except.bind]
  split
  · rename_i e he
    exact absurd (hsb.symm.trans he) (by simp)
  · rename_i v hv
    have hv1 : v = sb := by
      have := hsb.symm.trans hv
      simpa using this.symm
    subst hv1
    rw [hd] at hsd
    simp only [pure, Except.pure, hd, hsd, hlist, hsadd, hss, hfind, haadd]
    exact ⟨_, rfl⟩

/-- `createFile` returns once step 1 has found a size bucket of the view. -/
theorem createFile_total_of {c : Config} (hv : c.Valid) {s : State} {seg : Nat → List Addr}
    (hi : HeapInv c s seg) (hst : ∀ e ∈ s.age_buckets, NestedStartOK e.2) {pos : Int}
    {esb : Key × SizeBucket} (hesb : esb ∈ s.size_buckets)
    (hsb : (if pos ≥ 0 then
        (match fmFind (s.s_keys pos.toNat) s.size_buckets with
         | some b => pure b
         | none => throw Fault.assertion)
       else pickSize s.live_data_size c.total_disk_capacity s.size_buckets.reverse) =
        Except.ok esb.2)
    (hD : 0 < c.NUM_DIRS) (hA : 0 < c.NUM_AGES) (r : Nat) :
    ∃ res, createFile c s pos r = Except.ok res := by
  have hl : s.global_live_file_count + 1 ≠ 0 := Nat.succ_ne_zero _
  -- step 2
  obtain ⟨⟨kd, d⟩, drest, hdv⟩ := List.exists_cons_of_ne_nil (hi.dvw.ne_nil hD)
  have hdm : (kd, d) ∈ s.dir_buckets := by rw [hdv]; exact List.mem_cons_self _ _
  have hsbok := hi.sizes esb hesb
  have hdok := hi.dirs _ hdm
  have hsbsz : esb.2.size ∈ c.size_arr := hi.size_mem hesb
  have hddp : d.depth ∈ c.dir_arr := by
    rw [hdok.1]
    exact getD_mem (hi.dvw.id_lt hdm) 0
  have hfresh : s.next_addr ∉ s.fs :: cat seg c.NUM_AGES :=
    fun hh => Nat.lt_irrefl _ (hi.fresh _ hh)
  have hfL : s.next_addr ∉ cat seg c.NUM_AGES := fun hh => hfresh (List.mem_cons_of_mem _ hh)
  have hLne : ∀ x ∈ cat seg c.NUM_AGES, x ∉ [s.next_addr] := by
    intro x hx hh
    rw [List.mem_singleton.mp hh] at hx
    exact hfL hx
  -- step 5
  obtain ⟨⟨dv, dk⟩, hsd⟩ := storeDir_total c hl s.dir_buckets s.d_keys
    { d with count := d.count + 1 }
  -- step 6
  let file := File.new (fileName d s.tick r) esb.2.size s.tick d.depth
  have R0 := HeapRel.alloc s.heap s.next_addr file
  have hseg0 : Seg (proj File.next (s.heap.upd s.next_addr (fun _ => file)))
      (proj File.prev (s.heap.upd s.next_addr (fun _ => file))) s.fs
      (cat seg c.NUM_AGES) s.fs := by
    refine Seg.congrSeg _ _ _ hi.glist ?_ ?_
    · intro x hx
      exact R0.next x (fun hh => hfresh (by rw [← List.mem_singleton.mp hh]; exact hx))
    · intro x hx
      refine R0.prev x (fun hh => hfresh ?_)
      rw [← List.mem_singleton.mp hh]
      rcases List.mem_append.mp hx with h4 | h4
      · exact List.mem_cons_of_mem _ h4
      · rw [List.mem_singleton.mp h4]; exact List.mem_cons_self _ _
  have hne : s.next_addr ≠ s.fs := fun e => hfresh (by rw [e]; exact List.mem_cons_self _ _)
  obtain ⟨h1, hlist⟩ := list_addFile_total hseg0 hne
  obtain ⟨hseg1, R1⟩ := list_addFile_seg hlist hseg0 hi.nodup hfresh
  -- step 7
  have R01 := R0.trans_rel R1
  have hsb1ok : SizeOK c h1 (cat seg c.NUM_AGES) esb.2 := by
    refine hsbok.transport_size R01 ?_ ?_
    · intro x hx; simpa using hLne x hx
    · intro x hx _; simpa using hLne x hx
  have hf1size : proj File.size h1 s.next_addr = esb.2.size := by
    rw [R1.size_eq]; simp [proj, Heap.upd, file, File.new]
  have hf1depth : proj File.depth h1 s.next_addr = d.depth := by
    rw [R1.depth_eq]; simp [proj, Heap.upd, file, File.new]
  obtain ⟨cell1, hcell1⟩ := hsb1ok.2.2.2.2 d.depth hddp
  have hcell1a : esb.2.db (h1 s.next_addr).depth = some cell1 := by
    have : (h1 s.next_addr).depth = d.depth := hf1depth
    rw [this]; exact hcell1
  obtain ⟨h2, sb1, hsadd⟩ := size_addFile_total hcell1a hsb1ok.2.1 hsb1ok.2.2.1
    hsb1ok.2.2.2.1 (fun hh => hfL (List.mem_of_mem_filter hh)) hl
  obtain ⟨hring2, ⟨cell2, hsb1⟩, R2⟩ := size_addFile_ring hsadd hsb1ok.2.1 hsb1ok.2.2.1
    hsb1ok.2.2.2.1 ((List.nodup_cons.mp hi.nodup).2.filter _)
    (fun hh => hfL (List.mem_of_mem_filter hh))
  obtain ⟨⟨sv, sk⟩, hss⟩ := storeSize_total c hl s.size_buckets s.s_keys esb.2 sb1
  -- step 8
  obtain ⟨eab, heab, heid⟩ := hi.avw.exists_id hA
  have hfa := hi.avw.find heab
  rw [heid] at hfa
  have R012 := R01.trans_rel R2
  have habok : AgeOK c h2 (seg 0) eab.2 := by
    have := hi.ages _ heab
    rw [heid] at this
    refine this.transport_age R012 ?_ ?_
    · intro x hx
      simpa using hLne x ((mem_cat _).mpr ⟨0, hA, hx⟩)
    · intro x hx
      simpa using hLne x ((mem_cat _).mpr ⟨0, hA, hx⟩)
  have hf2size : proj File.size h2 s.next_addr = esb.2.size := by rw [R2.size_eq]; exact hf1size
  have hf2depth : proj File.depth h2 s.next_addr = d.depth := by
    rw [R2.depth_eq]; exact hf1depth
  obtain ⟨a1, a2, a3, a4⟩ := habok
  obtain ⟨nsb, n1, n2, n3⟩ := a4 esb.2.size hsbsz
  obtain ⟨cell, g1, g2⟩ := n3 d.depth hddp
  have hs2 : eab.2.sb (h2 s.next_addr).size = some nsb := by
    have : (h2 s.next_addr).size = esb.2.size := hf2size
    rw [this]; exact n1
  have hd2 : nsb.db (h2 s.next_addr).depth = some cell := by
    have : (h2 s.next_addr).depth = d.depth := hf2depth
    rw [this]; exact g1
  have hfl : eab.2.f = none → eab.2.last = none := by
    intro hnone
    rw [a2] at hnone
    rw [a3, List.head?_eq_none_iff.mp hnone]
    rfl
  obtain ⟨h3, ab1, haadd⟩ := age_addFile_total hs2 hd2 g2
    (fun hh => hfL ((mem_cat _).mpr ⟨0, hA, List.mem_of_mem_filter hh⟩)) hl
    (hst eab heab _ _ n1) hfl
  exact createFile_of_steps hsb hdv hsd hlist hsadd hss hfa haadd

theorem createFile_total {c : Config} (hv : c.Valid) {s : State} {seg : Nat → List Addr}
    (hi : HeapInv c s seg) (hst : ∀ e ∈ s.age_buckets, NestedStartOK e.2) {pos : Int}
    (hp0 : 0 ≤ pos) (hp1 : pos.toNat < c.NUM_SIZES) (hD : 0 < c.NUM_DIRS)
    (hA : 0 < c.NUM_AGES) (r : Nat) : ∃ res, createFile c s pos r = Except.ok res := by
  obtain ⟨esb, hesb, hesid⟩ := hi.svw.exists_id hp1
  have hfs := hi.svw.find hesb
  rw [hesid] at hfs
  refine createFile_total_of hv hi hst hesb ?_ hD hA r
  rw [if_pos hp0, hfs]
  rfl

theorem age_addFile_start {hp h1 : Heap} {a a1 : AgeBucket} {f : Addr} {live : Nat}
    {at_front : Bool} (h : a.addFile hp f live at_front = Except.ok (h1, a1))
    (hst : NestedStartOK a) : NestedStartOK a1 := by
  obtain ⟨s, d, d1, hs, hd, hadd, _, _, _, ha1⟩ := age_addFile_eq_ok h
  intro sz nsb hsz hcount
  rw [ha1] at hsz
  simp only [umInsert, umErase] at hsz
  by_cases h1k : sz = (h1 f).size
  · rw [if_pos h1k] at hsz
    by_cases h2k : (h1 f).size = (hp f).size
    · rw [if_pos h2k] at hsz
      simp only [Option.some.injEq] at hsz
      rw [← hsz] at hcount
      split at hcount <;> simp at hcount
    · rw [if_neg h2k] at hsz
      cases hw : a.sb (h1 f).size with
      | none =>
        rw [hw] at hsz
        simp only [Option.some.injEq] at hsz
        rw [← hsz] at hcount
        split at hcount <;> simp at hcount
      | some w =>
        rw [hw] at hsz
        simp only [Option.some.injEq] at hsz
        rw [← hsz]
        rw [← hsz] at hcount
        exact hst _ _ hw hcount
  · rw [if_neg h1k] at hsz
    by_cases h3k : sz = (hp f).size
    · rw [if_pos h3k] at hsz
      simp at hsz
    · rw [if_neg h3k] at hsz
      exact hst _ _ hsz hcount

theorem createFile_start {c : Config} {s : State} {pos : Int} {r : Nat} {res : CreateResult}
    (h : createFile c s pos r = Except.ok res)
    (hst : ∀ e ∈ s.age_buckets, NestedStartOK e.2) :
    ∀ e ∈ res.state.age_buckets, NestedStartOK e.2 := by
  obtain ⟨sb, d, dv, dk, h1, h2, h3, sb1, sv, sk, ab, ab1, _, _, _, _, _, _, hfind, haadd,
    hres⟩ := createFile_eq_ok h
  intro e he
  rw [hres] at he
  simp only [storeAge] at he
  rcases mem_fmInsert he with h4 | h4
  · rw [h4]
    exact age_addFile_start haadd (hst _ (fmFind_some hfind))
  · exact hst e (mem_fmErase h4)

theorem mkSizeMap_start (c : Config) :
    ∀ (n : Nat) (acc : (Nat → Option SizeBucket) × Int × List IoReq),
      (∀ sz nsb, acc.1 sz = some nsb → nsb.start = none) →
      ∀ sz nsb, (mkSizeMap c n acc).1 sz = some nsb → nsb.start = none := by
  intro n
  induction n with
  | zero => intro acc h; exact h
  | succ n ih =>
    intro acc h sz nsb hsz
    simp only [mkSizeMap, umInsert] at hsz
    split at hsz
    · split at hsz
      · rename_i w hw
        simp only [Option.some.injEq] at hsz
        rw [← hsz]
        exact ih acc h _ _ hw
      · simp only [Option.some.injEq] at hsz
        rw [← hsz]
        rfl
    · exact ih acc h _ _ hsz

theorem initAges_start (c : Config) (w : Nat) (g0 : Int) (io0 : List IoReq) :
    ∀ (n : Nat) (v : List (Key × AgeBucket)) (k : Nat → Key) (g : Int) (io : List IoReq),
      initAges c w g0 io0 n = Except.ok (v, k, g, io) → ∀ e ∈ v, NestedStartOK e.2 := by
  intro n
  induction n with
  | zero =>
    intro v k g io h
    simp only [initAges, pure_eq_ok, Except.ok.injEq, Prod.mk.injEq] at h
    rw [← h.1]
    intro _ hh
    simp at hh
  | succ n ih =>
    intro v k g io h
    simp only [initAges] at h
    obtain ⟨⟨v0, k0, g1, io1⟩, h0, h⟩ := bind_eq_ok h
    obtain ⟨q, _, h⟩ := bind_eq_ok h
    obtain ⟨q1, _, h⟩ := bind_eq_ok h
    simp only [pure_eq_ok, Except.ok.injEq, Prod.mk.injEq, setKey_same] at h
    rw [← h.1]
    intro e he
    rcases mem_fmInsert he with h1 | h1
    · rw [h1]
      intro sz nsb hsz _
      exact mkSizeMap_start c c.NUM_SIZES _ (by intro _ _ hh; simp at hh) sz nsb hsz
    · exact ih _ _ _ _ h0 e h1

theorem init_start {c : Config} {s : State} (h : init c = Except.ok s) :
    ∀ e ∈ s.age_buckets, NestedStartOK e.2 := by
  unfold init at h
  obtain ⟨⟨sv, sk, g1, io1⟩, _, h⟩ := bind_eq_ok h
  obtain ⟨⟨av, ak, g2, io2⟩, ha, h⟩ := bind_eq_ok h
  obtain ⟨⟨dv, dk, g3, io3⟩, _, h⟩ := bind_eq_ok h
  simp only [pure_eq_ok, Except.ok.injEq] at h
  rw [← h]
  exact initAges_start c _ _ _ _ _ _ _ _ ha

/-! ## The rapid fill with a single size class -/

theorem sizeClassOf_single {c : Config} {sz : Nat} (hsz : c.size_arr = [sz]) (rand : Nat) :
    sizeClassOf c rand = 0 := by
  unfold sizeClassOf Config.NUM_SIZES
  rw [hsz]
  simp [pickClass]

theorem performOp_of_create {c : Config} {s : State} {pos : Int} {r : Nat}
    {res : CreateResult} (h : createFile c { s with tick := s.tick + 1 } pos r = Except.ok res) :
    performOp c s true pos r = Except.ok { res.state with
      live_data_size := add64 res.state.live_data_size res.ret_size
      workload_size := add64 res.state.workload_size res.ret_size } := by
  obtain ⟨_, _, _, _, _, _, _, _, _, _, _, _, _, _, _, _, _, _, _, _, hr⟩ := createFile_eq_ok h
  have hcs : res.create_succeeded = 0 := by rw [hr]
  unfold performOp
  simp [h, hcs, bind, Except.bind, pure_eq_ok, pure, Except.pure]

theorem cat_only_zero {seg : Nat → List Addr} (h : ∀ j, 0 < j → seg j = []) :
    ∀ n, 0 < n → cat seg n = seg 0 := by
  intro n
  induction n with
  | zero => intro hn; exact absurd hn (Nat.lt_irrefl 0)
  | succ n ih =>
    intro _
    cases n with
    | zero => simp [cat]
    | succ m =>
      have := ih (Nat.succ_pos m)
      simp only [cat] at this ⊢
      rw [h (m + 1) (Nat.succ_pos m), List.nil_append]
      exact this

theorem ceilDiv_ge (a : Nat) {b : Nat} (hb : 0 < b) : a ≤ ceilDiv a b * b := by
  unfold ceilDiv
  have h1 := Nat.lt_mul_div_succ (a + b - 1) hb
  have h2 : b * ((a + b - 1) / b + 1) = (a + b - 1) / b * b + b := by ring
  rw [h2] at h1
  omega

theorem ceilDiv_lt (a : Nat) {b k : Nat} (hb : 0 < b) (hk : k < ceilDiv a b) : k * b < a := by
  unfold ceilDiv at hk
  have h1 : (k + 1) * b ≤ (a + b - 1) / b * b := Nat.mul_le_mul_right b hk
  have h2 := Nat.div_mul_le_self (a + b - 1) b
  have h3 : (k + 1) * b = k * b + b := by ring
  omega

theorem ceilDiv_eq_ceil (a : Nat) {b : Nat} (hb : 0 < b) :
    ceilDiv a b = Nat.ceil ((a : ℚ) / (b : ℚ)) := by
  have hbq : (0 : ℚ) < (b : ℚ) := by exact_mod_cast hb
  apply le_antisymm
  · by_contra hlt
    have hlt1 : Nat.ceil ((a : ℚ) / (b : ℚ)) < ceilDiv a b := Nat.lt_of_not_le hlt
    have h1 := ceilDiv_lt a hb hlt1
    have h2 : (a : ℚ) / (b : ℚ) ≤ (Nat.ceil ((a : ℚ) / (b : ℚ)) : ℚ) := Nat.le_ceil _
    rw [div_le_iff₀ hbq] at h2
    have h3 : a ≤ Nat.ceil ((a : ℚ) / (b : ℚ)) * b := by exact_mod_cast h2
    omega
  · apply Nat.ceil_le.mpr
    rw [div_le_iff₀ hbq]
    exact_mod_cast ceilDiv_ge a hb

theorem init_rapid {c : Config} (hv : c.Valid) {sz : Nat} {s : State}
    (h : init c = Except.ok s) : RapidInv c sz s 0 := by
  have hi := init_inv hv h
  refine ⟨_, hi, init_start h, fun _ _ => rfl, ?_, ?_, ?_, ?_⟩
  · unfold init at h
    obtain ⟨⟨sv, sk, g1, io1⟩, _, h⟩ := bind_eq_ok h
    obtain ⟨⟨av, ak, g2, io2⟩, _, h⟩ := bind_eq_ok h
    obtain ⟨⟨dv, dk, g3, io3⟩, _, h⟩ := bind_eq_ok h
    simp only [pure_eq_ok, Except.ok.injEq] at h
    rw [← h]
  · rw [hi.live, cat_nil]; rfl
  · rw [init_data_size h]; simp
  · rw [cat_nil]; rfl

theorem rapid_step {c : Config} (hv : c.Valid) {sz : Nat} (hsz : c.size_arr = [sz])
    (hD : 0 < c.NUM_DIRS) (hA : 0 < c.NUM_AGES) {s : State} {k : Nat}
    (hr : RapidInv c sz s k) (hno : (k + 1) * sz < 2 ^ 64) (r : Nat) :
    ∃ s1, performOp c s true ((0 : Nat) : Int) r = Except.ok s1 ∧ RapidInv c sz s1 (k + 1) := by
  obtain ⟨seg, hi, hst, hseg, htick, hlive, hlds, hages⟩ := hr
  have hS : (((0 : Nat) : Int)).toNat < c.NUM_SIZES := by
    unfold Config.NUM_SIZES
    rw [hsz]
    simp
  have hst0 : ∀ e ∈ ({ s with tick := s.tick + 1 } : State).age_buckets, NestedStartOK e.2 := hst
  obtain ⟨res, hres⟩ := createFile_total hv hi.tick_succ hst0 (Int.natCast_nonneg 0) hS hD hA r
  refine ⟨_, performOp_of_create hres, ?_⟩
  obtain ⟨hi1, hN, hfresh, hsize, hage, ⟨e, he, hesz⟩, _, ⟨G, S, D, R⟩, _⟩ :=
    createFile_inv hv hi.tick_succ hres
  obtain ⟨_, _, _, _, _, _, _, _, _, _, _, _, _, _, _, _, _, _, _, _, hr1⟩ :=
    createFile_eq_ok hres
  have hret : res.ret_size = sz := by
    have h1 : e.2.size ∈ c.size_arr := hi.size_mem he
    rw [hsz, List.mem_singleton] at h1
    rw [← hesz, h1]
  have hfL : s.next_addr ∉ cat seg c.NUM_AGES :=
    fun hh => hfresh (List.mem_cons_of_mem _ hh)
  have hcat : cat (Function.update seg 0 (seg 0 ++ [s.next_addr])) c.NUM_AGES =
      cat seg c.NUM_AGES ++ [s.next_addr] := cat_update_zero hN _
  refine ⟨_, hi1.data_size _ _, createFile_start hres hst0, ?_, ?_, ?_, ?_, ?_⟩
  · intro j hj
    rw [Function.update_noteq (Nat.ne_of_gt hj)]
    exact hseg j hj
  · show res.state.tick = k + 1
    rw [hr1]
    show s.tick + 1 = k + 1
    rw [htick]
  · show res.state.global_live_file_count = k + 1
    rw [hr1]
    show s.global_live_file_count + 1 = k + 1
    rw [hlive]
  · show add64 res.state.live_data_size res.ret_size = (k + 1) * sz
    have : res.state.live_data_size = s.live_data_size := by rw [hr1]
    rw [this, hret, hlds]
    unfold add64
    have h2 : k * sz + sz = (k + 1) * sz := by ring
    rw [h2]
    exact Nat.mod_eq_of_lt hno
  · show (cat (Function.update seg 0 (seg 0 ++ [s.next_addr])) c.NUM_AGES).map
      (proj File.age res.state.heap) = (List.range (k + 1)).map (fun i => i + 1)
    rw [hcat, List.map_append, List.range_succ, List.map_append, ← hages]
    congr 1
    · apply List.map_congr_left
      intro a ha
      refine R.age a (fun hh => hfL ?_)
      rw [← List.mem_singleton.mp hh]
      exact ha
    · simp only [List.map_cons, List.map_nil]
      rw [hage]
      show [s.tick + 1] = [k + 1]
      rw [htick]

theorem rapid_loop {c : Config} (hv : c.Valid) {sz : Nat} (hsz : c.size_arr = [sz])
    (hpos : 0 < sz) (hD : 0 < c.NUM_DIRS) (hA : 0 < c.NUM_AGES) (dr : Draws) {till : Nat}
    (hno : ceilDiv till sz * sz < 2 ^ 64) :
    ∀ (d k fuel i : Nat) (s : State), RapidInv c sz s k → k + d = ceilDiv till sz →
      d ≤ fuel →
      ∃ s1, performRapidAging c dr till fuel i s = Except.ok (some s1) ∧
        RapidInv c sz s1 (ceilDiv till sz) := by
  intro d
  induction d with
  | zero =>
    intro k fuel i s hr hk _
    have hk1 : k = ceilDiv till sz := hk
    obtain ⟨seg, hi, hst, hseg, htick, hlive, hlds, hages⟩ := hr
    have hge : ¬ s.live_data_size < till := by
      rw [hlds, hk1]
      exact Nat.not_lt.mpr (ceilDiv_ge till hpos)
    refine ⟨s, ?_, hk1 ▸ ⟨seg, hi, hst, hseg, htick, hlive, hlds, hages⟩⟩
    cases fuel with
    | zero => simp [performRapidAging, hge, pure_eq_ok]
    | succ f => simp [performRapidAging, hge, pure_eq_ok]
  | succ d ih =>
    intro k fuel i s hr hk hfuel
    have hklt : k < ceilDiv till sz := by omega
    have hlt : s.live_data_size < till := by
      obtain ⟨seg, _, _, _, _, _, hlds, _⟩ := hr
      rw [hlds]
      exact ceilDiv_lt till hpos hklt
    have hno1 : (k + 1) * sz < 2 ^ 64 :=
      Nat.lt_of_le_of_lt (Nat.mul_le_mul_right sz hklt) hno
    cases fuel with
    | zero => omega
    | succ f =>
      have hcls : ((sizeClassOf c (dr.size_draw i) : Nat) : Int) = ((0 : Nat) : Int) := by
        rw [sizeClassOf_single hsz]
      obtain ⟨s1, hop, hr1⟩ := rapid_step hv hsz hD hA hr hno1 (dr.subdir i)
      obtain ⟨s2, hrun, hr2⟩ := ih (k + 1) f (i + 1) s1 hr1 (by omega) (by omega)
      refine ⟨s2, ?_, hr2⟩
      simp only [performRapidAging, if_pos hlt, hcls, hop, bind, Except.bind]
      exact hrun

theorem rapid_inv_exact {c : Config} {sz n : Nat} {s : State} (hA : 0 < c.NUM_AGES)
    (hr : RapidInv c sz s n) :
    s.global_live_file_count = n ∧
    (liveFiles s).map (fun a => (s.heap a).age) = (List.range n).map (fun i => i + 1) ∧
    (ageBucketOf s 0).files s.heap = liveFiles s := by
  obtain ⟨seg, hi, _, hseg, _, hlive, _, hages⟩ := hr
  refine ⟨hlive, ?_, ?_⟩
  · rw [hi.liveFiles_eq]
    exact hages
  · obtain ⟨e, he, hid⟩ := hi.avw.exists_id hA
    have h1 := ageBucketOf_eq hi he
    have h2 := hi.files_eq he
    rw [hid] at h1 h2
    rw [h1, h2, hi.liveFiles_eq, cat_only_zero hseg _ hA]

/-- Claim C19 as stated fails: with one size class of one byte, capacity 21 and utilization
`1/2` the product is `10.5`, `⌈10.5 / 1⌉ = 11`, and the rapid fill, whose threshold is the
product converted to `size_t`, creates 10 files. -/
theorem rapid_fill_not_ceiling :
    Nat.ceil ((cfgOneByte.total_disk_capacity : ℚ) * (1 / 2) / 1) = 11 ∧
    tillSize cfgOneByte (1 / 2) = 10 ∧
    isFilled (performRapidAging cfgOneByte drawsCreate (tillSize cfgOneByte (1 / 2)) 11 0
      (stateOf (init cfgOneByte))) = true ∧
    (filledState (performRapidAging cfgOneByte drawsCreate (tillSize cfgOneByte (1 / 2)) 11 0
      (stateOf (init cfgOneByte)))).global_live_file_count = 10 ∧
    ¬ RapidFillExact cfgOneByte drawsCreate (tillSize cfgOneByte (1 / 2)) 11 11
      (stateOf (init cfgOneByte)) := by
  refine ⟨?_, by decide!, by decide!, by decide!, by decide!⟩
  rw [Nat.ceil_eq_iff (by norm_num)]
  norm_num [cfgOneByte]

/-- Claim C19 (amended): with a single size class of `sz` bytes, `0 < sz < 2 ^ 63` (pairwise
distinct depths, at least one depth and one age bucket, `init` returning `s0`), the rapid fill up
to the threshold `L`, the `size_t` argument of `performRapidAging` (for `main` the binary64
product `capacity * utilization`, truncated), ends, given at least `⌈L / sz⌉` iterations, with
exactly `⌈L / sz⌉` live files, of birth ticks `1, ..., ⌈L / sz⌉`, all of them in age bucket 0,
provided `⌈L / sz⌉ * sz < 2 ^ 64`. -/
theorem rapid_fill_exact (c : Config) (dr : Draws) (till sz fuel : Nat) (s0 : State)
    (hsz : c.size_arr = [sz]) (hpos : 0 < sz) (hlong : sz < 2 ^ 63) (hv : c.dir_arr.Nodup)
    (hD : 0 < c.NUM_DIRS) (hA : 0 < c.NUM_AGES) (h0 : init c = Except.ok s0)
    (hno : ceilDiv till sz * sz < 2 ^ 64) (hfuel : ceilDiv till sz ≤ fuel) :
    ceilDiv till sz = Nat.ceil ((till : ℚ) / (sz : ℚ)) ∧
    RapidFillExact c dr till (ceilDiv till sz) fuel s0 := by
  have hvalid : c.Valid := ⟨by rw [hsz]; exact List.nodup_singleton _, hv⟩
  obtain ⟨s1, hrun, hr1⟩ := rapid_loop hvalid hsz hpos hD hA dr hno _ 0 fuel 0 s0
    (init_rapid hvalid h0) (Nat.zero_add _) hfuel
  refine ⟨ceilDiv_eq_ceil _ hpos, ?_⟩
  unfold RapidFillExact
  rw [hrun]
  exact ⟨rfl, rapid_inv_exact hA hr1⟩

theorem rapid_fill_exact_witness :
    cfgTwoAges.size_arr = [1024] ∧ 0 < 1024 ∧ 1024 < 2 ^ 63 ∧ cfgTwoAges.dir_arr.Nodup ∧
    0 < cfgTwoAges.NUM_DIRS ∧ 0 < cfgTwoAges.NUM_AGES ∧
    tillSize cfgTwoAges 1 = 10240 ∧
    ceilDiv (tillSize cfgTwoAges 1) 1024 = 10 ∧
    RapidFillExact cfgTwoAges drawsCreate (tillSize cfgTwoAges 1)
      (ceilDiv (tillSize cfgTwoAges 1) 1024) 10 (stateOf (init cfgTwoAges)) :=
  ⟨rfl, by decide, by decide, by decide, by decide, by decide, by decide!, by decide!,
    (rapid_fill_exact cfgTwoAges drawsCreate (tillSize cfgTwoAges 1) 1024 10
      (stateOf (init cfgTwoAges)) rfl (by decide) (by decide) (by decide) (by decide)
      (by decide) (ok_stateOf (by decide!)) (by decide!) (by decide!)).2⟩

/-! ## Gap-guided creates with two size classes of equal ideal fraction -/

theorem to_string_f_pos {x : ℚ} (h : 1 / 2 < x * 1000000) : 0 < to_string_f x := by
  unfold to_string_f
  have hn : ((Int.floor (x * 1000000) : Int) : ℚ) ≤ x * 1000000 := Int.floor_le _
  have hn1 : x * 1000000 < ((Int.floor (x * 1000000) : Int) : ℚ) + 1 := Int.lt_floor_add_one _
  apply div_pos _ (by norm_num)
  split_ifs <;> linarith

theorem to_string_f_neg {x : ℚ} (h : x * 1000000 < -(1 / 2)) : to_string_f x < 0 := by
  unfold to_string_f
  have hn : ((Int.floor (x * 1000000) : Int) : ℚ) ≤ x * 1000000 := Int.floor_le _
  have hn1 : x * 1000000 < ((Int.floor (x * 1000000) : Int) : ℚ) + 1 := Int.lt_floor_add_one _
  apply div_neg_of_neg_of_pos _ (by norm_num)
  split_ifs <;> linarith

theorem to_string_f_zero {x : ℚ} (h1 : -(1 / 2) < x * 1000000) (h2 : x * 1000000 < 1 / 2) :
    to_string_f x = 0 := by
  unfold to_string_f
  have hn : ((Int.floor (x * 1000000) : Int) : ℚ) ≤ x * 1000000 := Int.floor_le _
  have hn1 : x * 1000000 < ((Int.floor (x * 1000000) : Int) : ℚ) + 1 := Int.lt_floor_add_one _
  have hlo : ((-2 : Int) : ℚ) < ((Int.floor (x * 1000000) : Int) : ℚ) := by
    push_cast; linarith
  have hhi : ((Int.floor (x * 1000000) : Int) : ℚ) < ((1 : Int) : ℚ) := by
    push_cast; linarith
  have hlo1 : -2 < Int.floor (x * 1000000) := by exact_mod_cast hlo
  have hhi1 : Int.floor (x * 1000000) < 1 := by exact_mod_cast hhi
  have hcases : Int.floor (x * 1000000) = 0 ∨ Int.floor (x * 1000000) = -1 := by omega
  simp only
  rcases hcases with h0 | h0
  · rw [h0] at hn hn1 ⊢
    push_cast at hn hn1 ⊢
    split_ifs <;> first | (exfalso; linarith) | simp
  · rw [h0] at hn hn1 ⊢
    push_cast at hn hn1 ⊢
    split_ifs <;> first | (exfalso; linarith) | norm_num

theorem initSizes_actual (c : Config) (w : Nat) :
    ∀ (n : Nat) (v : List (Key × SizeBucket)) (k : Nat → Key) (g : Int) (io : List IoReq),
      initSizes c w n = Except.ok (v, k, g, io) → ∀ e ∈ v, e.2.actual_fraction = 0 := by
  intro n
  induction n with
  | zero =>
    intro v k g io h
    simp only [initSizes, pure_eq_ok, Except.ok.injEq, Prod.mk.injEq] at h
    rw [← h.1]
    intro _ hh
    simp at hh
  | succ n ih =>
    intro v k g io h
    simp only [initSizes] at h
    obtain ⟨⟨v0, k0, g0, io0⟩, h0, h⟩ := bind_eq_ok h
    obtain ⟨q, hq, h⟩ := bind_eq_ok h
    simp only [pure_eq_ok, Except.ok.injEq, Prod.mk.injEq, setKey_same] at h
    rw [← h.1]
    intro e he
    rcases mem_fmInsert he with h1 | h1
    · rw [h1]; rfl
    · exact ih _ _ _ _ h0 e h1

theorem init_gap {c : Config} (hv : c.Valid) {s : State} (h : init c = Except.ok s) :
    GapInv c s 0 0 := by
  have hi := init_inv hv h
  have hlive : s.global_live_file_count = 0 := by rw [hi.live, cat_nil]; rfl
  refine ⟨_, hi, init_start h, hlive, ?_, ?_, ?_, ?_⟩
  · rw [init_data_size h]
  · intro e he
    rw [hlive]
    have h0 : e.2.actual_fraction = 0 := by
      unfold init at h
      obtain ⟨⟨sv, sk, g1, io1⟩, hs, h⟩ := bind_eq_ok h
      obtain ⟨⟨av, ak, g2, io2⟩, _, h⟩ := bind_eq_ok h
      obtain ⟨⟨dv, dk, g3, io3⟩, _, h⟩ := bind_eq_ok h
      simp only [pure_eq_ok, Except.ok.injEq] at h
      rw [← h] at he
      exact initSizes_actual c _ _ _ _ _ _ hs e he
    rw [h0]
    simp
  · rw [cat_nil]; rfl
  · rw [cat_nil]; rfl

theorem gap_step {c : Config} (hv : c.Valid) (hsz : c.size_arr = [1, 2])
    (hw : ∀ i, i < 2 → c.size_distribution.getD i 0 /
      ((totalWeight c.size_distribution : Nat) : ℚ) = 1 / 2)
    (hD : 0 < c.NUM_DIRS) (hA : 0 < c.NUM_AGES) {s : State} {a b : Nat}
    (hg : GapInv c s a b) (hcap : a + 2 * b + 2 < c.total_disk_capacity)
    (hcap64 : c.total_disk_capacity ≤ 2 ^ 64) (r : Nat) :
    ∃ s1, performOp c s true (-1) r = Except.ok s1 ∧
      ((to_string_f (1 / 2 - (a : ℚ) / ((a + b : Nat) : ℚ)) ≤
          to_string_f (1 / 2 - (b : ℚ) / ((a + b : Nat) : ℚ)) ∧ GapInv c s1 a (b + 1)) ∨
       (to_string_f (1 / 2 - (b : ℚ) / ((a + b : Nat) : ℚ)) <
          to_string_f (1 / 2 - (a : ℚ) / ((a + b : Nat) : ℚ)) ∧ GapInv c s1 (a + 1) b)) := by
  obtain ⟨seg, hi, hst, hlive, hlds, hact, ha, hb⟩ := hg
  have h64 : (2 : Nat) ^ 64 = 18446744073709551616 := by norm_num
  have hN2 : c.NUM_SIZES = 2 := by unfold Config.NUM_SIZES; rw [hsz]; rfl
  -- the view has two entries
  have hperm := hi.svw.ids
  rw [hN2] at hperm
  have hlen : s.size_buckets.length = 2 := by
    have := hperm.length_eq
    simpa using this
  obtain ⟨x, y, hxy⟩ := List.length_eq_two.mp hlen
  have hxm : x ∈ s.size_buckets := by rw [hxy]; simp
  have hym : y ∈ s.size_buckets := by rw [hxy]; simp
  rw [hxy] at hperm
  have hr2 : List.range 2 = [0, 1] := by decide
  rw [hr2] at hperm
  simp only [List.map_cons, List.map_nil] at hperm
  have hxid : x.2.id = 0 ∨ x.2.id = 1 := by
    have := hperm.subset (List.mem_cons_self _ _)
    simpa using this
  have hyid : y.2.id = 0 ∨ y.2.id = 1 := by
    have := hperm.subset (List.mem_cons_of_mem _ (List.mem_cons_self _ _))
    simpa using this
  have hne : x.2.id ≠ y.2.id := by
    have := hperm.nodup_iff.mpr (by decide)
    simpa using this
  -- the key of each entry
  have hkey : ∀ e ∈ s.size_buckets,
      (e.2.id = 0 → e.2.size = 1 ∧ e.1 = ⟨1, to_string_f (1 / 2 - (a : ℚ) / ((a + b : Nat) : ℚ))⟩) ∧
      (e.2.id = 1 → e.2.size = 2 ∧ e.1 = ⟨2, to_string_f (1 / 2 - (b : ℚ) / ((a + b : Nat) : ℚ))⟩) := by
    intro e he
    have hok := hi.sizes e he
    have hk := hi.svw.keyed.2 e he
    have hid := hi.sideal e he
    have hac := hact e he
    rw [hlive] at hac
    constructor
    · intro h0
      have hs1 : e.2.size = 1 := by rw [hok.1, hsz, h0]; rfl
      have hc : e.2.count = a := by rw [hok.2.1, hs1]; exact ha
      refine ⟨hs1, ?_⟩
      rw [hk]
      unfold SizeBucket.getKey
      rw [hid, hac, hc, h0, hw 0 (by decide), hsz]
      rfl
    · intro h1
      have hs2 : e.2.size = 2 := by rw [hok.1, hsz, h1]; rfl
      have hc : e.2.count = b := by rw [hok.2.1, hs2]; exact hb
      refine ⟨hs2, ?_⟩
      rw [hk]
      unfold SizeBucket.getKey
      rw [hid, hac, hc, h1, hw 1 (by decide), hsz]
      rfl
  have hpw : BucketCompare x.1 y.1 = true := by
    have := hi.svw.keyed.1
    rw [hxy] at this
    simpa using this
  -- the last entry of the view is picked
  have hysz : y.2.size ≤ 2 := by
    rcases hyid with h0 | h1
    · rw [((hkey y hym).1 h0).1]; decide
    · rw [((hkey y hym).2 h1).1]
  have hfit : ¬ (add64 y.2.size s.live_data_size ≥ c.total_disk_capacity) := by
    unfold add64
    rw [hlds, h64]
    rw [h64] at hcap64
    omega
  have hsb : (if (-1 : Int) ≥ 0 then
        (match fmFind (s.s_keys (-1 : Int).toNat) s.size_buckets with
         | some b => pure b
         | none => throw Fault.assertion)
       else pickSize s.live_data_size c.total_disk_capacity s.size_buckets.reverse) =
        Except.ok y.2 := by
    rw [if_neg (by decide), hxy]
    simp only [List.reverse_cons, List.reverse_nil, List.nil_append, List.singleton_append,
      pickSize, if_neg hfit]
    rfl
  have hst0 : ∀ e ∈ ({ s with tick := s.tick + 1 } : State).age_buckets, NestedStartOK e.2 := hst
  obtain ⟨res, hres⟩ := createFile_total_of hv hi.tick_succ hst0
    (show y ∈ ({ s with tick := s.tick + 1 } : State).size_buckets from hym) hsb hD hA r
  refine ⟨_, performOp_of_create hres, ?_⟩
  obtain ⟨hi1, hN, hfresh, hsize, _, _, _, ⟨G, S, D, R⟩, _⟩ :=
    createFile_inv hv hi.tick_succ hres
  obtain ⟨sb, _, _, _, _, _, _, _, _, _, _, _, hsb1, _, _, _, _, _, _, _, hr1⟩ :=
    createFile_eq_ok hres
  have hsbeq : sb = y.2 := by
    have := hsb1.symm.trans hsb
    simpa using this
  have hret : res.ret_size = y.2.size := by rw [hr1, hsbeq]
  have hfr := (createFile_fractions hres).2.1
  have hfL : s.next_addr ∉ cat seg c.NUM_AGES :=
    fun hh => hfresh (List.mem_cons_of_mem _ hh)
  have hcat : cat (Function.update seg 0 (seg 0 ++ [s.next_addr])) c.NUM_AGES =
      cat seg c.NUM_AGES ++ [s.next_addr] := cat_update_zero hN _
  have hlive1 : res.state.global_live_file_count = s.global_live_file_count + 1 := by
    rw [hr1]
  have hlds1 : res.state.live_data_size = s.live_data_size := by rw [hr1]
  have hcount : ∀ sz : Nat,
      ((cat (Function.update seg 0 (seg 0 ++ [s.next_addr])) c.NUM_AGES).filter
        (fun x => proj File.size res.state.heap x = sz)).length =
      ((cat seg c.NUM_AGES).filter (fun x => proj File.size s.heap x = sz)).length +
        (if y.2.size = sz then 1 else 0) := by
    intro sz
    rw [hcat, List.filter_append, List.length_append]
    have h1 := filter_size_congr R (L := cat seg c.NUM_AGES)
      (fun x hx hh => hfL (by rw [← List.mem_singleton.mp hh]; exact hx)) sz
    have h1a : (cat seg c.NUM_AGES).filter (fun x => proj File.size res.state.heap x = sz) =
        (cat seg c.NUM_AGES).filter (fun x => proj File.size s.heap x = sz) := h1
    rw [h1a]
    congr 1
    rw [← hret, ← hsize]
    by_cases hq : proj File.size res.state.heap s.next_addr = sz
    · simp [hq]
    · simp [hq]
  have hadd : add64 res.state.live_data_size res.ret_size = a + 2 * b + y.2.size := by
    rw [hlds1, hlds, hret]
    unfold add64
    rw [h64]
    rw [h64] at hcap64
    omega
  have hinv : ∀ a1 b1 : Nat, a1 + b1 = a + b + 1 → a1 + 2 * b1 = a + 2 * b + y.2.size →
      a + (if y.2.size = 1 then 1 else 0) = a1 → b + (if y.2.size = 2 then 1 else 0) = b1 →
      GapInv c { res.state with
        live_data_size := add64 res.state.live_data_size res.ret_size
        workload_size := add64 res.state.workload_size res.ret_size } a1 b1 := by
    intro a1 b1 e1 e2 e3 e4
    refine ⟨_, hi1.data_size _ _, createFile_start hres hst0, ?_, ?_, hfr, ?_, ?_⟩
    · show res.state.global_live_file_count = a1 + b1
      rw [hlive1, hlive, e1]
    · show add64 res.state.live_data_size res.ret_size = a1 + 2 * b1
      rw [hadd, e2]
    · show ((cat (Function.update seg 0 (seg 0 ++ [s.next_addr])) c.NUM_AGES).filter
        (fun x => proj File.size res.state.heap x = 1)).length = a1
      rw [hcount 1, ha, e3]
    · show ((cat (Function.update seg 0 (seg 0 ++ [s.next_addr])) c.NUM_AGES).filter
        (fun x => proj File.size res.state.heap x = 2)).length = b1
      rw [hcount 2, hb, e4]
  rcases hxid with hx0 | hx1
  · -- the view is [size 1, size 2]
    have hy1 : y.2.id = 1 := by omega
    obtain ⟨_, kx⟩ := (hkey x hxm).1 hx0
    obtain ⟨sy, ky⟩ := (hkey y hym).2 hy1
    left
    constructor
    · rw [kx, ky] at hpw
      unfold BucketCompare at hpw
      simp only at hpw
      split_ifs at hpw with c1 c2 c3
      · exact le_of_lt c1
      · exact le_of_eq c2.1
    · exact hinv a (b + 1) (by omega) (by rw [sy]; omega) (by rw [sy]; simp) (by rw [sy]; simp)
  · -- the view is [size 2, size 1]
    have hy0 : y.2.id = 0 := by omega
    obtain ⟨_, kx⟩ := (hkey x hxm).2 hx1
    obtain ⟨sy, ky⟩ := (hkey y hym).1 hy0
    right
    constructor
    · rw [kx, ky] at hpw
      unfold BucketCompare at hpw
      simp only at hpw
      split_ifs at hpw with c1 c2 c3
      · exact c1
      · exact absurd c2.2 (by decide)
    · exact hinv (a + 1) b (by omega) (by rw [sy]; omega) (by rw [sy]; simp) (by rw [sy]; simp)

theorem gap_arith {n : Nat} (hn : n ≤ 1000001) :
    gapOnes n + gapTwos n = n ∧
    (to_string_f (1 / 2 - (gapOnes n : ℚ) / ((gapOnes n + gapTwos n : Nat) : ℚ)) ≤
        to_string_f (1 / 2 - (gapTwos n : ℚ) / ((gapOnes n + gapTwos n : Nat) : ℚ)) →
      gapOnes (n + 1) = gapOnes n ∧ gapTwos (n + 1) = gapTwos n + 1) ∧
    (to_string_f (1 / 2 - (gapTwos n : ℚ) / ((gapOnes n + gapTwos n : Nat) : ℚ)) <
        to_string_f (1 / 2 - (gapOnes n : ℚ) / ((gapOnes n + gapTwos n : Nat) : ℚ)) →
      gapOnes (n + 1) = gapOnes n + 1 ∧ gapTwos (n + 1) = gapTwos n) := by
  have h1 : gapOnes n = n / 2 := by unfold gapOnes; rw [if_pos hn]
  have h2 : gapTwos n = (n + 1) / 2 := by unfold gapTwos; rw [if_pos hn]
  have hsum : gapOnes n + gapTwos n = n := by rw [h1, h2]; omega
  refine ⟨hsum, ?_, ?_⟩
  · intro hle
    rcases Nat.even_or_odd' n with ⟨k, hk | hk⟩
    · have hn1 : n + 1 ≤ 1000001 := by omega
      unfold gapOnes gapTwos
      rw [if_pos hn1, if_pos hn1, if_pos hn, if_pos hn]
      omega
    · by_cases hk5 : k < 500000
      · exfalso
        have ha : gapOnes n = k := by rw [h1]; omega
        have hb : gapTwos n = k + 1 := by rw [h2]; omega
        rw [ha, hb] at hle
        have hkq : (k : ℚ) ≤ 499999 := by exact_mod_cast (show k ≤ 499999 by omega)
        have hk0 : (0 : ℚ) ≤ (k : ℚ) := Nat.cast_nonneg k
        have hpos : (0 : ℚ) < 2 * (k : ℚ) + 1 := by linarith
        have e1 : (1 / 2 - (k : ℚ) / ((k + (k + 1) : Nat) : ℚ)) * 1000000 =
            500000 / (2 * (k : ℚ) + 1) := by
          push_cast
          field_simp
          ring
        have e2 : (1 / 2 - ((k + 1 : Nat) : ℚ) / ((k + (k + 1) : Nat) : ℚ)) * 1000000 =
            -(500000 / (2 * (k : ℚ) + 1)) := by
          push_cast
          field_simp
          ring
        have hbig : 1 / 2 < 500000 / (2 * (k : ℚ) + 1) := by
          rw [lt_div_iff₀ hpos]
          linarith
        have p1 := to_string_f_pos (x := 1 / 2 - (k : ℚ) / ((k + (k + 1) : Nat) : ℚ))
          (by rw [e1]; exact hbig)
        have p2 := to_string_f_neg (x := 1 / 2 - ((k + 1 : Nat) : ℚ) / ((k + (k + 1) : Nat) : ℚ))
          (by rw [e2]; linarith)
        linarith
      · have hn2 : n = 1000001 := by omega
        subst hn2
        decide
  · intro hlt
    rcases Nat.even_or_odd' n with ⟨k, hk | hk⟩
    · exfalso
      have ha : gapOnes n = k := by rw [h1]; omega
      have hb : gapTwos n = k := by rw [h2]; omega
      rw [ha, hb] at hlt
      exact lt_irrefl _ hlt
    · by_cases hk5 : k < 500000
      · have hn1 : n + 1 ≤ 1000001 := by omega
        unfold gapOnes gapTwos
        rw [if_pos hn1, if_pos hn1, if_pos hn, if_pos hn]
        omega
      · exfalso
        have hk6 : k = 500000 := by omega
        have ha : gapOnes n = 500000 := by rw [h1]; omega
        have hb : gapTwos n = 500001 := by rw [h2]; omega
        rw [ha, hb] at hlt
        have z1 := to_string_f_zero
          (x := 1 / 2 - ((500000 : Nat) : ℚ) / ((500000 + 500001 : Nat) : ℚ))
          (by norm_num) (by norm_num)
        have z2 := to_string_f_zero
          (x := 1 / 2 - ((500001 : Nat) : ℚ) / ((500000 + 500001 : Nat) : ℚ))
          (by norm_num) (by norm_num)
        rw [z1, z2] at hlt
        exact lt_irrefl _ hlt

theorem gap_run {c : Config} (hv : c.Valid) (hsz : c.size_arr = [1, 2])
    (hw : ∀ i, i < 2 → c.size_distribution.getD i 0 /
      ((totalWeight c.size_distribution : Nat) : ℚ) = 1 / 2)
    (hD : 0 < c.NUM_DIRS) (hA : 0 < c.NUM_AGES) (hcap64 : c.total_disk_capacity ≤ 2 ^ 64) :
    ∀ (rs : List Nat) (n : Nat) (s : State), GapInv c s (gapOnes n) (gapTwos n) →
      n + rs.length ≤ 1000002 → 2 * (n + rs.length) < c.total_disk_capacity →
      ∃ s1, runFrom c s (gapCreates rs) = Except.ok s1 ∧
        GapInv c s1 (gapOnes (n + rs.length)) (gapTwos (n + rs.length)) := by
  intro rs
  induction rs with
  | nil =>
    intro n s hg _ _
    exact ⟨s, rfl, hg⟩
  | cons r rest ih =>
    intro n s hg hlen hcap
    simp only [List.length_cons] at hlen hcap
    have hn : n ≤ 1000001 := by omega
    obtain ⟨hsum, hA1, hA2⟩ := gap_arith hn
    have hfit : gapOnes n + 2 * gapTwos n + 2 < c.total_disk_capacity := by omega
    obtain ⟨s1, hop, hcase⟩ := gap_step hv hsz hw hD hA hg hfit hcap64 r
    have hg1 : GapInv c s1 (gapOnes (n + 1)) (gapTwos (n + 1)) := by
      rcases hcase with ⟨hle, hg1⟩ | ⟨hlt, hg1⟩
      · obtain ⟨e1, e2⟩ := hA1 hle
        rw [e1, e2]; exact hg1
      · obtain ⟨e1, e2⟩ := hA2 hlt
        rw [e1, e2]; exact hg1
    obtain ⟨s2, hrun, hg2⟩ := ih (n + 1) s1 hg1 (by omega) (by omega)
    refine ⟨s2, ?_, ?_⟩
    · simp only [gapCreates, List.map_cons, runFrom, step, hop, bind, Except.bind]
      exact hrun
    · have : n + (rest.length + 1) = n + 1 + rest.length := by omega
      simp only [List.length_cons]
      rw [this]; exact hg2

theorem gap_counts {c : Config} (hv : c.Valid) (hsz : c.size_arr = [1, 2])
    (hw : ∀ i, i < 2 → c.size_distribution.getD i 0 /
      ((totalWeight c.size_distribution : Nat) : ℚ) = 1 / 2)
    (hD : 0 < c.NUM_DIRS) (hA : 0 < c.NUM_AGES) (hcap64 : c.total_disk_capacity ≤ 2 ^ 64)
    {s0 : State} (h0 : init c = Except.ok s0) (rs : List Nat) (hlen : rs.length ≤ 1000002)
    (hcap : 2 * rs.length < c.total_disk_capacity) :
    ∃ s1, run c (gapCreates rs) = Except.ok s1 ∧ s1.global_live_file_count = rs.length ∧
      (∀ e ∈ s1.size_buckets, (e.2.size = 1 ∨ e.2.size = 2) ∧
        (e.2.size = 1 → e.2.count = gapOnes rs.length) ∧
        (e.2.size = 2 → e.2.count = gapTwos rs.length)) ∧
      (∃ e ∈ s1.size_buckets, e.2.size = 1) ∧ ∃ e ∈ s1.size_buckets, e.2.size = 2 := by
  have hg0 : GapInv c s0 (gapOnes 0) (gapTwos 0) := init_gap hv h0
  obtain ⟨s1, hrun, hg⟩ := gap_run hv hsz hw hD hA hcap64 rs 0 s0 hg0 (by omega) (by omega)
  rw [Nat.zero_add] at hg
  obtain ⟨seg, hi, _, hlive, _, _, ha, hb⟩ := hg
  have hN2 : c.NUM_SIZES = 2 := by unfold Config.NUM_SIZES; rw [hsz]; rfl
  have hsum : gapOnes rs.length + gapTwos rs.length = rs.length := by
    unfold gapOnes gapTwos
    split_ifs <;> omega
  refine ⟨s1, ?_, by rw [hlive, hsum], ?_, ?_, ?_⟩
  · simp only [run, h0, bind, Except.bind]
    exact hrun
  · intro e he
    have hok := hi.sizes e he
    have hm : e.2.size ∈ c.size_arr := hi.size_mem he
    rw [hsz] at hm
    refine ⟨by simpa using hm, ?_, ?_⟩
    · intro h1
      rw [hok.2.1, h1]; exact ha
    · intro h2
      rw [hok.2.1, h2]; exact hb
  · obtain ⟨e, he, hid⟩ := hi.svw.exists_id (show 0 < c.NUM_SIZES by rw [hN2]; decide)
    refine ⟨e, he, ?_⟩
    rw [(hi.sizes e he).1, hsz, hid]; rfl
  · obtain ⟨e, he, hid⟩ := hi.svw.exists_id (show 1 < c.NUM_SIZES by rw [hN2]; decide)
    refine ⟨e, he, ?_⟩
    rw [(hi.sizes e he).1, hsz, hid]; rfl

theorem cfgHalves_ideal : ∀ i, i < 2 → cfgHalves.size_distribution.getD i 0 /
    ((totalWeight cfgHalves.size_distribution : Nat) : ℚ) = 1 / 2 := by
  intro i hi
  have : i = 0 ∨ i = 1 := by omega
  rcases this with rfl | rfl <;> decide!

/-- Claim C21 as stated fails for a long run: with sizes 1 and 2 of weight 1 each and a device
of `2 ^ 32` bytes, after 1000001 gap-guided creates the buckets count 500000 and 500001 files,
both gaps `±1/2000002` print as `0.000000`, the tie goes to the larger size, and the create
number 1000002 is again of size 2: the counts are 500000 and 500002. -/
theorem gap_creates_drift :
    (∃ s, run cfgHalves (gapCreates (List.replicate 1000002 0)) = Except.ok s ∧
      ∃ e ∈ s.size_buckets, ∃ e1 ∈ s.size_buckets,
        e.2.size = 1 ∧ e.2.count = 500000 ∧ e1.2.size = 2 ∧ e1.2.count = 500002) ∧
    ¬ GapAlternates cfgHalves (List.replicate 1000002 0) := by
  obtain ⟨s1, hrun, _, hc, ⟨e, he, hes⟩, ⟨e1, he1, hes1⟩⟩ :=
    gap_counts (c := cfgHalves) (by decide) rfl cfgHalves_ideal (by decide) (by decide)
      (by decide) (ok_stateOf (by decide!)) (List.replicate 1000002 0)
      (by rw [List.length_replicate]) (by rw [List.length_replicate]; decide)
  rw [List.length_replicate] at hc
  have g1 : gapOnes 1000002 = 500000 := by decide
  have g2 : gapTwos 1000002 = 500002 := by decide
  have c1 : e.2.count = 500000 := by rw [(hc e he).2.1 hes, g1]
  have c2 : e1.2.count = 500002 := by rw [(hc e1 he1).2.2 hes1, g2]
  refine ⟨⟨s1, hrun, e, he, e1, he1, hes, c1, hes1, c2⟩, ?_⟩
  intro hga
  have hbal := hga.2.2.2
  rw [hrun] at hbal
  have := hbal e1 he1 e he
  rw [c1, c2] at this
  exact absurd this (by decide)

/-- Claim C21 (amended): with the size classes 1 and 2, both of ideal fraction `1/2`
(pairwise distinct depths, at least one depth and one age bucket, `init` returning), a run of
at most 1000001 gap-guided creates from `init` that the capacity never limits returns, and
after it the bucket of size 1 counts `⌊n / 2⌋` files and the bucket of size 2 counts
`⌈n / 2⌉`, `n` being the number of creates: the creates alternate, starting with size 2, and
the two counts differ by at most 1. -/
theorem gap_creates_alternate (c : Config) (rs : List Nat) (hsz : c.size_arr = [1, 2])
    (hw : ∀ i, i < 2 → c.size_distribution.getD i 0 /
      ((totalWeight c.size_distribution : Nat) : ℚ) = 1 / 2)
    (hv : c.dir_arr.Nodup) (hD : 0 < c.NUM_DIRS) (hA : 0 < c.NUM_AGES)
    (h0 : isOk (init c) = true) (hlen : rs.length ≤ 1000001)
    (hcap : 2 * rs.length < c.total_disk_capacity)
    (hcap64 : c.total_disk_capacity ≤ 2 ^ 64) : GapAlternates c rs := by
  have hvalid : c.Valid := ⟨by rw [hsz]; decide, hv⟩
  obtain ⟨s1, hrun, hlive, hc, _, _⟩ :=
    gap_counts hvalid hsz hw hD hA hcap64 (ok_stateOf h0) rs (by omega) hcap
  have g1 : gapOnes rs.length = rs.length / 2 := by unfold gapOnes; rw [if_pos hlen]
  have g2 : gapTwos rs.length = (rs.length + 1) / 2 := by unfold gapTwos; rw [if_pos hlen]
  unfold GapAlternates
  rw [hrun]
  refine ⟨rfl, hlive, ?_, ?_⟩
  · intro e he
    exact ⟨fun h => by rw [(hc e he).2.1 h, g1], fun h => by rw [(hc e he).2.2 h, g2]⟩
  · intro e he e1 he1
    show e.2.count ≤ e1.2.count + 1
    obtain ⟨hs, ha, hb⟩ := hc e he
    obtain ⟨hs1, ha1, hb1⟩ := hc e1 he1
    rw [g1] at ha ha1
    rw [g2] at hb hb1
    rcases hs with h | h <;> rcases hs1 with h1 | h1
    · rw [ha h, ha1 h1]; omega
    · rw [ha h, hb1 h1]; omega
    · rw [hb h, ha1 h1]; omega
    · rw [hb h, hb1 h1]; omega

theorem gap_creates_alternate_witness :
    cfgHalves.size_arr = [1, 2] ∧ cfgHalves.dir_arr.Nodup ∧ 0 < cfgHalves.NUM_DIRS ∧
    0 < cfgHalves.NUM_AGES ∧ isOk (init cfgHalves) = true ∧
    ([0, 0, 0] : List Nat).length ≤ 1000001 ∧
    2 * ([0, 0, 0] : List Nat).length < cfgHalves.total_disk_capacity ∧
    cfgHalves.total_disk_capacity ≤ 2 ^ 64 ∧ GapAlternates cfgHalves [0, 0, 0] :=
  ⟨rfl, by decide, by decide, by decide, by decide!, by decide, by decide, by decide,
    gap_creates_alternate cfgHalves [0, 0, 0] rfl cfgHalves_ideal (by decide) (by decide)
      (by decide) (by decide!) (by decide) (by decide) (by decide)⟩

/-! ## Pre-allocated bytes -/

/-- Claim C39: for every file size `n` the length `blk_size * blk_count` that
`File::createFile` hands to `issueCreate` is at most `n`, and it equals `n` exactly when
`n < 1024` or `n` is a multiple of `blk_size`; the size recorded in the file, which `performOp`
adds to `live_data_size`, is `n`, and for `n = 1025` it exceeds the length. -/
theorem prealloc_le_size (c : Config) (name : String) (n age : Nat) (depth : Int)
    (io : List IoReq) :
    (File.new name n age depth).size = n ∧
    (File.new name n age depth).blk_size * (File.new name n age depth).blk_count ≤ n ∧
    ((File.new name n age depth).blk_size * (File.new name n age depth).blk_count = n ↔
      n < 1024 ∨ (File.new name n age depth).blk_size ∣ n) ∧
    File.createFile c (File.new name n age depth) io =
      (if c.fake then io else io ++ [IoReq.create
        (c.mount_point ++ (if depth > 1 then "/" else "") ++ name)
        ((File.new name n age depth).blk_size * (File.new name n age depth).blk_count)]) ∧
    (File.new name 1025 age depth).blk_size * (File.new name 1025 age depth).blk_count <
      (File.new name 1025 age depth).size := by
  refine ⟨rfl, ?_, ?_, rfl, by simp [File.new]⟩
  · unfold File.new
    simp only
    split_ifs <;> omega
  · unfold File.new
    simp only
    split_ifs with h0 h1 h2
    · subst h0; simp
    · constructor
      · intro h
        right
        exact ⟨n / 4096, h.symm⟩
      · rintro (h | h)
        · omega
        · exact Nat.mul_div_cancel' h
    · constructor
      · intro h
        right
        exact ⟨n / 1024, h.symm⟩
      · rintro (h | h)
        · omega
        · exact Nat.mul_div_cancel' h
    · constructor
      · intro _
        left
        omega
      · intro _
        omega

/-! ## The views -/

theorem ViewWF.exact {β : Type} {bid : β → Nat} {keyOf : β → Key} {n : Nat}
    {v : List (Key × β)} {keys : Nat → Key} (h : ViewWF bid keyOf n v keys) :
    ViewExact bid keyOf n v keys := by
  refine ⟨h.ids, fun e he => ⟨h.sync e he, h.keyed.2 e he⟩, ?_⟩
  intro e he
  rw [h.sync e he]
  exact fmErase_perm h.keyed.1 he

/-- Claim C32 on the runs that never empty the file system: after `init` and after every
`createFile`, `deleteFile` and `reAge` that returns, no delete having removed the last live file
(histogram bins pairwise distinct), each of the three views holds exactly one entry
per bucket id, stored under the key recorded for that id, which is `getKey ()` of the stored
bucket, and erasing by the recorded key of an entry removes exactly that entry. -/
theorem views_one_per_id (c : Config) (s : State) (hv : c.Valid) (hr : Reachable c s) :
    ViewsExact c s := by
  obtain ⟨seg, hi⟩ := reachable_inv hv hr
  exact ⟨hi.avw.exact, hi.svw.exact, hi.dvw.exact⟩

theorem views_one_per_id_witness :
    cfgTwoDirs.Valid ∧
    ViewsExact cfgTwoDirs
      (stateOf (run cfgTwoDirs [Cmd.create 0 0, Cmd.create 0 0, Cmd.delete, Cmd.reAge 4])) :=
  ⟨by decide, views_one_per_id cfgTwoDirs _ (by decide) (reachable_run (by decide!))⟩

/-! ## The horizon and the end of the rapid fill -/

theorem ddiv_eq_ok {a b q : ℚ} (h : ddiv a b = Except.ok q) : b ≠ 0 ∧ q = fl (a / b) := by
  unfold ddiv at h
  split at h
  · simp [throw_eq_error] at h
  · rename_i hb
    simp only [pure_eq_ok, Except.ok.injEq] at h
    exact ⟨hb, h.symm⟩

/-- Claim C37 fails on the code: with the single depth 1 and no sibling fan-out, the first
`DirBucket` that `init` constructs (nested in the size bucket) gets the prefix `/d1` and the
directory `/mnt//d1` is made, but the top-level dir bucket, constructed last, finds
`global_live_depth = 1`, keeps the prefix of `depth - 1 = 0` components, and the file created
in it at tick 1 has the path `/1`: it is created as `/mnt/1`, with no directory component. -/
theorem depth_one_file_in_root :
    (stateOf (init cfgDepthOne)).dir_buckets.map (fun e => (e.2.depth, e.2.pfx)) = [(1, "")] ∧
    (stateOf (init cfgDepthOne)).size_buckets.map
      (fun e => (e.2.db 1).map (fun d => d.pfx)) = [some "/d1"] ∧
    (stateOf (init cfgDepthOne)).io = [IoReq.mkpath "/mnt//d1"] ∧
    isOk (run cfgDepthOne [Cmd.op true 0 0]) = true ∧
    (liveFiles (stateOf (run cfgDepthOne [Cmd.op true 0 0]))).map
      (fun a => (((stateOf (run cfgDepthOne [Cmd.op true 0 0])).heap a).depth,
        ((stateOf (run cfgDepthOne [Cmd.op true 0 0])).heap a).path)) = [(1, "/1")] ∧
    (stateOf (run cfgDepthOne [Cmd.op true 0 0])).io =
      [IoReq.mkpath "/mnt//d1", IoReq.create "/mnt/1" 1024] := by
  decide!

/-! ## Ideal fractions -/

theorem initAges_ideal (c : Config) (w : Nat) (g0 : Int) (io0 : List IoReq) :
    ∀ (n : Nat) (v : List (Key × AgeBucket)) (k : Nat → Key) (g : Int) (io : List IoReq),
      initAges c w g0 io0 n = Except.ok (v, k, g, io) →
      ∀ e ∈ v, e.2.ideal_fraction = c.age_distribution.getD e.2.id 0 / ((w : Nat) : ℚ) := by
  intro n
  induction n with
  | zero =>
    intro v k g io h
    simp only [initAges, pure_eq_ok, Except.ok.injEq, Prod.mk.injEq] at h
    rw [← h.1]
    intro _ hh
    simp at hh
  | succ n ih =>
    intro v k g io h
    simp only [initAges] at h
    obtain ⟨⟨v0, k0, g1, io1⟩, h0, h⟩ := bind_eq_ok h
    obtain ⟨q, hq, h⟩ := bind_eq_ok h
    obtain ⟨q1, _, h⟩ := bind_eq_ok h
    simp only [pure_eq_ok, Except.ok.injEq, Prod.mk.injEq, setKey_same] at h
    rw [← h.1]
    intro e he
    rcases mem_fmInsert he with h1 | h1
    · rw [h1]
      exact (qdiv_eq_ok hq).2
    · exact ih _ _ _ _ h0 e h1

theorem init_age_ideal {c : Config} {s : State} (h : init c = Except.ok s) :
    ∀ e ∈ s.age_buckets, e.2.ideal_fraction =
      c.age_distribution.getD e.2.id 0 / ((totalWeight c.age_distribution : Nat) : ℚ) := by
  unfold init at h
  obtain ⟨⟨sv, sk, g1, io1⟩, _, h⟩ := bind_eq_ok h
  obtain ⟨⟨av, ak, g2, io2⟩, ha, h⟩ := bind_eq_ok h
  obtain ⟨⟨dv, dk, g3, io3⟩, _, h⟩ := bind_eq_ok h
  simp only [pure_eq_ok, Except.ok.injEq] at h
  rw [← h]
  exact initAges_ideal c _ _ _ _ _ _ _ _ ha

theorem getD_map_cast (ws : List Nat) (i : Nat) :
    (ws.map (fun (w : Nat) => (w : ℚ))).getD i 0 = ((ws.getD i 0 : Nat) : ℚ) := by
  by_cases h : i < ws.length
  · rw [List.getD_eq_getElem _ 0 (by simpa using h), List.getD_eq_getElem _ 0 h,
      List.getElem_map]
  · have h1 : ws.length ≤ i := Nat.le_of_not_lt h
    rw [List.getD_eq_default _ 0 (by simpa using h1), List.getD_eq_default _ 0 h1]
    rfl

theorem ideal_exact_of {β : Type} {bid : β → Nat} {ideal : β → ℚ} {ws : List Nat}
    {dist : List ℚ} {v : List (Key × β)}
    (hd : dist = ws.map (fun (w : Nat) => (w : ℚ)))
    (hids : (v.map (fun e => bid e.2)).Perm (List.range ws.length))
    (hpos : 0 < ws.sum)
    (hideal : ∀ e ∈ v, ideal e.2 = dist.getD (bid e.2) 0 / ((totalWeight dist : Nat) : ℚ)) :
    IdealExact bid ideal ws v := by
  have htw : totalWeight dist = ws.sum := by rw [hd]; exact totalWeight_cast ws
  have hall : ∀ e ∈ v, ideal e.2 = ((ws.getD (bid e.2) 0 : Nat) : ℚ) / ((ws.sum : Nat) : ℚ) := by
    intro e he
    rw [hideal e he, htw, hd, getD_map_cast]
  refine ⟨hall, ?_⟩
  have h1 : v.map (fun e => ideal e.2) =
      (v.map (fun e => bid e.2)).map
        (fun i => ((ws.getD i 0 : Nat) : ℚ) / ((ws.sum : Nat) : ℚ)) := by
    rw [List.map_map]
    apply List.map_congr_left
    intro e he
    exact hall e he
  rw [h1, (hids.map _).sum_eq]
  have h2 : (List.range ws.length).map
      (fun i => ((ws.getD i 0 : Nat) : ℚ) / ((ws.sum : Nat) : ℚ)) =
      (((List.range ws.length).map (fun i => ws.getD i 0)).map
        (fun (w : Nat) => (w : ℚ))).map (fun x => x * ((ws.sum : Nat) : ℚ)⁻¹) := by
    rw [List.map_map, List.map_map]
    apply List.map_congr_left
    intro i _
    simp [div_eq_mul_inv]
  rw [h2, map_getD_range ws 0, List.sum_map_mul_right]
  have h3 : ((ws.map (fun (w : Nat) => (w : ℚ))).map (fun x => x)).sum = ((ws.sum : Nat) : ℚ) := by
    rw [Nat.cast_list_sum, List.map_map]
    rfl
  rw [h3]
  have hne : ((ws.sum : Nat) : ℚ) ≠ 0 := by
    have : (0 : ℚ) < ((ws.sum : Nat) : ℚ) := by exact_mod_cast hpos
    exact ne_of_gt this
  exact mul_inv_cancel₀ hne

/-- Claim C34 as stated fails when two gaps print alike: with depths 0 and 1 of weights
1000000 and 1000001 and no file yet, the gaps are `-1000000/2000001` and `-1000001/2000001`,
both print as `-0.500000`, the head of the dir view is depth 0, and the first file is created
at depth 0, although depth 1 has the smaller gap. -/
theorem head_not_smallest_gap :
    isOk (init cfgNearTieDirs) = true ∧
    (stateOf (init cfgNearTieDirs)).dir_buckets.map
      (fun e => (e.2.depth, e.2.actual_fraction - e.2.ideal_fraction, e.1.diff)) =
      [(0, -(1000000 / 2000001), -(1 / 2)), (1, -(1000001 / 2000001), -(1 / 2))] ∧
    ¬ HeadHasSmallestGap (stateOf (init cfgNearTieDirs)) ∧
    isOk (run cfgNearTieDirs [Cmd.op true 0 0]) = true ∧
    ((stateOf (run cfgNearTieDirs [Cmd.op true 0 0])).heap 1).depth = 0 := by
  decide!

/-- Claim C34 (amended): in every state reached from `init` (histogram bins pairwise
distinct), a `createFile` that returns, in either phase, gives the new file the depth of the
head of the dir view; the head is the dir bucket whose key has the smallest printed difference,
ties going to the smaller depth, the key of a dir bucket carrying its depth and its gap
`actual_fraction - ideal_fraction` as printed with six decimals; and the depth is the same for
every size position. -/
theorem create_depth_by_printed_gap (c : Config) (s : State) (pos : Int) (r : Nat)
    (res : CreateResult) (hv : c.Valid) (hr : Reachable c s)
    (h : createFile c s pos r = Except.ok res) :
    PlacedByPrintedGap c s (res.state.heap s.next_addr).depth := by
  obtain ⟨seg, hi⟩ := reachable_inv hv hr
  obtain ⟨_, _, _, _, _, _, ⟨k, d, rest, hdv, hdep⟩, _, _⟩ := createFile_inv hv hi h
  refine ⟨⟨k, d, rest, hdv, hdep, ?_⟩, ?_, ?_⟩
  · intro e he
    have hdm : (k, d) ∈ s.dir_buckets := by rw [hdv]; exact List.mem_cons_self _ _
    have hem : e ∈ s.dir_buckets := by rw [hdv]; exact List.mem_cons_of_mem _ he
    have hpw := hi.dvw.keyed.1
    rw [hdv, List.pairwise_cons] at hpw
    have hbc := (BucketCompare_iff _ _).mp (hpw.1 e he)
    have hkd : k.id = d.depth := by
      have h1 : k = d.getKey c.dir_arr := hi.dvw.keyed.2 _ hdm
      have h2 : d.depth = c.dir_arr.getD d.id 0 := (hi.dirs _ hdm).1
      rw [h1, h2]
      rfl
    have hke : e.1.id = e.2.depth := by
      have h1 : e.1 = e.2.getKey c.dir_arr := hi.dvw.keyed.2 _ hem
      have h2 : e.2.depth = c.dir_arr.getD e.2.id 0 := (hi.dirs _ hem).1
      rw [h1, h2]
      rfl
    simp only at hbc
    rw [hkd, hke] at hbc
    exact hbc
  · intro e he
    have hp := dir_getKey_prints c.dir_arr e.2
    rw [← hi.dvw.keyed.2 e he, ← (hi.dirs _ he).1] at hp
    exact hp
  · intro pos1 r1 res1 h1
    obtain ⟨_, _, _, _, _, _, ⟨k1, d1, rest1, hdv1, hdep1⟩, _, _⟩ := createFile_inv hv hi h1
    have : d1 = d := by
      rw [hdv] at hdv1
      simp only [List.cons.injEq, Prod.mk.injEq] at hdv1
      exact hdv1.1.2.symm
    have e1 : (res1.state.heap s.next_addr).depth = d1.depth := hdep1
    have e2 : (res.state.heap s.next_addr).depth = d.depth := hdep
    rw [e1, e2, this]

theorem create_depth_by_printed_gap_witness :
    cfgNearTieDirs.Valid ∧
    PlacedByPrintedGap cfgNearTieDirs (stateOf (init cfgNearTieDirs))
      (((valOf (createFile cfgNearTieDirs (stateOf (init cfgNearTieDirs)) 0 0)
        ⟨State.blank, 0, 0⟩).state.heap (stateOf (init cfgNearTieDirs)).next_addr).depth) :=
  ⟨by decide, create_depth_by_printed_gap cfgNearTieDirs (stateOf (init cfgNearTieDirs)) 0 0
    (valOf (createFile cfgNearTieDirs (stateOf (init cfgNearTieDirs)) 0 0)
      ⟨State.blank, 0, 0⟩) (by decide) (Reachable.init (ok_stateOf (by decide!)))
    (ok_valOf _ (by decide!))⟩

/-! ## `live_data_size` and the global list -/

theorem create_sum {c : Config} (hv : c.Valid) {s s1 : State} {seg : Nat → List Addr}
    (hi : HeapInv c s seg) {pos : Int} {r : Nat}
    (hop : performOp c s true pos r = Except.ok s1) :
    ∃ sz, s1.live_data_size = add64 s.live_data_size sz ∧
      ((liveFiles s1).map (fun a => (s1.heap a).size)).sum =
        ((liveFiles s).map (fun a => (s.heap a).size)).sum + sz := by
  rcases performOp_eq_ok hop with ⟨_, res, hres, hs1⟩ | ⟨hc, _⟩
  · obtain ⟨hi1, hN, hfresh, hsize, _, _, _, ⟨G, S, D, R⟩, _⟩ :=
      createFile_inv hv hi.tick_succ hres
    obtain ⟨_, _, _, _, _, _, _, _, _, _, _, _, _, _, _, _, _, _, _, _, hr1⟩ :=
      createFile_eq_ok hres
    have hfL : s.next_addr ∉ cat seg c.NUM_AGES :=
      fun hh => hfresh (List.mem_cons_of_mem _ hh)
    have hheap : s1.heap = res.state.heap := by rw [hs1]
    have hlive : liveFiles s1 = cat seg c.NUM_AGES ++ [s.next_addr] := by
      have : liveFiles s1 = liveFiles res.state := by rw [hs1]; rfl
      rw [this, hi1.liveFiles_eq]
      exact cat_update_zero hN [s.next_addr]
    have hlds : res.state.live_data_size = s.live_data_size := by rw [hr1]
    refine ⟨res.ret_size, by rw [hs1, ← hlds], ?_⟩
    rw [hlive, List.map_append, List.sum_append, hi.liveFiles_eq]
    have hold : (cat seg c.NUM_AGES).map (fun a => (s1.heap a).size) =
        (cat seg c.NUM_AGES).map (fun a => (s.heap a).size) := by
      apply List.map_congr_left
      intro a ha
      have hne : a ∉ [s.next_addr] := by
        intro hh
        rw [List.mem_singleton.mp hh] at ha
        exact hfL ha
      rw [hheap]
      exact R.size a hne
    rw [hold]
    simp only [List.map_cons, List.map_nil, List.sum_cons, List.sum_nil, Nat.add_zero]
    rw [hheap]
    have : (res.state.heap s.next_addr).size = res.ret_size := hsize
    rw [this]
  · simp at hc

theorem delete_sum {c : Config} (hv : c.Valid) {s s1 : State} {seg : Nat → List Addr}
    (hi : HeapInv c s seg) {pos : Int} {r : Nat}
    (hop : performOp c s false pos r = Except.ok s1) :
    ∃ sz, s1.live_data_size = sub64 s.live_data_size sz ∧
      ((liveFiles s1).map (fun a => (s1.heap a).size)).sum + sz =
        ((liveFiles s).map (fun a => (s.heap a).size)).sum := by
  rcases performOp_eq_ok hop with ⟨hc, _⟩ | ⟨_, s2, sz, hdel, hs1⟩
  · simp at hc
  · obtain ⟨ea, es, ed, f, hea, _, _, _, hf, hfsz, _, hsz, hi1, ⟨G, S, D, R⟩, _⟩ :=
      deleteFile_inv hv hi.tick_succ hdel
    obtain ⟨_, _, _, _, _, _, _, _, _, _, _, _, _, _, _, _, _, _, _, _, hr1⟩ :=
      deleteFile_eq_ok hdel
    have hheap : s1.heap = s2.heap := by rw [hs1]
    have hLnd : (cat seg c.NUM_AGES).Nodup := (List.nodup_cons.mp hi.nodup).2
    have hfL : f ∈ cat seg c.NUM_AGES := (mem_cat _).mpr ⟨_, hi.avw.id_lt hea, hf⟩
    have hlive : liveFiles s1 = (cat seg c.NUM_AGES).erase f := by
      have : liveFiles s1 = liveFiles s2 := by rw [hs1]; rfl
      rw [this, hi1.liveFiles_eq]
      exact cat_update_erase hLnd (hi.avw.id_lt hea) hf
    have hlds : s2.live_data_size = s.live_data_size := by rw [hr1]
    have hszf : sz = (s.heap f).size := by rw [hsz, ← hfsz]; rfl
    have hold : ((cat seg c.NUM_AGES).erase f).map (fun a => (s1.heap a).size) =
        ((cat seg c.NUM_AGES).erase f).map (fun a => (s.heap a).size) := by
      apply List.map_congr_left
      intro a _
      rw [hheap]
      exact R.size a (List.not_mem_nil a)
    refine ⟨sz, ?_, ?_⟩
    · rw [hs1]
      show sub64 s2.live_data_size sz = _
      rw [hlds]
    · rw [hlive, hold, hi.liveFiles_eq, hszf]
      exact sum_map_erase hfL _

theorem data_size_mod {c : Config} (hv : c.Valid) {s : State} (hr : OpReachable c s) :
    s.live_data_size = ((liveFiles s).map (fun a => (s.heap a).size)).sum % 2 ^ 64 := by
  have h64 : (2 : Nat) ^ 64 = 18446744073709551616 := by norm_num
  induction hr with
  | byInit h0 =>
    have hi := init_inv hv h0
    rw [init_data_size h0, hi.liveFiles_eq, cat_nil]
    rfl
  | @byOp s s1 cr pos r hr0 hop ih =>
    obtain ⟨seg, hi⟩ := reachable_inv hv (op_reachable hr0)
    cases cr with
    | true =>
      obtain ⟨sz, h1, h2⟩ := create_sum hv hi hop
      rw [h1, h2, ih]
      unfold add64
      rw [h64]
      omega
    | false =>
      obtain ⟨sz, h1, h2⟩ := delete_sum hv hi hop
      rw [h1, ih, ← h2]
      unfold sub64
      rw [h64]
      omega
  | @byReAge s s1 t hr0 hre ih =>
    obtain ⟨seg, hi⟩ := reachable_inv hv (op_reachable hr0)
    obtain ⟨seg1, h1, av, ak, hs1, hi1, hcat, _, _, _, _, ⟨D, R⟩, _⟩ := reAge_inv hi hre
    have hlds : s1.live_data_size = s.live_data_size := by rw [hs1]
    have hheap : s1.heap = h1 := by rw [hs1]
    rw [hlds, ih, hi1.liveFiles_eq, hcat, hi.liveFiles_eq]
    congr 2
    apply List.map_congr_left
    intro a _
    rw [hheap]
    exact (R.size a (List.not_mem_nil a)).symm

/-- Claim C33 as stated fails when the sum passes `2 ^ 64`: with one size class of `2 ^ 62`
bytes, after four creates through `performOp` four files are live, their sizes sum to `2 ^ 64`,
and `live_data_size`, a `size_t`, is 0. -/
theorem data_size_wraps :
    isOk (run cfgBig (List.replicate 4 (Cmd.op true 0 0))) = true ∧
    (stateOf (run cfgBig (List.replicate 4 (Cmd.op true 0 0)))).global_live_file_count = 4 ∧
    (stateOf (run cfgBig (List.replicate 4 (Cmd.op true 0 0)))).live_data_size = 0 ∧
    ((liveFiles (stateOf (run cfgBig (List.replicate 4 (Cmd.op true 0 0))))).map
      (fun a => ((stateOf (run cfgBig (List.replicate 4 (Cmd.op true 0 0)))).heap a).size)).sum =
      2 ^ 64 ∧
    ¬ DataSizeIsSum (stateOf (run cfgBig (List.replicate 4 (Cmd.op true 0 0)))) := by
  decide!

/-- Claim C33 (amended): in every state reached from `init` by `performOp` and `reAge`
(histogram bins pairwise distinct), `live_data_size` is the sum of the sizes of the files of the
global list modulo `2 ^ 64`, so it is that sum whenever the sum is below `2 ^ 64`, and
`global_live_file_count` is the number of files of the list. -/
theorem data_size_is_sum_mod (c : Config) (s : State) (hv : c.Valid) (hr : OpReachable c s) :
    DataSizeModSum s := by
  obtain ⟨seg, hi⟩ := reachable_inv hv (op_reachable hr)
  have hm := data_size_mod hv hr
  refine ⟨hm, fun hlt => by rw [hm]; exact Nat.mod_eq_of_lt hlt, ?_⟩
  rw [hi.liveFiles_eq]
  exact hi.live

theorem data_size_is_sum_mod_witness :
    cfgBig.Valid ∧
    DataSizeModSum (stateOf (performOp cfgBig (stateOf (performOp cfgBig
      (stateOf (performOp cfgBig (stateOf (performOp cfgBig (stateOf (init cfgBig))
        true 0 0)) true 0 0)) true 0 0)) true 0 0)) :=
  ⟨by decide, data_size_is_sum_mod cfgBig _ (by decide)
    (OpReachable.byOp true 0 0
      (OpReachable.byOp true 0 0
        (OpReachable.byOp true 0 0
          (OpReachable.byOp true 0 0 (OpReachable.byInit (ok_stateOf (by decide!)))
            (ok_stateOf (by decide!)))
          (ok_stateOf (by decide!)))
        (ok_stateOf (by decide!)))
      (ok_stateOf (by decide!)))⟩

/-! ## The global list and the age buckets -/

theorem ticks_ascend {c : Config} (hv : c.Valid) {s : State} (hr : OpReachable c s) :
    (liveFiles s).Pairwise (fun a b => (s.heap a).age < (s.heap b).age) ∧
    ∀ a ∈ liveFiles s, (s.heap a).age ≤ s.tick := by
  induction hr with
  | byInit h0 =>
    have hi := init_inv hv h0
    rw [hi.liveFiles_eq, cat_nil]
    exact ⟨List.Pairwise.nil, fun a ha => absurd ha (List.not_mem_nil a)⟩
  | @byOp s s1 cr pos r hr0 hop ih =>
    obtain ⟨seg, hi⟩ := reachable_inv hv (op_reachable hr0)
    obtain ⟨ih1, ih2⟩ := ih
    rw [hi.liveFiles_eq] at ih1 ih2
    have htick := performOp_tick hop
    rcases performOp_eq_ok hop with ⟨_, res, hres, hs1⟩ | ⟨_, s2, sz, hdel, hs1⟩
    · obtain ⟨hi1, hN, hfresh, _, hage, _, _, ⟨G, S, D, R⟩, _⟩ :=
        createFile_inv hv hi.tick_succ hres
      have hfL : s.next_addr ∉ cat seg c.NUM_AGES :=
        fun hh => hfresh (List.mem_cons_of_mem _ hh)
      have hheap : s1.heap = res.state.heap := by rw [hs1]
      have hlive : liveFiles s1 = cat seg c.NUM_AGES ++ [s.next_addr] := by
        have : liveFiles s1 = liveFiles res.state := by rw [hs1]; rfl
        rw [this, hi1.liveFiles_eq]
        exact cat_update_zero hN [s.next_addr]
      have hold : ∀ a ∈ cat seg c.NUM_AGES, (s1.heap a).age = (s.heap a).age := by
        intro a ha
        have hne : a ∉ [s.next_addr] := by
          intro hh
          rw [List.mem_singleton.mp hh] at ha
          exact hfL ha
        rw [hheap]
        exact R.age a hne
      have hnew : (s1.heap s.next_addr).age = s.tick + 1 := by rw [hheap]; exact hage
      rw [hlive]
      constructor
      · refine List.pairwise_append.mpr ⟨?_, List.pairwise_singleton _ _, ?_⟩
        · refine List.Pairwise.imp_of_mem ?_ ih1
          intro a b ha hb hab
          rw [hold a ha, hold b hb]
          exact hab
        · intro a ha b hb
          rw [List.mem_singleton.mp hb, hold a ha, hnew]
          exact Nat.lt_succ_of_le (ih2 a ha)
      · intro a ha
        rcases List.mem_append.mp ha with h1 | h1
        · rw [hold a h1, htick]
          exact Nat.le_succ_of_le (ih2 a h1)
        · rw [List.mem_singleton.mp h1, hnew, htick]
    · obtain ⟨ea, es, ed, f, hea, _, _, _, hf, _, _, _, hi1, ⟨G, S, D, R⟩, _⟩ :=
        deleteFile_inv hv hi.tick_succ hdel
      have hheap : s1.heap = s2.heap := by rw [hs1]
      have hLnd : (cat seg c.NUM_AGES).Nodup := (List.nodup_cons.mp hi.nodup).2
      have hlive : liveFiles s1 = (cat seg c.NUM_AGES).erase f := by
        have : liveFiles s1 = liveFiles s2 := by rw [hs1]; rfl
        rw [this, hi1.liveFiles_eq]
        exact cat_update_erase hLnd (hi.avw.id_lt hea) hf
      have hold : ∀ a, (s1.heap a).age = (s.heap a).age := by
        intro a
        rw [hheap]
        exact R.age a (List.not_mem_nil a)
      rw [hlive]
      constructor
      · refine List.Pairwise.imp_of_mem ?_ (ih1.sublist (List.erase_sublist f _))
        intro a b _ _ hab
        rw [hold a, hold b]
        exact hab
      · intro a ha
        have ha1 := List.mem_of_mem_erase ha
        rw [hold a, htick]
        exact Nat.le_succ_of_le (ih2 a ha1)
  | @byReAge s s1 t hr0 hre ih =>
    obtain ⟨seg, hi⟩ := reachable_inv hv (op_reachable hr0)
    obtain ⟨ih1, ih2⟩ := ih
    rw [hi.liveFiles_eq] at ih1 ih2
    obtain ⟨seg1, h1, av, ak, hs1, hi1, hcat, _, _, _, _, ⟨D, R⟩, _⟩ := reAge_inv hi hre
    have hheap : s1.heap = h1 := by rw [hs1]
    have hold : ∀ a, (s1.heap a).age = (s.heap a).age := by
      intro a
      rw [hheap]
      exact R.age a (List.not_mem_nil a)
    rw [hi1.liveFiles_eq, hcat, reAge_tick hre]
    constructor
    · refine List.Pairwise.imp_of_mem ?_ ih1
      intro a b _ _ hab
      rw [hold a, hold b]
      exact hab
    · intro a ha
      rw [hold a]
      exact ih2 a ha

/-- Claim C31 on the runs that never empty the file system: in every state reached from
`init` by `performOp` and `reAge` calls that return, none of which removes the last live file
(histogram bins pairwise distinct), the global list is strictly ascending in birth tick; the files of each age
bucket form one contiguous run of that list, from the bucket's oldest pointer `f` to its
youngest pointer `last`; `f` and `last` are both null exactly when the count is 0; and a bucket
of larger id holds strictly older files. -/
theorem age_buckets_are_runs (c : Config) (s : State) (hv : c.Valid) (hr : OpReachable c s) :
    AgeRuns s := by
  obtain ⟨seg, hi⟩ := reachable_inv hv (op_reachable hr)
  have hp := (ticks_ascend hv hr).1
  refine ⟨hp, ?_, ?_⟩
  · intro e he
    obtain ⟨pre, e1, _, _⟩ := cat_split seg c.NUM_AGES (hi.avw.id_lt he)
    obtain ⟨a1, a2, a3, _⟩ := hi.ages e he
    rw [hi.files_eq he, hi.liveFiles_eq]
    refine ⟨⟨pre, cat seg e.2.id, e1⟩, a1, a2, a3, ?_⟩
    rw [a1, a2, a3]
    cases seg e.2.id with
    | nil => simp
    | cons x t => simp
  · intro e he e1 he1 hlt x hx y hy
    rw [hi.files_eq he1] at hx
    rw [hi.files_eq he] at hy
    obtain ⟨pre, e2, _, _⟩ := cat_split seg c.NUM_AGES (hi.avw.id_lt he1)
    rw [hi.liveFiles_eq, e2] at hp
    have hy1 : y ∈ cat seg e1.2.id := (mem_cat _).mpr ⟨_, hlt, hy⟩
    exact (List.pairwise_append.mp hp).2.2 x
      (List.mem_append_right _ hx) y hy1

theorem age_buckets_are_runs_witness :
    cfgThreeQuarters.Valid ∧
    AgeRuns (stateOf (reAge cfgThreeQuarters
      (stateOf (performOp cfgThreeQuarters
        (stateOf (performOp cfgThreeQuarters (stateOf (init cfgThreeQuarters)) true 0 0))
        true 0 0)) 4)) :=
  ⟨by decide, age_buckets_are_runs cfgThreeQuarters _ (by decide)
    (OpReachable.byReAge 4
      (OpReachable.byOp true 0 0
        (OpReachable.byOp true 0 0 (OpReachable.byInit (ok_stateOf (by decide!)))
          (ok_stateOf (by decide!)))
        (ok_stateOf (by decide!)))
      (ok_stateOf (by decide!)))⟩

/-! ## `reAge` twice -/

theorem fmInsert_fmErase_self {β : Type} {k : Key} {b : β} :
    ∀ {v : List (Key × β)}, v.Pairwise (fun e e1 => BucketCompare e.1 e1.1 = true) →
      (k, b) ∈ v → fmInsert k b (fmErase k v) = v := by
  intro v
  induction v with
  | nil => intro _ h; simp at h
  | cons e es ih =>
    intro hp hm
    rw [List.pairwise_cons] at hp
    rcases List.mem_cons.mp hm with h1 | h1
    · have he1 : e.1 = k := by rw [← h1]
      have hirr : BucketCompare k k = false := BucketCompare_irrefl k
      simp only [fmErase, he1, hirr, Bool.false_eq_true, if_false]
      cases es with
      | nil => simp only [fmInsert]; rw [h1]
      | cons x xs =>
        have hkx : BucketCompare k x.1 = true := by
          have := hp.1 x (List.mem_cons_self _ _)
          rw [he1] at this
          exact this
        have hxk : BucketCompare x.1 k = false := BucketCompare_asymm hkx
        simp only [fmInsert, hxk, hkx, Bool.false_eq_true, if_false, if_true]
        rw [h1]
    · have hek : BucketCompare e.1 k = true := hp.1 (k, b) h1
      simp only [fmErase, hek, if_true, fmInsert]
      rw [ih hp.2 h1]

theorem setKey_self (keys : Nat → Key) (i : Nat) : setKey keys i (keys i) = keys := by
  funext j
  unfold setKey
  split
  · rename_i h; rw [h]
  · rfl

theorem storeAges_noop {n : Nat} {view : List (Key × AgeBucket)} {keys : Nat → Key}
    (hw : ViewWF AgeBucket.id AgeBucket.getKey n view keys) :
    ∀ (l : List AgeBucket) (i : Nat), (∀ a ∈ l, (keys a.id, a) ∈ view) →
      l.map AgeBucket.id = List.range' i l.length →
      storeAges i l view keys = (view, keys) := by
  intro l
  induction l with
  | nil => intro i _ _; rfl
  | cons a rest ih =>
    intro i hm hids
    simp only [List.map_cons, List.length_cons, List.range'_succ, List.cons.injEq] at hids
    have ham := hm a (List.mem_cons_self _ _)
    have hk : keys a.id = a.getKey := hw.keyed.2 _ ham
    simp only [storeAges, AgeBucket.replace]
    have hki : keys i = keys a.id := by rw [hids.1]
    rw [← hk, setKey_self, hki, fmInsert_fmErase_self hw.keyed.1 ham]
    exact ih (i + 1) (fun x hx => hm x (List.mem_cons_of_mem _ hx)) hids.2

theorem loadAges_total {s : State} (clock : Nat) :
    ∀ (n : Nat), (∀ j, j < n → ∃ b, fmFind (s.a_keys j) s.age_buckets = some b) →
      loadAges s clock n = Except.ok ((List.range n).map (loadedAge s clock)) := by
  intro n
  induction n with
  | zero => intro _; rfl
  | succ n ih =>
    intro h
    obtain ⟨b, hb⟩ := h n (Nat.lt_succ_self n)
    simp only [loadAges, ih (fun j hj => h j (Nat.lt_succ_of_lt hj)), bind, Except.bind, hb,
      pure_eq_ok, List.range_succ, List.map_append, List.map_cons, List.map_nil, loadedAge]

theorem migrate_noop (live : Nat) (h : Heap) (a b : AgeBucket)
    (hno : a.count = 0 ∨ ∃ f, a.f = some f ∧ a.cutoff ≤ (h f).age) :
    ∀ n, migrate live n h a b = Except.ok (h, a, b) := by
  intro n
  cases n with
  | zero => rfl
  | succ n =>
    rcases hno with h0 | ⟨f, hf, hage⟩
    · simp [migrate, h0, pure_eq_ok]
    · by_cases hc : a.count > 0
      · simp [migrate, hc, hf, deref, hage, pure_eq_ok, bind, Except.bind]
      · simp [migrate, hc, pure_eq_ok]

theorem reAgeLoop_noop (live : Nat) (h : Heap) (B : Nat → AgeBucket) (N : Nat)
    (hno : ∀ j, j + 1 < N → (B j).last = none ∨ (B j).count = 0 ∨
      ∃ f, (B j).f = some f ∧ (B j).cutoff ≤ (h f).age) :
    ∀ (rest : List AgeBucket) (i : Nat), i + rest.length + 1 = N →
      rest = (List.range' (i + 1) rest.length).map B →
      reAgeLoop live h (B i) rest = Except.ok (h, B i :: rest) := by
  intro rest
  induction rest with
  | nil => intro i _ _; rfl
  | cons b rest ih =>
    intro i hN hrest
    simp only [List.length_cons, List.range'_succ, List.map_cons, List.cons.injEq] at hrest hN
    obtain ⟨hb, hr⟩ := hrest
    have hstep : (if (B i).last = none then
          (Except.ok (h, B i, b) : Res (Heap × AgeBucket × AgeBucket))
        else migrate live (B i).count h (B i) b) = Except.ok (h, B i, b) := by
      rcases hno i (by omega) with h1 | h1
      · rw [if_pos h1]
      · by_cases h2 : (B i).last = none
        · rw [if_pos h2]
        · rw [if_neg h2]
          exact migrate_noop live h (B i) b h1 _
    have hih := ih (i + 1) (by omega) hr
    rw [← hb] at hih
    simp only [reAgeLoop, bind, Except.bind, pure_eq_ok]
    rw [hstep]
    simp only [hih]

theorem reAge_fixed {c : Config} {s : State} {seg : Nat → List Addr} (hi : HeapInv c s seg)
    (t : Nat)
    (hcut : ∀ e ∈ s.age_buckets,
      e.2.cutoff = cutoffAt e.2.ratio (if t = 0 then s.tick else t))
    (hold : ∀ e ∈ s.age_buckets, e.2.id + 1 < c.NUM_AGES → ∀ x ∈ seg e.2.id,
      e.2.cutoff ≤ proj File.age s.heap x) :
    reAge c s t = Except.ok s := by
  have hB : ∀ j, j < c.NUM_AGES → ∃ e ∈ s.age_buckets, e.2.id = j ∧
      loadedAge s (if t = 0 then s.tick else t) j = e.2 := by
    intro j hj
    obtain ⟨e, he, hid, hl⟩ := loadedAge_spec hi (if t = 0 then s.tick else t) hj
    refine ⟨e, he, hid, ?_⟩
    rw [hl, ← hcut e he]
  have hload := loadAges_total (s := s) (if t = 0 then s.tick else t) c.NUM_AGES
    (fun j hj => by
      obtain ⟨e, he, hid⟩ := hi.avw.exists_id hj
      have := hi.avw.find he
      rw [hid] at this
      exact ⟨_, this⟩)
  have hno : ∀ j, j + 1 < c.NUM_AGES →
      (loadedAge s (if t = 0 then s.tick else t) j).last = none ∨
      (loadedAge s (if t = 0 then s.tick else t) j).count = 0 ∨
      ∃ f, (loadedAge s (if t = 0 then s.tick else t) j).f = some f ∧
        (loadedAge s (if t = 0 then s.tick else t) j).cutoff ≤ (s.heap f).age := by
    intro j hj
    obtain ⟨e, he, hid, hl⟩ := hB j (by omega)
    rw [hl]
    obtain ⟨a1, a2, _, _⟩ := hi.ages e he
    right
    cases hs : seg e.2.id with
    | nil =>
      left
      rw [a1, hs]; rfl
    | cons x xs =>
      right
      refine ⟨x, by rw [a2, hs]; rfl, ?_⟩
      exact hold e he (by rw [hid]; exact hj) x (by rw [hs]; exact List.mem_cons_self _ _)
  have hmem : ∀ a ∈ (List.range c.NUM_AGES).map (loadedAge s (if t = 0 then s.tick else t)),
      (s.a_keys a.id, a) ∈ s.age_buckets := by
    intro a ha
    obtain ⟨j, hj, rfl⟩ := List.mem_map.mp ha
    obtain ⟨e, he, hid, hl⟩ := hB j (List.mem_range.mp hj)
    rw [hl, hi.avw.sync e he]
    exact he
  have hids : ((List.range c.NUM_AGES).map (loadedAge s (if t = 0 then s.tick else t))).map
      AgeBucket.id = List.range' 0
        ((List.range c.NUM_AGES).map (loadedAge s (if t = 0 then s.tick else t))).length := by
    simp only [List.map_map, List.length_map, List.length_range]
    rw [← List.range_eq_range']
    conv_rhs => rw [← List.map_id (List.range c.NUM_AGES)]
    apply List.map_congr_left
    intro j hj
    obtain ⟨e, he, hid, hl⟩ := hB j (List.mem_range.mp hj)
    simp only [Function.comp, hl, hid, id]
  have hstore := storeAges_noop hi.avw _ 0 hmem hids
  unfold reAge
  simp only [hload, bind, Except.bind]
  cases hN : c.NUM_AGES with
  | zero =>
    rw [hN] at hstore
    simp only [List.range_zero, List.map_nil] at hstore ⊢
    simp only [pure_eq_ok, hstore]
  | succ n =>
    have hloop := reAgeLoop_noop s.global_live_file_count s.heap
      (loadedAge s (if t = 0 then s.tick else t)) c.NUM_AGES hno
      ((List.range' 1 n).map (loadedAge s (if t = 0 then s.tick else t))) 0
      (by simp [hN]) (by simp)
    rw [hN, List.range_eq_range', List.range'_succ, List.map_cons] at hstore
    simp only [List.range_eq_range', List.range'_succ, List.map_cons]
    rw [hloop]
    simp only [hstore, pure_eq_ok]

/-- Claim C35 on the runs that never empty the file system: in every state reached from
`init` by calls that return (histogram bins pairwise distinct), when
`reAge (C)` returns the state `s1`, a second `reAge (C)` made at once returns `s1` again: the
heap, the buckets with their counts, cutoffs and fractions, the views and the recorded keys are
those left by the first call. -/
theorem reAge_idempotent (c : Config) (s s1 : State) (t : Nat) (hv : c.Valid)
    (hr : Reachable c s) (h : reAge c s t = Except.ok s1) : reAge c s1 t = Except.ok s1 := by
  obtain ⟨seg, hi⟩ := reachable_inv hv hr
  obtain ⟨seg1, h1, av, ak, hs1, hi1, _, r1, r2, _, _, ⟨D, R⟩, _⟩ := reAge_inv hi h
  have htick : s1.tick = s.tick := by rw [hs1]
  have hheap : s1.heap = h1 := by rw [hs1]
  refine reAge_fixed hi1 t ?_ ?_
  · intro e he
    obtain ⟨_, _, _, _, _, hc⟩ := r1 e he
    rw [htick]
    exact hc
  · intro e he hlt x hx
    rw [hheap, R.age x (List.not_mem_nil x)]
    exact r2 e he hlt x hx

theorem reAge_idempotent_witness :
    cfgThreeQuarters.Valid ∧
    reAge cfgThreeQuarters
      (stateOf (reAge cfgThreeQuarters
        (stateOf (run cfgThreeQuarters [Cmd.op true 0 0, Cmd.op true 0 0, Cmd.op true 0 0]))
        8)) 8 =
      Except.ok (stateOf (reAge cfgThreeQuarters
        (stateOf (run cfgThreeQuarters [Cmd.op true 0 0, Cmd.op true 0 0, Cmd.op true 0 0]))
        8)) :=
  ⟨by decide, reAge_idempotent cfgThreeQuarters
    (stateOf (run cfgThreeQuarters [Cmd.op true 0 0, Cmd.op true 0 0, Cmd.op true 0 0])) _ 8
    (by decide) (reachable_run (by decide!)) (ok_stateOf (by decide!))⟩


/-! ## The delete of the last live file -/

/-- With three age buckets, after one create and `reAge (20)` the only live file is in the last
age bucket; the delete that follows recomputes every fraction as `0 / 0`: the run of the model
ends there in `Fault.nonFinite`, where the program goes on with `nan` keys. -/
theorem last_delete_divides_zero_by_zero :
    isOk (run cfgThreeAges [Cmd.op true 0 0, Cmd.reAge 20]) = true ∧
    (stateOf (run cfgThreeAges [Cmd.op true 0 0, Cmd.reAge 20])).global_live_file_count = 1 ∧
    (stateOf (run cfgThreeAges [Cmd.op true 0 0, Cmd.reAge 20])).age_buckets.map
      (fun e => (e.2.id, e.2.count)) = [(0, 0), (1, 0), (2, 1)] ∧
    faultOf (run cfgThreeAges [Cmd.op true 0 0, Cmd.reAge 20, Cmd.op false 0 0]) =
      some Fault.nonFinite ∧
    faultOf (run cfgThreeAges [Cmd.op true 0 0, Cmd.op false 0 0]) = some Fault.nonFinite := by
  decide!

/-- With two size classes, the delete of the only live file ends in `Fault.nonFinite` as
well. -/
theorem last_delete_two_sizes :
    isOk (run cfgTwoSizes [Cmd.op true 0 0]) = true ∧
    (stateOf (run cfgTwoSizes [Cmd.op true 0 0])).global_live_file_count = 1 ∧
    faultOf (run cfgTwoSizes [Cmd.op true 0 0, Cmd.op false 0 0]) = some Fault.nonFinite := by
  decide!

end Geriatrix
